import Mathlib

/-! # The multiway search tree (`btree`) and its cursor (`btree_iterator`)

Shallow embedding of `Assignment4/btree/btree.h` and `btree_iterator.h`.

* Memory is a heap of nodes: an address is an index into a list of nodes, `new Node(p)`
  appends a node, a null pointer is `none`.  The root node, a by-value member of the tree
  object, lives at the address recorded in the tree handle.
* `std::map<T, Element>` is an association list kept in strictly ascending key order; a map
  iterator is an index into it and `end()` is the length of the list.
* Undefined behaviour (null or dangling dereference, dereferencing `end()`, decrementing
  `begin()`) and running out of recursion fuel make an operation return `none`.
-/

namespace BTree

variable {T : Type}

/-- Mirror of `btree<T>::Element`: a value and two child links. -/
structure Element (T : Type) where
  value : T
  leftChild : Option Nat
  rightChild : Option Nat
  deriving DecidableEq

/-- Mirror of `btree<T>::Node`: the parent link and the ordered map of elements. -/
structure Node (T : Type) where
  parent : Option Nat
  elements : List (T × Element T)
  deriving DecidableEq

/-- The heap of nodes; an address is an index. -/
abbrev Heap (T : Type) := List (Node T)

/-- The tree object: its capacity and the address of its (by-value) root node. -/
structure btree where
  maxNodeElems : Nat
  root : Nat
  deriving DecidableEq

/-- Mirror of `btree_iterator<T>`: current node, map iterator, and the `didTraverse` flag. -/
structure btree_iterator where
  node : Nat
  it : Nat
  didTraverse : Bool
  deriving DecidableEq

/-! ## `std::map` primitives -/

/-- Index of the first key that is not less than `x` (`std::map::lower_bound`). -/
def lower_bound [LinearOrder T] : List (T × Element T) → T → Nat
  | [], _ => 0
  | (k, _) :: es, x => if k < x then lower_bound es x + 1 else 0

/-- Index of the first key that is greater than `x` (`std::map::upper_bound`). -/
def upper_bound [LinearOrder T] : List (T × Element T) → T → Nat
  | [], _ => 0
  | (k, _) :: es, x => if x < k then 0 else upper_bound es x + 1

/-- Ordered insertion of the pair `(k, e)` (`std::map::insert`): the new map, the index of
the slot holding `k`, and whether a new slot was created. -/
def mapInsert [LinearOrder T] :
    List (T × Element T) → T → Element T → List (T × Element T) × Nat × Bool
  | [], k, e => ([(k, e)], 0, true)
  | (k', e') :: es, k, e =>
    if k < k' then ((k, e) :: (k', e') :: es, 0, true)
    else if k' < k then
      ((k', e') :: (mapInsert es k e).1, (mapInsert es k e).2.1 + 1, (mapInsert es k e).2.2)
    else ((k', e') :: es, 0, false)

/-- Overwrite the `leftChild` link of the element in slot `i`. -/
def setLeft (es : List (T × Element T)) (i : Nat) (c : Option Nat) : List (T × Element T) :=
  es.modify (fun p => (p.1, { p.2 with leftChild := c })) i

/-- Overwrite the `rightChild` link of the element in slot `i`. -/
def setRight (es : List (T × Element T)) (i : Nat) (c : Option Nat) : List (T × Element T) :=
  es.modify (fun p => (p.1, { p.2 with rightChild := c })) i

/-! ## Construction, `insert`, `find` -/

/-- The constructor `btree(size_t maxNodeElems)`: the root node is `Node(nullptr)`. -/
def construct (maxNodeElems : Nat) (h : Heap T) : Heap T × btree :=
  (h ++ [Node.mk none []], ⟨maxNodeElems, h.length⟩)

/-- Outcome of the `for` loop of `recursiveInsert` over the elements of one node. -/
inductive Scan (T : Type) where
  /-- The loop body never returned (the node holds no element). -/
  | fellThrough : Scan T
  /-- Branch `elem == it->first` at slot `i`. -/
  | matched (i : Nat) : Scan T
  /-- Branch `elem < it->first || finalIteration` at slot `i`. -/
  | here (i : Nat) (e : T × Element T) (finalIteration : Bool) : Scan T
  deriving DecidableEq

/-- The `for` loop of `recursiveInsert`, started at slot `i` on the remaining elements. -/
def insertScan [LinearOrder T] (elem : T) : List (T × Element T) → Nat → Scan T
  | [], _ => .fellThrough
  | (k, e) :: es, i =>
    if elem = k then .matched i
    else if elem < k ∨ es.isEmpty then .here i (k, e) es.isEmpty
    else insertScan elem es (i + 1)

/-- The statements `Element e(elem); node->elements.insert(...)` with the returned pair. -/
def insertHere [LinearOrder T] (h : Heap T) (node : Nat) (n : Node T) (elem : T) :
    Heap T × btree_iterator × Bool :=
  (h.set node { n with elements := (mapInsert n.elements elem ⟨elem, none, none⟩).1 },
    ⟨node, (mapInsert n.elements elem ⟨elem, none, none⟩).2.1, false⟩, true)

/-- Mirror of `btree<T>::recursiveInsert(Node*, const T&)`. -/
def recursiveInsert [LinearOrder T] (maxNodeElems : Nat) (elem : T) :
    Nat → Heap T → Nat → Option (Heap T × btree_iterator × Bool)
  | 0, _, _ => none
  | fuel + 1, h, node =>
    match h[node]? with
    | none => none
    | some n =>
      match insertScan elem n.elements 0 with
      | .fellThrough => some (insertHere h node n elem)
      | .matched i => some (h, ⟨node, i, false⟩, false)
      | .here i e finalIteration =>
        if n.elements.length < maxNodeElems then some (insertHere h node n elem)
        else if finalIteration ∧ e.1 < elem then
          match e.2.rightChild with
          | some child => recursiveInsert maxNodeElems elem fuel h child
          | none =>
            recursiveInsert maxNodeElems elem fuel
              ((h ++ [Node.mk (some node) []]).set node
                { n with elements := setRight n.elements i (some h.length) })
              h.length
        else
          match e.2.leftChild with
          | some child => recursiveInsert maxNodeElems elem fuel h child
          | none =>
            recursiveInsert maxNodeElems elem fuel
              ((h ++ [Node.mk (some node) []]).set node
                { n with elements := setLeft n.elements i (some h.length) })
              h.length

/-- Mirror of `btree<T>::insert`. -/
def insert [LinearOrder T] (h : Heap T) (t : btree) (elem : T) :
    Option (Heap T × btree_iterator × Bool) :=
  recursiveInsert t.maxNodeElems elem (h.length + 1) h t.root

/-- Mirror of `btree<T>::end()`. -/
def btree_end (h : Heap T) (t : btree) : Option btree_iterator :=
  match h[t.root]? with
  | none => none
  | some r => some ⟨t.root, r.elements.length, false⟩

/-- Mirror of `btree<T>::recursiveFind(Node*, const T&)`. -/
def recursiveFind [LinearOrder T] (t : btree) (elem : T) :
    Nat → Heap T → Nat → Option btree_iterator
  | 0, _, _ => none
  | fuel + 1, h, node =>
    match h[node]? with
    | none => none
    | some n =>
      if lower_bound n.elements elem = n.elements.length then
        -- `--it` on the end iterator
        if n.elements.length = 0 then none
        else
          match n.elements[n.elements.length - 1]? with
          | none => none
          | some e =>
            match e.2.rightChild with
            | some child => recursiveFind t elem fuel h child
            | none => btree_end h t
      else
        match n.elements[lower_bound n.elements elem]? with
        | none => none
        | some e =>
          if e.1 = elem then some ⟨node, lower_bound n.elements elem, false⟩
          else
            match e.2.leftChild with
            | some child => recursiveFind t elem fuel h child
            | none => btree_end h t

/-- Mirror of `btree<T>::find`. -/
def find [LinearOrder T] (h : Heap T) (t : btree) (elem : T) : Option btree_iterator :=
  recursiveFind t elem h.length h t.root

/-! ## The cursor -/

/-- Mirror of `btree_iterator<T>::operator*`. -/
def deref (h : Heap T) (c : btree_iterator) : Option T :=
  match h[c.node]? with
  | none => none
  | some n =>
    match n.elements[c.it]? with
    | none => none
    | some e => some e.2.value

/-- Mirror of `btree_iterator<T>::operator==`: the flag is not compared. -/
def iter_eq (a b : btree_iterator) : Bool :=
  a.node == b.node && a.it == b.it

/-- The `while` loop of `btree<T>::begin()`; `e` is the element `it` points at and `p` the
current value of the local `p`. -/
def begin_loop : Nat → Heap T → Nat → Element T → Option btree_iterator
  | 0, _, _, _ => none
  | fuel + 1, h, p, e =>
    match e.leftChild with
    | none => some ⟨p, 0, false⟩
    | some c =>
      match h[c]? with
      | none => none
      | some cn =>
        match cn.elements[0]? with
        | none => none
        | some e' => begin_loop fuel h c e'.2

/-- Mirror of `btree<T>::begin()`. -/
def btree_begin (h : Heap T) (t : btree) : Option btree_iterator :=
  match h[t.root]? with
  | none => none
  | some r =>
    match r.elements[0]? with
    | none => some ⟨t.root, 0, false⟩
    | some e =>
      match e.2.leftChild with
      | none => some ⟨t.root, 0, false⟩
      | some c => begin_loop h.length h c e.2

/-- Mirror of `forward_traverse_down`: the node and slot the cursor ends at. -/
def forward_traverse_down : Nat → Heap T → Nat → Option (Nat × Nat)
  | 0, _, _ => none
  | fuel + 1, h, n =>
    match h[n]? with
    | none => none
    | some nd =>
      match nd.elements[0]? with
      | none => none
      | some e =>
        match e.2.leftChild with
        | some c => forward_traverse_down fuel h c
        | none => some (n, 0)

/-- Mirror of `forward_traverse_up(n, it)`. -/
def forward_traverse_up [LinearOrder T] : Nat → Heap T → Nat → Nat → Option btree_iterator
  | 0, _, _, _ => none
  | fuel + 1, h, n, it =>
    match h[n]? with
    | none => none
    | some nd =>
      if it = 0 then none
      else
        match nd.elements[it - 1]? with
        | none => none
        | some e =>
          match nd.parent with
          | none => none
          | some p =>
            match h[p]? with
            | none => none
            | some pn =>
              if upper_bound pn.elements e.1 = pn.elements.length ∧ pn.parent ≠ none then
                forward_traverse_up fuel h p (upper_bound pn.elements e.1)
              else some ⟨p, upper_bound pn.elements e.1, true⟩

/-- Mirror of `btree_iterator<T>::operator++()`. -/
def increment [LinearOrder T] (h : Heap T) (c : btree_iterator) : Option btree_iterator :=
  match h[c.node]? with
  | none => none
  | some nd =>
    match nd.elements[c.it]? with
    | none => none
    | some e =>
      if e.2.leftChild ≠ none ∧ c.didTraverse = false then
        match e.2.leftChild with
        | none => none
        | some l =>
          (forward_traverse_down h.length h l).map fun r => ⟨r.1, r.2, c.didTraverse⟩
      else if c.it + 1 = nd.elements.length then
        match e.2.rightChild with
        | some r => (forward_traverse_down h.length h r).map fun r => ⟨r.1, r.2, false⟩
        | none =>
          if nd.parent ≠ none then forward_traverse_up h.length h c.node (c.it + 1)
          else some ⟨c.node, nd.elements.length, false⟩
      else
        match nd.elements[c.it + 1]? with
        | none => none
        | some e' =>
          match e'.2.leftChild with
          | some l => (forward_traverse_down h.length h l).map fun r => ⟨r.1, r.2, false⟩
          | none => some ⟨c.node, c.it + 1, false⟩

/-- Mirror of `reverse_traverse_down`: the node and slot the cursor ends at. -/
def reverse_traverse_down : Nat → Heap T → Nat → Option (Nat × Nat)
  | 0, _, _ => none
  | fuel + 1, h, n =>
    match h[n]? with
    | none => none
    | some nd =>
      if nd.elements.length = 0 then none
      else
        match nd.elements[nd.elements.length - 1]? with
        | none => none
        | some e =>
          match e.2.rightChild with
          | some c => reverse_traverse_down fuel h c
          | none => some (n, nd.elements.length - 1)

/-- Mirror of `reverse_traverse_up(n, it)`. -/
def reverse_traverse_up [LinearOrder T] : Nat → Heap T → Nat → Nat → Option btree_iterator
  | 0, _, _, _ => none
  | fuel + 1, h, n, it =>
    match h[n]? with
    | none => none
    | some nd =>
      match nd.elements[it]? with
      | none => none
      | some e =>
        match nd.parent with
        | none => none
        | some p =>
          match h[p]? with
          | none => none
          | some pn =>
            if upper_bound pn.elements e.1 = 0 ∧ pn.parent ≠ none then
              reverse_traverse_up fuel h p (upper_bound pn.elements e.1)
            else if upper_bound pn.elements e.1 = 0 then none
            else some ⟨p, upper_bound pn.elements e.1 - 1, true⟩

/-- The part of `operator--()` after the special case for `end()`; `it` is the current map
iterator and `dt` the current `didTraverse`. -/
def decrement_from [LinearOrder T] (h : Heap T) (node : Nat) (nd : Node T) (it : Nat)
    (dt : Bool) : Option btree_iterator :=
  match nd.elements[it]? with
  | none => none
  | some e =>
    if e.2.rightChild ≠ none ∧ dt = false then
      match e.2.rightChild with
      | none => none
      | some r => (reverse_traverse_down h.length h r).map fun r => ⟨r.1, r.2, dt⟩
    else if it = 0 then
      match e.2.leftChild with
      | some l => (reverse_traverse_down h.length h l).map fun r => ⟨r.1, r.2, false⟩
      | none =>
        if nd.parent ≠ none then reverse_traverse_up h.length h node it
        else some ⟨node, 0, false⟩
    else
      match e.2.leftChild with
      | some l => (reverse_traverse_down h.length h l).map fun r => ⟨r.1, r.2, false⟩
      | none => some ⟨node, it - 1, false⟩

/-- Mirror of `btree_iterator<T>::operator--()`. -/
def decrement [LinearOrder T] (h : Heap T) (c : btree_iterator) : Option btree_iterator :=
  match h[c.node]? with
  | none => none
  | some nd =>
    if c.it = nd.elements.length ∧ nd.parent = none then
      if nd.elements.length = 0 then none
      else
        match nd.elements[nd.elements.length - 1]? with
        | none => none
        | some e =>
          if e.2.rightChild = none then
            some ⟨c.node, nd.elements.length - 1, c.didTraverse⟩
          else decrement_from h c.node nd (nd.elements.length - 1) c.didTraverse
    else decrement_from h c.node nd c.it c.didTraverse

/-! ## Whole-tree traversals used to state the properties -/

/-- The loop `for (it = from; it != end(); ++it) out.push_back(*it)`, bounded by `fuel`
advances. -/
def forward_from [LinearOrder T] (h : Heap T) (stop : btree_iterator) :
    Nat → btree_iterator → Option (List T)
  | fuel, c =>
    if iter_eq c stop then some []
    else
      match fuel with
      | 0 => none
      | fuel + 1 =>
        match deref h c, increment h c with
        | some v, some c' => (forward_from h stop fuel c').map fun vs => v :: vs
        | _, _ => none

/-- Forward traversal sequence: the values met from `begin()` up to `end()`, allowing at
most `fuel` advances. -/
def forward_traversal [LinearOrder T] (h : Heap T) (t : btree) (fuel : Nat) :
    Option (List T) :=
  match btree_begin h t, btree_end h t with
  | some b, some e => forward_from h e fuel b
  | _, _ => none

/-- The loop `for (it = from; it != begin(); ) { --it; out.push_back(*it); }`, bounded by
`fuel` retreats.  This is what iterating `rbegin()` to `rend()` performs. -/
def reverse_from [LinearOrder T] (h : Heap T) (stop : btree_iterator) :
    Nat → btree_iterator → Option (List T)
  | fuel, c =>
    if iter_eq c stop then some []
    else
      match fuel with
      | 0 => none
      | fuel + 1 =>
        match decrement h c with
        | none => none
        | some c' =>
          match deref h c' with
          | none => none
          | some v => (reverse_from h stop fuel c').map fun vs => v :: vs

/-- Reverse traversal sequence: the values met retreating from `end()` down to `begin()`,
allowing at most `fuel` retreats. -/
def reverse_traversal [LinearOrder T] (h : Heap T) (t : btree) (fuel : Nat) :
    Option (List T) :=
  match btree_begin h t, btree_end h t with
  | some b, some e => reverse_from h b fuel e
  | _, _ => none

/-- Insert the values of `vs` one after the other; the flags returned are collected. -/
def insertAll [LinearOrder T] (t : btree) : List T → Heap T → Option (Heap T × List Bool)
  | [], h => some (h, [])
  | v :: vs, h =>
    match insert h t v with
    | none => none
    | some r => (insertAll t vs r.1).map fun q => (q.1, r.2.2 :: q.2)

/-- Values found by following a child link; `below` lists the values under a node. -/
def belowLink (below : Nat → List T) : Option Nat → List T
  | some c => below c
  | none => []

/-- Values of the elements `es` of a node and of everything below their child links, in
the order lower subtree, value, upper subtree. -/
def valuesOf (below : Nat → List T) : List (T × Element T) → List T
  | [] => []
  | (_, e) :: es =>
    belowLink below e.leftChild ++
      e.value :: (belowLink below e.rightChild ++ valuesOf below es)

/-- Values stored in the node at address `n` and in all its descendants. -/
def valuesFrom : Nat → Heap T → Nat → List T
  | 0, _, _ => []
  | fuel + 1, h, n =>
    match h[n]? with
    | none => []
    | some nd => valuesOf (valuesFrom fuel h) nd.elements

/-- Every value stored anywhere in the tree (root or descendants). -/
def stored (h : Heap T) (t : btree) : List T :=
  valuesFrom h.length h t.root

/-- An empty tree of the given capacity in an empty heap, then the inserts of `vs`. -/
def build [LinearOrder T] (maxNodeElems : Nat) (vs : List T) : Option (Heap T × List Bool) :=
  insertAll (construct maxNodeElems ([] : Heap T)).2 vs (construct maxNodeElems ([] : Heap T)).1

/-- The handle of the tree made by `build`. -/
def built (maxNodeElems : Nat) : btree :=
  (construct maxNodeElems ([] : Heap Nat)).2

/-! ## Reachable nodes -/

/-- Nodes found by following a child link; `below` lists the nodes under a node. -/
def linkNodes (below : Nat → List Nat) : Option Nat → List Nat
  | some c => c :: below c
  | none => []

/-- Nodes reachable through the child links of the elements `es`. -/
def nodesOf (below : Nat → List Nat) : List (T × Element T) → List Nat
  | [] => []
  | (_, e) :: es =>
    linkNodes below e.leftChild ++ (linkNodes below e.rightChild ++ nodesOf below es)

/-- Addresses of all descendants of the node at address `n`. -/
def nodesFrom : Nat → Heap T → Nat → List Nat
  | 0, _, _ => []
  | fuel + 1, h, n =>
    match h[n]? with
    | none => []
    | some nd => nodesOf (nodesFrom fuel h) nd.elements

/-- Addresses of all nodes of a tree: its root and every descendant. -/
def treeNodes (h : Heap T) (t : btree) : List Nat :=
  t.root :: nodesFrom h.length h t.root

/-! ## Copy -/

/-- One of the two `if` statements in the loop of `copyBTree`: when the link `c` read from
the source element is not null, `new Node(dest)` is allocated, the pair is queued and the
link of the destination element in slot `i` is overwritten by `setLink`. -/
def copyLink (setLink : List (T × Element T) → Nat → Option Nat → List (T × Element T))
    (h : Heap T) (dest i : Nat) (q : List (Nat × Nat)) :
    Option Nat → Option (Heap T × List (Nat × Nat))
  | none => some (h, q)
  | some c =>
    match (h ++ [Node.mk (some dest) []])[dest]? with
    | none => none
    | some dn =>
      some ((h ++ [Node.mk (some dest) []]).set dest
          { dn with elements := setLink dn.elements i (some h.length) },
        q ++ [(c, h.length)])

/-- The `for` loop of `copyBTree` over the slots of the source node, `k` slots remaining
starting at slot `i`; `q` is the content of the two queues. -/
def copyLoop : Nat → Heap T → Nat → Nat → Nat → List (Nat × Nat) →
    Option (Heap T × List (Nat × Nat))
  | 0, h, _, _, _, q => some (h, q)
  | k + 1, h, source, dest, i, q =>
    match h[source]? with
    | none => none
    | some sn =>
      match sn.elements[i]? with
      | none => none
      | some se =>
        match copyLink setLeft h dest i q se.2.leftChild with
        | none => none
        | some r1 =>
          match r1.1[source]? with
          | none => none
          | some sn1 =>
            match sn1.elements[i]? with
            | none => none
            | some se1 =>
              match copyLink setRight r1.1 dest i r1.2 se1.2.rightChild with
              | none => none
              | some r2 => copyLoop k r2.1 source dest (i + 1) r2.2

/-- The `while` loop of `copyBTree` over the queued pairs; `copy` is the recursive call. -/
def copyQueue (copy : Heap T → Nat → Option Nat → Nat → Option (Heap T)) (dest : Nat) :
    List (Nat × Nat) → Heap T → Option (Heap T)
  | [], h => some h
  | (s, d) :: q, h =>
    match copy h s (some dest) d with
    | none => none
    | some h' => copyQueue copy dest q h'

/-- Mirror of `btree<T>::copyBTree(const Node *source, Node *parent, Node *dest)`. -/
def copyBTree : Nat → Heap T → Nat → Option Nat → Nat → Option (Heap T)
  | 0, _, _, _, _ => none
  | fuel + 1, h, source, parent, dest =>
    match h[source]?, h[dest]? with
    | some sn, some _ =>
      match copyLoop sn.elements.length (h.set dest ⟨parent, sn.elements⟩) source dest 0 [] with
      | none => none
      | some r => copyQueue (copyBTree fuel) dest r.2 r.1
    | _, _ => none

/-- Mirror of the copy constructor `btree(const btree<T> &original)`; the new tree object
(with its root node) is allocated first. -/
def copy_construct (h : Heap T) (original : btree) : Option (Heap T × btree) :=
  match (h ++ [Node.mk none []])[original.root]? with
  | none => none
  | some src =>
    (copyBTree (h.length + 1) ((h ++ [Node.mk none []]).set h.length src) original.root none
        h.length).map
      fun h' => (h', ⟨original.maxNodeElems, h.length⟩)

/-- Mirror of the copy assignment `operator=(const btree<T> &rhs)` applied to the tree
`self`; the updated handle of `self` is returned with the heap. -/
def copy_assign (h : Heap T) (self rhs : btree) : Option (Heap T × btree) :=
  match h[rhs.root]?, h[self.root]? with
  | some rn, some _ =>
    (copyBTree h.length (h.set self.root rn) rhs.root none self.root).map
      fun h' => (h', ⟨rhs.maxNodeElems, self.root⟩)
  | _, _ => none

/-! ## Move -/

/-- The statement `child->parent = &root` for a link that is not null. -/
def reparent (h : Heap T) (root : Nat) : Option Nat → Option (Heap T)
  | none => some h
  | some c =>
    match h[c]? with
    | none => none
    | some cn => some (h.set c { cn with parent := some root })

/-- The first loop of the move operations, over the elements of the new root. -/
def moveParents : List (T × Element T) → Heap T → Nat → Option (Heap T)
  | [], h, _ => some h
  | (_, e) :: es, h, root =>
    match reparent h root e.leftChild with
    | none => none
    | some h1 =>
      match reparent h1 root e.rightChild with
      | none => none
      | some h2 => moveParents es h2 root

/-- The second loop of the move operations: every element of the moved-from root gets
null child links. -/
def nullifyLinks (es : List (T × Element T)) : List (T × Element T) :=
  es.map fun p => (p.1, { p.2 with leftChild := none, rightChild := none })

/-- The statements shared by the move constructor and the move assignment, `dst` being the
address of the root of the tree moved into.  `root = std::move(original.root)` is the
member-wise move of a node: the parent pointer is copied and the map is moved, which
leaves the moved-from map empty. -/
def moveInto (h : Heap T) (dst : Nat) (original : btree) : Option (Heap T) :=
  match h[original.root]?, h[dst]? with
  | some src, some _ =>
    match ((h.set dst ⟨src.parent, src.elements⟩).set original.root ⟨src.parent, []⟩)[dst]? with
    | none => none
    | some rn =>
      match moveParents rn.elements
          ((h.set dst ⟨src.parent, src.elements⟩).set original.root ⟨src.parent, []⟩) dst with
      | none => none
      | some h3 =>
        match h3[original.root]? with
        | none => none
        | some src3 =>
          some (h3.set original.root { src3 with elements := nullifyLinks src3.elements })
  | _, _ => none

/-- Mirror of the move constructor `btree(btree<T> &&original)`; the new tree object (with
its root node) is allocated first. -/
def move_construct (h : Heap T) (original : btree) : Option (Heap T × btree) :=
  (moveInto (h ++ [Node.mk none []]) h.length original).map
    fun h' => (h', ⟨original.maxNodeElems, h.length⟩)

/-- Mirror of the move assignment `operator=(btree<T> &&rhs)` applied to the tree `self`;
the updated handle of `self` is returned with the heap. -/
def move_assign (h : Heap T) (self rhs : btree) : Option (Heap T × btree) :=
  (moveInto h self.root rhs).map fun h' => (h', ⟨rhs.maxNodeElems, self.root⟩)

/-- The child links stored in a list of elements. -/
def elemLinks : List (T × Element T) → List Nat
  | [] => []
  | (_, e) :: es => e.leftChild.toList ++ (e.rightChild.toList ++ elemLinks es)

/-- Two trees in one heap: the first is built from `vs`, then the second is constructed
and built from `ws`. -/
def build2 [LinearOrder T] (capA : Nat) (vs : List T) (capB : Nat) (ws : List T) :
    Option (Heap T × btree × btree) :=
  match build capA vs with
  | none => none
  | some r =>
    match insertAll (construct capB r.1).2 ws (construct capB r.1).1 with
    | none => none
    | some q => some (q.1, built capA, (construct capB r.1).2)

/-! ## The structure of a tree, without the addresses -/

/-- Marks of the outline of a tree: an element, a child link followed down, the return
from the child, and a null child link. -/
inductive Mark (T : Type) where
  | elem (key : T) (value : T) : Mark T
  | down : Mark T
  | up : Mark T
  | null : Mark T
  deriving DecidableEq

/-- Outline of a child link; `below` gives the outline of a node. -/
def outlineLink (below : Nat → List (Mark T)) : Option Nat → List (Mark T)
  | none => [Mark.null]
  | some c => Mark.down :: (below c ++ [Mark.up])

/-- Outline of the elements `es` of a node: for each element its lower child, the element,
its upper child. -/
def outlineOf (below : Nat → List (Mark T)) : List (T × Element T) → List (Mark T)
  | [] => []
  | (k, e) :: es =>
    outlineLink below e.leftChild ++
      Mark.elem k e.value :: (outlineLink below e.rightChild ++ outlineOf below es)

/-- Outline of the node at address `n` and of all its descendants. -/
def outlineFrom : Nat → Heap T → Nat → List (Mark T)
  | 0, _, _ => []
  | fuel + 1, h, n =>
    match h[n]? with
    | none => []
    | some nd => outlineOf (outlineFrom fuel h) nd.elements

/-- The node structure of a tree: the elements of every node and the shape of the links,
the addresses of the nodes left out. -/
def outline (h : Heap T) (t : btree) : List (Mark T) :=
  outlineFrom h.length h t.root

/-! ## Cursors reached from `begin()` -/

/-- The cursor after `n` applications of `operator++`. -/
def advance [LinearOrder T] (h : Heap T) : Nat → btree_iterator → Option btree_iterator
  | 0, c => some c
  | n + 1, c =>
    match increment h c with
    | none => none
    | some c' => advance h n c'

/-- The cursor reached from `begin()` by `n` advances. -/
def cursor_at [LinearOrder T] (h : Heap T) (t : btree) (n : Nat) : Option btree_iterator :=
  match btree_begin h t with
  | none => none
  | some b => advance h n b

/-! ## Display -/

/-- What `operator<<` writes to the stream: a value or a single space. -/
inductive Token (T : Type) where
  | value (v : T) : Token T
  | space : Token T
  deriving DecidableEq

/-- The values among the tokens written, in order. -/
def tokenValues : List (Token T) → List T
  | [] => []
  | Token.value v :: ts => v :: tokenValues ts
  | Token.space :: ts => tokenValues ts

/-- The `for` loop of `printBTree` over the elements of one node: the tokens written to the
stream and the nodes pushed to the queue `childs`. -/
def printElems [LinearOrder T] (lastValue : T) :
    List (T × Element T) → List (Token T) × List Nat
  | [] => ([], [])
  | (k, e) :: es =>
    ((Token.value k :: (if k ≠ lastValue then [Token.space] else [])) ++
        (printElems lastValue es).1,
      e.leftChild.toList ++ (e.rightChild.toList ++ (printElems lastValue es).2))

/-- The `while` loop of `printBTree` on the state (stream, queue); `print` is the recursive
call and `k` bounds the number of iterations. -/
def printQueue (print : List (Token T) × List Nat → Nat → Option (List (Token T) × List Nat)) :
    Nat → List (Token T) × List Nat → Option (List (Token T) × List Nat)
  | 0, st =>
    match st.2 with
    | [] => some st
    | _ :: _ => none
  | k + 1, st =>
    match st.2 with
    | [] => some st
    | n :: q =>
      match print (st.1, q) n with
      | none => none
      | some st' => printQueue print k st'

/-- Mirror of `btree<T>::printBTree(os, node, childs, lastValue)` on the state (stream,
queue). -/
def printBTree [LinearOrder T] (lastValue : T) :
    Nat → Heap T → List (Token T) × List Nat → Nat → Option (List (Token T) × List Nat)
  | 0, _, _, _ => none
  | fuel + 1, h, st, node =>
    match h[node]? with
    | none => none
    | some n =>
      printQueue (printBTree lastValue fuel h) fuel
        (st.1 ++ (printElems lastValue n.elements).1, st.2 ++ (printElems lastValue n.elements).2)

/-- The `while` loop of `operator<<` that looks for the value taken to be printed last,
from the last element `e` of a node down the upper child links. -/
def lastValue_loop : Nat → Heap T → T × Element T → Option T
  | 0, _, _ => none
  | fuel + 1, h, e =>
    match e.2.rightChild with
    | none => some e.1
    | some c =>
      match h[c]? with
      | none => none
      | some cn =>
        if cn.elements.length = 0 then none
        else
          match cn.elements[cn.elements.length - 1]? with
          | none => none
          | some e' => lastValue_loop fuel h e'

/-- Mirror of `operator<<(std::ostream&, const btree<T>&)`: the tokens written.  On an empty
root the statement `--it` steps before the first slot of the map. -/
def operator_output [LinearOrder T] (h : Heap T) (t : btree) : Option (List (Token T)) :=
  match h[t.root]? with
  | none => none
  | some r =>
    if r.elements.length = 0 then none
    else
      match r.elements[r.elements.length - 1]? with
      | none => none
      | some e =>
        match lastValue_loop h.length h e with
        | none => none
        | some lastValue =>
          (printBTree lastValue (h.length + 1) h ([], []) t.root).map fun st => st.1

/-- The values joined by single spaces: one space between consecutive values, none after
the last. -/
def spaced : List T → List (Token T)
  | [] => []
  | [v] => [Token.value v]
  | v :: w :: vs => Token.value v :: Token.space :: spaced (w :: vs)

/-- The level-order listing: the nodes of the queue are visited in FIFO order; visiting a
node lists the values of its elements in ascending order and enqueues, element by element,
the lower child then the upper child when present.  `visits` bounds the number of nodes
visited. -/
def levelOrder : Nat → Heap T → List Nat → List T
  | 0, _, _ => []
  | _ + 1, _, [] => []
  | visits + 1, h, a :: q =>
    match h[a]? with
    | none => []
    | some n => n.elements.map Prod.fst ++ levelOrder visits h (q ++ elemLinks n.elements)

/-- The children of the nodes `q`, in order. -/
def childrenOf (h : Heap T) : List Nat → List Nat
  | [] => []
  | a :: q =>
    (match h[a]? with
      | none => []
      | some n => elemLinks n.elements) ++ childrenOf h q

/-- The values of the elements of the nodes `q`, in order. -/
def valuesIn (h : Heap T) : List Nat → List T
  | [] => []
  | a :: q =>
    (match h[a]? with
      | none => []
      | some n => n.elements.map Prod.fst) ++ valuesIn h q

/-- The nodes `d` levels below the nodes `q`. -/
def nodesAtDepth (h : Heap T) : Nat → List Nat → List Nat
  | 0, q => q
  | d + 1, q => nodesAtDepth h d (childrenOf h q)

/-- The values of the nodes at the depths `d`, `d + 1`, ..., `d + n - 1` of the tree, depth
after depth. -/
def valuesByDepth (h : Heap T) (t : btree) : Nat → Nat → List T
  | _, 0 => []
  | d, n + 1 => valuesIn h (nodesAtDepth h d [t.root]) ++ valuesByDepth h t (d + 1) n

/-! ## The const overloads of `find` -/

/-- Mirror of `const_btree_iterator<T>`: the node, the map iterator and the flag
`didTraverse`. -/
structure const_btree_iterator where
  node : Nat
  it : Nat
  didTraverse : Bool
  deriving DecidableEq

/-- Mirror of `const_btree_iterator<T>::operator==(const const_btree_iterator&)`: the flag
is not compared. -/
def const_iter_eq (a b : const_btree_iterator) : Bool :=
  a.node == b.node && a.it == b.it

/-- Mirror of `btree<T>::end() const`. -/
def const_end (h : Heap T) (t : btree) : Option const_btree_iterator :=
  match h[t.root]? with
  | none => none
  | some r => some ⟨t.root, r.elements.length, false⟩

/-- Mirror of `btree<T>::recursiveFind(const Node*, const T&) const`. -/
def const_recursiveFind [LinearOrder T] (t : btree) (elem : T) :
    Nat → Heap T → Nat → Option const_btree_iterator
  | 0, _, _ => none
  | fuel + 1, h, node =>
    match h[node]? with
    | none => none
    | some n =>
      if lower_bound n.elements elem = n.elements.length then
        -- `--it` on the end iterator
        if n.elements.length = 0 then none
        else
          match n.elements[n.elements.length - 1]? with
          | none => none
          | some e =>
            match e.2.rightChild with
            | some child => const_recursiveFind t elem fuel h child
            | none => const_end h t
      else
        match n.elements[lower_bound n.elements elem]? with
        | none => none
        | some e =>
          if e.1 = elem then some ⟨node, lower_bound n.elements elem, false⟩
          else
            match e.2.leftChild with
            | some child => const_recursiveFind t elem fuel h child
            | none => const_end h t

/-- Mirror of `btree<T>::find(const T&) const`. -/
def const_find [LinearOrder T] (h : Heap T) (t : btree) (elem : T) :
    Option const_btree_iterator :=
  const_recursiveFind t elem h.length h t.root

/-! ## The chain made by ascending insertions -/

/-- The element holding `v` in node `j` of the chain that the specification describes for the
values `1, ..., n` and capacity `c`: no lower child, and an upper child, node `j + 1`, only
under the last element of a full node that is not the last node. -/
def chainElem (c n j v : Nat) : Nat × Element Nat :=
  (v, ⟨v, none, if v = (j + 1) * c ∧ v < n then some (j + 1) else none⟩)

/-- Node `j` of that chain: its parent is node `j - 1`, and it holds the values
`j * c + 1, ..., min (j * c + c) n`. -/
def chainNode (c n j : Nat) : Node Nat :=
  ⟨if j = 0 then none else some (j - 1),
    (List.range' (j * c + 1) (min c (n - j * c))).map (chainElem c n j)⟩

/-- The chain of `ceil (n / c)` nodes that the specification describes. -/
def chainHeap (c n : Nat) : Heap Nat :=
  (List.range ((n + c - 1) / c)).map (chainNode c n)

/-! ## The const cursor -/

/-- Mirror of the converting constructor `const_btree_iterator(const btree_iterator<T>& it)`,
which delegates to `const_btree_iterator(it.node, it.it)`: the flag `didTraverse` keeps its
default member initializer `false`. -/
def const_of (c : btree_iterator) : const_btree_iterator :=
  ⟨c.node, c.it, false⟩

/-- Mirror of `const_btree_iterator<T>::operator*`. -/
def const_deref (h : Heap T) (c : const_btree_iterator) : Option T :=
  match h[c.node]? with
  | none => none
  | some n =>
    match n.elements[c.it]? with
    | none => none
    | some e => some e.2.value

/-- Mirror of `const_btree_iterator<T>::forward_traverse_down`: the node and slot the cursor
ends at. -/
def const_forward_traverse_down : Nat → Heap T → Nat → Option (Nat × Nat)
  | 0, _, _ => none
  | fuel + 1, h, n =>
    match h[n]? with
    | none => none
    | some nd =>
      match nd.elements[0]? with
      | none => none
      | some e =>
        match e.2.leftChild with
        | some c => const_forward_traverse_down fuel h c
        | none => some (n, 0)

/-- Mirror of `const_btree_iterator<T>::forward_traverse_up(n, it)`. -/
def const_forward_traverse_up [LinearOrder T] :
    Nat → Heap T → Nat → Nat → Option const_btree_iterator
  | 0, _, _, _ => none
  | fuel + 1, h, n, it =>
    match h[n]? with
    | none => none
    | some nd =>
      if it = 0 then none
      else
        match nd.elements[it - 1]? with
        | none => none
        | some e =>
          match nd.parent with
          | none => none
          | some p =>
            match h[p]? with
            | none => none
            | some pn =>
              if upper_bound pn.elements e.1 = pn.elements.length ∧ pn.parent ≠ none then
                const_forward_traverse_up fuel h p (upper_bound pn.elements e.1)
              else some ⟨p, upper_bound pn.elements e.1, true⟩

/-- Mirror of `const_btree_iterator<T>::operator++()`. -/
def const_increment [LinearOrder T] (h : Heap T) (c : const_btree_iterator) :
    Option const_btree_iterator :=
  match h[c.node]? with
  | none => none
  | some nd =>
    match nd.elements[c.it]? with
    | none => none
    | some e =>
      if e.2.leftChild ≠ none ∧ c.didTraverse = false then
        match e.2.leftChild with
        | none => none
        | some l =>
          (const_forward_traverse_down h.length h l).map fun r => ⟨r.1, r.2, c.didTraverse⟩
      else if c.it + 1 = nd.elements.length then
        match e.2.rightChild with
        | some r => (const_forward_traverse_down h.length h r).map fun r => ⟨r.1, r.2, false⟩
        | none =>
          if nd.parent ≠ none then const_forward_traverse_up h.length h c.node (c.it + 1)
          else some ⟨c.node, nd.elements.length, false⟩
      else
        match nd.elements[c.it + 1]? with
        | none => none
        | some e' =>
          match e'.2.leftChild with
          | some l =>
            (const_forward_traverse_down h.length h l).map fun r => ⟨r.1, r.2, false⟩
          | none => some ⟨c.node, c.it + 1, false⟩

/-! ## Shapes, invariants and traversal paths used in the proofs

A shape describes the cells of one node from some slot on: `C a l k r rest` is the cell of
node `a` holding `k`, `l` and `r` describe the nodes its two links point at, `rest` the
following cells of the same node.  `E` is both the empty list of cells and the null link.
`Rep` ties a shape to the heap, `TreeInv` is the invariant every operation preserves.
-/

/-- Cells of a node together with the nodes reachable from them. -/
inductive Sh (T : Type) where
  | E : Sh T
  | C (a : Nat) (l : Sh T) (k : T) (r : Sh T) (rest : Sh T) : Sh T

namespace Sh

/-- The link that designates the node described by a shape. -/
def ptr : Sh T → Option Nat
  | E => none
  | C a _ _ _ _ => some a

/-- In-order listing of the values of a shape. -/
def toList : Sh T → List T
  | E => []
  | C _ l k r rest => toList l ++ k :: (toList r ++ toList rest)

/-- Addresses of the nodes strictly below the cells of a shape. -/
def kids : Sh T → List Nat
  | E => []
  | C _ l _ r rest => (l.ptr.toList ++ kids l) ++ ((r.ptr.toList ++ kids r) ++ kids rest)

/-- Keys of the cells of the node itself. -/
def keys : Sh T → List T
  | E => []
  | C _ _ k _ rest => k :: keys rest

/-- Number of node levels of a shape. -/
def height : Sh T → Nat
  | E => 0
  | C _ l _ r rest => max (max (height l) (height r) + 1) (height rest)

/-- No cell of the node has a child. -/
def leafy : Sh T → Prop
  | E => True
  | C _ l _ r rest => l = E ∧ r = E ∧ leafy rest

/-- Only the last cell of a node has an upper child, in every node. -/
def rightOk : Sh T → Prop
  | E => True
  | C _ l _ r rest => (r = E ∨ rest = E) ∧ rightOk l ∧ rightOk r ∧ rightOk rest

/-- A node is childless or holds at least `cap` elements. -/
def nodeFull (cap : Nat) (s : Sh T) : Prop := s.leafy ∨ cap ≤ s.keys.length

/-- Every node below the cells of the shape is childless or holds at least `cap` elements. -/
def capOk (cap : Nat) : Sh T → Prop
  | E => True
  | C _ l _ r rest =>
    nodeFull cap l ∧ capOk cap l ∧ nodeFull cap r ∧ capOk cap r ∧ capOk cap rest

/-- A childless node of address `a` with the given keys. -/
def chain (a : Nat) : List T → Sh T
  | [] => E
  | k :: ks => C a E k E (chain a ks)

end Sh

/-- The cells `es` of node `self`, and everything below them in heap `h`, have shape `s`. -/
def Rep (h : Heap T) : Sh T → Nat → List (T × Element T) → Prop
  | .E, _, es => es = []
  | .C a l k r rest, self, es =>
    a = self ∧ ∃ e es', es = (k, e) :: es' ∧ e.value = k ∧
      e.leftChild = l.ptr ∧ e.rightChild = r.ptr ∧
      (∀ b, l.ptr = some b → ∃ n, h[b]? = some n ∧ n.parent = some self ∧ Rep h l b n.elements) ∧
      (∀ b, r.ptr = some b → ∃ n, h[b]? = some n ∧ n.parent = some self ∧ Rep h r b n.elements) ∧
      Rep h rest self es'

/-- The node at address `b` with parent link `p` has shape `s`, when `s` is not null. -/
def RepAt (h : Heap T) (s : Sh T) (p : Option Nat) (b : Nat) : Prop :=
  ∃ n, h[b]? = some n ∧ n.parent = p ∧ Rep h s b n.elements

/-- The link described by `s` points at a node of shape `s` whose parent is `self`. -/
def Child (h : Heap T) (s : Sh T) (self : Nat) : Prop :=
  ∀ b, s.ptr = some b → RepAt h s (some self) b

/-- Every element of the list has null child links and stores its key. -/
def LeafElems (es : List (T × Element T)) : Prop :=
  ∀ p ∈ es, p.2 = ⟨p.1, none, none⟩

/-- The state after a call of `recursiveInsert` on node `a` that stored `elem`, seen from
the cells `s` that the scan still had to visit (`pre` are the cells already passed). -/
def InsNew [LinearOrder T] (cap : Nat) (elem : T) (s : Sh T) (h : Heap T) (a : Nat)
    (par : Option Nat) (pre : List (T × Element T)) (h' : Heap T) : Prop :=
  elem ∉ s.toList ∧ ∃ s' suf',
    h'[a]? = some ⟨par, pre ++ suf'⟩ ∧ Rep h' s' a suf' ∧ s'.rightOk ∧ s'.capOk cap ∧
    s'.toList.Pairwise (· < ·) ∧ s'.toList.Perm (elem :: s.toList) ∧
    (cap ≤ (pre ++ suf').length ∨ (pre = [] ∧ s'.leafy)) ∧
    (a :: s'.kids).Nodup ∧ (∀ x ∈ s'.kids, x ∈ s.kids ∨ h.length ≤ x) ∧
    h.length ≤ h'.length ∧
    (∀ x, x < h.length → x ≠ a → x ∉ s.kids → h'[x]? = h[x]?)

/-- What a call of `recursiveInsert` on node `a` achieves. -/
def InsPost [LinearOrder T] (cap : Nat) (elem : T) (s : Sh T) (h : Heap T) (a : Nat)
    (par : Option Nat) (pre : List (T × Element T))
    (res : Option (Heap T × btree_iterator × Bool)) : Prop :=
  ∃ h' it b, res = some (h', it, b) ∧ deref h' it = some elem ∧
    ((b = false ∧ h' = h ∧ elem ∈ s.toList) ∨ (b = true ∧ InsNew cap elem s h a par pre h'))

/-- The nodes of a shape: the node its link designates and all nodes below. -/
def Sh.nodes (s : Sh T) : List Nat := s.ptr.toList ++ s.kids

/-- The invariant of a tree whose root node is at address `root`. -/
structure TreeInv [LinearOrder T] (cap : Nat) (h : Heap T) (root : Nat) (s : Sh T) : Prop where
  rep : RepAt h s none root
  rightOk : s.rightOk
  capOk : s.capOk cap
  nodeFull : s.nodeFull cap
  sorted : s.toList.Pairwise (· < ·)
  nodup : (root :: s.kids).Nodup

/-- Each position of the list steps to the next one, and the step from the last position
satisfies `fin`. -/
def Steps {α : Type} (step : α → Option α) : List α → (Option α → Prop) → Prop
  | [], _ => True
  | [p], fin => fin (step p)
  | p :: q :: rest, fin => step p = some q ∧ Steps step (q :: rest) fin

/-- The requirement on a step that is followed by the positions `qs`. -/
def nextOr {α : Type} (qs : List α) (fin : Option α → Prop) (o : Option α) : Prop :=
  match qs with
  | [] => fin o
  | q :: _ => o = some q

/-- Whether the shape is the null link. -/
def Sh.isE : Sh T → Bool
  | .E => true
  | .C _ _ _ _ _ => false

/-- The cursor states met by a forward traversal of the cells of a shape, the first cell
being in slot `i`. -/
def Sh.fwd : Sh T → Nat → List btree_iterator
  | .E, _ => []
  | .C a l _ r rest, i => fwd l 0 ++ ⟨a, i, !l.isE⟩ :: (fwd r 0 ++ fwd rest (i + 1))

/-- The first cursor state of a forward traversal. -/
def Sh.first : Sh T → Nat → Option btree_iterator
  | .E, _ => none
  | .C a l _ _ _, i =>
    match first l 0 with
    | some p => some p
    | none => some ⟨a, i, false⟩

/-- More fuel than `d + 1` does not change what `forward_traverse_up` returns on node `a`. -/
def UpStable [LinearOrder T] (h : Heap T) (a d : Nat) : Prop :=
  ∀ n, h[a]? = some n → n.parent ≠ none → ∀ fuel, d < fuel →
    forward_traverse_up fuel h a n.elements.length =
      forward_traverse_up (d + 1) h a n.elements.length

/-- The cursor state `o` is the one reached when the forward traversal leaves node `a`. -/
def Up [LinearOrder T] (h : Heap T) (a d : Nat) (o : Option btree_iterator) : Prop :=
  ∃ n, h[a]? = some n ∧
    ((n.parent = none ∧ ∃ dt, o = some ⟨a, n.elements.length, dt⟩) ∨
     (n.parent ≠ none ∧ o = forward_traverse_up (d + 1) h a n.elements.length))

/-- The lower shape of the first cell. -/
def Sh.headL : Sh T → Sh T
  | .E => .E
  | .C _ l _ _ _ => l

/-- The cursor states met by a reverse traversal of the cells of a shape, the first cell
being in slot `i`. -/
def Sh.bwd : Sh T → Nat → List btree_iterator
  | .E, _ => []
  | .C a l _ r rest, i =>
    bwd rest (i + 1) ++ (bwd r 0 ++ (⟨a, i, !(r.isE && rest.headL.isE)⟩ :: bwd l 0))

/-- The first cursor state of a reverse traversal (the position of the greatest value). -/
def Sh.lastPos : Sh T → Nat → Option btree_iterator
  | .E, _ => none
  | .C a _ _ r rest, i =>
    match lastPos rest (i + 1) with
    | some p => some p
    | none =>
      match lastPos r 0 with
      | some p => some p
      | none => some ⟨a, i, false⟩

/-- More fuel than `d + 1` does not change what `reverse_traverse_up` returns on node `a`. -/
def DownStable [LinearOrder T] (h : Heap T) (a d : Nat) : Prop :=
  ∀ n, h[a]? = some n → n.parent ≠ none → ∀ fuel, d < fuel →
    reverse_traverse_up fuel h a 0 = reverse_traverse_up (d + 1) h a 0

/-- The cursor state `o` is the one reached when the reverse traversal leaves node `a`. -/
def Down [LinearOrder T] (h : Heap T) (a d : Nat) (o : Option btree_iterator) : Prop :=
  ∃ n, h[a]? = some n ∧ (n.parent ≠ none → o = reverse_traverse_up (d + 1) h a 0)

/-- What the step below the cells from slot `pre.length` on has to be. -/
def RFin [LinearOrder T] (h : Heap T) (a d : Nat) (pre : List (T × Element T)) (s : Sh T)
    (o : Option btree_iterator) : Prop :=
  (pre = [] → Down h a d o) ∧ (pre ≠ [] → o = some ⟨a, pre.length - 1, !s.headL.isE⟩)

/-- The nodes directly below the cells of a shape. -/
def Sh.links : Sh T → List Nat
  | .E => []
  | .C _ l _ r rest => l.ptr.toList ++ (r.ptr.toList ++ links rest)

/-- The nodes at least two levels below the cells of a shape. -/
def Sh.grand : Sh T → List Nat
  | .E => []
  | .C _ l _ r rest => l.kids ++ (r.kids ++ grand rest)

/-- The same cells, owned by the node at address `b`. -/
def Sh.rehead (b : Nat) : Sh T → Sh T
  | .E => .E
  | .C _ l k r rest => .C b l k r (rehead b rest)

/-- The elements of the destination node after the loop of `copyBTree`: every link that is
not null designates the next node allocated, `n0` being the first address used. -/
def relink (n0 : Nat) : List (T × Element T) → List (T × Element T)
  | [] => []
  | (k, e) :: es =>
    (k, ⟨e.value, e.leftChild.map fun _ => n0,
        e.rightChild.map fun _ => n0 + e.leftChild.toList.length⟩) ::
      relink (n0 + e.leftChild.toList.length + e.rightChild.toList.length) es

/-- The queued pairs: the source children with the addresses allocated for their copies. -/
def queueOf (n0 : Nat) : List Nat → List (Nat × Nat)
  | [] => []
  | c :: cs => (c, n0) :: queueOf (n0 + 1) cs

/-- Two shapes with the same keys in the same arrangement. -/
def SameShape : Sh T → Sh T → Prop
  | .E, .E => True
  | .C _ l k r rest, .C _ l' k' r' rest' =>
    k = k' ∧ SameShape l l' ∧ SameShape r r' ∧ SameShape rest rest'
  | .E, .C _ _ _ _ _ => False
  | .C _ _ _ _ _, .E => False

/-- The address of the node a link designates (`0` for the null link). -/
def Sh.addr : Sh T → Nat
  | .E => 0
  | .C a _ _ _ _ => a

/-- A link as a list: empty for the null link. -/
def Sh.asList : Sh T → List (Sh T)
  | .E => []
  | .C a l k r rest => [.C a l k r rest]

/-- The shapes of the children of a node, in slot order, lower child first. -/
def Sh.subs : Sh T → List (Sh T)
  | .E => []
  | .C _ l _ r rest => l.asList ++ (r.asList ++ subs rest)

/-- All nodes of a list of shapes. -/
def nodesAll : List (Sh T) → List Nat
  | [] => []
  | c :: cs => c.nodes ++ nodesAll cs

/-- All nodes below the nodes of a list of shapes. -/
def kidsAll : List (Sh T) → List Nat
  | [] => []
  | c :: cs => c.kids ++ kidsAll cs

/-- What a call of the recursive copy on a source node of shape `s` achieves. -/
def NodeSpec (copy : Heap T → Nat → Option Nat → Nat → Option (Heap T)) (s : Sh T) : Prop :=
  ∀ (h : Heap T) (src dest : Nat) (psrc parent : Option Nat),
    RepAt h s psrc src → dest < h.length → dest ∉ src :: s.kids →
    ∃ h' s', copy h src parent dest = some h' ∧ RepAt h' s' parent dest ∧ SameShape s s' ∧
      h.length ≤ h'.length ∧ (∀ x ∈ s'.kids, h.length ≤ x) ∧ s'.kids.Nodup ∧
      (∀ x, x < h.length → x ≠ dest → h'[x]? = h[x]?)

/-- The outline of a shape. -/
def Sh.marks : Sh T → List (Mark T)
  | .E => []
  | .C _ l k r rest =>
    outlineLink (fun _ => marks l) l.ptr ++
      Mark.elem k k :: (outlineLink (fun _ => marks r) r.ptr ++ marks rest)

/-- Tokens written for the keys of one node. -/
def keyToks [LinearOrder T] (lastValue : T) : List T → List (Token T)
  | [] => []
  | k :: ks =>
    (Token.value k :: (if k ≠ lastValue then [Token.space] else [])) ++ keyToks lastValue ks

/-- Tokens written for a queue of nodes, given by their shapes, with at most `m` visits. -/
def bfsToks [LinearOrder T] (lastValue : T) : Nat → List (Sh T) → List (Token T)
  | 0, _ => []
  | _ + 1, [] => []
  | m + 1, c :: cs => keyToks lastValue c.keys ++ bfsToks lastValue m (cs ++ c.subs)

/-- Keys listed for a queue of nodes, given by their shapes, with at most `m` visits. -/
def bfsKeys : Nat → List (Sh T) → List T
  | 0, _ => []
  | _ + 1, [] => []
  | m + 1, c :: cs => c.keys ++ bfsKeys m (cs ++ c.subs)

/-- The keys of the nodes of a list. -/
def keysAll : List (Sh T) → List T
  | [] => []
  | c :: cs => c.keys ++ keysAll cs

/-- The children of the nodes of a list. -/
def subsAll : List (Sh T) → List (Sh T)
  | [] => []
  | c :: cs => c.subs ++ subsAll cs

/-- The values of the nodes of a list and of their descendants. -/
def toListAll : List (Sh T) → List T
  | [] => []
  | c :: cs => c.toList ++ toListAll cs

/-- The nodes `d` levels below the nodes of a list. -/
def levelSh : Nat → List (Sh T) → List (Sh T)
  | 0, cs => cs
  | d + 1, cs => levelSh d (subsAll cs)

/-- The keys of `n` levels of nodes, level after level. -/
def byDepthSh : List (Sh T) → Nat → List T
  | _, 0 => []
  | cs, n + 1 => keysAll cs ++ byDepthSh (subsAll cs) n

/-- The shapes of a list describe nodes of the heap. -/
def NodesOk (h : Heap T) (cs : List (Sh T)) : Prop :=
  ∀ c ∈ cs, c.ptr = some c.addr ∧ ∃ p, RepAt h c p c.addr

/-- The node at `c` is designated by a child link of an element of the node at `a`. -/
def Link (h : Heap T) (a c : Nat) : Prop :=
  ∃ n k e, h[a]? = some n ∧ (k, e) ∈ n.elements ∧ (e.leftChild = some c ∨ e.rightChild = some c)

/-- The node at `x` is the node at `a` or one of its descendants. -/
inductive Reach (h : Heap T) : Nat → Nat → Prop where
  | refl (a : Nat) : Reach h a a
  | step (a c x : Nat) : Link h a c → Reach h c x → Reach h a x

/-- The change made by an insertion that stored `v`: either `v` was added to the map of the
node `x`, which had spare capacity, or a node holding only `v` was created and attached to
a null child link of an element of the full node `x`. -/
def Stored [LinearOrder T] (cap : Nat) (v : T) (h : Heap T) (x : Nat) (n : Node T)
    (h' : Heap T) (it : btree_iterator) : Prop :=
  h[x]? = some n ∧ (∀ y, y ≠ x → y < h.length → h'[y]? = h[y]?) ∧
  ((h'.length = h.length ∧ (n.elements.length < cap ∨ n.elements = []) ∧
      h'[x]? = some ⟨n.parent, (mapInsert n.elements v ⟨v, none, none⟩).1⟩ ∧
      it = ⟨x, (mapInsert n.elements v ⟨v, none, none⟩).2.1, false⟩) ∨
   (h'.length = h.length + 1 ∧ cap ≤ n.elements.length ∧
      h'[h.length]? = some ⟨some x, [(v, ⟨v, none, none⟩)]⟩ ∧ it = ⟨h.length, 0, false⟩ ∧
      ∃ i k e, n.elements[i]? = some (k, e) ∧
        ((e.leftChild = none ∧ h'[x]? = some ⟨n.parent, setLeft n.elements i (some h.length)⟩) ∨
         (e.rightChild = none ∧
            h'[x]? = some ⟨n.parent, setRight n.elements i (some h.length)⟩))))

/-- The invariants of one node and everything below it. -/
structure SubInv [LinearOrder T] (cap : Nat) (h : Heap T) (x : Nat) (c : Sh T) (n : Node T) :
    Prop where
  node : h[x]? = some n
  rep : Rep h c x n.elements
  rightOk : c.rightOk
  capOk : c.capOk cap
  nodeFull : c.nodeFull cap
  sorted : c.toList.Pairwise (· < ·)
  nodup : (x :: c.kids).Nodup

/-- The call of `recursiveInsert` for `v` on the full node `x` goes through the link `link`
of one of its cells: when the link designates a node `c`, the call is the call on `c`, which
returns and stores `v` in the subtree of `c`; when the link is null, the call creates the
node `h.length` with parent `x` and the sole element `v` and leaves `linked` as the contents
of `x`. -/
def Routed [LinearOrder T] (cap : Nat) (v : T) (h : Heap T) (x : Nat) (link : Option Nat)
    (linked : Node T) : Prop :=
  (∀ c, link = some c →
    (∀ f, recursiveInsert cap v (f + 1) h x = recursiveInsert cap v f h c) ∧
    (∃ r, recursiveInsert cap v h.length h c = some r) ∧
    ∀ f r, recursiveInsert cap v f h c = some r →
      r.2.2 = true ∧ v ∈ valuesFrom r.1.length r.1 c) ∧
  (link = none → ∀ f, recursiveInsert cap v (f + 2) h x =
    some (((h ++ [Node.mk (some x) []]).set x linked).set h.length
      ⟨some x, [(v, ⟨v, none, none⟩)]⟩, ⟨h.length, 0, false⟩, true))

/-- The parent of the root is null, and every other node of the tree is designated by a link
of a node of the tree, which is its parent, and holds an element. -/
def ParentsOk (h : Heap T) (t : btree) : Prop :=
  (∃ n, h[t.root]? = some n ∧ n.parent = none) ∧
  ∀ c ∈ treeNodes h t, c ≠ t.root →
    ∃ x m, x ∈ treeNodes h t ∧ Link h x c ∧ h[c]? = some m ∧ m.parent = some x ∧
      m.elements ≠ []

/-- Below `node` no node is reachable from its own children, and the keys of every node are
strictly ascending. -/
def Descends [LinearOrder T] (h : Heap T) (node : Nat) : Prop :=
  ∀ a, Reach h node a →
    (∀ c, Link h a c → ¬ Reach h c a) ∧
    ∀ n, h[a]? = some n → (n.elements.map Prod.fst).Pairwise (· < ·)

/-! ## Shapes and the representation predicate -/

theorem rep_E (h : Heap T) (a : Nat) (es : List (T × Element T)) :
    Rep h .E a es ↔ es = [] := by
  simp [Rep]

theorem rep_C (h : Heap T) (a : Nat) (l : Sh T) (k : T) (r rest : Sh T) (self : Nat)
    (es : List (T × Element T)) :
    Rep h (.C a l k r rest) self es ↔
      a = self ∧ ∃ e es', es = (k, e) :: es' ∧ e.value = k ∧
        e.leftChild = l.ptr ∧ e.rightChild = r.ptr ∧
        Child h l self ∧ Child h r self ∧ Rep h rest self es' := by
  simp [Rep, Child, RepAt]

theorem child_E (h : Heap T) (a : Nat) : Child h (.E : Sh T) a := by
  intro b hb
  simp [Sh.ptr] at hb

theorem child_C (h : Heap T) (b : Nat) (l : Sh T) (k : T) (r rest : Sh T) (self : Nat) :
    Child h (.C b l k r rest) self ↔ RepAt h (.C b l k r rest) (some self) b := by
  simp [Child, Sh.ptr]

/-- Every node below a represented shape is allocated. -/
theorem rep_kids_lt (h : Heap T) : ∀ (s : Sh T) (a : Nat) (es : List (T × Element T)),
    Rep h s a es → ∀ x ∈ s.kids, x < h.length := by
  intro s
  induction s with
  | E => intro a es _ x hx; simp [Sh.kids] at hx
  | C a0 l k r rest ihl ihr ihrest =>
    intro a es hrep x hx
    rw [rep_C] at hrep
    obtain ⟨_, e, es', _, _, _, _, hl, hr, hrest⟩ := hrep
    simp only [Sh.kids, List.mem_append] at hx
    rcases hx with (hx | hx) | (hx | hx) | hx
    · cases l with
      | E => simp [Sh.ptr] at hx
      | C b l1 k1 r1 rest1 =>
        simp [Sh.ptr] at hx
        subst hx
        obtain ⟨n, hn, _, _⟩ := hl x rfl
        exact (List.getElem?_eq_some.mp hn).1
    · cases l with
      | E => simp [Sh.kids] at hx
      | C b l1 k1 r1 rest1 =>
        obtain ⟨n, _, _, hrep1⟩ := hl b rfl
        exact ihl b n.elements hrep1 x hx
    · cases r with
      | E => simp [Sh.ptr] at hx
      | C b l1 k1 r1 rest1 =>
        simp [Sh.ptr] at hx
        subst hx
        obtain ⟨n, hn, _, _⟩ := hr x rfl
        exact (List.getElem?_eq_some.mp hn).1
    · cases r with
      | E => simp [Sh.kids] at hx
      | C b l1 k1 r1 rest1 =>
        obtain ⟨n, _, _, hrep1⟩ := hr b rfl
        exact ihr b n.elements hrep1 x hx
    · exact ihrest a es' hrest x hx

/-- Frame rule: a representation only depends on the nodes below the cells. -/
theorem rep_frame (h h' : Heap T) : ∀ (s : Sh T) (a : Nat) (es : List (T × Element T)),
    Rep h s a es → (∀ x ∈ s.kids, h'[x]? = h[x]?) → Rep h' s a es := by
  intro s
  induction s with
  | E => intro a es hrep _; simpa [Rep] using hrep
  | C a0 l k r rest ihl ihr ihrest =>
    intro a es hrep hfr
    rw [rep_C] at hrep ⊢
    obtain ⟨ha, e, es', hes, hv, hlp, hrp, hl, hr, hrest⟩ := hrep
    refine ⟨ha, e, es', hes, hv, hlp, hrp, ?_, ?_, ?_⟩
    · intro b hb
      obtain ⟨n, hn, hp, hrep1⟩ := hl b hb
      refine ⟨n, ?_, hp, ?_⟩
      · rw [hfr b (by simp [Sh.kids, hb])]; exact hn
      · exact ihl b n.elements hrep1 (fun x hx => hfr x (by simp [Sh.kids, hx]))
    · intro b hb
      obtain ⟨n, hn, hp, hrep1⟩ := hr b hb
      refine ⟨n, ?_, hp, ?_⟩
      · rw [hfr b (by simp [Sh.kids, hb])]; exact hn
      · exact ihr b n.elements hrep1 (fun x hx => hfr x (by simp [Sh.kids, hx]))
    · exact ihrest a es' hrest (fun x hx => hfr x (by simp [Sh.kids, hx]))

theorem child_frame (h h' : Heap T) (s : Sh T) (a : Nat) (hc : Child h s a)
    (hfr : ∀ x ∈ s.ptr.toList ++ s.kids, h'[x]? = h[x]?) : Child h' s a := by
  intro b hb
  obtain ⟨n, hn, hp, hrep⟩ := hc b hb
  refine ⟨n, ?_, hp, rep_frame h h' s b n.elements hrep (fun x hx => hfr x (by simp [hx]))⟩
  rw [hfr b (by simp [hb])]; exact hn

/-- The keys of the represented cells are the keys of the shape. -/
theorem rep_keys (h : Heap T) : ∀ (s : Sh T) (a : Nat) (es : List (T × Element T)),
    Rep h s a es → es.map Prod.fst = s.keys := by
  intro s
  induction s with
  | E => intro a es hrep; simp [Rep] at hrep; simp [hrep, Sh.keys]
  | C a0 l k r rest _ _ ihrest =>
    intro a es hrep
    rw [rep_C] at hrep
    obtain ⟨_, e, es', hes, _, _, _, _, _, hrest⟩ := hrep
    simp [hes, Sh.keys, ihrest a es' hrest]

theorem rep_length (h : Heap T) (s : Sh T) (a : Nat) (es : List (T × Element T))
    (hrep : Rep h s a es) : es.length = s.keys.length := by
  rw [← rep_keys h s a es hrep, List.length_map]

theorem keys_sublist : ∀ (s : Sh T), s.keys.Sublist s.toList := by
  intro s
  induction s with
  | E => simp [Sh.keys, Sh.toList]
  | C a0 l k r rest _ _ ihrest =>
    simp only [Sh.keys, Sh.toList]
    refine List.Sublist.trans ?_ (List.sublist_append_right _ _)
    exact List.Sublist.cons₂ k (List.Sublist.trans ihrest (List.sublist_append_right _ _))

theorem keys_subset (s : Sh T) : ∀ x ∈ s.keys, x ∈ s.toList :=
  fun _ hx => (keys_sublist s).subset hx

theorem height_le_kids : ∀ (s : Sh T), s.height ≤ s.kids.length + 1 := by
  intro s
  induction s with
  | E => simp [Sh.height]
  | C a0 l k r rest ihl ihr ihrest =>
    simp only [Sh.height, Sh.kids, List.length_append]
    have h1 : l.height ≤ l.ptr.toList.length + l.kids.length := by
      cases l with
      | E => simp [Sh.height]
      | C b l1 k1 r1 rest1 => simpa [Sh.ptr, Nat.add_comm] using ihl
    have h2 : r.height ≤ r.ptr.toList.length + r.kids.length := by
      cases r with
      | E => simp [Sh.height]
      | C b l1 k1 r1 rest1 => simpa [Sh.ptr, Nat.add_comm] using ihr
    omega

theorem nodup_bounded_length (l : List Nat) (n : Nat) (hnd : l.Nodup)
    (hlt : ∀ x ∈ l, x < n) : l.length ≤ n := by
  have hsub : l ⊆ List.range n := fun x hx => List.mem_range.mpr (hlt x hx)
  have := (List.subperm_of_subset hnd hsub).length_le
  simpa using this

/-- A represented shape without sharing is no higher than the heap is long. -/
theorem height_le_heap (h : Heap T) (s : Sh T) (a : Nat) (es : List (T × Element T))
    (hrep : Rep h s a es) (ha : a < h.length) (hnd : (a :: s.kids).Nodup) :
    s.height ≤ h.length := by
  have h1 := height_le_kids s
  have h2 := nodup_bounded_length (a :: s.kids) h.length hnd (by
    intro x hx
    rcases List.mem_cons.mp hx with hx | hx
    · exact hx ▸ ha
    · exact rep_kids_lt h s a es hrep x hx)
  simp at h2
  omega

/-! ## The element map -/

theorem insertScan_append [LinearOrder T] (elem : T) :
    ∀ (pre suf : List (T × Element T)) (i : Nat), (∀ x ∈ pre, x.1 < elem) → suf ≠ [] →
      insertScan elem (pre ++ suf) i = insertScan elem suf (i + pre.length) := by
  intro pre
  induction pre with
  | nil => intro suf i _ _; simp
  | cons p pre ih =>
    intro suf i hpre hsuf
    obtain ⟨k, e⟩ := p
    have hk : k < elem := hpre (k, e) (by simp)
    have h1 : ¬ elem = k := ne_of_gt hk
    have h2 : ¬ elem < k := not_lt_of_gt hk
    have h3 : (pre ++ suf).isEmpty = false := by
      cases pre <;> cases suf <;> simp_all
    have hstep : insertScan elem ((k, e) :: (pre ++ suf)) i
        = insertScan elem (pre ++ suf) (i + 1) := by
      simp [insertScan, h1, h2, h3]
    rw [List.cons_append, hstep, ih suf (i + 1) (fun x hx => hpre x (by simp [hx])) hsuf]
    congr 1
    simp only [List.length_cons]
    omega

theorem insertScan_not_mem [LinearOrder T] (elem : T) :
    ∀ (es : List (T × Element T)) (i : Nat), elem ∉ es.map Prod.fst →
      ∀ j, insertScan elem es i ≠ .matched j := by
  intro es
  induction es with
  | nil => intro i _ j; simp [insertScan]
  | cons p es ih =>
    intro i hmem j
    obtain ⟨k, e⟩ := p
    simp only [List.map_cons, List.mem_cons, not_or] at hmem
    simp only [insertScan, hmem.1, if_false]
    split
    · simp
    · exact ih (i + 1) hmem.2 j

theorem insertScan_mem [LinearOrder T] (elem : T) :
    ∀ (es : List (T × Element T)) (i : Nat), (es.map Prod.fst).Pairwise (· < ·) →
      elem ∈ es.map Prod.fst →
      ∃ j e, insertScan elem es i = .matched (i + j) ∧ es[j]? = some (elem, e) := by
  intro es
  induction es with
  | nil => intro i _ hmem; simp at hmem
  | cons p es ih =>
    intro i hs hmem
    obtain ⟨k, e⟩ := p
    simp only [List.map_cons, List.pairwise_cons] at hs
    by_cases hk : elem = k
    · exact ⟨0, e, by simp [insertScan, hk], by simp [hk]⟩
    · have hmem' : elem ∈ es.map Prod.fst := by
        simp only [List.map_cons, List.mem_cons] at hmem
        rcases hmem with h | h
        · exact absurd h hk
        · exact h
      have hlt : k < elem := hs.1 elem hmem'
      have hne : es.isEmpty = false := by
        cases es with
        | nil => simp at hmem'
        | cons _ _ => rfl
      obtain ⟨j, e', hj, hget⟩ := ih (i + 1) hs.2 hmem'
      refine ⟨j + 1, e', ?_, by simpa using hget⟩
      simp only [insertScan, hk, if_false, not_lt_of_gt hlt, hne, false_or, Bool.false_eq_true]
      rw [hj]
      congr 1
      omega

theorem mapInsert_keys_perm [LinearOrder T] (k : T) (e : Element T) :
    ∀ (es : List (T × Element T)), k ∉ es.map Prod.fst →
      ((mapInsert es k e).1.map Prod.fst).Perm (k :: es.map Prod.fst) := by
  intro es
  induction es with
  | nil => intro _; simp [mapInsert]
  | cons p es ih =>
    intro hmem
    obtain ⟨k', e'⟩ := p
    simp only [List.map_cons, List.mem_cons, not_or] at hmem
    simp only [mapInsert]
    split
    · simp
    · split
      · simp only [List.map_cons]
        exact ((ih hmem.2).cons k').trans (List.Perm.swap k k' _)
      · rename_i h1 h2
        exact absurd (le_antisymm (not_lt.mp h2) (not_lt.mp h1)) hmem.1

theorem mapInsert_mem_keys [LinearOrder T] (k : T) (e : Element T) :
    ∀ (es : List (T × Element T)) (x : T),
      x ∈ (mapInsert es k e).1.map Prod.fst → x = k ∨ x ∈ es.map Prod.fst := by
  intro es
  induction es with
  | nil => intro x hx; simpa [mapInsert] using hx
  | cons p es ih =>
    intro x hx
    obtain ⟨k', e'⟩ := p
    simp only [mapInsert] at hx
    split at hx
    · simpa using hx
    · split at hx
      · simp only [List.map_cons, List.mem_cons] at hx ⊢
        rcases hx with hx | hx
        · exact Or.inr (Or.inl hx)
        · rcases ih x hx with h | h
          · exact Or.inl h
          · exact Or.inr (Or.inr h)
      · exact Or.inr hx

theorem mapInsert_sorted [LinearOrder T] (k : T) (e : Element T) :
    ∀ (es : List (T × Element T)), (es.map Prod.fst).Pairwise (· < ·) →
      ((mapInsert es k e).1.map Prod.fst).Pairwise (· < ·) := by
  intro es
  induction es with
  | nil => intro _; simp [mapInsert]
  | cons p es ih =>
    intro hs
    obtain ⟨k', e'⟩ := p
    simp only [List.map_cons, List.pairwise_cons] at hs
    simp only [mapInsert]
    split
    · rename_i hlt
      simp only [List.map_cons, List.pairwise_cons, List.mem_cons]
      refine ⟨?_, hs.1, hs.2⟩
      intro x hx
      rcases hx with hx | hx
      · exact hx ▸ hlt
      · exact lt_trans hlt (hs.1 x hx)
    · split
      · rename_i hlt
        simp only [List.map_cons, List.pairwise_cons]
        refine ⟨?_, ih hs.2⟩
        intro x hx
        rcases mapInsert_mem_keys k e es x hx with h | h
        · exact h ▸ hlt
        · exact hs.1 x h
      · simpa using hs

theorem mapInsert_flag [LinearOrder T] (k : T) (e : Element T) :
    ∀ (es : List (T × Element T)), k ∉ es.map Prod.fst → (mapInsert es k e).2.2 = true := by
  intro es
  induction es with
  | nil => intro _; simp [mapInsert]
  | cons p es ih =>
    intro hmem
    obtain ⟨k', e'⟩ := p
    simp only [List.map_cons, List.mem_cons, not_or] at hmem
    simp only [mapInsert]
    split
    · rfl
    · split
      · exact ih hmem.2
      · rename_i h1 h2
        exact absurd (le_antisymm (not_lt.mp h2) (not_lt.mp h1)) hmem.1

theorem mapInsert_get [LinearOrder T] (k : T) (e : Element T) :
    ∀ (es : List (T × Element T)), (mapInsert es k e).2.2 = true →
      (mapInsert es k e).1[(mapInsert es k e).2.1]? = some (k, e) := by
  intro es
  induction es with
  | nil => intro _; simp [mapInsert]
  | cons p es ih =>
    intro hflag
    obtain ⟨k', e'⟩ := p
    simp only [mapInsert] at hflag ⊢
    split
    · simp
    · split
      · rename_i h1 h2
        simp only [h1, h2, if_false, if_true] at hflag
        simpa using ih hflag
      · rename_i h1 h2
        simp [h1, h2] at hflag

theorem mapInsert_leaf [LinearOrder T] (k : T) :
    ∀ (es : List (T × Element T)), LeafElems es →
      LeafElems (mapInsert es k ⟨k, none, none⟩).1 := by
  intro es
  induction es with
  | nil => intro _ p hp; simp [mapInsert] at hp; simp [hp]
  | cons p es ih =>
    intro hl
    obtain ⟨k', e'⟩ := p
    simp only [mapInsert]
    split
    · intro q hq
      simp only [List.mem_cons] at hq
      rcases hq with hq | hq | hq
      · simp [hq]
      · exact hl q (by simp [hq])
      · exact hl q (by simp [hq])
    · split
      · intro q hq
        simp only [List.mem_cons] at hq
        rcases hq with hq | hq
        · exact hl q (by simp [hq])
        · exact ih (fun x hx => hl x (by simp [hx])) q hq
      · exact hl

theorem rep_leafy (h : Heap T) : ∀ (s : Sh T) (a : Nat) (es : List (T × Element T)),
    Rep h s a es → s.leafy → LeafElems es ∧ s = Sh.chain a (es.map Prod.fst) := by
  intro s
  induction s with
  | E =>
    intro a es hrep _
    simp [Rep] at hrep
    subst hrep
    exact ⟨by intro p hp; simp at hp, by simp [Sh.chain]⟩
  | C a0 l k r rest _ _ ihrest =>
    intro a es hrep hleaf
    rw [rep_C] at hrep
    obtain ⟨ha, e, es', hes, hv, hlp, hrp, _, _, hrest⟩ := hrep
    obtain ⟨hl, hr, hleaf'⟩ := hleaf
    subst hl hr hes ha
    obtain ⟨h1, h2⟩ := ihrest a0 es' hrest hleaf'
    constructor
    · intro p hp
      simp only [List.mem_cons] at hp
      rcases hp with hp | hp
      · subst hp
        cases e
        simp_all [Sh.ptr]
      · exact h1 p hp
    · simp only [List.map_cons, Sh.chain]
      rw [← h2]

theorem rep_chain (h : Heap T) (a : Nat) : ∀ (es : List (T × Element T)),
    LeafElems es → Rep h (Sh.chain a (es.map Prod.fst)) a es := by
  intro es
  induction es with
  | nil => intro _; simp [Sh.chain, Rep]
  | cons p es ih =>
    intro hl
    obtain ⟨k, e⟩ := p
    have he : e = ⟨k, none, none⟩ := hl (k, e) (by simp)
    subst he
    simp only [List.map_cons, Sh.chain]
    rw [rep_C]
    refine ⟨rfl, _, es, rfl, rfl, rfl, rfl, child_E h a, child_E h a, ?_⟩
    exact ih (fun x hx => hl x (by simp [hx]))

theorem chain_toList (a : Nat) : ∀ (ks : List T), (Sh.chain a ks).toList = ks := by
  intro ks
  induction ks with
  | nil => rfl
  | cons k ks ih => simp [Sh.chain, Sh.toList, ih]

theorem chain_keys (a : Nat) : ∀ (ks : List T), (Sh.chain a ks).keys = ks := by
  intro ks
  induction ks with
  | nil => rfl
  | cons k ks ih => simp [Sh.chain, Sh.keys, ih]

theorem chain_kids (a : Nat) : ∀ (ks : List T), (Sh.chain a ks).kids = [] := by
  intro ks
  induction ks with
  | nil => rfl
  | cons k ks ih => simp [Sh.chain, Sh.kids, Sh.ptr, ih]

theorem chain_leafy (a : Nat) : ∀ (ks : List T), (Sh.chain a ks).leafy := by
  intro ks
  induction ks with
  | nil => trivial
  | cons k ks ih => exact ⟨rfl, rfl, ih⟩

theorem chain_rightOk (a : Nat) : ∀ (ks : List T), (Sh.chain a ks).rightOk := by
  intro ks
  induction ks with
  | nil => trivial
  | cons k ks ih => exact ⟨Or.inl rfl, trivial, trivial, ih⟩

theorem chain_capOk (cap a : Nat) : ∀ (ks : List T), (Sh.chain a ks).capOk cap := by
  intro ks
  induction ks with
  | nil => trivial
  | cons k ks ih => exact ⟨Or.inl trivial, trivial, Or.inl trivial, trivial, ih⟩

theorem setLeft_append (pre : List (T × Element T)) (k : T) (e : Element T)
    (es : List (T × Element T)) (c : Option Nat) :
    setLeft (pre ++ (k, e) :: es) pre.length c =
      pre ++ (k, { e with leftChild := c }) :: es := by
  induction pre with
  | nil => simp [setLeft]
  | cons p pre ih =>
    simp only [setLeft] at ih
    simp [setLeft, ih]

theorem setRight_append (pre : List (T × Element T)) (k : T) (e : Element T)
    (es : List (T × Element T)) (c : Option Nat) :
    setRight (pre ++ (k, e) :: es) pre.length c =
      pre ++ (k, { e with rightChild := c }) :: es := by
  induction pre with
  | nil => simp [setRight]
  | cons p pre ih =>
    simp only [setRight] at ih
    simp [setRight, ih]

/-! ## Insertion -/

theorem rep_nil (h : Heap T) (s : Sh T) (a : Nat) (hrep : Rep h s a []) : s = .E := by
  cases s with
  | E => rfl
  | C a0 l k r rest =>
    rw [rep_C] at hrep
    obtain ⟨_, e, es', hes, _⟩ := hrep
    simp at hes

theorem leafElems_value (es : List (T × Element T)) (hl : LeafElems es) (j : Nat) (k : T)
    (e : Element T) (hj : es[j]? = some (k, e)) : e.value = k := by
  have hmem : (k, e) ∈ es := List.getElem?_mem hj
  have := hl (k, e) hmem
  simp at this
  rw [this]

/-- Insertion into a childless node that is empty or has spare capacity. -/
theorem ins_direct [LinearOrder T] (cap : Nat) (elem : T) (fuel : Nat) (h : Heap T) (a : Nat)
    (par : Option Nat) (es : List (T × Element T)) (s : Sh T)
    (hn : h[a]? = some ⟨par, es⟩) (hrep : Rep h s a es) (hleaf : s.leafy)
    (hsorted : s.toList.Pairwise (· < ·)) (hroom : es.length < cap ∨ es = []) :
    InsPost cap elem s h a par [] (recursiveInsert cap elem (fuel + 1) h a) := by
  obtain ⟨hle, hs⟩ := rep_leafy h s a es hrep hleaf
  have htl : s.toList = es.map Prod.fst := by rw [hs, chain_toList]
  have hks : (es.map Prod.fst).Pairwise (· < ·) := htl ▸ hsorted
  have ha : a < h.length := (List.getElem?_eq_some.mp hn).1
  by_cases hmem : elem ∈ es.map Prod.fst
  · obtain ⟨j, e, hscan, hget⟩ := insertScan_mem elem es 0 hks hmem
    refine ⟨h, ⟨a, 0 + j, false⟩, false, ?_, ?_, Or.inl ⟨rfl, rfl, htl ▸ hmem⟩⟩
    · simp only [recursiveInsert, hn, hscan]
    · have := leafElems_value es hle j elem e hget
      simp [deref, hn, hget, this]
  · have hres : recursiveInsert cap elem (fuel + 1) h a = some (insertHere h a ⟨par, es⟩ elem) := by
      simp only [recursiveInsert, hn]
      cases hsc : insertScan elem es 0 with
      | fellThrough => rfl
      | matched j => exact absurd hsc (insertScan_not_mem elem es 0 hmem j)
      | here i e f =>
        have hlt : es.length < cap := by
          rcases hroom with h1 | h1
          · exact h1
          · subst h1; simp [insertScan] at hsc
        simp [hlt]
    have hflag := mapInsert_flag elem ⟨elem, none, none⟩ es hmem
    have hget := mapInsert_get elem ⟨elem, none, none⟩ es hflag
    have hle' := mapInsert_leaf elem es hle
    refine ⟨_, _, _, hres, ?_, Or.inr ⟨rfl, htl ▸ hmem, ?_⟩⟩
    · simp [deref, insertHere, List.getElem?_set, ha, hget]
    · refine ⟨Sh.chain a ((mapInsert es elem ⟨elem, none, none⟩).1.map Prod.fst),
        (mapInsert es elem ⟨elem, none, none⟩).1, ?_, ?_, ?_, ?_, ?_, ?_, ?_, ?_, ?_, ?_, ?_⟩
      · simp [List.getElem?_set, ha]
      · exact rep_chain _ a _ hle'
      · exact chain_rightOk a _
      · exact chain_capOk cap a _
      · rw [chain_toList]; exact mapInsert_sorted elem _ es hks
      · rw [chain_toList, htl]; exact mapInsert_keys_perm elem _ es hmem
      · exact Or.inr ⟨rfl, chain_leafy a _⟩
      · simp [chain_kids]
      · simp [chain_kids]
      · simp
      · intro x _ hxa _
        simp [List.getElem?_set, Ne.symm hxa]

theorem mid_insert [LinearOrder T] (elem : T) (A B B' C : List T)
    (hs : (A ++ (B ++ C)).Pairwise (· < ·)) (hp : B'.Perm (elem :: B))
    (hB' : B'.Pairwise (· < ·)) (hA : ∀ x ∈ A, x < elem) (hC : ∀ y ∈ C, elem < y) :
    (A ++ (B' ++ C)).Pairwise (· < ·) ∧ (A ++ (B' ++ C)).Perm (elem :: (A ++ (B ++ C))) ∧
      (elem ∉ B → elem ∉ A ++ (B ++ C)) := by
  rw [List.pairwise_append, List.pairwise_append] at hs
  obtain ⟨hA1, ⟨hB1, hC1, hBC⟩, hABC⟩ := hs
  refine ⟨?_, ?_, ?_⟩
  · rw [List.pairwise_append, List.pairwise_append]
    refine ⟨hA1, ⟨hB', hC1, ?_⟩, ?_⟩
    · intro x hx y hy
      rcases List.mem_cons.mp (hp.mem_iff.mp hx) with h1 | h1
      · exact h1 ▸ hC y hy
      · exact hBC x h1 y hy
    · intro x hx y hy
      rcases List.mem_append.mp hy with h1 | h1
      · rcases List.mem_cons.mp (hp.mem_iff.mp h1) with h2 | h2
        · exact h2 ▸ hA x hx
        · exact hABC x hx y (List.mem_append.mpr (Or.inl h2))
      · exact hABC x hx y (List.mem_append.mpr (Or.inr h1))
  · have h1 : (B' ++ C).Perm (elem :: (B ++ C)) := hp.append_right C
    have h2 : (A ++ (B' ++ C)).Perm (A ++ elem :: (B ++ C)) := h1.append_left A
    exact h2.trans List.perm_middle
  · intro hB hmem
    rcases List.mem_append.mp hmem with h1 | h1
    · exact lt_irrefl _ (hA elem h1)
    · rcases List.mem_append.mp h1 with h2 | h2
      · exact hB h2
      · exact lt_irrefl _ (hC elem h2)

theorem nodup_replace (n a : Nat) (P Q Q' R : List Nat)
    (hnd : (a :: (P ++ (Q ++ R))).Nodup) (hlt : ∀ x ∈ P ++ (Q ++ R), x < n) (ha : a < n)
    (hQ' : Q'.Nodup) (hsub : ∀ x ∈ Q', x ∈ Q ∨ n ≤ x) :
    (a :: (P ++ (Q' ++ R))).Nodup ∧ ∀ x ∈ P ++ (Q' ++ R), x ∈ P ++ (Q ++ R) ∨ n ≤ x := by
  rw [List.nodup_cons, List.nodup_append, List.nodup_append] at hnd
  obtain ⟨haN, hP, ⟨hQ, hR, hQR⟩, hPQR⟩ := hnd
  have hmem : ∀ x ∈ P ++ (Q' ++ R), x ∈ P ++ (Q ++ R) ∨ n ≤ x := by
    intro x hx
    simp only [List.mem_append] at hx ⊢
    rcases hx with h1 | h1 | h1
    · exact Or.inl (Or.inl h1)
    · rcases hsub x h1 with h2 | h2
      · exact Or.inl (Or.inr (Or.inl h2))
      · exact Or.inr h2
    · exact Or.inl (Or.inr (Or.inr h1))
  refine ⟨?_, hmem⟩
  rw [List.nodup_cons, List.nodup_append, List.nodup_append]
  refine ⟨?_, hP, ⟨hQ', hR, ?_⟩, ?_⟩
  · intro hx
    rcases hmem a hx with h1 | h1
    · exact haN h1
    · omega
  · intro x hx hxR
    rcases hsub x hx with h1 | h1
    · exact hQR h1 hxR
    · have := hlt x (by simp [hxR]); omega
  · intro x hxP hx
    rcases List.mem_append.mp hx with h1 | h1
    · rcases hsub x h1 with h2 | h2
      · exact hPQR hxP (List.mem_append.mpr (Or.inl h2))
      · have := hlt x (by simp [hxP]); omega
    · exact hPQR hxP (List.mem_append.mpr (Or.inr h1))

theorem scan_at [LinearOrder T] (elem : T) (pre : List (T × Element T)) (k : T)
    (e : Element T) (es : List (T × Element T)) (hpre : ∀ x ∈ pre, x.1 < elem) :
    insertScan elem (pre ++ (k, e) :: es) 0 = insertScan elem ((k, e) :: es) pre.length := by
  rw [insertScan_append elem pre _ 0 hpre (by simp)]
  simp

theorem recursiveInsert_matched [LinearOrder T] (cap : Nat) (elem : T) (f : Nat) (h : Heap T)
    (a : Nat) (par : Option Nat) (pre : List (T × Element T)) (e : Element T)
    (es : List (T × Element T)) (hn : h[a]? = some ⟨par, pre ++ (elem, e) :: es⟩)
    (hpre : ∀ x ∈ pre, x.1 < elem) :
    recursiveInsert cap elem (f + 1) h a = some (h, ⟨a, pre.length, false⟩, false) := by
  simp only [recursiveInsert, hn, scan_at elem pre elem e es hpre, insertScan, if_true]

theorem recursiveInsert_here [LinearOrder T] (cap : Nat) (elem : T) (f : Nat) (h : Heap T)
    (a : Nat) (par : Option Nat) (pre : List (T × Element T)) (k : T) (e : Element T)
    (es : List (T × Element T)) (hn : h[a]? = some ⟨par, pre ++ (k, e) :: es⟩)
    (hpre : ∀ x ∈ pre, x.1 < elem) (hk : ¬ elem = k) (hhere : elem < k ∨ es = [])
    (hc : cap ≤ (pre ++ (k, e) :: es).length) :
    recursiveInsert cap elem (f + 1) h a =
      if es = [] ∧ k < elem then
        match e.rightChild with
        | some child => recursiveInsert cap elem f h child
        | none =>
          recursiveInsert cap elem f
            ((h ++ [Node.mk (some a) []]).set a
              ⟨par, pre ++ (k, { e with rightChild := some h.length }) :: es⟩)
            h.length
      else
        match e.leftChild with
        | some child => recursiveInsert cap elem f h child
        | none =>
          recursiveInsert cap elem f
            ((h ++ [Node.mk (some a) []]).set a
              ⟨par, pre ++ (k, { e with leftChild := some h.length }) :: es⟩)
            h.length := by
  have hh : (elem < k ∨ es.isEmpty = true) := by
    rcases hhere with h1 | h1
    · exact Or.inl h1
    · exact Or.inr (by simp [h1])
  have hc' : ¬ (pre ++ (k, e) :: es).length < cap := by omega
  simp only [recursiveInsert, hn, scan_at elem pre k e es hpre, insertScan, hk, if_false, hh,
    if_true, hc']
  simp only [setRight_append, setLeft_append, List.isEmpty_iff]

theorem recursiveInsert_fresh [LinearOrder T] (cap : Nat) (elem : T) (f : Nat) (h : Heap T)
    (c : Nat) (par : Option Nat) (hn : h[c]? = some ⟨par, []⟩) :
    recursiveInsert cap elem (f + 1) h c =
      some (h.set c ⟨par, [(elem, ⟨elem, none, none⟩)]⟩, ⟨c, 0, false⟩, true) := by
  simp only [recursiveInsert, hn, insertScan, insertHere, mapInsert]

theorem kids_C (a : Nat) (l : Sh T) (k : T) (r rest : Sh T) :
    (Sh.C a l k r rest).kids = l.nodes ++ (r.nodes ++ rest.kids) := rfl

theorem child_frame_nodes (h h' : Heap T) (s : Sh T) (a : Nat) (hc : Child h s a)
    (hfr : ∀ x ∈ s.nodes, h'[x]? = h[x]?) : Child h' s a :=
  child_frame h h' s a hc hfr

theorem child_nodes_lt (h : Heap T) (s : Sh T) (a : Nat) (hc : Child h s a) :
    ∀ x ∈ s.nodes, x < h.length := by
  intro x hx
  cases s with
  | E => simp [Sh.nodes, Sh.ptr, Sh.kids] at hx
  | C b l k r rest =>
    obtain ⟨n, hn, _, hrep⟩ := hc b rfl
    simp only [Sh.nodes, Sh.ptr, Option.toList, List.singleton_append, List.mem_cons] at hx
    rcases hx with hx | hx
    · exact hx ▸ (List.getElem?_eq_some.mp hn).1
    · exact rep_kids_lt h _ b n.elements hrep x hx

/-- Rebuild the node after an insertion below the lower child of the scanned cell. -/
theorem recompose_left [LinearOrder T] (cap : Nat) (elem : T) (h h' : Heap T) (a : Nat)
    (par : Option Nat) (pre : List (T × Element T)) (l l' : Sh T) (k : T) (r rest : Sh T)
    (e e' : Element T) (es' : List (T × Element T))
    (hrep : Rep h (.C a l k r rest) a ((k, e) :: es'))
    (hro : (Sh.C a l k r rest).rightOk) (hco : (Sh.C a l k r rest).capOk cap)
    (hso : (Sh.C a l k r rest).toList.Pairwise (· < ·))
    (hc : cap ≤ (pre ++ (k, e) :: es').length)
    (hnd : (a :: (Sh.C a l k r rest).kids).Nodup) (ha : a < h.length)
    (hlt : elem < k)
    (hn' : h'[a]? = some ⟨par, pre ++ (k, e') :: es'⟩)
    (hv' : e'.value = k) (hl' : e'.leftChild = l'.ptr) (hr' : e'.rightChild = r.ptr)
    (hcl' : Child h' l' a)
    (hfr : ∀ x, x < h.length → x ≠ a → x ∉ l.nodes → h'[x]? = h[x]?)
    (hro' : l'.rightOk) (hco' : l'.capOk cap) (hnf' : l'.nodeFull cap)
    (hso' : l'.toList.Pairwise (· < ·)) (hp' : l'.toList.Perm (elem :: l.toList))
    (hnd' : l'.nodes.Nodup) (hsub' : ∀ x ∈ l'.nodes, x ∈ l.nodes ∨ h.length ≤ x)
    (hlen : h.length ≤ h'.length) (hnotin : elem ∉ l.toList) :
    InsNew cap elem (.C a l k r rest) h a par pre h' := by
  have hkl := rep_kids_lt h _ a _ hrep
  rw [rep_C] at hrep
  obtain ⟨_, e0, es0, hes, _, _, _, hcl, hcr, hrest⟩ := hrep
  obtain ⟨he0, hes0⟩ : e = e0 ∧ es' = es0 := by simpa using hes
  subst he0 hes0
  rw [kids_C] at hnd hkl
  have hmid := mid_insert elem [] l.toList l'.toList (k :: (r.toList ++ rest.toList))
    (by simpa [Sh.toList] using hso) hp' hso' (by simp) (by
      intro y hy
      simp only [Sh.toList, List.pairwise_append, List.pairwise_cons] at hso
      rcases List.mem_cons.mp hy with h1 | h1
      · exact h1 ▸ hlt
      · exact lt_trans hlt (hso.2.1.1 y h1))
  have hrepl := nodup_replace h.length a [] l.nodes l'.nodes (r.nodes ++ rest.kids)
    (by simpa using hnd) (by simpa using hkl) ha hnd' hsub'
  have hdis : ∀ x ∈ r.nodes ++ rest.kids, x < h.length ∧ x ≠ a ∧ x ∉ l.nodes := by
    intro x hx
    refine ⟨hkl x (by simp only [List.mem_append] at hx ⊢; tauto), ?_, ?_⟩
    · intro hxa
      subst hxa
      exact (List.nodup_cons.mp hnd).1 (List.mem_append.mpr (Or.inr hx))
    · intro hxl
      exact (List.nodup_append.mp (List.nodup_cons.mp hnd).2).2.2 hxl hx
  refine ⟨hmid.2.2 hnotin, .C a l' k r rest, (k, e') :: es', hn', ?_, ?_, ?_, ?_, ?_, ?_, ?_, ?_,
    hlen, ?_⟩
  · rw [rep_C]
    refine ⟨rfl, e', es', rfl, hv', hl', hr', hcl', ?_, ?_⟩
    · refine child_frame_nodes h h' r a hcr (fun x hx => ?_)
      obtain ⟨h1, h2, h3⟩ := hdis x (List.mem_append.mpr (Or.inl hx))
      exact hfr x h1 h2 h3
    · refine rep_frame h h' rest a es' hrest (fun x hx => ?_)
      obtain ⟨h1, h2, h3⟩ := hdis x (List.mem_append.mpr (Or.inr hx))
      exact hfr x h1 h2 h3
  · exact ⟨hro.1, hro', hro.2.2.1, hro.2.2.2⟩
  · exact ⟨hnf', hco', hco.2.2.1, hco.2.2.2.1, hco.2.2.2.2⟩
  · simpa [Sh.toList] using hmid.1
  · simpa [Sh.toList] using hmid.2.1
  · left
    simpa using hc
  · rw [kids_C]; simpa using hrepl.1
  · rw [kids_C, kids_C]; simpa using hrepl.2
  · intro x hx hxa hxk
    refine hfr x hx hxa (fun hxl => hxk ?_)
    rw [kids_C]
    exact List.mem_append.mpr (Or.inl hxl)

/-- Rebuild the node after an insertion below the upper child of the last cell. -/
theorem recompose_right [LinearOrder T] (cap : Nat) (elem : T) (h h' : Heap T) (a : Nat)
    (par : Option Nat) (pre : List (T × Element T)) (l : Sh T) (k : T) (r r' : Sh T)
    (e e' : Element T)
    (hrep : Rep h (.C a l k r .E) a [(k, e)])
    (hro : (Sh.C a l k r .E).rightOk) (hco : (Sh.C a l k r .E).capOk cap)
    (hso : (Sh.C a l k r .E).toList.Pairwise (· < ·))
    (hc : cap ≤ (pre ++ [(k, e)]).length)
    (hnd : (a :: (Sh.C a l k r .E).kids).Nodup) (ha : a < h.length)
    (hlt : k < elem)
    (hn' : h'[a]? = some ⟨par, pre ++ [(k, e')]⟩)
    (hv' : e'.value = k) (hl' : e'.leftChild = l.ptr) (hr' : e'.rightChild = r'.ptr)
    (hcr' : Child h' r' a)
    (hfr : ∀ x, x < h.length → x ≠ a → x ∉ r.nodes → h'[x]? = h[x]?)
    (hro' : r'.rightOk) (hco' : r'.capOk cap) (hnf' : r'.nodeFull cap)
    (hso' : r'.toList.Pairwise (· < ·)) (hp' : r'.toList.Perm (elem :: r.toList))
    (hnd' : r'.nodes.Nodup) (hsub' : ∀ x ∈ r'.nodes, x ∈ r.nodes ∨ h.length ≤ x)
    (hlen : h.length ≤ h'.length) (hnotin : elem ∉ r.toList) :
    InsNew cap elem (.C a l k r .E) h a par pre h' := by
  have hkl := rep_kids_lt h _ a _ hrep
  rw [rep_C] at hrep
  obtain ⟨_, e0, es0, hes, _, _, _, hcl, hcr, hrest⟩ := hrep
  obtain ⟨he0, hes0⟩ : e = e0 ∧ [] = es0 := by simpa using hes
  subst he0 hes0
  rw [kids_C] at hnd hkl
  have hmid := mid_insert elem (l.toList ++ [k]) r.toList r'.toList []
    (by simpa [Sh.toList] using hso) hp' hso' (by
      intro x hx
      simp only [Sh.toList, List.pairwise_append, List.pairwise_cons] at hso
      rcases List.mem_append.mp hx with h1 | h1
      · exact lt_trans (hso.2.2 x h1 k (by simp)) hlt
      · simp at h1; exact h1 ▸ hlt) (by simp)
  have hrepl := nodup_replace h.length a l.nodes r.nodes r'.nodes []
    (by simpa [Sh.kids] using hnd) (by simpa [Sh.kids] using hkl) ha hnd' hsub'
  have hdis : ∀ x ∈ l.nodes, x < h.length ∧ x ≠ a ∧ x ∉ r.nodes := by
    intro x hx
    refine ⟨hkl x (by simp only [List.mem_append] at hx ⊢; tauto), ?_, ?_⟩
    · intro hxa
      subst hxa
      exact (List.nodup_cons.mp hnd).1 (List.mem_append.mpr (Or.inl hx))
    · intro hxl
      exact (List.nodup_append.mp (List.nodup_cons.mp hnd).2).2.2 hx
        (List.mem_append.mpr (Or.inl hxl))
  refine ⟨?_, .C a l k r' .E, [(k, e')], hn', ?_, ?_, ?_, ?_, ?_, ?_, ?_, ?_, hlen, ?_⟩
  · have := hmid.2.2 hnotin
    simpa [Sh.toList] using this
  · rw [rep_C]
    refine ⟨rfl, e', [], rfl, hv', hl', hr', ?_, hcr', by simp [Rep]⟩
    refine child_frame_nodes h h' l a hcl (fun x hx => ?_)
    obtain ⟨h1, h2, h3⟩ := hdis x hx
    exact hfr x h1 h2 h3
  · exact ⟨Or.inr rfl, hro.2.1, hro', trivial⟩
  · exact ⟨hco.1, hco.2.1, hnf', hco', trivial⟩
  · simpa [Sh.toList] using hmid.1
  · have := hmid.2.1
    simpa [Sh.toList] using this
  · left
    simpa using hc
  · rw [kids_C]; simpa [Sh.kids] using hrepl.1
  · rw [kids_C, kids_C]; simpa [Sh.kids] using hrepl.2
  · intro x hx hxa hxk
    refine hfr x hx hxa (fun hxl => hxk ?_)
    rw [kids_C]
    exact List.mem_append.mpr (Or.inr (List.mem_append.mpr (Or.inl hxl)))

/-- Rebuild the node after the scan moved on to the following cells. -/
theorem recompose_rest [LinearOrder T] (cap : Nat) (elem : T) (h h' : Heap T) (a : Nat)
    (par : Option Nat) (pre : List (T × Element T)) (l : Sh T) (k : T) (r rest : Sh T)
    (e : Element T) (es' : List (T × Element T))
    (hrep : Rep h (.C a l k r rest) a ((k, e) :: es'))
    (hro : (Sh.C a l k r rest).rightOk) (hco : (Sh.C a l k r rest).capOk cap)
    (hso : (Sh.C a l k r rest).toList.Pairwise (· < ·))
    (hnd : (a :: (Sh.C a l k r rest).kids).Nodup) (ha : a < h.length)
    (hlt : k < elem) (hne : es' ≠ [])
    (hnew : InsNew cap elem rest h a par (pre ++ [(k, e)]) h') :
    InsNew cap elem (.C a l k r rest) h a par pre h' := by
  have hkl := rep_kids_lt h _ a _ hrep
  rw [rep_C] at hrep
  obtain ⟨_, e0, es0, hes, hv, hlp, hrp, hcl, hcr, hrest⟩ := hrep
  obtain ⟨he0, hes0⟩ : e = e0 ∧ es' = es0 := by simpa using hes
  subst he0 hes0
  have hrE : r = .E := by
    rcases hro.1 with h1 | h1
    · exact h1
    · subst h1
      simp [Rep] at hrest
      exact absurd hrest hne
  subst hrE
  obtain ⟨hnotin, s', suf', hn', hrep', hro', hco', hso', hp', hcap', hnd', hsub', hlen, hfr⟩ := hnew
  rw [kids_C] at hnd hkl
  have hmid := mid_insert elem (l.toList ++ [k]) rest.toList s'.toList []
    (by simpa [Sh.toList] using hso) hp' hso' (by
      intro x hx
      simp only [Sh.toList, List.pairwise_append, List.pairwise_cons] at hso
      rcases List.mem_append.mp hx with h1 | h1
      · exact lt_trans (hso.2.2 x h1 k (by simp)) hlt
      · simp at h1; exact h1 ▸ hlt) (by simp)
  have hrepl := nodup_replace h.length a l.nodes rest.kids s'.kids []
    (by simpa [Sh.nodes, Sh.kids, Sh.ptr] using hnd)
    (by simpa [Sh.nodes, Sh.kids, Sh.ptr] using hkl) ha (List.nodup_cons.mp hnd').2 hsub'
  have hdis : ∀ x ∈ l.nodes, x < h.length ∧ x ≠ a ∧ x ∉ rest.kids := by
    intro x hx
    refine ⟨hkl x (by simp only [List.mem_append] at hx ⊢; tauto), ?_, ?_⟩
    · intro hxa
      subst hxa
      exact (List.nodup_cons.mp hnd).1 (List.mem_append.mpr (Or.inl hx))
    · intro hxl
      exact (List.nodup_append.mp (List.nodup_cons.mp hnd).2).2.2 hx
        (List.mem_append.mpr (Or.inr hxl))
  refine ⟨?_, .C a l k .E s', (k, e) :: suf', ?_, ?_, ?_, ?_, ?_, ?_, ?_, ?_, ?_, hlen, ?_⟩
  · have := hmid.2.2 hnotin
    simpa [Sh.toList] using this
  · simpa using hn'
  · rw [rep_C]
    refine ⟨rfl, e, suf', rfl, hv, hlp, hrp, ?_, child_E h' a, hrep'⟩
    refine child_frame_nodes h h' l a hcl (fun x hx => ?_)
    obtain ⟨h1, h2, h3⟩ := hdis x hx
    exact hfr x h1 h2 h3
  · exact ⟨Or.inl rfl, hro.2.1, trivial, hro'⟩
  · exact ⟨hco.1, hco.2.1, hco.2.2.1, hco.2.2.2.1, hco'⟩
  · simpa [Sh.toList] using hmid.1
  · have := hmid.2.1
    simpa [Sh.toList] using this
  · left
    rcases hcap' with h1 | h1
    · simpa using h1
    · simp at h1
  · rw [kids_C]; simpa [Sh.nodes, Sh.kids, Sh.ptr] using hrepl.1
  · rw [kids_C, kids_C]; simpa [Sh.nodes, Sh.kids, Sh.ptr] using hrepl.2
  · intro x hx hxa hxk
    refine hfr x hx hxa (fun hxl => hxk ?_)
    rw [kids_C]
    exact List.mem_append.mpr (Or.inr (List.mem_append.mpr (Or.inr hxl)))

theorem rep_C_ptr (h : Heap T) (s : Sh T) (b : Nat) (es : List (T × Element T))
    (hrep : Rep h s b es) (hne : s.toList ≠ []) : s.ptr = some b := by
  cases s with
  | E => simp [Sh.toList] at hne
  | C a l k r rest =>
    rw [rep_C] at hrep
    simp [Sh.ptr, hrep.1]

theorem nodup_nodes_C (b : Nat) (l : Sh T) (k : T) (r rest : Sh T) :
    (Sh.C b l k r rest).nodes = b :: (Sh.C b l k r rest).kids := rfl

/-- An insertion below an existing child, seen from the child link. -/
theorem child_after_insert [LinearOrder T] (cap : Nat) (elem : T) (h h' : Heap T) (a b : Nat)
    (c : Sh T) (hptr : c.ptr = some b)
    (hnew : InsNew cap elem c h b (some a) [] h') :
    ∃ c', c'.ptr = some b ∧ Child h' c' a ∧ c'.rightOk ∧ c'.capOk cap ∧ c'.nodeFull cap ∧
      c'.toList.Pairwise (· < ·) ∧ c'.toList.Perm (elem :: c.toList) ∧ c'.nodes.Nodup ∧
      (∀ x ∈ c'.nodes, x ∈ c.nodes ∨ h.length ≤ x) ∧ h.length ≤ h'.length ∧
      (∀ x, x < h.length → x ≠ b → x ∉ c.kids → h'[x]? = h[x]?) ∧ elem ∉ c.toList := by
  obtain ⟨hnotin, s', suf', hn', hrep', hro', hco', hso', hp', hcap', hnd', hsub', hlen, hfr⟩ := hnew
  have hne : s'.toList ≠ [] := by
    intro h0
    rw [h0] at hp'
    simp at hp'
  have hptr' := rep_C_ptr h' s' b suf' hrep' hne
  refine ⟨s', hptr', ?_, hro', hco', ?_, hso', hp', ?_, ?_, hlen, hfr, hnotin⟩
  · intro b' hb'
    rw [hptr'] at hb'
    obtain rfl : b = b' := by simpa using hb'
    exact ⟨_, hn', rfl, by simpa using hrep'⟩
  · rcases hcap' with h1 | h1
    · right
      rw [← rep_length h' s' b suf' hrep']
      simpa using h1
    · exact Or.inl h1.2
  · simpa [Sh.nodes, hptr'] using hnd'
  · intro x hx
    simp only [Sh.nodes, hptr', hptr, Option.toList, List.singleton_append, List.mem_cons] at hx ⊢
    rcases hx with h1 | h1
    · exact Or.inl (Or.inl h1)
    · rcases hsub' x h1 with h2 | h2
      · exact Or.inl (Or.inr h2)
      · exact Or.inr h2

/-- The heap after `new Node(node)`, the update of the link, and the insertion of `elem`
into the new node. -/
theorem alloc_facts (h : Heap T) (a : Nat) (ha : a < h.length) (A : Node T) (elem : T) :
    let h3 := ((h ++ [Node.mk (some a) []]).set a A).set h.length
      ⟨some a, [(elem, ⟨elem, none, none⟩)]⟩
    ((h ++ [Node.mk (some a) []]).set a A)[h.length]? = some ⟨some a, []⟩ ∧
    h3[a]? = some A ∧ h3[h.length]? = some ⟨some a, [(elem, ⟨elem, none, none⟩)]⟩ ∧
    h.length ≤ h3.length ∧ (∀ x, x < h.length → x ≠ a → h3[x]? = h[x]?) := by
  intro h3
  have hne : a ≠ h.length := Nat.ne_of_lt ha
  refine ⟨?_, ?_, ?_, ?_, ?_⟩
  · simp [List.getElem?_set, hne, List.getElem?_append_right]
  · simp [h3, List.getElem?_set, hne, Nat.ne_of_gt ha, List.length_append]
    omega
  · simp [h3, List.getElem?_set, List.length_append]
  · simp [h3, List.length_append]
  · intro x hx hxa
    simp [h3, List.getElem?_set, Ne.symm hxa, Nat.ne_of_gt hx, List.getElem?_append_left hx]

theorem fresh_child [LinearOrder T] (cap : Nat) (elem : T) (h' : Heap T) (a c : Nat)
    (hn : h'[c]? = some ⟨some a, [(elem, ⟨elem, none, none⟩)]⟩) :
    Child h' (Sh.C c .E elem .E .E) a ∧ (Sh.C c .E elem .E .E : Sh T).rightOk ∧
      (Sh.C c .E elem .E .E : Sh T).capOk cap ∧ (Sh.C c .E elem .E .E : Sh T).nodeFull cap ∧
      (Sh.C c .E elem .E .E : Sh T).toList.Pairwise (· < ·) ∧
      (Sh.C c .E elem .E .E : Sh T).toList.Perm (elem :: (Sh.E : Sh T).toList) ∧
      (Sh.C c .E elem .E .E : Sh T).nodes = [c] := by
  refine ⟨?_, ⟨Or.inl rfl, trivial, trivial, trivial⟩,
    ⟨Or.inl trivial, trivial, Or.inl trivial, trivial, trivial⟩, Or.inl ⟨rfl, rfl, trivial⟩,
    by simp [Sh.toList], by simp [Sh.toList], by simp [Sh.nodes, Sh.ptr, Sh.kids]⟩
  rw [child_C]
  refine ⟨_, hn, rfl, ?_⟩
  rw [rep_C]
  exact ⟨rfl, _, [], rfl, rfl, rfl, rfl, child_E h' c, child_E h' c, by simp [Rep]⟩

theorem node_eta (n : Node T) (p : Option Nat) (hp : n.parent = p) :
    n = ⟨p, [] ++ n.elements⟩ := by
  cases n
  simp at hp
  simp [hp]

theorem nodeFull_pre (h : Heap T) (cap : Nat) (s : Sh T) (b : Nat) (es : List (T × Element T))
    (hrep : Rep h s b es) (hnf : s.nodeFull cap) :
    cap ≤ (([] : List (T × Element T)) ++ es).length ∨
      (([] : List (T × Element T)) = [] ∧ s.leafy) := by
  rcases hnf with h1 | h1
  · exact Or.inr ⟨rfl, h1⟩
  · left
    rw [List.nil_append, rep_length h s b es hrep]
    exact h1

theorem getElem?_append_cons {α : Type} (pre : List α) (x : α) (es : List α) :
    (pre ++ x :: es)[pre.length]? = some x := by
  rw [List.getElem?_append_right (Nat.le_refl _)]
  simp

theorem mem_toList_left (a : Nat) (l : Sh T) (k : T) (r rest : Sh T) (x : T)
    (hx : x ∈ l.toList) : x ∈ (Sh.C a l k r rest).toList := by
  simp only [Sh.toList, List.mem_append, List.mem_cons]
  exact Or.inl hx

theorem mem_toList_right (a : Nat) (l : Sh T) (k : T) (r rest : Sh T) (x : T)
    (hx : x ∈ r.toList) : x ∈ (Sh.C a l k r rest).toList := by
  simp only [Sh.toList, List.mem_append, List.mem_cons]
  exact Or.inr (Or.inr (Or.inl hx))

theorem mem_toList_rest (a : Nat) (l : Sh T) (k : T) (r rest : Sh T) (x : T)
    (hx : x ∈ rest.toList) : x ∈ (Sh.C a l k r rest).toList := by
  simp only [Sh.toList, List.mem_append, List.mem_cons]
  exact Or.inr (Or.inr (Or.inr hx))

theorem deref_at (h : Heap T) (a : Nat) (par : Option Nat) (pre : List (T × Element T))
    (k : T) (e : Element T) (es : List (T × Element T)) (dt : Bool)
    (hn : h[a]? = some ⟨par, pre ++ (k, e) :: es⟩) :
    deref h ⟨a, pre.length, dt⟩ = some e.value := by
  simp only [deref, hn, getElem?_append_cons]

set_option maxHeartbeats 1000000 in
theorem ins_suffix [LinearOrder T] (cap : Nat) (elem : T) :
    ∀ (s : Sh T) (fuel : Nat) (h : Heap T) (a : Nat) (par : Option Nat)
      (pre suf : List (T × Element T)),
      h[a]? = some ⟨par, pre ++ suf⟩ → Rep h s a suf → (∀ x ∈ pre, x.1 < elem) →
      (suf ≠ [] ∨ pre = []) → s.rightOk → s.capOk cap → s.toList.Pairwise (· < ·) →
      (cap ≤ (pre ++ suf).length ∨ (pre = [] ∧ s.leafy)) → (a :: s.kids).Nodup →
      s.height < fuel →
      InsPost cap elem s h a par pre (recursiveInsert cap elem fuel h a) := by
  intro s
  induction s with
  | E =>
    intro fuel h a par pre suf hn hrep hpre hne hro hco hso hfull hnd hfuel
    have hsuf : suf = [] := by simpa [Rep] using hrep
    subst hsuf
    have hp : pre = [] := by
      rcases hne with h1 | h1
      · exact absurd rfl h1
      · exact h1
    subst hp
    obtain ⟨f, rfl⟩ : ∃ f, fuel = f + 1 := ⟨fuel - 1, by omega⟩
    exact ins_direct cap elem f h a par [] .E (by simpa using hn) hrep trivial hso (Or.inr rfl)
  | C a0 l k r rest ihl ihr ihrest =>
    intro fuel h a par pre suf hn hrep hpre hne hro hco hso hfull hnd hfuel
    have hrep0 := hrep
    rw [rep_C] at hrep
    obtain ⟨ha0, e, es', hsuf, hv, hlp, hrp, hcl, hcr, hrest⟩ := hrep
    subst ha0 hsuf
    have ha : a0 < h.length := (List.getElem?_eq_some.mp hn).1
    obtain ⟨f, rfl⟩ : ∃ f, fuel = f + 1 := ⟨fuel - 1, by omega⟩
    have hso1 := hso
    simp only [Sh.toList, List.pairwise_append, List.pairwise_cons] at hso1
    have hnd1 := hnd
    rw [kids_C, List.nodup_cons, List.nodup_append, List.nodup_append] at hnd1
    have hfl : l.height < f ∧ r.height < f ∧ rest.height < f + 1 := by
      simp only [Sh.height, max_lt_iff] at hfuel
      omega
    by_cases hc : cap ≤ (pre ++ (k, e) :: es').length
    swap
    · rcases hfull with h1 | ⟨h1, h2⟩
      · exact absurd h1 hc
      · subst h1
        exact ins_direct cap elem f h a0 par _ _ (by simpa using hn) hrep0 h2 hso
          (Or.inl (by simpa using hc))
    by_cases hk : elem = k
    · subst hk
      refine ⟨h, _, false, recursiveInsert_matched cap elem f h a0 par pre e es' hn hpre, ?_,
        Or.inl ⟨rfl, rfl, by simp [Sh.toList]⟩⟩
      rw [deref_at h a0 par pre elem e es' false hn, hv]
    by_cases hhere : elem < k ∨ es' = []
    · rw [recursiveInsert_here cap elem f h a0 par pre k e es' hn hpre hk hhere hc]
      by_cases hright : es' = [] ∧ k < elem
      · rw [if_pos hright]
        obtain ⟨hes, hlt⟩ := hright
        subst hes
        have hrE : rest = .E := rep_nil h rest a0 hrest
        subst hrE
        cases r with
        | E =>
          simp only [Sh.ptr] at hrp
          simp only [hrp]
          obtain ⟨f', rfl⟩ : ∃ f', f = f' + 1 := ⟨f - 1, by have := hfl.1; omega⟩
          obtain ⟨hf1, hf2, hf3, hf4, hf5⟩ := alloc_facts h a0 ha
            ⟨par, pre ++ [(k, { e with rightChild := some h.length })]⟩ elem
          rw [recursiveInsert_fresh cap elem f' _ h.length (some a0) hf1]
          obtain ⟨hc1, hc2, hc3, hc4, hc5, hc6, hc7⟩ := fresh_child cap elem _ a0 h.length hf3
          refine ⟨_, _, true, rfl, by simp [deref, hf3], Or.inr ⟨rfl, ?_⟩⟩
          exact recompose_right cap elem h _ a0 par pre l k .E (.C h.length .E elem .E .E) e _ hrep0 hro hco hso hc hnd ha
            hlt hf2 hv hlp rfl hc1 (fun x hx hxa _ => hf5 x hx hxa) hc2 hc3 hc4 hc5 hc6
            (by rw [hc7]; simp) (by rw [hc7]; intro x hx; simp at hx; right; omega) hf4
            (by simp [Sh.toList])
        | C b rl rk rr rrest =>
          simp only [Sh.ptr] at hrp
          simp only [hrp]
          obtain ⟨n, hnb, hpb, hrepb⟩ := hcr b rfl
          have hnb' : h[b]? = some ⟨some a0, [] ++ n.elements⟩ := by
            rw [← node_eta n (some a0) hpb]; exact hnb
          have hih := ihr f h b (some a0) [] n.elements hnb' hrepb (by simp) (Or.inr rfl)
            hro.2.2.1 hco.2.2.2.1 hso1.2.1.2.1 (nodeFull_pre h cap _ b _ hrepb hco.2.2.1)
            (by simpa [Sh.nodes, Sh.ptr] using hnd1.2.2.1.1) hfl.2.1
          obtain ⟨h', it, bf, hres, hderef, hcase⟩ := hih
          refine ⟨h', it, bf, hres, hderef, ?_⟩
          rcases hcase with ⟨hb1, hb2, hmem⟩ | ⟨hb1, hnew⟩
          · exact Or.inl ⟨hb1, hb2, mem_toList_right _ _ _ _ _ _ hmem⟩
          · refine Or.inr ⟨hb1, ?_⟩
            obtain ⟨c', hp1, hp2, hp3, hp4, hp5, hp6, hp7, hp8, hp9, hp10, hp11, hp12⟩ :=
              child_after_insert cap elem h h' a0 b (Sh.C b rl rk rr rrest) rfl hnew
            have hfr : ∀ x, x < h.length → x ≠ a0 → x ∉ (Sh.C b rl rk rr rrest).nodes →
                h'[x]? = h[x]? := by
              intro x hx _ hxn
              simp only [Sh.nodes, Sh.ptr, Option.toList, List.singleton_append, List.mem_cons,
                not_or] at hxn
              exact hp11 x hx hxn.1 hxn.2
            have hnin : a0 ∉ (Sh.C b rl rk rr rrest).nodes := fun hx =>
              hnd1.1 (List.mem_append.mpr (Or.inr (List.mem_append.mpr (Or.inl hx))))
            simp only [Sh.nodes, Sh.ptr, Option.toList, List.singleton_append, List.mem_cons,
              not_or] at hnin
            have ha' : h'[a0]? = some ⟨par, pre ++ [(k, e)]⟩ := by
              rw [hp11 a0 ha hnin.1 hnin.2]
              exact hn
            exact recompose_right cap elem h h' a0 par pre l k _ c' e e hrep0 hro hco hso hc hnd
              ha hlt ha' hv hlp (by rw [hrp, hp1]) hp2 (fun x hx hxa hxn => hfr x hx hxa hxn)
              hp3 hp4 hp5 hp6 hp7 hp8 hp9 hp10 hp12
      · rw [if_neg hright]
        have hlt : elem < k := by
          rcases hhere with h1 | h1
          · exact h1
          · rcases lt_trichotomy elem k with h2 | h2 | h2
            · exact h2
            · exact absurd h2 hk
            · exact absurd ⟨h1, h2⟩ hright
        cases l with
        | E =>
          simp only [Sh.ptr] at hlp
          simp only [hlp]
          obtain ⟨f', rfl⟩ : ∃ f', f = f' + 1 := ⟨f - 1, by have := hfl.1; omega⟩
          obtain ⟨hf1, hf2, hf3, hf4, hf5⟩ := alloc_facts h a0 ha
            ⟨par, pre ++ (k, { e with leftChild := some h.length }) :: es'⟩ elem
          rw [recursiveInsert_fresh cap elem f' _ h.length (some a0) hf1]
          obtain ⟨hc1, hc2, hc3, hc4, hc5, hc6, hc7⟩ := fresh_child cap elem _ a0 h.length hf3
          refine ⟨_, _, true, rfl, by simp [deref, hf3], Or.inr ⟨rfl, ?_⟩⟩
          exact recompose_left cap elem h _ a0 par pre .E (.C h.length .E elem .E .E) k r rest e _ es' hrep0 hro hco hso hc
            hnd ha hlt hf2 hv rfl hrp hc1 (fun x hx hxa _ => hf5 x hx hxa) hc2 hc3 hc4 hc5 hc6
            (by rw [hc7]; simp) (by rw [hc7]; intro x hx; simp at hx; right; omega) hf4
            (by simp [Sh.toList])
        | C b ll lk lr lrest =>
          simp only [Sh.ptr] at hlp
          simp only [hlp]
          obtain ⟨n, hnb, hpb, hrepb⟩ := hcl b rfl
          have hnb' : h[b]? = some ⟨some a0, [] ++ n.elements⟩ := by
            rw [← node_eta n (some a0) hpb]; exact hnb
          have hih := ihl f h b (some a0) [] n.elements hnb' hrepb (by simp) (Or.inr rfl)
            hro.2.1 hco.2.1 hso1.1 (nodeFull_pre h cap _ b _ hrepb hco.1)
            (by simpa [Sh.nodes, Sh.ptr] using hnd1.2.1) hfl.1
          obtain ⟨h', it, bf, hres, hderef, hcase⟩ := hih
          refine ⟨h', it, bf, hres, hderef, ?_⟩
          rcases hcase with ⟨hb1, hb2, hmem⟩ | ⟨hb1, hnew⟩
          · exact Or.inl ⟨hb1, hb2, mem_toList_left _ _ _ _ _ _ hmem⟩
          · refine Or.inr ⟨hb1, ?_⟩
            obtain ⟨c', hp1, hp2, hp3, hp4, hp5, hp6, hp7, hp8, hp9, hp10, hp11, hp12⟩ :=
              child_after_insert cap elem h h' a0 b (Sh.C b ll lk lr lrest) rfl hnew
            have hfr : ∀ x, x < h.length → x ≠ a0 → x ∉ (Sh.C b ll lk lr lrest).nodes →
                h'[x]? = h[x]? := by
              intro x hx _ hxn
              simp only [Sh.nodes, Sh.ptr, Option.toList, List.singleton_append, List.mem_cons,
                not_or] at hxn
              exact hp11 x hx hxn.1 hxn.2
            have hnin : a0 ∉ (Sh.C b ll lk lr lrest).nodes := fun hx =>
              hnd1.1 (List.mem_append.mpr (Or.inl hx))
            simp only [Sh.nodes, Sh.ptr, Option.toList, List.singleton_append, List.mem_cons,
              not_or] at hnin
            have ha' : h'[a0]? = some ⟨par, pre ++ (k, e) :: es'⟩ := by
              rw [hp11 a0 ha hnin.1 hnin.2]
              exact hn
            exact recompose_left cap elem h h' a0 par pre _ c' k r rest e e es' hrep0 hro hco hso
              hc hnd ha hlt ha' hv (by rw [hlp, hp1]) hrp hp2
              (fun x hx hxa hxn => hfr x hx hxa hxn) hp3 hp4 hp5 hp6 hp7 hp8 hp9 hp10 hp12
    · have hne' : es' ≠ [] := fun h0 => hhere (Or.inr h0)
      have hlt : k < elem := by
        rcases lt_trichotomy elem k with h2 | h2 | h2
        · exact absurd (Or.inl h2) hhere
        · exact absurd h2 hk
        · exact h2
      have hih := ihrest (f + 1) h a0 par (pre ++ [(k, e)]) es' (by simpa using hn) hrest
        (by
          intro x hx
          rcases List.mem_append.mp hx with h1 | h1
          · exact hpre x h1
          · simp at h1; rw [h1]; exact hlt)
        (Or.inl hne') hro.2.2.2 hco.2.2.2.2 hso1.2.1.2.2.1 (Or.inl (by simpa using hc))
        (by
          rw [List.nodup_cons]
          refine ⟨fun hx => hnd1.1 ?_, hnd1.2.2.1.2.1⟩
          exact List.mem_append.mpr (Or.inr (List.mem_append.mpr (Or.inr hx))))
        hfl.2.2
      obtain ⟨h', it, bf, hres, hderef, hcase⟩ := hih
      refine ⟨h', it, bf, hres, hderef, ?_⟩
      rcases hcase with ⟨hb1, hb2, hmem⟩ | ⟨hb1, hnew⟩
      · exact Or.inl ⟨hb1, hb2, mem_toList_rest _ _ _ _ _ _ hmem⟩
      · exact Or.inr ⟨hb1, recompose_rest cap elem h h' a0 par pre l k r rest e es' hrep0 hro hco
          hso hnd ha hlt hne' hnew⟩

theorem TreeInv.root_lt [LinearOrder T] {cap : Nat} {h : Heap T} {root : Nat} {s : Sh T}
    (hinv : TreeInv cap h root s) : root < h.length := by
  obtain ⟨n, hn, _, _⟩ := hinv.rep
  exact (List.getElem?_eq_some.mp hn).1

theorem TreeInv.height_le [LinearOrder T] {cap : Nat} {h : Heap T} {root : Nat} {s : Sh T}
    (hinv : TreeInv cap h root s) : s.height ≤ h.length := by
  obtain ⟨n, hn, _, hrep⟩ := hinv.rep
  exact height_le_heap h s root n.elements hrep hinv.root_lt hinv.nodup

/-- Specification of `insert` on a tree satisfying the invariant. -/
theorem insert_spec [LinearOrder T] (h : Heap T) (t : btree) (elem : T) (s : Sh T)
    (hinv : TreeInv t.maxNodeElems h t.root s) :
    ∃ h' it b, insert h t elem = some (h', it, b) ∧ deref h' it = some elem ∧
      ((b = false ∧ h' = h ∧ elem ∈ s.toList) ∨
       (b = true ∧ elem ∉ s.toList ∧ ∃ s', TreeInv t.maxNodeElems h' t.root s' ∧
          s'.toList.Perm (elem :: s.toList) ∧ h.length ≤ h'.length ∧
          (∀ x ∈ s'.kids, x ∈ s.kids ∨ h.length ≤ x) ∧
          (∀ x, x < h.length → x ≠ t.root → x ∉ s.kids → h'[x]? = h[x]?))) := by
  obtain ⟨n, hn, hp, hrep⟩ := hinv.rep
  have hn' : h[t.root]? = some ⟨none, [] ++ n.elements⟩ := by
    rw [← node_eta n none hp]; exact hn
  have hpost := ins_suffix t.maxNodeElems elem s (h.length + 1) h t.root none [] n.elements hn'
    hrep (by simp) (Or.inr rfl) hinv.rightOk hinv.capOk hinv.sorted
    (nodeFull_pre h _ s t.root _ hrep hinv.nodeFull) hinv.nodup
    (Nat.lt_succ_of_le hinv.height_le)
  obtain ⟨h', it, b, hres, hderef, hcase⟩ := hpost
  refine ⟨h', it, b, hres, hderef, ?_⟩
  rcases hcase with hc | ⟨hb, hnotin, s', suf', h1, h2, h3, h4, h5, h6, h7, h8, h9, h10, h11⟩
  · exact Or.inl hc
  · refine Or.inr ⟨hb, hnotin, s', ⟨⟨_, h1, rfl, by simpa using h2⟩, h3, h4, ?_, h5, h8⟩, h6, h10, h9,
      h11⟩
    rcases h7 with h7 | h7
    · right
      rw [← rep_length h' s' t.root suf' h2]
      simpa using h7
    · exact Or.inl h7.2

/-- The invariant holds for a freshly constructed tree. -/
theorem construct_inv [LinearOrder T] (cap : Nat) (h : Heap T) :
    TreeInv cap (construct cap h).1 (construct cap h).2.root (.E : Sh T) := by
  refine ⟨⟨⟨none, []⟩, ?_, rfl, by simp [Rep]⟩, trivial, trivial, Or.inl trivial, by simp [Sh.toList],
    by simp [Sh.kids]⟩
  simp [construct]

theorem TreeInv.frame [LinearOrder T] {cap : Nat} {h : Heap T} {root : Nat} {s : Sh T}
    (hinv : TreeInv cap h root s) (h' : Heap T)
    (hfr : ∀ x ∈ root :: s.kids, h'[x]? = h[x]?) : TreeInv cap h' root s := by
  obtain ⟨n, hn, hp, hrep⟩ := hinv.rep
  refine ⟨⟨n, ?_, hp, rep_frame h h' s root n.elements hrep (fun x hx => hfr x (by simp [hx]))⟩,
    hinv.rightOk, hinv.capOk, hinv.nodeFull, hinv.sorted, hinv.nodup⟩
  rw [hfr root (by simp)]
  exact hn

theorem TreeInv.nodes_lt [LinearOrder T] {cap : Nat} {h : Heap T} {root : Nat} {s : Sh T}
    (hinv : TreeInv cap h root s) : ∀ x ∈ root :: s.kids, x < h.length := by
  intro x hx
  obtain ⟨n, hn, _, hrep⟩ := hinv.rep
  rcases List.mem_cons.mp hx with h1 | h1
  · exact h1 ▸ hinv.root_lt
  · exact rep_kids_lt h s root n.elements hrep x h1

/-- Specification of a sequence of inserts. -/
theorem insertAll_spec [LinearOrder T] (t : btree) : ∀ (vs : List T) (h : Heap T) (s : Sh T),
    TreeInv t.maxNodeElems h t.root s →
    ∃ h' flags s', insertAll t vs h = some (h', flags) ∧ TreeInv t.maxNodeElems h' t.root s' ∧
      (∀ x, x ∈ s'.toList ↔ x ∈ s.toList ∨ x ∈ vs) ∧ flags.length = vs.length ∧
      h.length ≤ h'.length ∧
      ((vs ++ s.toList).Nodup → s'.toList.Perm (vs ++ s.toList) ∧ ∀ b ∈ flags, b = true) ∧
      (∀ x ∈ s'.kids, x ∈ s.kids ∨ h.length ≤ x) ∧
      (∀ x, x < h.length → x ≠ t.root → x ∉ s.kids → h'[x]? = h[x]?) := by
  intro vs
  induction vs with
  | nil =>
    intro h s hinv
    exact ⟨h, [], s, rfl, hinv, by simp, rfl, Nat.le_refl _, fun _ => ⟨by simp, by simp⟩,
      fun x hx => Or.inl hx, fun _ _ _ _ => rfl⟩
  | cons v vs ih =>
    intro h s hinv
    obtain ⟨h1, it, b, hres, _, hcase⟩ := insert_spec h t v s hinv
    rcases hcase with ⟨hb, hh, hmem⟩ | ⟨hb, hnotin, s1, hinv1, hperm, hlen, hk1, hf1⟩
    · subst hh
      obtain ⟨h', flags, s', hall, hinv', hmem', hfl, hlen', _, hk', hf'⟩ := ih h1 s hinv
      refine ⟨h', b :: flags, s', ?_, hinv', ?_, by simp [hfl], hlen', ?_, hk', hf'⟩
      · simp [insertAll, hres, hall]
      · intro x
        rw [hmem' x]
        constructor
        · rintro (h2 | h2)
          · exact Or.inl h2
          · exact Or.inr (List.mem_cons_of_mem _ h2)
        · rintro (h2 | h2)
          · exact Or.inl h2
          · rcases List.mem_cons.mp h2 with h3 | h3
            · exact Or.inl (h3 ▸ hmem)
            · exact Or.inr h3
      · intro hnd
        exfalso
        rw [List.cons_append, List.nodup_cons] at hnd
        exact hnd.1 (List.mem_append.mpr (Or.inr hmem))
    · obtain ⟨h', flags, s', hall, hinv', hmem', hfl, hlen', hnd', hk', hf'⟩ := ih h1 s1 hinv1
      refine ⟨h', b :: flags, s', ?_, hinv', ?_, by simp [hfl], Nat.le_trans hlen hlen', ?_, ?_, ?_⟩
      · simp [insertAll, hres, hall]
      · intro x
        rw [hmem' x, hperm.mem_iff]
        simp only [List.mem_cons]
        tauto
      · intro hnd
        have hp2 : (vs ++ s1.toList).Perm (v :: vs ++ s.toList) :=
          (List.Perm.append_left vs hperm).trans List.perm_middle
        obtain ⟨hp3, hfl3⟩ := hnd' (hp2.nodup_iff.mpr hnd)
        refine ⟨hp3.trans hp2, ?_⟩
        intro b' hb'
        rcases List.mem_cons.mp hb' with h3 | h3
        · rw [h3, hb]
        · exact hfl3 b' h3
      · intro x hx
        rcases hk' x hx with h2 | h2
        · exact hk1 x h2
        · exact Or.inr (Nat.le_trans hlen h2)
      · intro x hx hxr hxk
        have hxk1 : x ∉ s1.kids := by
          intro h2
          rcases hk1 x h2 with h3 | h3
          · exact hxk h3
          · omega
        rw [hf' x (Nat.lt_of_lt_of_le hx hlen) hxr hxk1, hf1 x hx hxr hxk]

/-- Specification of `build`: the tree satisfies the invariant and stores exactly `vs`. -/
theorem build_spec [LinearOrder T] (cap : Nat) (vs : List T) :
    ∃ h flags s, build cap vs = some (h, flags) ∧ TreeInv cap h 0 s ∧
      (∀ x, x ∈ s.toList ↔ x ∈ vs) ∧ flags.length = vs.length ∧
      (vs.Nodup → s.toList.Perm vs ∧ ∀ b ∈ flags, b = true) := by
  obtain ⟨h, flags, s, h1, h2, h3, h4, _, h5, _, _⟩ :=
    insertAll_spec (construct cap ([] : Heap T)).2 vs (construct cap ([] : Heap T)).1 .E
      (construct_inv cap [])
  refine ⟨h, flags, s, h1, h2, ?_, h4, ?_⟩
  · intro x
    rw [h3 x]
    simp [Sh.toList]
  · intro hnd
    simpa [Sh.toList] using h5 (by simpa [Sh.toList] using hnd)

/-- The structural listing of the stored values is the in-order listing of the shape. -/
theorem valuesOf_rep (h : Heap T) : ∀ (s : Sh T) (fuel : Nat) (a : Nat)
    (es : List (T × Element T)), Rep h s a es → s.height ≤ fuel + 1 →
    valuesOf (valuesFrom fuel h) es = s.toList := by
  intro s
  induction s with
  | E =>
    intro fuel a es hrep _
    simp [Rep] at hrep
    subst hrep
    rfl
  | C a0 l k r rest ihl ihr ihrest =>
    intro fuel a es hrep hfuel
    rw [rep_C] at hrep
    obtain ⟨_, e, es', hes, hv, hlp, hrp, hcl, hcr, hrest⟩ := hrep
    subst hes
    simp only [Sh.height, max_le_iff] at hfuel
    have hL : belowLink (valuesFrom fuel h) e.leftChild = l.toList := by
      cases l with
      | E => simp [hlp, Sh.ptr, Sh.toList, belowLink]
      | C b l1 k1 r1 rest1 =>
        obtain ⟨n, hn, _, hrepb⟩ := hcl b rfl
        obtain ⟨f, rfl⟩ : ∃ f, fuel = f + 1 := ⟨fuel - 1, by simp [Sh.height] at hfuel; omega⟩
        simp only [hlp, Sh.ptr, belowLink, valuesFrom, hn]
        exact ihl f b n.elements hrepb (by omega)
    have hR : belowLink (valuesFrom fuel h) e.rightChild = r.toList := by
      cases r with
      | E => simp [hrp, Sh.ptr, Sh.toList, belowLink]
      | C b l1 k1 r1 rest1 =>
        obtain ⟨n, hn, _, hrepb⟩ := hcr b rfl
        obtain ⟨f, rfl⟩ : ∃ f, fuel = f + 1 := ⟨fuel - 1, by simp [Sh.height] at hfuel; omega⟩
        simp only [hrp, Sh.ptr, belowLink, valuesFrom, hn]
        exact ihr f b n.elements hrepb (by omega)
    simp only [valuesOf, hL, hR, hv, Sh.toList, ihrest fuel a es' hrest hfuel.2]

theorem stored_eq [LinearOrder T] (h : Heap T) (t : btree) (s : Sh T) (cap : Nat)
    (hinv : TreeInv cap h t.root s) : stored h t = s.toList := by
  obtain ⟨n, hn, _, hrep⟩ := hinv.rep
  have hlt := hinv.root_lt
  obtain ⟨f, hf⟩ : ∃ f, h.length = f + 1 := ⟨h.length - 1, by omega⟩
  simp only [stored, hf, valuesFrom, hn]
  exact valuesOf_rep h s f t.root n.elements hrep (hf ▸ hinv.height_le)

/-! ## Forward traversal -/

theorem steps_cons {α : Type} (step : α → Option α) (p : α) (qs : List α)
    (fin : Option α → Prop) :
    Steps step (p :: qs) fin ↔ nextOr qs fin (step p) ∧ Steps step qs fin := by
  cases qs with
  | nil => simp [Steps, nextOr]
  | cons q qs => simp [Steps, nextOr]

theorem steps_mono {α : Type} (step : α → Option α) (fin fin' : Option α → Prop)
    (hf : ∀ o, fin o → fin' o) : ∀ (ps : List α), Steps step ps fin → Steps step ps fin' := by
  intro ps
  induction ps with
  | nil => intro _; trivial
  | cons p ps ih =>
    intro hs
    rw [steps_cons] at hs ⊢
    refine ⟨?_, ih hs.2⟩
    cases ps with
    | nil => exact hf _ hs.1
    | cons q qs => exact hs.1

theorem steps_append {α : Type} (step : α → Option α) (fin : Option α → Prop) :
    ∀ (ps qs : List α), Steps step ps (nextOr qs fin) → Steps step qs fin →
      Steps step (ps ++ qs) fin := by
  intro ps
  induction ps with
  | nil => intro qs _ hq; simpa using hq
  | cons p ps ih =>
    intro qs hp hq
    rw [steps_cons] at hp
    rw [List.cons_append, steps_cons]
    refine ⟨?_, ih qs hp.2 hq⟩
    cases ps with
    | nil => simpa [nextOr] using hp.1
    | cons p' ps' => simpa [nextOr] using hp.1

theorem nextOr_append {α : Type} (ps qs : List α) (fin : Option α → Prop) (o : Option α) :
    nextOr (ps ++ qs) fin o ↔ nextOr ps (nextOr qs fin) o := by
  cases ps with
  | nil => simp [nextOr]
  | cons p ps => simp [nextOr]

theorem upper_bound_append [LinearOrder T] (v : T) :
    ∀ (pre suf : List (T × Element T)), (∀ x ∈ pre, x.1 ≤ v) →
      upper_bound (pre ++ suf) v = pre.length + upper_bound suf v := by
  intro pre
  induction pre with
  | nil => intro suf _; simp
  | cons p pre ih =>
    intro suf hpre
    obtain ⟨k, e⟩ := p
    have hk : ¬ v < k := not_lt.mpr (hpre (k, e) (by simp))
    simp only [List.cons_append, upper_bound, hk, if_false, List.length_cons, List.append_eq]
    rw [ih suf (fun x hx => hpre x (by simp [hx]))]
    omega

theorem upper_bound_at [LinearOrder T] (v : T) (pre : List (T × Element T)) (k : T)
    (e : Element T) (es : List (T × Element T)) (hpre : ∀ x ∈ pre, x.1 ≤ v) (hk : v < k) :
    upper_bound (pre ++ (k, e) :: es) v = pre.length := by
  rw [upper_bound_append v pre _ hpre]
  simp [upper_bound, hk]

theorem upper_bound_end [LinearOrder T] (v : T) (es : List (T × Element T))
    (hes : ∀ x ∈ es, x.1 ≤ v) : upper_bound es v = es.length := by
  have := upper_bound_append v es [] hes
  simpa [upper_bound] using this

theorem lower_bound_append [LinearOrder T] (v : T) :
    ∀ (pre suf : List (T × Element T)), (∀ x ∈ pre, x.1 < v) →
      lower_bound (pre ++ suf) v = pre.length + lower_bound suf v := by
  intro pre
  induction pre with
  | nil => intro suf _; simp
  | cons p pre ih =>
    intro suf hpre
    obtain ⟨k, e⟩ := p
    have hk : k < v := hpre (k, e) (by simp)
    simp only [List.cons_append, lower_bound, hk, if_true, List.length_cons, List.append_eq]
    rw [ih suf (fun x hx => hpre x (by simp [hx]))]
    omega

theorem isE_iff (s : Sh T) : s.isE = true ↔ s = .E := by
  cases s <;> simp [Sh.isE]

theorem first_E_iff : ∀ (s : Sh T) (i : Nat), s.first i = none ↔ s = .E := by
  intro s i
  cases s with
  | E => simp [Sh.first]
  | C a l k r rest =>
    simp only [Sh.first]
    cases Sh.first l 0 <;> simp

theorem fwd_head : ∀ (s : Sh T) (i : Nat), (s.fwd i).head? = s.first i := by
  intro s
  induction s with
  | E => intro i; rfl
  | C a l k r rest ihl _ _ =>
    intro i
    simp only [Sh.fwd, Sh.first]
    cases l with
    | E => simp [Sh.fwd, Sh.first, Sh.isE]
    | C b l1 k1 r1 rest1 =>
      have h1 := ihl 0
      have h2 : Sh.first (Sh.C b l1 k1 r1 rest1) 0 ≠ none := by
        rw [Ne, first_E_iff]; simp
      cases hf : Sh.first (Sh.C b l1 k1 r1 rest1) 0 with
      | none => exact absurd hf h2
      | some p =>
        rw [hf] at h1
        simp only []
        cases hl : Sh.fwd (Sh.C b l1 k1 r1 rest1) 0 with
        | nil => rw [hl] at h1; simp at h1
        | cons q qs => rw [hl] at h1; simpa using h1

theorem nextOr_fwd (s : Sh T) (i : Nat) (fin : Option btree_iterator → Prop)
    (o : Option btree_iterator) :
    nextOr (s.fwd i) fin o ↔
      (match s.first i with
        | some p => o = some p
        | none => fin o) := by
  have h1 := fwd_head s i
  cases hl : s.fwd i with
  | nil => rw [hl] at h1; simp at h1; simp [nextOr, ← h1]
  | cons q qs => rw [hl] at h1; simp at h1; simp [nextOr, ← h1]

theorem rep_last (h : Heap T) (s : Sh T) (b : Nat) (es : List (T × Element T))
    (hrep : Rep h s b es) (hne : s ≠ .E) :
    ∃ k e, es[es.length - 1]? = some (k, e) ∧ k ∈ s.toList ∧ es ≠ [] := by
  have hes : es ≠ [] := by
    intro h0
    subst h0
    exact hne (rep_nil h s b hrep)
  have hlt : es.length - 1 < es.length := by
    have := List.length_pos.mpr hes
    omega
  refine ⟨(es[es.length - 1]).1, (es[es.length - 1]).2, ?_, ?_, hes⟩
  · rw [List.getElem?_eq_getElem hlt]
  · apply keys_subset
    rw [← rep_keys h s b es hrep]
    exact List.mem_map.mpr ⟨es[es.length - 1], List.getElem_mem _, rfl⟩

theorem rep_first (h : Heap T) (s : Sh T) (b : Nat) (es : List (T × Element T))
    (hrep : Rep h s b es) (hne : s ≠ .E) :
    ∃ k e, es[0]? = some (k, e) ∧ k ∈ s.toList := by
  cases s with
  | E => exact absurd rfl hne
  | C a l k r rest =>
    rw [rep_C] at hrep
    obtain ⟨_, e, es', hes, _⟩ := hrep
    exact ⟨k, e, by simp [hes], by simp [Sh.toList]⟩

/-- `forward_traverse_down` reaches the first position of the node it is started on. -/
theorem ftd_first (h : Heap T) : ∀ (s : Sh T) (fuel : Nat) (b : Nat) (p : Option Nat),
    RepAt h s p b → s ≠ .E → s.height ≤ fuel →
    ∃ q, s.first 0 = some q ∧ q.didTraverse = false ∧
      forward_traverse_down fuel h b = some (q.node, q.it) := by
  intro s
  induction s with
  | E => intro fuel b p _ hne; exact absurd rfl hne
  | C a l k r rest ihl _ _ =>
    intro fuel b p hrep _ hfuel
    obtain ⟨n, hn, _, hrep⟩ := hrep
    rw [rep_C] at hrep
    obtain ⟨ha, e, es', hes, hv, hlp, hrp, hcl, hcr, hrest⟩ := hrep
    subst ha
    simp only [Sh.height, max_le_iff] at hfuel
    obtain ⟨f, rfl⟩ : ∃ f, fuel = f + 1 := ⟨fuel - 1, by omega⟩
    cases l with
    | E =>
      refine ⟨⟨a, 0, false⟩, by simp [Sh.first], rfl, ?_⟩
      simp [forward_traverse_down, hn, hes, hlp, Sh.ptr]
    | C c l1 k1 r1 rest1 =>
      obtain ⟨q, hq1, hq2, hq3⟩ := ihl f c (some a) (hcl c rfl) (by simp) (by omega)
      refine ⟨q, by rw [Sh.first, hq1], hq2, ?_⟩
      simp [forward_traverse_down, hn, hes, hlp, Sh.ptr, hq3]

theorem inc_right [LinearOrder T] (h : Heap T) (a i : Nat) (dt : Bool) (nd : Node T) (k : T)
    (e : Element T) (rb : Nat) (hn : h[a]? = some nd) (he : nd.elements[i]? = some (k, e))
    (hcond : e.leftChild = none ∨ dt = true) (hlast : i + 1 = nd.elements.length)
    (hr : e.rightChild = some rb) :
    increment h ⟨a, i, dt⟩ =
      (forward_traverse_down h.length h rb).map fun r => ⟨r.1, r.2, false⟩ := by
  have hc : ¬ (e.leftChild ≠ none ∧ dt = false) := by
    rcases hcond with h1 | h1 <;> simp [h1]
  simp only [increment, hn, he, hc, if_false, hlast, if_true, hr]

theorem inc_up [LinearOrder T] (h : Heap T) (a i : Nat) (dt : Bool) (nd : Node T) (k : T)
    (e : Element T) (hn : h[a]? = some nd) (he : nd.elements[i]? = some (k, e))
    (hcond : e.leftChild = none ∨ dt = true) (hlast : i + 1 = nd.elements.length)
    (hr : e.rightChild = none) (hp : nd.parent ≠ none) :
    increment h ⟨a, i, dt⟩ = forward_traverse_up h.length h a (i + 1) := by
  have hc : ¬ (e.leftChild ≠ none ∧ dt = false) := by
    rcases hcond with h1 | h1 <;> simp [h1]
  simp only [increment, hn, he, hc, if_false, hlast, if_true, hr, hp, ne_eq, not_false_eq_true]

theorem inc_end [LinearOrder T] (h : Heap T) (a i : Nat) (dt : Bool) (nd : Node T) (k : T)
    (e : Element T) (hn : h[a]? = some nd) (he : nd.elements[i]? = some (k, e))
    (hcond : e.leftChild = none ∨ dt = true) (hlast : i + 1 = nd.elements.length)
    (hr : e.rightChild = none) (hp : nd.parent = none) :
    increment h ⟨a, i, dt⟩ = some ⟨a, nd.elements.length, false⟩ := by
  have hc : ¬ (e.leftChild ≠ none ∧ dt = false) := by
    rcases hcond with h1 | h1 <;> simp [h1]
  simp only [increment, hn, he, hc, if_false, hlast, if_true, hr, hp, ne_eq, not_true_eq_false]

theorem inc_next_down [LinearOrder T] (h : Heap T) (a i : Nat) (dt : Bool) (nd : Node T) (k : T)
    (e : Element T) (k2 : T) (e2 : Element T) (lb : Nat) (hn : h[a]? = some nd)
    (he : nd.elements[i]? = some (k, e)) (hcond : e.leftChild = none ∨ dt = true)
    (he2 : nd.elements[i + 1]? = some (k2, e2)) (hl : e2.leftChild = some lb) :
    increment h ⟨a, i, dt⟩ =
      (forward_traverse_down h.length h lb).map fun r => ⟨r.1, r.2, false⟩ := by
  have hc : ¬ (e.leftChild ≠ none ∧ dt = false) := by
    rcases hcond with h1 | h1 <;> simp [h1]
  have hlast : ¬ i + 1 = nd.elements.length := by
    have := (List.getElem?_eq_some.mp he2).1
    omega
  simp only [increment, hn, he, hc, if_false, hlast, he2, hl]

theorem inc_next [LinearOrder T] (h : Heap T) (a i : Nat) (dt : Bool) (nd : Node T) (k : T)
    (e : Element T) (k2 : T) (e2 : Element T) (hn : h[a]? = some nd)
    (he : nd.elements[i]? = some (k, e)) (hcond : e.leftChild = none ∨ dt = true)
    (he2 : nd.elements[i + 1]? = some (k2, e2)) (hl : e2.leftChild = none) :
    increment h ⟨a, i, dt⟩ = some ⟨a, i + 1, false⟩ := by
  have hc : ¬ (e.leftChild ≠ none ∧ dt = false) := by
    rcases hcond with h1 | h1 <;> simp [h1]
  have hlast : ¬ i + 1 = nd.elements.length := by
    have := (List.getElem?_eq_some.mp he2).1
    omega
  simp only [increment, hn, he, hc, if_false, hlast, he2, hl]

theorem inc_down [LinearOrder T] (h : Heap T) (a i : Nat) (nd : Node T) (k : T)
    (e : Element T) (lb : Nat) (hn : h[a]? = some nd) (he : nd.elements[i]? = some (k, e))
    (hl : e.leftChild = some lb) :
    increment h ⟨a, i, false⟩ =
      (forward_traverse_down h.length h lb).map fun r => ⟨r.1, r.2, false⟩ := by
  simp [increment, hn, he, hl]

theorem ftu_unfold [LinearOrder T] (h : Heap T) (b a f : Nat) (nb na : Node T) (k : T)
    (e : Element T) (hb : h[b]? = some nb) (hpb : nb.parent = some a) (ha : h[a]? = some na)
    (hlast : nb.elements[nb.elements.length - 1]? = some (k, e)) (hne : nb.elements ≠ []) :
    forward_traverse_up (f + 1) h b nb.elements.length =
      if upper_bound na.elements k = na.elements.length ∧ na.parent ≠ none then
        forward_traverse_up f h a (upper_bound na.elements k)
      else some ⟨a, upper_bound na.elements k, true⟩ := by
  have h0 : ¬ nb.elements.length = 0 := by
    intro h1
    exact hne (List.length_eq_zero.mp h1)
  simp only [forward_traverse_up, hb, h0, if_false, hlast, hpb, ha]

/-- Leaving the lower child of the cell in slot `pre.length` arrives at that cell. -/
theorem up_left [LinearOrder T] (h : Heap T) (a b : Nat) (par : Option Nat)
    (pre : List (T × Element T)) (k : T) (e : Element T) (es : List (T × Element T))
    (nb : Node T) (v : T) (ev : Element T) (d : Nat)
    (ha : h[a]? = some ⟨par, pre ++ (k, e) :: es⟩) (hb : h[b]? = some nb)
    (hpb : nb.parent = some a) (hlast : nb.elements[nb.elements.length - 1]? = some (v, ev))
    (hne : nb.elements ≠ []) (hpre : ∀ x ∈ pre, x.1 < v) (hk : v < k) :
    UpStable h b d ∧ ∀ o, Up h b d o → o = some ⟨a, pre.length, true⟩ := by
  have hub : upper_bound (pre ++ (k, e) :: es) v = pre.length :=
    upper_bound_at v pre k e es (fun x hx => le_of_lt (hpre x hx)) hk
  have hval : ∀ f, forward_traverse_up (f + 1) h b nb.elements.length =
      some ⟨a, pre.length, true⟩ := by
    intro f
    rw [ftu_unfold h b a f nb _ v ev hb hpb ha hlast hne]
    simp [hub]
  constructor
  · intro n hn _ fuel hfuel
    obtain rfl : nb = n := by rw [hb] at hn; simpa using hn
    obtain ⟨f, rfl⟩ : ∃ f, fuel = f + 1 := ⟨fuel - 1, by omega⟩
    rw [hval f, hval d]
  · rintro o ⟨n, hn, hcase⟩
    obtain rfl : nb = n := by rw [hb] at hn; simpa using hn
    rcases hcase with ⟨h1, _⟩ | ⟨_, h1⟩
    · rw [hpb] at h1; simp at h1
    · rw [h1, hval d]

/-- Leaving the upper child of the last cell leaves the node itself. -/
theorem up_right [LinearOrder T] (h : Heap T) (a b : Nat) (par : Option Nat)
    (pre : List (T × Element T)) (k : T) (e : Element T)
    (nb : Node T) (v : T) (ev : Element T) (d : Nat)
    (ha : h[a]? = some ⟨par, pre ++ [(k, e)]⟩) (hb : h[b]? = some nb)
    (hpb : nb.parent = some a) (hlast : nb.elements[nb.elements.length - 1]? = some (v, ev))
    (hne : nb.elements ≠ []) (hpre : ∀ x ∈ pre, x.1 < v) (hk : k < v)
    (hst : UpStable h a d) :
    UpStable h b (d + 1) ∧ ∀ o, Up h b (d + 1) o → Up h a d o := by
  have hub : upper_bound (pre ++ [(k, e)]) v = (pre ++ [(k, e)]).length := by
    apply upper_bound_end
    intro x hx
    rcases List.mem_append.mp hx with h1 | h1
    · exact le_of_lt (hpre x h1)
    · simp at h1; rw [h1]; exact le_of_lt hk
  have hval : ∀ f, forward_traverse_up (f + 1) h b nb.elements.length =
      if par ≠ none then forward_traverse_up f h a (pre ++ [(k, e)]).length
      else some ⟨a, (pre ++ [(k, e)]).length, true⟩ := by
    intro f
    rw [ftu_unfold h b a f nb _ v ev hb hpb ha hlast hne]
    simp only [hub, true_and]
  constructor
  · intro n hn _ fuel hfuel
    obtain rfl : nb = n := by rw [hb] at hn; simpa using hn
    obtain ⟨f, rfl⟩ : ∃ f, fuel = f + 1 := ⟨fuel - 1, by omega⟩
    rw [hval f, hval (d + 1)]
    by_cases hp : par = none
    · simp [hp]
    · simp only [hp, ne_eq, not_false_eq_true, if_true]
      rw [hst _ ha hp f (by omega), hst _ ha hp (d + 1) (by omega)]
  · rintro o ⟨n, hn, hcase⟩
    obtain rfl : nb = n := by rw [hb] at hn; simpa using hn
    rcases hcase with ⟨h1, _⟩ | ⟨_, h1⟩
    · rw [hpb] at h1; simp at h1
    · rw [hval (d + 1)] at h1
      refine ⟨_, ha, ?_⟩
      by_cases hp : par = none
      · left
        refine ⟨hp, true, ?_⟩
        rw [h1]
        simp [hp]
      · right
        refine ⟨hp, ?_⟩
        rw [h1]
        simp only [hp, ne_eq, not_false_eq_true, if_true]

theorem height_C (a : Nat) (l : Sh T) (k : T) (r rest : Sh T) :
    l.height + 1 ≤ (Sh.C a l k r rest).height ∧ r.height + 1 ≤ (Sh.C a l k r rest).height ∧
      rest.height ≤ (Sh.C a l k r rest).height := by
  simp only [Sh.height]
  refine ⟨?_, ?_, ?_⟩
  · exact le_trans (Nat.succ_le_succ (le_max_left _ _)) (le_max_left _ _)
  · exact le_trans (Nat.succ_le_succ (le_max_right _ _)) (le_max_left _ _)
  · exact le_max_right _ _

theorem iter_eta (q : btree_iterator) (hq : q.didTraverse = false) :
    (⟨q.node, q.it, false⟩ : btree_iterator) = q := by
  cases q
  simp at hq
  simp [hq]

/-- The forward traversal of the cells of a node from slot `pre.length` on: every position
steps to the next one, and the last one leaves the node. -/
theorem fwd_steps [LinearOrder T] (h : Heap T) : ∀ (s : Sh T) (a : Nat) (par : Option Nat)
    (pre suf : List (T × Element T)) (d : Nat),
    h[a]? = some ⟨par, pre ++ suf⟩ → Rep h s a suf → s.rightOk → s.toList.Pairwise (· < ·) →
    (∀ x ∈ pre, ∀ y ∈ s.toList, x.1 < y) → d + s.height ≤ h.length → UpStable h a d →
    Steps (increment h) (s.fwd pre.length) (Up h a d) := by
  intro s
  induction s with
  | E => intros; trivial
  | C a0 l k r rest ihl ihr ihrest =>
    intro a par pre suf d hn hrep hro hso hpre hd hst
    rw [rep_C] at hrep
    obtain ⟨ha0, e, es', hsuf, hv, hlp, hrp, hcl, hcr, hrest⟩ := hrep
    subst ha0 hsuf
    have hso1 := hso
    simp only [Sh.toList, List.pairwise_append, List.pairwise_cons] at hso1
    obtain ⟨hh1, hh2, hh3⟩ := height_C a0 l k r rest
    have he : (Node.mk par (pre ++ (k, e) :: es')).elements[pre.length]? = some (k, e) :=
      getElem?_append_cons pre (k, e) es'
    have hcond : e.leftChild = none ∨ (!l.isE) = true := by
      cases l with
      | E => left; simpa [Sh.ptr] using hlp
      | C _ _ _ _ _ => right; rfl
    simp only [Sh.fwd]
    apply steps_append
    · cases l with
      | E => trivial
      | C b l1 k1 r1 rest1 =>
        obtain ⟨nb, hnb, hpb, hrepb⟩ := hcl b rfl
        obtain ⟨v, ev, hlast, hvmem, hne⟩ := rep_last h _ b nb.elements hrepb (by simp)
        have hv1 : ∀ x ∈ pre, x.1 < v := fun x hx =>
          hpre x hx v (mem_toList_left _ _ _ _ _ _ hvmem)
        have hv2 : v < k := hso1.2.2 v hvmem k (by simp)
        obtain ⟨hst', hup⟩ := up_left h a0 b par pre k e es' nb v ev (d + 1) hn hnb hpb hlast
          hne hv1 hv2
        have hih := ihl b (some a0) [] nb.elements (d + 1)
          (by rw [← node_eta nb (some a0) hpb]; exact hnb) hrepb hro.2.1 hso1.1 (by simp)
          (by omega) hst'
        refine steps_mono _ _ _ ?_ _ hih
        intro o ho
        simpa [nextOr, Sh.isE] using hup o ho
    · rw [steps_cons]
      constructor
      · cases es' with
        | nil =>
          have hrE : rest = .E := rep_nil h rest a0 hrest
          subst hrE
          have hlast : pre.length + 1 = (Node.mk par (pre ++ [(k, e)])).elements.length := by
            simp
          cases r with
          | E =>
            simp only [Sh.fwd, List.append_nil, nextOr]
            simp only [Sh.ptr] at hrp
            cases par with
            | none =>
              rw [inc_end h a0 pre.length _ _ k e hn he hcond hlast hrp rfl]
              exact ⟨_, hn, Or.inl ⟨rfl, false, rfl⟩⟩
            | some p =>
              rw [inc_up h a0 pre.length _ _ k e hn he hcond hlast hrp (by simp)]
              refine ⟨_, hn, Or.inr ⟨by simp, ?_⟩⟩
              have := hst _ hn (by simp) h.length (by omega)
              simpa using this
          | C rb r1 k1 r2 rest1 =>
            simp only [Sh.ptr] at hrp
            rw [inc_right h a0 pre.length _ _ k e rb hn he hcond hlast hrp]
            obtain ⟨q, hq1, hq2, hq3⟩ := ftd_first h _ h.length rb (some a0) (hcr rb rfl)
              (by simp) (by omega)
            rw [nextOr_append, nextOr_fwd, hq1, hq3]
            simp [iter_eta q hq2]
        | cons p2 es'' =>
          obtain ⟨k2, e2⟩ := p2
          have hrE : r = .E := by
            rcases hro.1 with h1 | h1
            · exact h1
            · subst h1; simp [Rep] at hrest
          subst hrE
          cases rest with
          | E => simp [Rep] at hrest
          | C a1 l2 k2' r2 rest2 =>
            have hrest' := hrest
            rw [rep_C] at hrest'
            obtain ⟨ha1, e2', es2', hes2, _, hlp2, _, hcl2, _, _⟩ := hrest'
            obtain ⟨⟨hk2, he2'⟩, _⟩ : (k2 = k2' ∧ e2 = e2') ∧ es'' = es2' := by
              simpa using hes2
            subst ha1 hk2 he2'
            have he2 : (Node.mk par (pre ++ (k, e) :: (k2, e2) :: es'')).elements[pre.length + 1]?
                = some (k2, e2) := by
              have := getElem?_append_cons (pre ++ [(k, e)]) (k2, e2) es''
              simpa using this
            rw [show (Sh.E : Sh T).fwd 0 = [] from rfl, List.nil_append, nextOr_fwd]
            cases l2 with
            | E =>
              simp only [Sh.ptr] at hlp2
              rw [inc_next h a1 pre.length _ _ k e k2 e2 hn he hcond he2 hlp2]
              simp [Sh.first]
            | C lb l3 k3 r3 rest3 =>
              simp only [Sh.ptr] at hlp2
              rw [inc_next_down h a1 pre.length _ _ k e k2 e2 lb hn he hcond he2 hlp2]
              obtain ⟨hh4, _, _⟩ := height_C a1 (Sh.C lb l3 k3 r3 rest3) k2 r2 rest2
              obtain ⟨q, hq1, hq2, hq3⟩ := ftd_first h _ h.length lb (some a1) (hcl2 lb rfl)
                (by simp) (by omega)
              rw [Sh.first, hq1, hq3]
              simp [iter_eta q hq2]
      · apply steps_append
        · cases r with
          | E => trivial
          | C rb r1 k1 r2 rest1 =>
            have hrE : rest = .E := by
              rcases hro.1 with h1 | h1
              · simp at h1
              · exact h1
            subst hrE
            have hes : es' = [] := by simpa [Rep] using hrest
            subst hes
            obtain ⟨nb, hnb, hpb, hrepb⟩ := hcr rb rfl
            obtain ⟨v, ev, hlast, hvmem, hne⟩ := rep_last h _ rb nb.elements hrepb (by simp)
            have hv2 : k < v := hso1.2.1.1 v (List.mem_append.mpr (Or.inl hvmem))
            have hv1 : ∀ x ∈ pre, x.1 < v := fun x hx =>
              hpre x hx v (mem_toList_right _ _ _ _ _ _ hvmem)
            obtain ⟨hst', hup⟩ := up_right h a0 rb par pre k e nb v ev d hn hnb hpb hlast
              hne hv1 hv2 hst
            have hih := ihr rb (some a0) [] nb.elements (d + 1)
              (by rw [← node_eta nb (some a0) hpb]; exact hnb) hrepb hro.2.2.1 hso1.2.1.2.1
              (by simp) (by omega) hst'
            refine steps_mono _ _ _ ?_ _ hih
            intro o ho
            simpa [nextOr, Sh.fwd] using hup o ho
        · have hih := ihrest a0 par (pre ++ [(k, e)]) es' d (by simpa using hn) hrest
            hro.2.2.2 hso1.2.1.2.2.1
            (by
              intro x hx y hy
              rcases List.mem_append.mp hx with h1 | h1
              · exact hpre x h1 y (mem_toList_rest _ _ _ _ _ _ hy)
              · simp at h1
                rw [h1]
                exact hso1.2.1.1 y (List.mem_append.mpr (Or.inr hy)))
            (by omega) hst
          simpa using hih

/-- Every forward position lies in the node itself, at a slot from `pre.length` on, or in a
node below. -/
theorem fwd_pos (h : Heap T) : ∀ (s : Sh T) (a : Nat) (pre suf : List (T × Element T)),
    Rep h s a suf → ∀ p ∈ s.fwd pre.length,
      (p.node = a ∧ p.it < (pre ++ suf).length) ∨ p.node ∈ s.kids := by
  intro s
  induction s with
  | E => intro a pre suf _ p hp; simp [Sh.fwd] at hp
  | C a0 l k r rest ihl ihr ihrest =>
    intro a pre suf hrep p hp
    rw [rep_C] at hrep
    obtain ⟨ha0, e, es', hsuf, hv, hlp, hrp, hcl, hcr, hrest⟩ := hrep
    subst ha0 hsuf
    simp only [Sh.fwd, List.mem_append, List.mem_cons] at hp
    rw [kids_C]
    rcases hp with hp | hp | hp | hp
    · right
      cases l with
      | E => simp [Sh.fwd] at hp
      | C b l1 k1 r1 rest1 =>
        obtain ⟨nb, _, _, hrepb⟩ := hcl b rfl
        have := ihl b [] nb.elements hrepb p hp
        simp only [Sh.nodes, Sh.ptr, Option.toList, List.singleton_append, List.mem_append,
          List.mem_cons]
        rcases this with h1 | h1
        · exact Or.inl (Or.inl h1.1)
        · exact Or.inl (Or.inr h1)
    · left
      subst hp
      simp
    · right
      cases r with
      | E => simp [Sh.fwd] at hp
      | C b l1 k1 r1 rest1 =>
        obtain ⟨nb, _, _, hrepb⟩ := hcr b rfl
        have := ihr b [] nb.elements hrepb p hp
        simp only [Sh.nodes, Sh.ptr, Option.toList, List.singleton_append, List.mem_append,
          List.mem_cons]
        rcases this with h1 | h1
        · exact Or.inr (Or.inl (Or.inl h1.1))
        · exact Or.inr (Or.inl (Or.inr h1))
    · have := ihrest a0 (pre ++ [(k, e)]) es' hrest p (by simpa using hp)
      rcases this with h1 | h1
      · left
        simpa using h1
      · right
        exact List.mem_append.mpr (Or.inr (List.mem_append.mpr (Or.inr h1)))

/-- Dereferencing the forward positions gives the in-order listing. -/
theorem fwd_deref (h : Heap T) : ∀ (s : Sh T) (a : Nat) (par : Option Nat)
    (pre suf : List (T × Element T)),
    h[a]? = some ⟨par, pre ++ suf⟩ → Rep h s a suf →
    List.Forall₂ (fun p v => deref h p = some v) (s.fwd pre.length) s.toList := by
  intro s
  induction s with
  | E => intro a par pre suf _ _; exact List.Forall₂.nil
  | C a0 l k r rest ihl ihr ihrest =>
    intro a par pre suf hn hrep
    rw [rep_C] at hrep
    obtain ⟨ha0, e, es', hsuf, hv, hlp, hrp, hcl, hcr, hrest⟩ := hrep
    subst ha0 hsuf
    simp only [Sh.fwd, Sh.toList]
    refine List.rel_append ?_ (List.Forall₂.cons ?_ (List.rel_append ?_ ?_))
    · cases l with
      | E => exact List.Forall₂.nil
      | C b l1 k1 r1 rest1 =>
        obtain ⟨nb, hnb, hpb, hrepb⟩ := hcl b rfl
        exact ihl b (some a0) [] nb.elements (by rw [← node_eta nb _ hpb]; exact hnb) hrepb
    · rw [deref_at h a0 par pre k e es' _ hn, hv]
    · cases r with
      | E => exact List.Forall₂.nil
      | C b l1 k1 r1 rest1 =>
        obtain ⟨nb, hnb, hpb, hrepb⟩ := hcr b rfl
        exact ihr b (some a0) [] nb.elements (by rw [← node_eta nb _ hpb]; exact hnb) hrepb
    · have := ihrest a0 par (pre ++ [(k, e)]) es' (by simpa using hn) hrest
      simpa using this

theorem forward_from_stop [LinearOrder T] (h : Heap T) (stop c : btree_iterator) (fuel : Nat)
    (hc : iter_eq c stop = true) : forward_from h stop fuel c = some [] := by
  cases fuel <;> simp [forward_from, hc]

theorem forward_from_step [LinearOrder T] (h : Heap T) (stop c c' : btree_iterator)
    (fuel : Nat) (v : T) (hc : iter_eq c stop = false) (hv : deref h c = some v)
    (hi : increment h c = some c') :
    forward_from h stop (fuel + 1) c = (forward_from h stop fuel c').map fun vs => v :: vs := by
  simp [forward_from, hc, hv, hi]

/-- The loop of a forward traversal along a chain of positions. -/
theorem forward_from_chain [LinearOrder T] (h : Heap T) (stop : btree_iterator) :
    ∀ (ps : List btree_iterator) (vs : List T),
      List.Forall₂ (fun p v => deref h p = some v) ps vs →
      (∀ p ∈ ps, iter_eq p stop = false) →
      Steps (increment h) ps (fun o => ∃ q, o = some q ∧ iter_eq q stop = true) →
      ∀ p0 rest, ps = p0 :: rest → ∀ fuel, ps.length ≤ fuel →
        forward_from h stop fuel p0 = some vs := by
  intro ps
  induction ps with
  | nil => intro vs _ _ _ p0 rest hps; simp at hps
  | cons p ps ih =>
    intro vs hder hne hsteps p0 rest hps fuel hfuel
    obtain ⟨rfl, rfl⟩ : p = p0 ∧ ps = rest := by simpa using hps
    cases hder with
    | cons hv hder' =>
      rename_i v vs'
      obtain ⟨f, rfl⟩ : ∃ f, fuel = f + 1 := ⟨fuel - 1, by simp at hfuel; omega⟩
      rw [steps_cons] at hsteps
      cases ps with
      | nil =>
        obtain ⟨q, hq1, hq2⟩ := hsteps.1
        cases hder'
        rw [forward_from_step h stop p q f v (hne p (by simp)) hv hq1,
          forward_from_stop h stop q f hq2]
        rfl
      | cons p1 ps1 =>
        have hq1 : increment h p = some p1 := hsteps.1
        rw [forward_from_step h stop p p1 f v (hne p (by simp)) hv hq1,
          ih vs' hder' (fun x hx => hne x (by simp [hx])) hsteps.2 p1 ps1 rfl f
            (by simp at hfuel ⊢; omega)]
        rfl

/-- The `while` loop of `begin()` reaches the first position below the link it starts
from. -/
theorem begin_loop_first (h : Heap T) : ∀ (l : Sh T) (a : Nat) (fuel p : Nat) (e : Element T),
    Child h l a → e.leftChild = l.ptr → l.height < fuel →
    begin_loop fuel h p e = some (match l.first 0 with
      | some q => q
      | none => ⟨p, 0, false⟩) := by
  intro l
  induction l with
  | E =>
    intro a fuel p e _ he hfuel
    obtain ⟨f, rfl⟩ : ∃ f, fuel = f + 1 := ⟨fuel - 1, by omega⟩
    simp only [Sh.ptr] at he
    simp [begin_loop, he, Sh.first]
  | C b l1 k1 r1 rest1 ihl _ _ =>
    intro a fuel p e hc he hfuel
    obtain ⟨f, rfl⟩ : ∃ f, fuel = f + 1 := ⟨fuel - 1, by omega⟩
    obtain ⟨nb, hnb, hpb, hrepb⟩ := hc b rfl
    rw [rep_C] at hrepb
    obtain ⟨_, e1, es1, hes, _, hlp, _, hcl, _, _⟩ := hrepb
    obtain ⟨hh1, _, _⟩ := height_C b l1 k1 r1 rest1
    simp only [Sh.ptr] at he
    have := ihl b f b e1 hcl hlp (by omega)
    simp only [begin_loop, he, hnb, hes, List.getElem?_cons_zero, this]
    rw [Sh.first]
    cases Sh.first l1 0 <;> rfl

theorem first_C_of_ne (a : Nat) (l : Sh T) (k : T) (r rest : Sh T) (i : Nat) (hl : l ≠ .E) :
    (Sh.C a l k r rest).first i = l.first 0 := by
  rw [Sh.first]
  cases hf : l.first 0 with
  | none => exact absurd ((first_E_iff l 0).mp hf) hl
  | some q => rfl

/-- `begin()` is the first forward position, or `end()` for an empty tree. -/
theorem begin_spec [LinearOrder T] (cap : Nat) (h : Heap T) (t : btree) (s : Sh T)
    (hinv : TreeInv cap h t.root s) (n : Node T) (hn : h[t.root]? = some n) :
    btree_begin h t = some (match s.first 0 with
      | some q => q
      | none => ⟨t.root, n.elements.length, false⟩) := by
  obtain ⟨n', hn', hp, hrep⟩ := hinv.rep
  obtain rfl : n = n' := by rw [hn] at hn'; simpa using hn'
  cases s with
  | E =>
    have : n.elements = [] := by simpa [Rep] using hrep
    simp [btree_begin, hn, this, Sh.first]
  | C a l k r rest =>
    have hrep' := hrep
    rw [rep_C] at hrep'
    obtain ⟨ha, e, es', hes, _, hlp, _, hcl, _, _⟩ := hrep'
    subst ha
    obtain ⟨hh1, _, _⟩ := height_C t.root l k r rest
    have hhl := hinv.height_le
    cases l with
    | E =>
      simp only [Sh.ptr] at hlp
      simp [btree_begin, hn, hes, hlp, Sh.first]
    | C b l1 k1 r1 rest1 =>
      have hlp' := hlp
      simp only [Sh.ptr] at hlp'
      have hloop := begin_loop_first h _ t.root h.length b e hcl hlp (by omega)
      have hb : btree_begin h t = begin_loop h.length h b e := by
        simp only [btree_begin, hn, hes, List.getElem?_cons_zero, hlp']
      rw [hb, hloop, first_C_of_ne t.root _ k r rest 0 (by simp)]
      cases hf : Sh.first (Sh.C b l1 k1 r1 rest1) 0 with
      | none => rw [first_E_iff] at hf; simp at hf
      | some q => rfl

/-- Specification of the forward traversal of a tree satisfying the invariant. -/
theorem forward_traversal_spec [LinearOrder T] (cap : Nat) (h : Heap T) (t : btree) (s : Sh T)
    (hinv : TreeInv cap h t.root s) (fuel : Nat) (hfuel : s.toList.length ≤ fuel) :
    forward_traversal h t fuel = some s.toList := by
  obtain ⟨n, hn, hp, hrep⟩ := hinv.rep
  have hn' : h[t.root]? = some ⟨none, [] ++ n.elements⟩ := by
    rw [← node_eta n none hp]; exact hn
  have hend : btree_end h t = some ⟨t.root, n.elements.length, false⟩ := by
    simp [btree_end, hn]
  have hst : UpStable h t.root 0 := by
    intro n' hn' hp' _ _
    rw [hn] at hn'
    obtain rfl : n = n' := by simpa using hn'
    exact absurd hp hp'
  have hsteps := fwd_steps h s t.root none [] n.elements 0 hn' hrep hinv.rightOk hinv.sorted
    (by simp) (by simpa using hinv.height_le) hst
  have hder := fwd_deref h s t.root none [] n.elements hn' hrep
  have hpos := fwd_pos h s t.root [] n.elements hrep
  simp only [List.length_nil] at hsteps hder hpos
  have hne : ∀ p ∈ s.fwd 0, iter_eq p ⟨t.root, n.elements.length, false⟩ = false := by
    intro p hp
    rcases hpos p hp with ⟨h1, h2⟩ | h1
    · simp only [iter_eq, Bool.and_eq_false_imp, beq_iff_eq]
      intro _
      simp at h2 ⊢
      omega
    · simp only [iter_eq, Bool.and_eq_false_imp, beq_iff_eq]
      intro h2
      exact absurd (h2 ▸ h1) (List.nodup_cons.mp hinv.nodup).1
  have hfin : ∀ o, Up h t.root 0 o →
      ∃ q, o = some q ∧ iter_eq q ⟨t.root, n.elements.length, false⟩ = true := by
    rintro o ⟨n', hn', hcase⟩
    rw [hn] at hn'
    obtain rfl : n = n' := by simpa using hn'
    rcases hcase with ⟨_, dt, rfl⟩ | ⟨h1, _⟩
    · exact ⟨_, rfl, by simp [iter_eq]⟩
    · exact absurd hp h1
  have hsteps' := steps_mono _ _ _ hfin _ hsteps
  have hlen : (s.fwd 0).length = s.toList.length := hder.length_eq
  have hbegin := begin_spec cap h t s hinv n hn
  simp only [forward_traversal, hbegin, hend]
  have hhead := fwd_head s 0
  cases hps : s.fwd 0 with
  | nil =>
    rw [hps] at hhead hlen
    simp only [List.head?_nil] at hhead
    rw [← hhead]
    have : s.toList = [] := List.length_eq_zero.mp (by simpa using hlen.symm)
    rw [this]
    exact forward_from_stop h _ _ fuel (by simp [iter_eq])
  | cons p0 rest =>
    rw [hps] at hhead hlen
    simp only [List.head?_cons] at hhead
    rw [← hhead]
    exact forward_from_chain h _ (s.fwd 0) s.toList hder hne hsteps' p0 rest hps fuel
      (by rw [hps, hlen]; exact hfuel)

/-! ## Reverse traversal -/

theorem lastPos_E_iff : ∀ (s : Sh T) (i : Nat), s.lastPos i = none ↔ s = .E := by
  intro s i
  cases s with
  | E => simp [Sh.lastPos]
  | C a l k r rest =>
    simp only [Sh.lastPos]
    cases Sh.lastPos rest (i + 1) <;> cases Sh.lastPos r 0 <;> simp

theorem bwd_nil_iff : ∀ (s : Sh T) (i : Nat), s.bwd i = [] ↔ s = .E := by
  intro s i
  cases s with
  | E => simp [Sh.bwd]
  | C a l k r rest => simp [Sh.bwd]

theorem bwd_head : ∀ (s : Sh T) (i : Nat), (s.bwd i).head? = s.lastPos i := by
  intro s
  induction s with
  | E => intro i; rfl
  | C a l k r rest _ ihr ihrest =>
    intro i
    rw [Sh.bwd, Sh.lastPos, List.head?_append, List.head?_append, ihrest, ihr]
    cases h1 : Sh.lastPos rest (i + 1) with
    | some p => simp
    | none =>
      cases h2 : Sh.lastPos r 0 with
      | some q => simp
      | none =>
        rw [lastPos_E_iff] at h1 h2
        subst h1 h2
        simp [Sh.isE, Sh.headL]

theorem nextOr_bwd (s : Sh T) (i : Nat) (fin : Option btree_iterator → Prop)
    (o : Option btree_iterator) :
    nextOr (s.bwd i) fin o ↔
      (match s.lastPos i with
        | some p => o = some p
        | none => fin o) := by
  have h1 := bwd_head s i
  cases hl : s.bwd i with
  | nil => rw [hl] at h1; simp at h1; simp [nextOr, ← h1]
  | cons q qs => rw [hl] at h1; simp at h1; simp [nextOr, ← h1]

/-- `reverse_traverse_down` reaches the last position of the node it is started on. -/
theorem rtd_last (h : Heap T) : ∀ (s : Sh T) (fuel : Nat) (b : Nat) (par : Option Nat)
    (pre suf : List (T × Element T)),
    h[b]? = some ⟨par, pre ++ suf⟩ → Rep h s b suf → s ≠ .E → s.height ≤ fuel →
    ∃ q, s.lastPos pre.length = some q ∧ q.didTraverse = false ∧
      reverse_traverse_down fuel h b = some (q.node, q.it) := by
  intro s
  induction s with
  | E => intro fuel b par pre suf _ _ hne; exact absurd rfl hne
  | C a l k r rest _ ihr ihrest =>
    intro fuel b par pre suf hn hrep _ hfuel
    rw [rep_C] at hrep
    obtain ⟨ha, e, es', hes, hv, hlp, hrp, hcl, hcr, hrest⟩ := hrep
    subst ha hes
    obtain ⟨_, hh2, hh3⟩ := height_C a l k r rest
    cases rest with
    | C a1 l1 k1 r1 rest1 =>
      obtain ⟨q, hq1, hq2, hq3⟩ := ihrest fuel a par (pre ++ [(k, e)]) es' (by simpa using hn)
        hrest (by simp) (by omega)
      refine ⟨q, ?_, hq2, hq3⟩
      rw [Sh.lastPos]
      simp only [List.length_append, List.length_singleton] at hq1
      rw [hq1]
    | E =>
      have hes' : es' = [] := by simpa [Rep] using hrest
      subst hes'
      obtain ⟨f, rfl⟩ : ∃ f, fuel = f + 1 := ⟨fuel - 1, by omega⟩
      have hlen : (pre ++ [(k, e)]).length - 1 = pre.length := by simp
      have hget : (pre ++ [(k, e)])[pre.length]? = some (k, e) := getElem?_append_cons pre _ []
      cases r with
      | E =>
        simp only [Sh.ptr] at hrp
        refine ⟨⟨a, pre.length, false⟩, by simp [Sh.lastPos], rfl, ?_⟩
        simp [reverse_traverse_down, hn, hget, hrp]
      | C rb l1 k1 r1 rest1 =>
        simp only [Sh.ptr] at hrp
        obtain ⟨nb, hnb, hpb, hrepb⟩ := hcr rb rfl
        obtain ⟨q, hq1, hq2, hq3⟩ := ihr f rb (some a) [] nb.elements
          (by rw [← node_eta nb _ hpb]; exact hnb) hrepb (by simp) (by omega)
        refine ⟨q, ?_, hq2, ?_⟩
        · simp only [List.length_nil] at hq1
          rw [Sh.lastPos, hq1]
          rfl
        · simp [reverse_traverse_down, hn, hget, hrp, hq3]

theorem dec_inner [LinearOrder T] (h : Heap T) (a i : Nat) (dt : Bool) (nd : Node T)
    (hn : h[a]? = some nd) (hi : i < nd.elements.length) :
    decrement h ⟨a, i, dt⟩ = decrement_from h a nd i dt := by
  have hc : ¬ (i = nd.elements.length ∧ nd.parent = none) := by omega
  simp only [decrement, hn, hc, if_false]

theorem decf_left [LinearOrder T] (h : Heap T) (a i : Nat) (dt : Bool) (nd : Node T) (k : T)
    (e : Element T) (lb : Nat) (he : nd.elements[i]? = some (k, e))
    (hcond : e.rightChild = none ∨ dt = true) (hl : e.leftChild = some lb) :
    decrement_from h a nd i dt =
      (reverse_traverse_down h.length h lb).map fun r => ⟨r.1, r.2, false⟩ := by
  have hc : ¬ (e.rightChild ≠ none ∧ dt = false) := by
    rcases hcond with h1 | h1 <;> simp [h1]
  by_cases hi : i = 0
  · subst hi
    simp only [decrement_from, he, hc, if_false, if_true, hl]
  · simp only [decrement_from, he, hc, if_false, hi, hl]

theorem decf_prev [LinearOrder T] (h : Heap T) (a i : Nat) (dt : Bool) (nd : Node T) (k : T)
    (e : Element T) (he : nd.elements[i]? = some (k, e))
    (hcond : e.rightChild = none ∨ dt = true) (hl : e.leftChild = none) (hi : i ≠ 0) :
    decrement_from h a nd i dt = some ⟨a, i - 1, false⟩ := by
  have hc : ¬ (e.rightChild ≠ none ∧ dt = false) := by
    rcases hcond with h1 | h1 <;> simp [h1]
  simp only [decrement_from, he, hc, if_false, hi, hl]

theorem decf_up [LinearOrder T] (h : Heap T) (a : Nat) (dt : Bool) (nd : Node T) (k : T)
    (e : Element T) (he : nd.elements[0]? = some (k, e))
    (hcond : e.rightChild = none ∨ dt = true) (hl : e.leftChild = none)
    (hp : nd.parent ≠ none) :
    decrement_from h a nd 0 dt = reverse_traverse_up h.length h a 0 := by
  have hc : ¬ (e.rightChild ≠ none ∧ dt = false) := by
    rcases hcond with h1 | h1 <;> simp [h1]
  simp only [decrement_from, he, hc, if_false, if_true, hl, hp, ne_eq, not_false_eq_true]

theorem decf_stay [LinearOrder T] (h : Heap T) (a : Nat) (dt : Bool) (nd : Node T) (k : T)
    (e : Element T) (he : nd.elements[0]? = some (k, e))
    (hcond : e.rightChild = none ∨ dt = true) (hl : e.leftChild = none)
    (hp : nd.parent = none) :
    decrement_from h a nd 0 dt = some ⟨a, 0, false⟩ := by
  have hc : ¬ (e.rightChild ≠ none ∧ dt = false) := by
    rcases hcond with h1 | h1 <;> simp [h1]
  simp only [decrement_from, he, hc, if_false, if_true, hl, hp, ne_eq, not_true_eq_false]

theorem decf_right [LinearOrder T] (h : Heap T) (a i : Nat) (nd : Node T) (k : T)
    (e : Element T) (rb : Nat) (he : nd.elements[i]? = some (k, e))
    (hr : e.rightChild = some rb) :
    decrement_from h a nd i false =
      (reverse_traverse_down h.length h rb).map fun r => ⟨r.1, r.2, false⟩ := by
  simp [decrement_from, he, hr]

theorem rtu_unfold [LinearOrder T] (h : Heap T) (b a f : Nat) (nb na : Node T) (k : T)
    (e : Element T) (hb : h[b]? = some nb) (hpb : nb.parent = some a) (ha : h[a]? = some na)
    (hfirst : nb.elements[0]? = some (k, e)) :
    reverse_traverse_up (f + 1) h b 0 =
      if upper_bound na.elements k = 0 ∧ na.parent ≠ none then
        reverse_traverse_up f h a (upper_bound na.elements k)
      else if upper_bound na.elements k = 0 then none
      else some ⟨a, upper_bound na.elements k - 1, true⟩ := by
  simp only [reverse_traverse_up, hb, hfirst, hpb, ha]

/-- Leaving the lower child of the cell in slot `pre.length`. -/
theorem down_left [LinearOrder T] (h : Heap T) (a b : Nat) (par : Option Nat)
    (pre : List (T × Element T)) (k : T) (e : Element T) (es : List (T × Element T))
    (nb : Node T) (v : T) (ev : Element T) (d : Nat)
    (ha : h[a]? = some ⟨par, pre ++ (k, e) :: es⟩) (hb : h[b]? = some nb)
    (hpb : nb.parent = some a) (hfirst : nb.elements[0]? = some (v, ev))
    (hpre : ∀ x ∈ pre, x.1 < v) (hk : v < k) (hst : DownStable h a d) :
    DownStable h b (d + 1) ∧ ∀ o, Down h b (d + 1) o →
      (pre = [] → Down h a d o) ∧ (pre ≠ [] → o = some ⟨a, pre.length - 1, true⟩) := by
  have hub : upper_bound (pre ++ (k, e) :: es) v = pre.length :=
    upper_bound_at v pre k e es (fun x hx => le_of_lt (hpre x hx)) hk
  have hval : ∀ f, reverse_traverse_up (f + 1) h b 0 =
      if pre.length = 0 ∧ par ≠ none then reverse_traverse_up f h a pre.length
      else if pre.length = 0 then none
      else some ⟨a, pre.length - 1, true⟩ := by
    intro f
    rw [rtu_unfold h b a f nb _ v ev hb hpb ha hfirst]
    simp only [hub]
  constructor
  · intro n hn _ fuel hfuel
    obtain rfl : nb = n := by rw [hb] at hn; simpa using hn
    obtain ⟨f, rfl⟩ : ∃ f, fuel = f + 1 := ⟨fuel - 1, by omega⟩
    rw [hval f, hval (d + 1)]
    by_cases h0 : pre.length = 0 ∧ par ≠ none
    · rw [if_pos h0, if_pos h0, h0.1]
      rw [hst _ ha h0.2 f (by omega), hst _ ha h0.2 (d + 1) (by omega)]
    · rw [if_neg h0, if_neg h0]
  · rintro o ⟨n, hn, ho⟩
    obtain rfl : nb = n := by rw [hb] at hn; simpa using hn
    have ho' := ho (by rw [hpb]; simp)
    rw [hval (d + 1)] at ho'
    constructor
    · intro hp0
      subst hp0
      refine ⟨_, ha, ?_⟩
      intro hpar
      rw [ho']
      simp only [List.length_nil, true_and]
      rw [if_pos hpar]
    · intro hp0
      have : pre.length ≠ 0 := by
        intro h1
        exact hp0 (List.length_eq_zero.mp h1)
      rw [ho']
      simp [this]

/-- Leaving the upper child of the last cell arrives at that cell. -/
theorem down_right [LinearOrder T] (h : Heap T) (a b : Nat) (par : Option Nat)
    (pre : List (T × Element T)) (k : T) (e : Element T)
    (nb : Node T) (v : T) (ev : Element T) (d : Nat)
    (ha : h[a]? = some ⟨par, pre ++ [(k, e)]⟩) (hb : h[b]? = some nb)
    (hpb : nb.parent = some a) (hfirst : nb.elements[0]? = some (v, ev))
    (hpre : ∀ x ∈ pre, x.1 < v) (hk : k < v) :
    DownStable h b d ∧ ∀ o, Down h b d o → o = some ⟨a, pre.length, true⟩ := by
  have hub : upper_bound (pre ++ [(k, e)]) v = pre.length + 1 := by
    have := upper_bound_end v (pre ++ [(k, e)]) (by
      intro x hx
      rcases List.mem_append.mp hx with h1 | h1
      · exact le_of_lt (hpre x h1)
      · simp at h1; rw [h1]; exact le_of_lt hk)
    simpa using this
  have hval : ∀ f, reverse_traverse_up (f + 1) h b 0 = some ⟨a, pre.length, true⟩ := by
    intro f
    rw [rtu_unfold h b a f nb _ v ev hb hpb ha hfirst]
    simp [hub]
  constructor
  · intro n hn _ fuel hfuel
    obtain ⟨f, rfl⟩ : ∃ f, fuel = f + 1 := ⟨fuel - 1, by omega⟩
    rw [hval f, hval d]
  · rintro o ⟨n, hn, ho⟩
    obtain rfl : nb = n := by rw [hb] at hn; simpa using hn
    rw [ho (by rw [hpb]; simp), hval d]

/-- The reverse traversal of the cells of a node from slot `pre.length` on: every position
steps to the next lower one, and the lowest one leaves the cells downwards. -/
theorem bwd_steps [LinearOrder T] (h : Heap T) : ∀ (s : Sh T) (a : Nat) (par : Option Nat)
    (pre suf : List (T × Element T)) (d : Nat),
    h[a]? = some ⟨par, pre ++ suf⟩ → Rep h s a suf → s.rightOk → s.toList.Pairwise (· < ·) →
    (∀ x ∈ pre, ∀ y ∈ s.toList, x.1 < y) → d + s.height ≤ h.length → DownStable h a d →
    Steps (decrement h) (s.bwd pre.length) (RFin h a d pre s) := by
  intro s
  induction s with
  | E => intros; trivial
  | C a0 l k r rest ihl ihr ihrest =>
    intro a par pre suf d hn hrep hro hso hpre hd hst
    rw [rep_C] at hrep
    obtain ⟨ha0, e, es', hsuf, hv, hlp, hrp, hcl, hcr, hrest⟩ := hrep
    subst ha0 hsuf
    have hso1 := hso
    simp only [Sh.toList, List.pairwise_append, List.pairwise_cons] at hso1
    obtain ⟨hh1, hh2, hh3⟩ := height_C a0 l k r rest
    have he : (Node.mk par (pre ++ (k, e) :: es')).elements[pre.length]? = some (k, e) :=
      getElem?_append_cons pre (k, e) es'
    have hilt : pre.length < (Node.mk par (pre ++ (k, e) :: es')).elements.length := by
      simp
    have hcond : e.rightChild = none ∨ (!(r.isE && rest.headL.isE)) = true := by
      cases r with
      | E => left; simpa [Sh.ptr] using hrp
      | C _ _ _ _ _ => right; rfl
    simp only [Sh.bwd]
    apply steps_append
    · cases rest with
      | E => trivial
      | C a1 l2 k2 r2 rest2 =>
        have hrE : r = .E := by
          rcases hro.1 with h1 | h1
          · exact h1
          · simp at h1
        subst hrE
        have hih := ihrest a0 par (pre ++ [(k, e)]) es' d (by simpa using hn) hrest
          hro.2.2.2 hso1.2.1.2.2.1
          (by
            intro x hx y hy
            rcases List.mem_append.mp hx with h1 | h1
            · exact hpre x h1 y (mem_toList_rest _ _ _ _ _ _ hy)
            · simp at h1
              rw [h1]
              exact hso1.2.1.1 y (List.mem_append.mpr (Or.inr hy)))
          (by omega) hst
        simp only [List.length_append, List.length_singleton] at hih
        refine steps_mono _ _ _ ?_ _ hih
        intro o ho
        have := ho.2 (by simp)
        simpa [nextOr, Sh.bwd, Sh.isE] using this
    · apply steps_append
      · cases r with
        | E => trivial
        | C rb r1 k1 r2 rest1 =>
          have hrE : rest = .E := by
            rcases hro.1 with h1 | h1
            · simp at h1
            · exact h1
          subst hrE
          have hes : es' = [] := by simpa [Rep] using hrest
          subst hes
          obtain ⟨nb, hnb, hpb, hrepb⟩ := hcr rb rfl
          obtain ⟨v, ev, hfirst, hvmem⟩ := rep_first h _ rb nb.elements hrepb (by simp)
          have hv2 : k < v := hso1.2.1.1 v (List.mem_append.mpr (Or.inl hvmem))
          have hv1 : ∀ x ∈ pre, x.1 < v := fun x hx =>
            hpre x hx v (mem_toList_right _ _ _ _ _ _ hvmem)
          obtain ⟨hst', hdown⟩ := down_right h a0 rb par pre k e nb v ev (d + 1) hn hnb hpb
            hfirst hv1 hv2
          have hih := ihr rb (some a0) [] nb.elements (d + 1)
            (by rw [← node_eta nb (some a0) hpb]; exact hnb) hrepb hro.2.2.1 hso1.2.1.2.1
            (by simp) (by omega) hst'
          refine steps_mono _ _ _ ?_ _ hih
          intro o ho
          have := hdown o (ho.1 rfl)
          simpa [nextOr, Sh.isE] using this
      · rw [steps_cons]
        constructor
        · rw [dec_inner h a0 pre.length _ _ hn hilt]
          cases l with
          | C lb l1 k1 r1 rest1 =>
            simp only [Sh.ptr] at hlp
            rw [decf_left h a0 pre.length _ _ k e lb he hcond hlp, nextOr_bwd]
            obtain ⟨nb, hnb, hpb, hrepb⟩ := hcl lb rfl
            obtain ⟨q, hq1, hq2, hq3⟩ := rtd_last h _ h.length lb (some a0) [] nb.elements
              (by rw [← node_eta nb (some a0) hpb]; exact hnb) hrepb (by simp) (by omega)
            simp only [List.length_nil] at hq1
            rw [hq1, hq3]
            simp [iter_eta q hq2]
          | E =>
            simp only [Sh.ptr] at hlp
            simp only [Sh.bwd, nextOr]
            constructor
            · intro hp0
              subst hp0
              refine ⟨_, hn, ?_⟩
              intro hpar
              simp only [List.length_nil]
              rw [decf_up h a0 _ _ k e he hcond hlp hpar]
              exact hst _ hn hpar h.length (by omega)
            · intro hp0
              have : pre.length ≠ 0 := by
                intro h1
                exact hp0 (List.length_eq_zero.mp h1)
              rw [decf_prev h a0 pre.length _ _ k e he hcond hlp this]
              simp [Sh.headL, Sh.isE]
        · cases l with
          | E => trivial
          | C lb l1 k1 r1 rest1 =>
            obtain ⟨nb, hnb, hpb, hrepb⟩ := hcl lb rfl
            obtain ⟨v, ev, hfirst, hvmem⟩ := rep_first h _ lb nb.elements hrepb (by simp)
            have hv1 : ∀ x ∈ pre, x.1 < v := fun x hx =>
              hpre x hx v (mem_toList_left _ _ _ _ _ _ hvmem)
            have hv2 : v < k := hso1.2.2 v hvmem k (by simp)
            obtain ⟨hst', hdown⟩ := down_left h a0 lb par pre k e es' nb v ev d hn hnb hpb
              hfirst hv1 hv2 hst
            have hih := ihl lb (some a0) [] nb.elements (d + 1)
              (by rw [← node_eta nb (some a0) hpb]; exact hnb) hrepb hro.2.1 hso1.1 (by simp)
              (by omega) hst'
            refine steps_mono _ _ _ ?_ _ hih
            intro o ho
            have := hdown o (ho.1 rfl)
            exact ⟨this.1, fun hp0 => by simpa [Sh.headL, Sh.isE] using this.2 hp0⟩

/-- Dereferencing the reverse positions gives the in-order listing backwards. -/
theorem bwd_deref (h : Heap T) : ∀ (s : Sh T) (a : Nat) (par : Option Nat)
    (pre suf : List (T × Element T)),
    h[a]? = some ⟨par, pre ++ suf⟩ → Rep h s a suf →
    List.Forall₂ (fun p v => deref h p = some v) (s.bwd pre.length) s.toList.reverse := by
  intro s
  induction s with
  | E => intro a par pre suf _ _; exact List.Forall₂.nil
  | C a0 l k r rest ihl ihr ihrest =>
    intro a par pre suf hn hrep
    rw [rep_C] at hrep
    obtain ⟨ha0, e, es', hsuf, hv, hlp, hrp, hcl, hcr, hrest⟩ := hrep
    subst ha0 hsuf
    simp only [Sh.bwd, Sh.toList, List.reverse_append, List.reverse_cons, List.append_assoc,
      List.singleton_append]
    refine List.rel_append ?_ (List.rel_append ?_ (List.Forall₂.cons ?_ ?_))
    · have := ihrest a0 par (pre ++ [(k, e)]) es' (by simpa using hn) hrest
      simpa using this
    · cases r with
      | E => exact List.Forall₂.nil
      | C b l1 k1 r1 rest1 =>
        obtain ⟨nb, hnb, hpb, hrepb⟩ := hcr b rfl
        exact ihr b (some a0) [] nb.elements (by rw [← node_eta nb _ hpb]; exact hnb) hrepb
    · rw [deref_at h a0 par pre k e es' _ hn, hv]
    · cases l with
      | E => exact List.Forall₂.nil
      | C b l1 k1 r1 rest1 =>
        obtain ⟨nb, hnb, hpb, hrepb⟩ := hcl b rfl
        exact ihl b (some a0) [] nb.elements (by rw [← node_eta nb _ hpb]; exact hnb) hrepb

/-- The last reverse position is the first forward position, up to the flag. -/
theorem bwd_getLast : ∀ (s : Sh T) (i : Nat), s ≠ .E →
    ∃ p q, (s.bwd i).getLast? = some p ∧ s.first i = some q ∧ iter_eq p q = true := by
  intro s
  induction s with
  | E => intro i hne; exact absurd rfl hne
  | C a l k r rest ihl _ _ =>
    intro i _
    have hsplit : (Sh.C a l k r rest).bwd i =
        (rest.bwd (i + 1) ++ r.bwd 0 ++ [⟨a, i, !(r.isE && rest.headL.isE)⟩]) ++ l.bwd 0 := by
      simp [Sh.bwd]
    cases l with
    | E =>
      refine ⟨⟨a, i, !(r.isE && rest.headL.isE)⟩, ⟨a, i, false⟩, ?_, by simp [Sh.first], ?_⟩
      · rw [hsplit]
        simp [Sh.bwd]
      · simp [iter_eq]
    | C b l1 k1 r1 rest1 =>
      obtain ⟨p, q, h1, h2, h3⟩ := ihl 0 (by simp)
      refine ⟨p, q, ?_, ?_, h3⟩
      · rw [hsplit, List.getLast?_append, h1]
        rfl
      · rw [first_C_of_ne _ _ _ _ _ _ (by simp)]
        exact h2

theorem deref_congr (h : Heap T) (p q : btree_iterator) (hpq : iter_eq p q = true) :
    deref h p = deref h q := by
  simp only [iter_eq, Bool.and_eq_true, beq_iff_eq] at hpq
  simp [deref, hpq.1, hpq.2]

theorem forall₂_mem_left {α β : Type} (R : α → β → Prop) : ∀ (l1 : List α) (l2 : List β),
    List.Forall₂ R l1 l2 → ∀ x ∈ l1, ∃ y ∈ l2, R x y := by
  intro l1 l2 hf
  induction hf with
  | nil => intro x hx; simp at hx
  | cons hr _ ih =>
    intro x hx
    rcases List.mem_cons.mp hx with h1 | h1
    · exact ⟨_, List.mem_cons_self _ _, h1 ▸ hr⟩
    · obtain ⟨y, hy, hxy⟩ := ih x h1
      exact ⟨y, List.mem_cons_of_mem _ hy, hxy⟩

theorem reverse_from_stop [LinearOrder T] (h : Heap T) (stop c : btree_iterator) (fuel : Nat)
    (hc : iter_eq c stop = true) : reverse_from h stop fuel c = some [] := by
  cases fuel <;> simp [reverse_from, hc]

theorem reverse_from_step [LinearOrder T] (h : Heap T) (stop c c' : btree_iterator)
    (fuel : Nat) (v : T) (hc : iter_eq c stop = false) (hi : decrement h c = some c')
    (hv : deref h c' = some v) :
    reverse_from h stop (fuel + 1) c = (reverse_from h stop fuel c').map fun vs => v :: vs := by
  simp [reverse_from, hc, hv, hi]

/-- The loop of a reverse traversal along a chain of positions. -/
theorem reverse_from_chain [LinearOrder T] (h : Heap T) (stop : btree_iterator) :
    ∀ (ps : List btree_iterator) (vs : List T),
      List.Forall₂ (fun p v => deref h p = some v) ps vs → vs.Nodup →
      Steps (decrement h) ps (fun _ => True) →
      ∀ pl, ps.getLast? = some pl → iter_eq pl stop = true →
      ∀ c0 p0 rest, ps = p0 :: rest → decrement h c0 = some p0 → iter_eq c0 stop = false →
      ∀ fuel, ps.length ≤ fuel → reverse_from h stop fuel c0 = some vs := by
  intro ps
  induction ps with
  | nil => intro vs _ _ _ pl hpl; simp at hpl
  | cons p ps ih =>
    intro vs hder hnd hsteps pl hpl hstop c0 p0 rest hps hdec hc0 fuel hfuel
    obtain ⟨rfl, rfl⟩ : p = p0 ∧ ps = rest := by simpa using hps
    cases hder with
    | cons hv hder' =>
      rename_i v vs'
      obtain ⟨f, rfl⟩ : ∃ f, fuel = f + 1 := ⟨fuel - 1, by simp at hfuel; omega⟩
      rw [reverse_from_step h stop c0 p f v hc0 hdec hv]
      rw [steps_cons] at hsteps
      cases ps with
      | nil =>
        cases hder'
        obtain rfl : p = pl := by simpa using hpl
        rw [reverse_from_stop h stop p f hstop]
        rfl
      | cons p1 ps1 =>
        have hq1 : decrement h p = some p1 := hsteps.1
        have hpl' : (p1 :: ps1).getLast? = some pl := by
          rw [← hpl, List.getLast?_cons_cons]
        have hplmem : pl ∈ p1 :: ps1 := List.mem_of_getLast?_eq_some hpl'
        obtain ⟨vl, hvl, hdl⟩ := forall₂_mem_left _ _ _ hder' pl hplmem
        have hpne : iter_eq p stop = false := by
          cases hps : iter_eq p stop with
          | false => rfl
          | true =>
            exfalso
            have h1 : deref h p = deref h pl := by
              rw [deref_congr h p stop hps, deref_congr h pl stop hstop]
            rw [hv, hdl] at h1
            obtain rfl : v = vl := by simpa using h1
            exact (List.nodup_cons.mp hnd).1 hvl
        rw [ih vs' hder' (List.nodup_cons.mp hnd).2 hsteps.2 pl hpl' hstop p p1 ps1 rfl hq1 hpne f
          (by simp at hfuel ⊢; omega)]
        rfl

/-- The last cell of a non-empty list of cells. -/
theorem last_cell (h : Heap T) : ∀ (s : Sh T) (a : Nat) (suf : List (T × Element T)) (i : Nat),
    Rep h s a suf → s ≠ .E →
    ∃ (pre2 : List (T × Element T)) (k : T) (e : Element T) (r : Sh T),
      suf = pre2 ++ [(k, e)] ∧ e.rightChild = r.ptr ∧ Child h r a ∧ r.height + 1 ≤ s.height ∧
      s.lastPos i = (match r.lastPos 0 with
        | some p => some p
        | none => some ⟨a, i + pre2.length, false⟩) := by
  intro s
  induction s with
  | E => intro a suf i _ hne; exact absurd rfl hne
  | C a0 l k r rest _ _ ihrest =>
    intro a suf i hrep _
    rw [rep_C] at hrep
    obtain ⟨ha0, e, es', hsuf, hv, hlp, hrp, hcl, hcr, hrest⟩ := hrep
    subst ha0 hsuf
    obtain ⟨_, hh2, hh3⟩ := height_C a0 l k r rest
    cases rest with
    | E =>
      have hes : es' = [] := by simpa [Rep] using hrest
      subst hes
      exact ⟨[], k, e, r, rfl, hrp, hcr, hh2, by
        rw [Sh.lastPos]
        cases hr0 : Sh.lastPos r 0 <;> simp [Sh.lastPos]⟩
    | C a1 l1 k1 r1 rest1 =>
      obtain ⟨pre2, k', e', r', h1, h2, h3, h4, h5⟩ := ihrest a0 es' (i + 1) hrest (by simp)
      refine ⟨(k, e) :: pre2, k', e', r', by simp [h1], h2, h3, by omega, ?_⟩
      rw [Sh.lastPos, h5]
      cases Sh.lastPos r' 0 with
      | some p => rfl
      | none =>
        simp only [List.length_cons]
        congr 2
        omega

/-- Retreating from `end()` reaches the position of the greatest value. -/
theorem dec_end [LinearOrder T] (cap : Nat) (h : Heap T) (root : Nat) (s : Sh T)
    (hinv : TreeInv cap h root s) (hne : s ≠ .E) (n : Node T) (hn : h[root]? = some n) :
    ∃ q, s.lastPos 0 = some q ∧
      decrement h ⟨root, n.elements.length, false⟩ = some q := by
  obtain ⟨n', hn', hp, hrep⟩ := hinv.rep
  obtain rfl : n = n' := by rw [hn] at hn'; simpa using hn'
  obtain ⟨pre2, k, e, r, h1, h2, h3, h4, h5⟩ := last_cell h s root n.elements 0 hrep hne
  have hlen : n.elements.length = pre2.length + 1 := by simp [h1]
  have hget : n.elements[n.elements.length - 1]? = some (k, e) := by
    rw [hlen, h1]
    simp
  have hl0 : ¬ n.elements.length = 0 := by omega
  cases r with
  | E =>
    simp only [Sh.ptr] at h2
    refine ⟨⟨root, pre2.length, false⟩, by simpa [Sh.lastPos] using h5, ?_⟩
    simp only [decrement, hn, hp, and_self, if_true, hl0, if_false, hget, h2]
    simp [hlen]
  | C rb l1 k1 r1 rest1 =>
    simp only [Sh.ptr] at h2
    obtain ⟨nb, hnb, hpb, hrepb⟩ := h3 rb rfl
    have hhl := hinv.height_le
    obtain ⟨q, hq1, hq2, hq3⟩ := rtd_last h _ h.length rb (some root) [] nb.elements
      (by rw [← node_eta nb _ hpb]; exact hnb) hrepb (by simp) (by omega)
    simp only [List.length_nil] at hq1
    refine ⟨q, by rw [h5, hq1], ?_⟩
    have hne' : ¬ e.rightChild = none := by rw [h2]; simp
    simp only [decrement, hn, hp, and_self, if_true, hl0, if_false, hget, hne']
    rw [decf_right h root _ n k e rb hget h2, hq3]
    simp [iter_eta q hq2]

/-- Specification of the reverse traversal of a tree satisfying the invariant. -/
theorem reverse_traversal_spec [LinearOrder T] (cap : Nat) (h : Heap T) (t : btree) (s : Sh T)
    (hinv : TreeInv cap h t.root s) (fuel : Nat) (hfuel : s.toList.length ≤ fuel) :
    reverse_traversal h t fuel = some s.toList.reverse := by
  obtain ⟨n, hn, hp, hrep⟩ := hinv.rep
  have hn' : h[t.root]? = some ⟨none, [] ++ n.elements⟩ := by
    rw [← node_eta n none hp]; exact hn
  have hend : btree_end h t = some ⟨t.root, n.elements.length, false⟩ := by
    simp [btree_end, hn]
  have hbegin := begin_spec cap h t s hinv n hn
  simp only [reverse_traversal, hbegin, hend]
  by_cases hs : s = .E
  · subst hs
    have hes : n.elements = [] := by simpa [Rep] using hrep
    simp only [Sh.toList, List.reverse_nil, Sh.first]
    exact reverse_from_stop h _ _ fuel (by simp [iter_eq])
  · have hst : DownStable h t.root 0 := by
      intro n' hn' hp' _ _
      rw [hn] at hn'
      obtain rfl : n = n' := by simpa using hn'
      exact absurd hp hp'
    have hsteps := bwd_steps h s t.root none [] n.elements 0 hn' hrep hinv.rightOk hinv.sorted
      (by simp) (by simpa using hinv.height_le) hst
    have hder := bwd_deref h s t.root none [] n.elements hn' hrep
    simp only [List.length_nil] at hsteps hder
    obtain ⟨pl, q, hpl1, hq, hplq⟩ := bwd_getLast s 0 hs
    obtain ⟨q0, hq0, hdec⟩ := dec_end cap h t.root s hinv hs n hn
    rw [hq]
    simp only []
    have hps : s.bwd 0 ≠ [] := by rw [Ne, bwd_nil_iff]; exact hs
    obtain ⟨p0, rest, hps'⟩ := List.exists_cons_of_ne_nil hps
    have hhead := bwd_head s 0
    rw [hps', hq0] at hhead
    obtain rfl : p0 = q0 := by simpa using hhead
    have hnd : s.toList.reverse.Nodup := by
      rw [List.nodup_reverse]
      exact hinv.sorted.imp (fun hab => ne_of_lt hab)
    have hc0 : iter_eq ⟨t.root, n.elements.length, false⟩ q = false := by
      have hpos := fwd_pos h s t.root [] n.elements hrep
      have hhead := fwd_head s 0
      rw [hq] at hhead
      have hmem : q ∈ s.fwd 0 := List.mem_of_mem_head? hhead
      rcases hpos q hmem with ⟨h1, h2⟩ | h1
      · simp only [iter_eq, Bool.and_eq_false_imp, beq_iff_eq]
        intro _
        simp at h2 ⊢
        omega
      · simp only [iter_eq, Bool.and_eq_false_imp, beq_iff_eq]
        intro h2
        exact absurd (h2 ▸ h1) (List.nodup_cons.mp hinv.nodup).1
    have hlen : (s.bwd 0).length = s.toList.length := by
      rw [hder.length_eq, List.length_reverse]
    exact reverse_from_chain h q (s.bwd 0) s.toList.reverse hder hnd
      (steps_mono _ _ _ (fun _ _ => trivial) _ hsteps) pl hpl1 hplq _ p0 rest hps' hdec hc0
      fuel (by rw [hlen]; exact hfuel)

/-! ## Search -/

theorem find_at_end [LinearOrder T] (t : btree) (elem : T) (f : Nat) (h : Heap T) (a : Nat)
    (par : Option Nat) (pre : List (T × Element T)) (k : T) (e : Element T)
    (hn : h[a]? = some ⟨par, pre ++ [(k, e)]⟩) (hpre : ∀ x ∈ pre, x.1 < elem) (hk : k < elem) :
    recursiveFind t elem (f + 1) h a =
      match e.rightChild with
      | some child => recursiveFind t elem f h child
      | none => btree_end h t := by
  have hlb : lower_bound (pre ++ [(k, e)]) elem = (pre ++ [(k, e)]).length := by
    rw [lower_bound_append elem pre _ hpre]
    simp [lower_bound, hk]
  have hget : (pre ++ [(k, e)])[(pre ++ [(k, e)]).length - 1]? = some (k, e) := by
    simp
  have hl0 : ¬ (pre ++ [(k, e)]).length = 0 := by simp
  simp only [recursiveFind, hn, hlb, if_true, hl0, if_false, hget]

theorem find_at_cell [LinearOrder T] (t : btree) (elem : T) (f : Nat) (h : Heap T) (a : Nat)
    (par : Option Nat) (pre : List (T × Element T)) (k : T) (e : Element T)
    (es : List (T × Element T))
    (hn : h[a]? = some ⟨par, pre ++ (k, e) :: es⟩) (hpre : ∀ x ∈ pre, x.1 < elem)
    (hk : ¬ k < elem) :
    recursiveFind t elem (f + 1) h a =
      if k = elem then some ⟨a, pre.length, false⟩
      else
        match e.leftChild with
        | some child => recursiveFind t elem f h child
        | none => btree_end h t := by
  have hlb : lower_bound (pre ++ (k, e) :: es) elem = pre.length := by
    rw [lower_bound_append elem pre _ hpre]
    simp [lower_bound, hk]
  have hne : ¬ pre.length = (pre ++ (k, e) :: es).length := by simp
  simp only [recursiveFind, hn, hlb, hne, if_false, getElem?_append_cons]

/-- What `recursiveFind` returns on a node, seen from the cells still to be searched. -/
theorem find_suffix [LinearOrder T] (t : btree) (elem : T) :
    ∀ (s : Sh T) (fuel : Nat) (h : Heap T) (a : Nat) (par : Option Nat)
      (pre suf : List (T × Element T)),
      h[a]? = some ⟨par, pre ++ suf⟩ → Rep h s a suf → s ≠ .E → (∀ x ∈ pre, x.1 < elem) →
      s.rightOk → s.toList.Pairwise (· < ·) → s.height ≤ fuel →
      (elem ∈ s.toList → ∃ it, recursiveFind t elem fuel h a = some it ∧
        deref h it = some elem ∧
        ((it.node = a ∧ it.it < (pre ++ suf).length) ∨ it.node ∈ s.kids)) ∧
      (elem ∉ s.toList → recursiveFind t elem fuel h a = btree_end h t) := by
  intro s
  induction s with
  | E => intro fuel h a par pre suf _ _ hne; exact absurd rfl hne
  | C a0 l k r rest ihl ihr ihrest =>
    intro fuel h a par pre suf hn hrep _ hpre hro hso hfuel
    rw [rep_C] at hrep
    obtain ⟨ha0, e, es', hsuf, hv, hlp, hrp, hcl, hcr, hrest⟩ := hrep
    subst ha0 hsuf
    have hso1 := hso
    simp only [Sh.toList, List.pairwise_append, List.pairwise_cons] at hso1
    obtain ⟨hh1, hh2, hh3⟩ := height_C a0 l k r rest
    obtain ⟨f, rfl⟩ : ∃ f, fuel = f + 1 := ⟨fuel - 1, by omega⟩
    rw [kids_C]
    by_cases hk : k < elem
    · -- the value can only be to the right of this cell
      have hnl : elem ∉ l.toList := fun hx => lt_asymm hk (hso1.2.2 elem hx k (by simp))
      have hnk : ¬ elem = k := ne_of_gt hk
      cases rest with
      | C a1 l1 k1 r1 rest1 =>
        have hrE : r = .E := by
          rcases hro.1 with h1 | h1
          · exact h1
          · simp at h1
        subst hrE
        have hih := ihrest (f + 1) h a0 par (pre ++ [(k, e)]) es' (by simpa using hn) hrest
          (by simp)
          (by
            intro x hx
            rcases List.mem_append.mp hx with h1 | h1
            · exact hpre x h1
            · simp at h1; rw [h1]; exact hk)
          hro.2.2.2 hso1.2.1.2.2.1 (by omega)
        constructor
        · intro hmem
          have hmem' : elem ∈ (Sh.C a1 l1 k1 r1 rest1).toList := by
            simp only [Sh.toList, List.mem_append, List.mem_cons] at hmem ⊢
            rcases hmem with h1 | h1 | h1
            · exact absurd h1 hnl
            · exact absurd h1 hnk
            · simpa [Sh.toList] using h1
          obtain ⟨it, h1, h2, h3⟩ := hih.1 hmem'
          refine ⟨it, h1, h2, ?_⟩
          rcases h3 with h3 | h3
          · left; simpa using h3
          · right
            exact List.mem_append.mpr (Or.inr (List.mem_append.mpr (Or.inr h3)))
        · intro hmem
          exact hih.2 (fun hx => hmem (mem_toList_rest _ _ _ _ _ _ hx))
      | E =>
        have hes : es' = [] := by simpa [Rep] using hrest
        subst hes
        rw [find_at_end t elem f h a0 par pre k e hn hpre hk]
        cases r with
        | E =>
          simp only [Sh.ptr] at hrp
          simp only [hrp]
          constructor
          · intro hmem
            simp only [Sh.toList, List.mem_append, List.mem_cons] at hmem
            rcases hmem with h1 | h1 | h1
            · exact absurd h1 hnl
            · exact absurd h1 hnk
            · simp at h1
          · intro _; trivial
        | C rb l1 k1 r1 rest1 =>
          simp only [Sh.ptr] at hrp
          simp only [hrp]
          obtain ⟨nb, hnb, hpb, hrepb⟩ := hcr rb rfl
          have hih := ihr f h rb (some a0) [] nb.elements
            (by rw [← node_eta nb _ hpb]; exact hnb) hrepb (by simp) (by simp) hro.2.2.1
            hso1.2.1.2.1 (by omega)
          constructor
          · intro hmem
            have hmem' : elem ∈ (Sh.C rb l1 k1 r1 rest1).toList := by
              simp only [Sh.toList, List.mem_append, List.mem_cons] at hmem ⊢
              rcases hmem with h1 | h1 | h1
              · exact absurd h1 hnl
              · exact absurd h1 hnk
              · simpa [Sh.toList] using h1
            obtain ⟨it, h1, h2, h3⟩ := hih.1 hmem'
            refine ⟨it, h1, h2, Or.inr ?_⟩
            simp only [Sh.nodes, Sh.ptr, Option.toList, List.singleton_append, List.mem_append,
              List.mem_cons]
            rcases h3 with h3 | h3
            · exact Or.inr (Or.inl (Or.inl h3.1))
            · exact Or.inr (Or.inl (Or.inr h3))
          · intro hmem
            exact hih.2 (fun hx => hmem (mem_toList_right _ _ _ _ _ _ hx))
    · rw [find_at_cell t elem f h a0 par pre k e es' hn hpre hk]
      by_cases hke : k = elem
      · subst hke
        rw [if_pos rfl]
        constructor
        · intro _
          refine ⟨_, rfl, ?_, Or.inl ⟨rfl, by simp⟩⟩
          rw [deref_at h a0 par pre k e es' false hn, hv]
        · intro hmem
          exact absurd (by simp [Sh.toList]) hmem
      · rw [if_neg hke]
        have hlt : elem < k := lt_of_le_of_ne (not_lt.mp hk) (Ne.symm hke)
        have hnright : elem ∉ r.toList ++ rest.toList := fun hx =>
          lt_asymm hlt (hso1.2.1.1 elem hx)
        cases l with
        | E =>
          simp only [Sh.ptr] at hlp
          simp only [hlp]
          constructor
          · intro hmem
            simp only [Sh.toList, List.mem_append, List.mem_cons] at hmem
            rcases hmem with h1 | h1 | h1
            · simp at h1
            · exact absurd h1.symm hke
            · exact absurd (List.mem_append.mpr h1) hnright
          · intro _; trivial
        | C lb l1 k1 r1 rest1 =>
          simp only [Sh.ptr] at hlp
          simp only [hlp]
          obtain ⟨nb, hnb, hpb, hrepb⟩ := hcl lb rfl
          have hih := ihl f h lb (some a0) [] nb.elements
            (by rw [← node_eta nb _ hpb]; exact hnb) hrepb (by simp) (by simp) hro.2.1
            hso1.1 (by omega)
          constructor
          · intro hmem
            have hmem' : elem ∈ (Sh.C lb l1 k1 r1 rest1).toList := by
              simp only [Sh.toList, List.mem_append, List.mem_cons] at hmem ⊢
              rcases hmem with h1 | h1 | h1
              · simpa [Sh.toList] using h1
              · exact absurd h1.symm hke
              · exact absurd (List.mem_append.mpr h1) hnright
            obtain ⟨it, h1, h2, h3⟩ := hih.1 hmem'
            refine ⟨it, h1, h2, Or.inr ?_⟩
            simp only [Sh.nodes, Sh.ptr, Option.toList, List.singleton_append, List.mem_append,
              List.mem_cons]
            rcases h3 with h3 | h3
            · exact Or.inl (Or.inl h3.1)
            · exact Or.inl (Or.inr h3)
          · intro hmem
            exact hih.2 (fun hx => hmem (mem_toList_left _ _ _ _ _ _ hx))

/-- Specification of `find` on a non-empty tree satisfying the invariant. -/
theorem find_spec [LinearOrder T] (h : Heap T) (t : btree) (elem : T) (s : Sh T) (cap : Nat)
    (hinv : TreeInv cap h t.root s) (hne : s ≠ .E) :
    (elem ∈ s.toList → ∃ it e, find h t elem = some it ∧ deref h it = some elem ∧
      btree_end h t = some e ∧ iter_eq it e = false) ∧
    (elem ∉ s.toList → ∃ e, find h t elem = some e ∧ btree_end h t = some e) := by
  obtain ⟨n, hn, hp, hrep⟩ := hinv.rep
  have hn' : h[t.root]? = some ⟨none, [] ++ n.elements⟩ := by
    rw [← node_eta n none hp]; exact hn
  have hend : btree_end h t = some ⟨t.root, n.elements.length, false⟩ := by
    simp [btree_end, hn]
  have hsuf := find_suffix t elem s h.length h t.root none [] n.elements hn' hrep hne (by simp)
    hinv.rightOk hinv.sorted hinv.height_le
  constructor
  · intro hmem
    obtain ⟨it, h1, h2, h3⟩ := hsuf.1 hmem
    refine ⟨it, _, h1, h2, hend, ?_⟩
    rcases h3 with ⟨h3, h4⟩ | h3
    · simp only [iter_eq, Bool.and_eq_false_imp, beq_iff_eq]
      intro _
      simp at h4 ⊢
      omega
    · simp only [iter_eq, Bool.and_eq_false_imp, beq_iff_eq]
      intro h4
      exact absurd (h4 ▸ h3) (List.nodup_cons.mp hinv.nodup).1
  · intro hmem
    exact ⟨_, (hsuf.2 hmem).trans hend, hend⟩

/-! ## Move -/

theorem kids_perm : ∀ (s : Sh T), s.kids.Perm (s.links ++ s.grand) := by
  intro s
  induction s with
  | E => simp [Sh.kids, Sh.links, Sh.grand]
  | C a l k r rest _ _ ihrest =>
    simp only [Sh.kids, Sh.links, Sh.grand]
    have h1 : (l.ptr.toList ++ l.kids ++ (r.ptr.toList ++ r.kids ++ rest.kids)).Perm
        (l.ptr.toList ++ l.kids ++ (r.ptr.toList ++ r.kids ++ (rest.links ++ rest.grand))) :=
      List.Perm.append_left _ (List.Perm.append_left _ ihrest)
    refine h1.trans ?_
    simp only [List.append_assoc]
    refine List.Perm.append_left _ ?_
    -- l.kids ++ (rp ++ (r.kids ++ (links ++ grand))) ~ rp ++ (links ++ (l.kids ++ (r.kids ++ grand)))
    refine (List.perm_append_comm_assoc _ _ _).trans (List.Perm.append_left _ ?_)
    refine List.Perm.trans ?_ (List.perm_append_comm_assoc _ _ _).symm
    refine List.Perm.append_left _ ?_
    exact (List.perm_append_comm_assoc _ _ _)

theorem rep_links (h : Heap T) : ∀ (s : Sh T) (a : Nat) (es : List (T × Element T)),
    Rep h s a es → elemLinks es = s.links := by
  intro s
  induction s with
  | E => intro a es hrep; simp [Rep] at hrep; simp [hrep, elemLinks, Sh.links]
  | C a0 l k r rest _ _ ihrest =>
    intro a es hrep
    rw [rep_C] at hrep
    obtain ⟨_, e, es', hes, _, hlp, hrp, _, _, hrest⟩ := hrep
    subst hes
    simp only [elemLinks, Sh.links, hlp, hrp, ihrest a es' hrest]

theorem links_sub_kids : ∀ (s : Sh T), ∀ x ∈ s.links, x ∈ s.kids := by
  intro s x hx
  exact (kids_perm s).mem_iff.mpr (List.mem_append.mpr (Or.inl hx))

theorem rehead_toList (b : Nat) : ∀ (s : Sh T), (s.rehead b).toList = s.toList := by
  intro s
  induction s with
  | E => rfl
  | C a l k r rest _ _ ih => simp [Sh.rehead, Sh.toList, ih]

theorem rehead_kids (b : Nat) : ∀ (s : Sh T), (s.rehead b).kids = s.kids := by
  intro s
  induction s with
  | E => rfl
  | C a l k r rest _ _ ih => simp [Sh.rehead, Sh.kids, ih]

theorem rehead_keys (b : Nat) : ∀ (s : Sh T), (s.rehead b).keys = s.keys := by
  intro s
  induction s with
  | E => rfl
  | C a l k r rest _ _ ih => simp [Sh.rehead, Sh.keys, ih]

theorem rehead_E_iff (b : Nat) (s : Sh T) : s.rehead b = .E ↔ s = .E := by
  cases s <;> simp [Sh.rehead]

theorem rehead_leafy (b : Nat) : ∀ (s : Sh T), (s.rehead b).leafy ↔ s.leafy := by
  intro s
  induction s with
  | E => rfl
  | C a l k r rest _ _ ih => simp [Sh.rehead, Sh.leafy, ih]

theorem rehead_rightOk (b : Nat) : ∀ (s : Sh T), (s.rehead b).rightOk ↔ s.rightOk := by
  intro s
  induction s with
  | E => rfl
  | C a l k r rest _ _ ih => simp [Sh.rehead, Sh.rightOk, ih, rehead_E_iff]

theorem rehead_capOk (cap b : Nat) : ∀ (s : Sh T), (s.rehead b).capOk cap ↔ s.capOk cap := by
  intro s
  induction s with
  | E => rfl
  | C a l k r rest _ _ ih => simp [Sh.rehead, Sh.capOk, ih]

theorem rehead_nodeFull (cap b : Nat) (s : Sh T) :
    (s.rehead b).nodeFull cap ↔ s.nodeFull cap := by
  simp [Sh.nodeFull, rehead_leafy, rehead_keys]

/-- The cells of a moved root: the direct children have a new parent link, everything below
them is untouched. -/
theorem rep_rehead (h h4 : Heap T) (dst : Nat) : ∀ (s : Sh T) (a : Nat)
    (es : List (T × Element T)), Rep h s a es →
    (∀ c ∈ s.links, ∀ n, h[c]? = some n → h4[c]? = some { n with parent := some dst }) →
    (∀ x ∈ s.grand, h4[x]? = h[x]?) → Rep h4 (s.rehead dst) dst es := by
  intro s
  induction s with
  | E => intro a es hrep _ _; simpa [Rep, Sh.rehead] using hrep
  | C a0 l k r rest _ _ ihrest =>
    intro a es hrep hl hg
    rw [rep_C] at hrep
    obtain ⟨_, e, es', hes, hv, hlp, hrp, hcl, hcr, hrest⟩ := hrep
    simp only [Sh.rehead]
    rw [rep_C]
    refine ⟨rfl, e, es', hes, hv, hlp, hrp, ?_, ?_, ?_⟩
    · intro b hb
      obtain ⟨n, hn, _, hrepb⟩ := hcl b hb
      refine ⟨_, hl b (by simp [Sh.links, hb]) n hn, rfl, ?_⟩
      exact rep_frame h h4 l b n.elements hrepb (fun x hx => hg x (by simp [Sh.grand, hx]))
    · intro b hb
      obtain ⟨n, hn, _, hrepb⟩ := hcr b hb
      refine ⟨_, hl b (by simp [Sh.links, hb]) n hn, rfl, ?_⟩
      exact rep_frame h h4 r b n.elements hrepb (fun x hx => hg x (by simp [Sh.grand, hx]))
    · exact ihrest a es' hrest (fun c hc => hl c (by simp [Sh.links, hc]))
        (fun x hx => hg x (by simp [Sh.grand, hx]))

theorem reparent_spec (h : Heap T) (dst : Nat) (o : Option Nat)
    (ho : ∀ c ∈ o.toList, c < h.length) :
    ∃ h1, reparent h dst o = some h1 ∧ h1.length = h.length ∧
      ∀ x, h1[x]? = (h[x]?).map
        fun n => if x ∈ o.toList then { n with parent := some dst } else n := by
  cases o with
  | none => exact ⟨h, rfl, rfl, fun x => by simp⟩
  | some c =>
    have hc : c < h.length := ho c (by simp)
    refine ⟨h.set c { h[c] with parent := some dst }, ?_, by simp, ?_⟩
    · simp [reparent, List.getElem?_eq_getElem hc]
    · intro x
      by_cases hx : x = c
      · subst hx
        simp [List.getElem?_set, hc, List.getElem?_eq_getElem hc]
      · simp only [Option.toList, List.mem_singleton, hx, if_false]
        rw [List.getElem?_set_ne (Ne.symm hx)]
        simp

/-- The effect of the loop that re-establishes the parent links of the moved children. -/
theorem moveParents_spec (dst : Nat) : ∀ (es : List (T × Element T)) (h : Heap T),
    (∀ c ∈ elemLinks es, c < h.length) →
    ∃ h', moveParents es h dst = some h' ∧ h'.length = h.length ∧
      ∀ x, h'[x]? = (h[x]?).map
        fun n => if x ∈ elemLinks es then { n with parent := some dst } else n := by
  intro es
  induction es with
  | nil => intro h _; exact ⟨h, rfl, rfl, fun x => by simp [elemLinks]⟩
  | cons p es ih =>
    intro h hlt
    obtain ⟨k, e⟩ := p
    simp only [elemLinks, List.mem_append] at hlt
    obtain ⟨h1, hr1, hl1, hg1⟩ := reparent_spec h dst e.leftChild
      (fun c hc => hlt c (Or.inl hc))
    obtain ⟨h2, hr2, hl2, hg2⟩ := reparent_spec h1 dst e.rightChild
      (fun c hc => by rw [hl1]; exact hlt c (Or.inr (Or.inl hc)))
    obtain ⟨h3, hr3, hl3, hg3⟩ := ih h2
      (fun c hc => by rw [hl2, hl1]; exact hlt c (Or.inr (Or.inr hc)))
    refine ⟨h3, by simp [moveParents, hr1, hr2, hr3], by rw [hl3, hl2, hl1], ?_⟩
    intro x
    rw [hg3 x, hg2 x, hg1 x]
    cases h[x]? with
    | none => rfl
    | some n =>
      simp only [Option.map_some', elemLinks, List.mem_append]
      by_cases h1 : x ∈ e.leftChild.toList <;> by_cases h2 : x ∈ e.rightChild.toList <;>
        by_cases h3 : x ∈ elemLinks es <;> simp [h1, h2, h3]

/-- Specification of the statements shared by the move constructor and the move
assignment, when the destination root is not a node of the source tree. -/
theorem moveInto_spec [LinearOrder T] (cap : Nat) (h : Heap T) (dst : Nat) (src : btree)
    (s : Sh T) (hinv : TreeInv cap h src.root s) (hd : dst < h.length)
    (hdn : dst ∉ src.root :: s.kids) :
    ∃ h', moveInto h dst src = some h' ∧ TreeInv cap h' dst (s.rehead dst) ∧
      TreeInv cap h' src.root (.E : Sh T) ∧ h'.length = h.length ∧
      h'[src.root]? = some ⟨none, []⟩ ∧
      (∀ x, x ≠ dst → x ≠ src.root → x ∉ s.links → h'[x]? = h[x]?) := by
  obtain ⟨n, hn, hp, hrep⟩ := hinv.rep
  have hsl := hinv.root_lt
  have hds : dst ≠ src.root := fun h0 => hdn (by simp [h0])
  have hdk : dst ∉ s.kids := fun h0 => hdn (by simp [h0])
  have hsk : src.root ∉ s.kids := (List.nodup_cons.mp hinv.nodup).1
  have hkn : s.kids.Nodup := (List.nodup_cons.mp hinv.nodup).2
  have hdisj : ∀ x ∈ s.grand, x ∉ s.links := by
    intro x hx hx'
    have := (kids_perm s).nodup_iff.mp hkn
    exact (List.nodup_append.mp this).2.2 hx' hx
  have hgk : ∀ x ∈ s.grand, x ∈ s.kids := fun x hx =>
    (kids_perm s).mem_iff.mpr (List.mem_append.mpr (Or.inr hx))
  obtain ⟨dn, hdn'⟩ : ∃ dn, h[dst]? = some dn := ⟨h[dst], List.getElem?_eq_getElem hd⟩
  -- the heap after `root = std::move(original.root)`
  have h2dst : ((h.set dst ⟨n.parent, n.elements⟩).set src.root ⟨n.parent, []⟩)[dst]?
      = some ⟨n.parent, n.elements⟩ := by
    rw [List.getElem?_set_ne (Ne.symm hds)]
    simp [List.getElem?_set, hd]
  have hlinks : elemLinks n.elements = s.links := rep_links h s src.root n.elements hrep
  have hkl := rep_kids_lt h s src.root n.elements hrep
  obtain ⟨h3, hm, hl3, hg3⟩ := moveParents_spec dst n.elements
    ((h.set dst ⟨n.parent, n.elements⟩).set src.root ⟨n.parent, []⟩)
    (by
      intro c hc
      rw [hlinks] at hc
      simpa using hkl c (links_sub_kids s c hc))
  rw [hlinks] at hg3
  have h3src : h3[src.root]? = some ⟨n.parent, []⟩ := by
    rw [hg3 src.root]
    have : src.root ∉ s.links := fun h0 => hsk (links_sub_kids s _ h0)
    simp [this, List.getElem?_set, hsl]
  have h3len : h3.length = h.length := by simp [hl3]
  refine ⟨h3.set src.root ⟨n.parent, []⟩, ?_, ?_, ?_, by simp [h3len], ?_, ?_⟩
  · simp only [moveInto, hn, hdn', h2dst, hm, h3src, nullifyLinks, List.map_nil]
  · -- the destination
    have hget : ∀ x, x ≠ src.root →
        (h3.set src.root ⟨n.parent, []⟩)[x]? = (if x = dst then some ⟨n.parent, n.elements⟩
          else (h[x]?).map fun m =>
            if x ∈ s.links then { m with parent := some dst } else m) := by
      intro x hx
      rw [List.getElem?_set_ne (Ne.symm hx), hg3 x, List.getElem?_set_ne (Ne.symm hx)]
      by_cases hxd : x = dst
      · subst hxd
        have : x ∉ s.links := fun h0 => hdk (links_sub_kids s _ h0)
        simp [this, List.getElem?_set, hd]
      · rw [List.getElem?_set_ne (Ne.symm hxd), if_neg hxd]
    refine ⟨⟨⟨n.parent, n.elements⟩, ?_, hp, ?_⟩, (rehead_rightOk dst s).mpr hinv.rightOk,
      (rehead_capOk cap dst s).mpr hinv.capOk, (rehead_nodeFull cap dst s).mpr hinv.nodeFull,
      by rw [rehead_toList]; exact hinv.sorted, ?_⟩
    · rw [hget dst hds, if_pos rfl]
    · refine rep_rehead h _ dst s src.root n.elements hrep ?_ ?_
      · intro c hc m hm
        have hck := links_sub_kids s c hc
        have hcs : c ≠ src.root := fun h0 => hsk (h0 ▸ hck)
        have hcd : c ≠ dst := fun h0 => hdk (h0 ▸ hck)
        rw [hget c hcs, if_neg hcd, hm]
        simp [hc]
      · intro x hx
        have hxk := hgk x hx
        have hxs : x ≠ src.root := fun h0 => hsk (h0 ▸ hxk)
        have hxd : x ≠ dst := fun h0 => hdk (h0 ▸ hxk)
        rw [hget x hxs, if_neg hxd]
        cases h[x]? with
        | none => rfl
        | some m => simp [hdisj x hx]
    · rw [rehead_kids, List.nodup_cons]
      exact ⟨hdk, hkn⟩
  · refine ⟨⟨⟨n.parent, []⟩, ?_, hp, by simp [Rep]⟩, trivial, trivial, Or.inl trivial,
      by simp [Sh.toList], by simp [Sh.kids]⟩
    simp [List.getElem?_set, h3len, hsl]
  · rw [← hp]
    simp [List.getElem?_set, h3len, hsl]
  · intro x hxd hxs hxl
    rw [List.getElem?_set_ne (Ne.symm hxs), hg3 x, List.getElem?_set_ne (Ne.symm hxs),
      List.getElem?_set_ne (Ne.symm hxd)]
    cases h[x]? with
    | none => rfl
    | some m => simp [hxl]

/-! ## Copy -/

theorem queueOf_append (n0 : Nat) : ∀ (xs ys : List Nat),
    queueOf n0 (xs ++ ys) = queueOf n0 xs ++ queueOf (n0 + xs.length) ys := by
  intro xs
  induction xs generalizing n0 with
  | nil => intro ys; simp [queueOf]
  | cons x xs ih =>
    intro ys
    show (x, n0) :: queueOf (n0 + 1) (xs ++ ys) = _
    rw [ih (n0 + 1) ys]
    simp only [queueOf, List.cons_append, List.length_cons]
    rw [Nat.add_assoc, Nat.add_comm 1]

/-- The state after one of the two `if` statements of the loop. -/
theorem copyLink_spec (setLink : List (T × Element T) → Nat → Option Nat → List (T × Element T))
    (h : Heap T) (dest i : Nat) (q : List (Nat × Nat)) (o : Option Nat) (dn : Node T)
    (hd : h[dest]? = some dn) :
    ∃ h1, copyLink setLink h dest i q o = some (h1, q ++ queueOf h.length o.toList) ∧
      h1.length = h.length + o.toList.length ∧
      h1[dest]? = some (match o with
        | none => dn
        | some _ => { dn with elements := setLink dn.elements i (some h.length) }) ∧
      (∀ x, x < h.length → x ≠ dest → h1[x]? = h[x]?) ∧
      (∀ x, h.length ≤ x → x < h.length + o.toList.length → h1[x]? = some ⟨some dest, []⟩) := by
  have hdl : dest < h.length := (List.getElem?_eq_some.mp hd).1
  cases o with
  | none =>
    refine ⟨h, by simp [copyLink, queueOf], by simp, hd, fun _ _ _ => rfl, ?_⟩
    intro x h1 h2
    simp only [Option.toList, List.length_nil, Nat.add_zero] at h2
    exact absurd h2 (Nat.not_lt.mpr h1)
  | some c =>
    have hd' : (h ++ [Node.mk (some dest) []])[dest]? = some dn := by
      rw [List.getElem?_append_left hdl]; exact hd
    refine ⟨(h ++ [Node.mk (some dest) []]).set dest
        { dn with elements := setLink dn.elements i (some h.length) },
      by simp only [copyLink, hd', Option.toList, queueOf], by simp, ?_, ?_, ?_⟩
    · rw [List.getElem?_set]
      simp only [if_true, List.length_append, List.length_singleton]
      rw [if_pos (by omega)]
    · intro x hx hxd
      rw [List.getElem?_set_ne (Ne.symm hxd), List.getElem?_append_left hx]
    · intro x h1 h2
      simp only [Option.toList, List.length_singleton] at h2
      have hx : x = h.length := by omega
      subst hx
      rw [List.getElem?_set_ne (Nat.ne_of_lt hdl)]
      simp

/-- The state after the `for` loop of `copyBTree`, for distinct source and destination. -/
theorem copyLoop_spec : ∀ (suf : List (T × Element T)) (h : Heap T) (src dest : Nat)
    (ps pd : Option Nat) (pre_s pre_d : List (T × Element T)) (q : List (Nat × Nat)),
    h[src]? = some ⟨ps, pre_s ++ suf⟩ → h[dest]? = some ⟨pd, pre_d ++ suf⟩ →
    pre_s.length = pre_d.length → src ≠ dest →
    ∃ h2, copyLoop suf.length h src dest pre_s.length q =
        some (h2, q ++ queueOf h.length (elemLinks suf)) ∧
      h2.length = h.length + (elemLinks suf).length ∧
      h2[dest]? = some ⟨pd, pre_d ++ relink h.length suf⟩ ∧
      (∀ x, x < h.length → x ≠ dest → h2[x]? = h[x]?) ∧
      (∀ x, h.length ≤ x → x < h.length + (elemLinks suf).length →
        h2[x]? = some ⟨some dest, []⟩) := by
  intro suf
  induction suf with
  | nil =>
    intro h src dest ps pd pre_s pre_d q _ hd _ _
    refine ⟨h, by simp [copyLoop, elemLinks, queueOf], by simp [elemLinks], by simpa [relink] using hd,
      fun _ _ _ => rfl, ?_⟩
    intro x h1 h2
    simp [elemLinks] at h2
    omega
  | cons p es ih =>
    intro h src dest ps pd pre_s pre_d q hs hd hlen hne
    obtain ⟨k, e⟩ := p
    obtain ⟨ev, el, er⟩ := e
    have hsl : src < h.length := (List.getElem?_eq_some.mp hs).1
    have hdl : dest < h.length := (List.getElem?_eq_some.mp hd).1
    have hge : (Node.mk ps (pre_s ++ (k, ⟨ev, el, er⟩) :: es)).elements[pre_s.length]?
        = some (k, ⟨ev, el, er⟩) :=
      getElem?_append_cons pre_s _ es
    -- left link
    obtain ⟨h1, hc1, hl1, hd1, hf1, hn1⟩ := copyLink_spec setLeft h dest pre_s.length q
      el _ hd
    have hd1' : h1[dest]? = some ⟨pd, pre_d ++ (k, ⟨ev, el.map fun _ => h.length, er⟩) :: es⟩ := by
      rw [hd1]
      cases el with
      | none => rfl
      | some c =>
        simp only [Option.map_some']
        rw [hlen, setLeft_append]
    have hs1 : h1[src]? = some ⟨ps, pre_s ++ (k, ⟨ev, el, er⟩) :: es⟩ := by
      rw [hf1 src hsl hne]; exact hs
    -- right link
    obtain ⟨h2, hc2, hl2, hd2, hf2, hn2⟩ := copyLink_spec setRight h1 dest pre_s.length
      (q ++ queueOf h.length el.toList) er _ hd1'
    have hd2' : h2[dest]? = some ⟨pd, (pre_d ++ [(k, ⟨ev, el.map fun _ => h.length,
        er.map fun _ => h.length + el.toList.length⟩)]) ++ es⟩ := by
      rw [hd2]
      cases er with
      | none => simp
      | some c =>
        simp only [Option.map_some']
        rw [hlen, setRight_append, hl1]
        simp
    have hs2 : h2[src]? = some ⟨ps, (pre_s ++ [(k, ⟨ev, el, er⟩)]) ++ es⟩ := by
      rw [hf2 src (by omega) hne, hs1]
      simp
    obtain ⟨h3, hc3, hl3, hd3, hf3, hn3⟩ := ih h2 src dest ps pd (pre_s ++ [(k, ⟨ev, el, er⟩)])
      (pre_d ++ [(k, ⟨ev, el.map fun _ => h.length, er.map fun _ => h.length + el.toList.length⟩)])
      ((q ++ queueOf h.length el.toList) ++ queueOf h1.length er.toList)
      hs2 hd2' (by simp [hlen]) hne
    have hlen2 : h2.length = h.length + el.toList.length + er.toList.length := by
      rw [hl2, hl1]
    refine ⟨h3, ?_, ?_, ?_, ?_, ?_⟩
    · simp only [List.length_cons, copyLoop, hs, hge, hc1, hs1, hc2]
      simp only [List.length_append, List.length_singleton] at hc3
      rw [hc3]
      simp only [elemLinks, queueOf_append, hl1, hlen2, List.append_assoc]
    · rw [hl3, hlen2]
      simp only [elemLinks, List.length_append]
      omega
    · rw [hd3, hlen2]
      simp [relink]
    · intro x hx hxd
      rw [hf3 x (by omega) hxd, hf2 x (by omega) hxd, hf1 x hx hxd]
    · intro x hx1 hx2
      simp only [elemLinks, List.length_append] at hx2
      by_cases hxa : x < h1.length
      · rw [hf3 x (by omega) (by omega), hf2 x hxa (by omega)]
        exact hn1 x hx1 (by omega)
      · by_cases hxb : x < h2.length
        · rw [hf3 x hxb (by omega)]
          exact hn2 x (by omega) (by omega)
        · exact hn3 x (by omega) (by omega)

theorem sameShape_E_iff : ∀ (s s' : Sh T), SameShape s s' → (s = .E ↔ s' = .E) := by
  intro s s' hs
  cases s <;> cases s' <;> simp_all [SameShape]

theorem sameShape_toList : ∀ (s s' : Sh T), SameShape s s' → s'.toList = s.toList := by
  intro s
  induction s with
  | E => intro s' hs; cases s' <;> simp_all [SameShape, Sh.toList]
  | C a l k r rest ihl ihr ihrest =>
    intro s' hs
    cases s' with
    | E => simp [SameShape] at hs
    | C a' l' k' r' rest' =>
      obtain ⟨hk, h1, h2, h3⟩ := hs
      simp [Sh.toList, hk, ihl l' h1, ihr r' h2, ihrest rest' h3]

theorem sameShape_keys : ∀ (s s' : Sh T), SameShape s s' → s'.keys = s.keys := by
  intro s
  induction s with
  | E => intro s' hs; cases s' <;> simp_all [SameShape, Sh.keys]
  | C a l k r rest _ _ ihrest =>
    intro s' hs
    cases s' with
    | E => simp [SameShape] at hs
    | C a' l' k' r' rest' =>
      obtain ⟨hk, _, _, h3⟩ := hs
      simp [Sh.keys, hk, ihrest rest' h3]

theorem sameShape_leafy : ∀ (s s' : Sh T), SameShape s s' → (s'.leafy ↔ s.leafy) := by
  intro s
  induction s with
  | E => intro s' hs; cases s' <;> simp_all [SameShape, Sh.leafy]
  | C a l k r rest _ _ ihrest =>
    intro s' hs
    cases s' with
    | E => simp [SameShape] at hs
    | C a' l' k' r' rest' =>
      obtain ⟨_, h1, h2, h3⟩ := hs
      simp only [Sh.leafy, ihrest rest' h3, sameShape_E_iff l l' h1, sameShape_E_iff r r' h2]

theorem sameShape_rightOk : ∀ (s s' : Sh T), SameShape s s' → (s'.rightOk ↔ s.rightOk) := by
  intro s
  induction s with
  | E => intro s' hs; cases s' <;> simp_all [SameShape, Sh.rightOk]
  | C a l k r rest ihl ihr ihrest =>
    intro s' hs
    cases s' with
    | E => simp [SameShape] at hs
    | C a' l' k' r' rest' =>
      obtain ⟨_, h1, h2, h3⟩ := hs
      simp only [Sh.rightOk, ihl l' h1, ihr r' h2, ihrest rest' h3, sameShape_E_iff r r' h2,
        sameShape_E_iff rest rest' h3]

theorem sameShape_nodeFull (cap : Nat) (s s' : Sh T) (hs : SameShape s s') :
    s'.nodeFull cap ↔ s.nodeFull cap := by
  simp only [Sh.nodeFull, sameShape_leafy s s' hs, sameShape_keys s s' hs]

theorem sameShape_capOk (cap : Nat) : ∀ (s s' : Sh T), SameShape s s' →
    (s'.capOk cap ↔ s.capOk cap) := by
  intro s
  induction s with
  | E => intro s' hs; cases s' <;> simp_all [SameShape, Sh.capOk]
  | C a l k r rest ihl ihr ihrest =>
    intro s' hs
    cases s' with
    | E => simp [SameShape] at hs
    | C a' l' k' r' rest' =>
      obtain ⟨_, h1, h2, h3⟩ := hs
      simp only [Sh.capOk, ihl l' h1, ihr r' h2, ihrest rest' h3, sameShape_nodeFull cap l l' h1,
        sameShape_nodeFull cap r r' h2]

theorem asList_length (c : Sh T) : c.asList.length = c.ptr.toList.length := by
  cases c <;> rfl

theorem asList_addr (c : Sh T) : c.asList.map Sh.addr = c.ptr.toList := by
  cases c <;> rfl

theorem subs_addr : ∀ (s : Sh T), s.subs.map Sh.addr = s.links := by
  intro s
  induction s with
  | E => rfl
  | C a l k r rest _ _ ih =>
    simp only [Sh.subs, Sh.links, List.map_append, asList_addr, ih]

theorem nodesAll_append : ∀ (xs ys : List (Sh T)),
    nodesAll (xs ++ ys) = nodesAll xs ++ nodesAll ys := by
  intro xs
  induction xs with
  | nil => intro ys; rfl
  | cons x xs ih => intro ys; simp [nodesAll, ih]

theorem nodesAll_asList (c : Sh T) : nodesAll c.asList = c.nodes := by
  cases c <;> simp [Sh.asList, nodesAll, Sh.nodes, Sh.ptr, Sh.kids]

theorem subs_mem_child (h : Heap T) : ∀ (s : Sh T) (a : Nat) (es : List (T × Element T)),
    Rep h s a es → ∀ c ∈ s.subs, (∃ b, c.ptr = some b ∧ c.addr = b) ∧ Child h c a ∧
      (∀ x ∈ c.nodes, x ∈ s.kids) ∧ c.height + 1 ≤ s.height := by
  intro s
  induction s with
  | E => intro a es _ c hc; simp [Sh.subs] at hc
  | C a0 l k r rest _ _ ihrest =>
    intro a es hrep c hc
    rw [rep_C] at hrep
    obtain ⟨_, e, es', _, _, _, _, hcl, hcr, hrest⟩ := hrep
    obtain ⟨hh1, hh2, hh3⟩ := height_C a0 l k r rest
    simp only [Sh.subs, List.mem_append] at hc
    rw [kids_C]
    rcases hc with hc | hc | hc
    · cases l with
      | E => simp [Sh.asList] at hc
      | C b l1 k1 r1 rest1 =>
        simp only [Sh.asList, List.mem_singleton] at hc
        subst hc
        exact ⟨⟨b, rfl, rfl⟩, hcl, fun x hx => List.mem_append.mpr (Or.inl hx), hh1⟩
    · cases r with
      | E => simp [Sh.asList] at hc
      | C b l1 k1 r1 rest1 =>
        simp only [Sh.asList, List.mem_singleton] at hc
        subst hc
        exact ⟨⟨b, rfl, rfl⟩, hcr,
          fun x hx => List.mem_append.mpr (Or.inr (List.mem_append.mpr (Or.inl hx))), hh2⟩
    · obtain ⟨h1, h2, h3, h4⟩ := ihrest a es' hrest c hc
      exact ⟨h1, h2,
        fun x hx => List.mem_append.mpr (Or.inr (List.mem_append.mpr (Or.inr (h3 x hx)))),
        by omega⟩

theorem split_link (c : Sh T) (ts cs' : List (Sh T))
    (hf : List.Forall₂ SameShape (c.asList ++ ts) cs') :
    ∃ c' cs1, cs' = c'.asList ++ cs1 ∧ SameShape c c' ∧ List.Forall₂ SameShape ts cs1 := by
  cases c with
  | E => exact ⟨.E, cs', rfl, trivial, hf⟩
  | C a l k r rest =>
    simp only [Sh.asList, List.singleton_append] at hf
    cases hf with
    | cons h1 h2 =>
      rename_i c' cs1
      cases c' with
      | E => simp [SameShape] at h1
      | C a' l' k' r' rest' => exact ⟨.C a' l' k' r' rest', cs1, rfl, h1, h2⟩

/-- The facts about the copy of one link that the reconstruction of the node needs. -/
theorem link_facts (h' : Heap T) (dest L : Nat) (c c' : Sh T) (cs1 : List (Sh T))
    (hs : SameShape c c')
    (hidx : ∀ j x, (c'.asList ++ cs1)[j]? = some x → x.ptr = some (L + j) ∧ Child h' x dest) :
    c'.ptr = c.ptr.map (fun _ => L) ∧ Child h' c' dest ∧
      c'.asList.length = c.ptr.toList.length ∧
      (∀ j x, cs1[j]? = some x → x.ptr = some (L + c.ptr.toList.length + j) ∧ Child h' x dest) := by
  cases c with
  | E =>
    cases c' with
    | C _ _ _ _ _ => simp [SameShape] at hs
    | E =>
      refine ⟨rfl, child_E h' dest, rfl, ?_⟩
      intro j x hx
      simpa [Sh.ptr] using hidx j x (by simpa [Sh.asList] using hx)
  | C a l k r rest =>
    cases c' with
    | E => simp [SameShape] at hs
    | C a' l' k' r' rest' =>
      have h0 := hidx 0 (.C a' l' k' r' rest') (by simp [Sh.asList])
      refine ⟨by simpa [Sh.ptr] using h0.1, h0.2, rfl, ?_⟩
      intro j x hx
      have := hidx (j + 1) x (by simpa [Sh.asList] using hx)
      simp only [Sh.ptr, Option.toList, List.length_singleton]
      rw [Nat.add_assoc, Nat.add_comm 1]
      exact this

/-- Reconstruction of the shape of the destination node from the copies of the children. -/
theorem assemble (h h' : Heap T) (src dest : Nat) : ∀ (s : Sh T) (L : Nat)
    (es : List (T × Element T)) (cs' : List (Sh T)),
    Rep h s src es → List.Forall₂ SameShape s.subs cs' →
    (∀ j c', cs'[j]? = some c' → c'.ptr = some (L + j) ∧ Child h' c' dest) →
    ∃ s', Rep h' s' dest (relink L es) ∧ SameShape s s' ∧ s'.kids = nodesAll cs' := by
  intro s
  induction s with
  | E =>
    intro L es cs' hrep hf _
    have hes : es = [] := by simpa [Rep] using hrep
    subst hes
    have : cs' = [] := by simpa [Sh.subs] using hf
    subst this
    exact ⟨.E, by simp [Rep, relink], trivial, rfl⟩
  | C a l k r rest _ _ ihrest =>
    intro L es cs' hrep hf hidx
    rw [rep_C] at hrep
    obtain ⟨_, e, es', hes, hv, hlp, hrp, _, _, hrest⟩ := hrep
    subst hes
    simp only [Sh.subs] at hf
    obtain ⟨l', cs1, rfl, hsl, hf1⟩ := split_link l _ cs' hf
    obtain ⟨r', cs2, rfl, hsr, hf2⟩ := split_link r _ cs1 hf1
    obtain ⟨hl1, hl2, hl3, hidx1⟩ := link_facts h' dest L l l' _ hsl hidx
    obtain ⟨hr1, hr2, hr3, hidx2⟩ := link_facts h' dest _ r r' _ hsr hidx1
    obtain ⟨s1, hrep1, hs1, hk1⟩ := ihrest (L + l.ptr.toList.length + r.ptr.toList.length) es' cs2
      hrest hf2 hidx2
    refine ⟨.C dest l' k r' s1, ?_, ⟨rfl, hsl, hsr, hs1⟩, ?_⟩
    · rw [relink, rep_C]
      refine ⟨rfl, _, _, rfl, hv, ?_, ?_, hl2, hr2, ?_⟩
      · simp only [hlp, hl1]
      · simp only [hrp, hr1, hlp]
      · rw [hlp, hrp]
        exact hrep1
    · rw [kids_C, hk1, nodesAll_append, nodesAll_append, nodesAll_asList, nodesAll_asList]

theorem repAt_frame (h h' : Heap T) (s : Sh T) (p : Option Nat) (b : Nat)
    (hrep : RepAt h s p b) (hfr : ∀ x ∈ b :: s.kids, h'[x]? = h[x]?) : RepAt h' s p b := by
  obtain ⟨n, hn, hp, hr⟩ := hrep
  refine ⟨n, ?_, hp, rep_frame h h' s b n.elements hr (fun x hx => hfr x (by simp [hx]))⟩
  rw [hfr b (by simp)]; exact hn

theorem repAt_kids_lt (h : Heap T) (s : Sh T) (p : Option Nat) (b : Nat)
    (hrep : RepAt h s p b) : ∀ x ∈ s.kids, x < h.length := by
  obtain ⟨n, _, _, hr⟩ := hrep
  exact rep_kids_lt h s b n.elements hr

theorem repAt_ptr (h : Heap T) (a : Nat) (l : Sh T) (k : T) (r rest : Sh T) (p : Option Nat)
    (b : Nat) (hrep : RepAt h (.C a l k r rest) p b) : a = b := by
  obtain ⟨n, _, _, hr⟩ := hrep
  rw [rep_C] at hr
  exact hr.1

theorem mem_kidsAll : ∀ (cs : List (Sh T)) (x : Nat),
    x ∈ kidsAll cs ↔ ∃ c ∈ cs, x ∈ c.kids := by
  intro cs
  induction cs with
  | nil => intro x; simp [kidsAll]
  | cons c cs ih => intro x; simp [kidsAll, ih]

/-- The `while` loop of the copy: every queued child is copied into the node allocated
for it. -/
theorem copyQueue_spec (copy : Heap T → Nat → Option Nat → Nat → Option (Heap T)) (dest : Nat) :
    ∀ (cs : List (Sh T)) (h : Heap T) (n0 base : Nat),
    (∀ c ∈ cs, NodeSpec copy c ∧ c.ptr = some c.addr ∧ (∃ p, RepAt h c p c.addr) ∧
      (∀ x ∈ c.kids, x < base) ∧ c.addr < base) →
    base ≤ n0 → n0 + cs.length ≤ h.length →
    ∃ h' cs', copyQueue copy dest (queueOf n0 (cs.map Sh.addr)) h = some h' ∧
      List.Forall₂ SameShape cs cs' ∧
      (∀ j c', cs'[j]? = some c' → c'.ptr = some (n0 + j) ∧ Child h' c' dest) ∧
      (kidsAll cs').Nodup ∧ (∀ x ∈ kidsAll cs', h.length ≤ x) ∧ h.length ≤ h'.length ∧
      (∀ x, x < h.length → (x < n0 ∨ n0 + cs.length ≤ x) → h'[x]? = h[x]?) := by
  intro cs
  induction cs with
  | nil =>
    intro h n0 base _ _ _
    refine ⟨h, [], rfl, List.Forall₂.nil, ?_, ?_, ?_, le_refl _, fun _ _ _ => rfl⟩
    · intro j c' hj; simp at hj
    · simp [kidsAll]
    · intro x hx; simp [kidsAll] at hx
  | cons c cs1 ih =>
    intro h n0 base hall hb hlen
    simp only [List.length_cons] at hlen
    obtain ⟨hspec, hptr, ⟨p, hrep⟩, hkb, hab⟩ := hall c (List.mem_cons_self _ _)
    have hn0 : n0 ∉ c.addr :: c.kids := by
      intro hmem
      rcases List.mem_cons.mp hmem with hx | hx
      · omega
      · have := hkb n0 hx; omega
    obtain ⟨h1, c1, hcopy, hrep1, hs1, hlen1, hk1, hnd1, hfr1⟩ :=
      hspec h c.addr n0 p (some dest) hrep (by omega) hn0
    have hall1 : ∀ c' ∈ cs1, NodeSpec copy c' ∧ c'.ptr = some c'.addr ∧
        (∃ p, RepAt h1 c' p c'.addr) ∧ (∀ x ∈ c'.kids, x < base) ∧ c'.addr < base := by
      intro c' hc'
      obtain ⟨a1, a2, ⟨p', a3⟩, a4, a5⟩ := hall c' (List.mem_cons_of_mem _ hc')
      refine ⟨a1, a2, ⟨p', repAt_frame h h1 c' p' c'.addr a3 ?_⟩, a4, a5⟩
      intro x hx
      have hxb : x < base := by
        rcases List.mem_cons.mp hx with hx | hx
        · rw [hx]; exact a5
        · exact a4 x hx
      exact hfr1 x (by omega) (by omega)
    obtain ⟨h2, cs2, hq, hf2, hidx2, hnd2, hk2, hlen2, hfr2⟩ :=
      ih h1 (n0 + 1) base hall1 (by omega) (by omega)
    have hc1ptr : c1.ptr = some n0 := by
      cases c with
      | E => simp [Sh.ptr] at hptr
      | C a l k r rest =>
        cases c1 with
        | E => simp [SameShape] at hs1
        | C a' l' k' r' rest' =>
          rw [repAt_ptr h1 a' l' k' r' rest' (some dest) n0 hrep1]
          rfl
    have hk1lt := repAt_kids_lt h1 c1 (some dest) n0 hrep1
    refine ⟨h2, c1 :: cs2, ?_, List.Forall₂.cons hs1 hf2, ?_, ?_, ?_, by omega, ?_⟩
    · simp only [List.map_cons, queueOf, copyQueue, hcopy]
      exact hq
    · intro j c' hj
      cases j with
      | zero =>
        simp only [List.getElem?_cons_zero, Option.some.injEq] at hj
        subst hj
        refine ⟨hc1ptr, ?_⟩
        intro b hb'
        rw [hc1ptr] at hb'
        cases hb'
        refine repAt_frame h1 h2 c1 (some dest) n0 hrep1 ?_
        intro x hx
        rcases List.mem_cons.mp hx with hx | hx
        · exact hfr2 x (by omega) (Or.inl (by omega))
        · have a1 := hk1 x hx
          have a2 := hk1lt x hx
          exact hfr2 x a2 (Or.inr (by omega))
      | succ j =>
        simp only [List.getElem?_cons_succ] at hj
        have := hidx2 j c' hj
        rw [Nat.add_assoc, Nat.add_comm 1] at this
        exact this
    · simp only [kidsAll]
      refine List.Nodup.append hnd1 hnd2 ?_
      intro x hx1 hx2
      have a1 := hk1lt x hx1
      have a2 := hk2 x hx2
      omega
    · intro x hx
      simp only [kidsAll, List.mem_append] at hx
      rcases hx with hx | hx
      · exact hk1 x hx
      · have := hk2 x hx; omega
    · intro x hx hcond
      simp only [List.length_cons] at hcond
      rw [hfr2 x (by omega) (by omega)]
      exact hfr1 x hx (by omega)

theorem mem_nodesAll_of_idx (n0 : Nat) : ∀ (cs : List (Sh T)),
    (∀ j c', cs[j]? = some c' → c'.ptr = some (n0 + j)) →
    ∀ x ∈ nodesAll cs, (n0 ≤ x ∧ x < n0 + cs.length) ∨ x ∈ kidsAll cs := by
  intro cs
  induction cs generalizing n0 with
  | nil => intro _ x hx; simp [nodesAll] at hx
  | cons c cs ih =>
    intro hidx x hx
    simp only [nodesAll, List.mem_append, Sh.nodes] at hx
    simp only [kidsAll, List.mem_append, List.length_cons]
    rcases hx with (hx | hx) | hx
    · have := (hidx 0 c (by simp)).symm ▸ hx
      simp at this
      left; omega
    · exact Or.inr (Or.inl hx)
    · have hidx1 : ∀ j c', cs[j]? = some c' → c'.ptr = some (n0 + 1 + j) := by
        intro j c' hj
        have := hidx (j + 1) c' (by simpa using hj)
        rw [this]; congr 1; omega
      rcases ih (n0 + 1) hidx1 x hx with h1 | h1
      · left; omega
      · exact Or.inr (Or.inr h1)

theorem nodesAll_nodup : ∀ (cs : List (Sh T)) (n0 : Nat),
    (∀ j c', cs[j]? = some c' → c'.ptr = some (n0 + j)) → (kidsAll cs).Nodup →
    (∀ x ∈ kidsAll cs, n0 + cs.length ≤ x) → (nodesAll cs).Nodup := by
  intro cs
  induction cs with
  | nil => intro _ _ _ _; simp [nodesAll]
  | cons c cs ih =>
    intro n0 hidx hnd hk
    have hidx1 : ∀ j c', cs[j]? = some c' → c'.ptr = some (n0 + 1 + j) := by
      intro j c' hj
      have := hidx (j + 1) c' (by simpa using hj)
      rw [this]; congr 1; omega
    simp only [kidsAll, List.length_cons] at hnd hk
    have hnd' := List.nodup_append.mp hnd
    have hcp : c.ptr = some n0 := hidx 0 c (by simp)
    simp only [nodesAll, Sh.nodes, hcp, Option.toList, List.singleton_append]
    have hrec := ih (n0 + 1) hidx1 hnd'.2.1
      (fun x hx => by have := hk x (List.mem_append.mpr (Or.inr hx)); omega)
    have hmem := mem_nodesAll_of_idx (n0 + 1) cs hidx1
    rw [show n0 :: c.kids ++ nodesAll cs = (n0 :: c.kids) ++ nodesAll cs from rfl]
    refine List.Nodup.append ?_ hrec ?_
    · refine List.nodup_cons.mpr ⟨?_, hnd'.1⟩
      intro hx
      have := hk n0 (List.mem_append.mpr (Or.inl hx))
      omega
    · intro x hx1 hx2
      rcases hmem x hx2 with h1 | h1
      · rcases List.mem_cons.mp hx1 with h3 | h3
        · omega
        · have := hk x (List.mem_append.mpr (Or.inl h3)); omega
      · rcases List.mem_cons.mp hx1 with h3 | h3
        · have := hk x (List.mem_append.mpr (Or.inr h1)); omega
        · exact hnd'.2.2 h3 h1

theorem subs_length (h : Heap T) (s : Sh T) (a : Nat) (es : List (T × Element T))
    (hr : Rep h s a es) : (elemLinks es).length = s.subs.length := by
  rw [rep_links h s a es hr, ← subs_addr, List.length_map]

/-- One level of the copy: when the recursive calls copy the children, the call copies the
node. -/
theorem copy_step (fuel : Nat) (s : Sh T)
    (hsub : ∀ c ∈ s.subs, NodeSpec (copyBTree fuel) c) :
    NodeSpec (copyBTree (fuel + 1)) s := by
  intro h src dest psrc parent hrep hd hdn
  obtain ⟨sn, hsn, hsp, hr⟩ := hrep
  have hsd : src ≠ dest := fun e => hdn (by simp [e])
  have hdk : dest ∉ s.kids := fun e => hdn (by simp [e])
  have hsl : src < h.length := (List.getElem?_eq_some.mp hsn).1
  have hdn' : h[dest]? = some (h.get ⟨dest, hd⟩) := List.getElem?_eq_getElem hd
  have hlen1 : (h.set dest ⟨parent, sn.elements⟩).length = h.length := List.length_set _ _ _
  have h1s : (h.set dest ⟨parent, sn.elements⟩)[src]? = some ⟨psrc, [] ++ sn.elements⟩ := by
    rw [List.getElem?_set_ne (Ne.symm hsd), hsn, ← node_eta sn psrc hsp]
  have h1d : (h.set dest ⟨parent, sn.elements⟩)[dest]? = some ⟨parent, [] ++ sn.elements⟩ := by
    rw [List.getElem?_set_self hd]; rfl
  obtain ⟨h2, hloop, hlen2, hd2, hfr2, _⟩ := copyLoop_spec sn.elements
    (h.set dest ⟨parent, sn.elements⟩) src dest psrc parent [] [] [] h1s h1d rfl hsd
  rw [hlen1] at hloop hlen2 hd2 hfr2
  have hfr2' : ∀ x, x < h.length → x ≠ dest → h2[x]? = h[x]? := by
    intro x hx hxd
    rw [hfr2 x hx hxd, List.getElem?_set_ne (Ne.symm hxd)]
  have hlinks : elemLinks sn.elements = s.subs.map Sh.addr := by
    rw [rep_links h s src _ hr, subs_addr]
  have hsl' := subs_length h s src sn.elements hr
  have hall : ∀ c ∈ s.subs, NodeSpec (copyBTree fuel) c ∧ c.ptr = some c.addr ∧
      (∃ p, RepAt h2 c p c.addr) ∧ (∀ x ∈ c.kids, x < h.length) ∧ c.addr < h.length := by
    intro c hc
    obtain ⟨⟨b, hb1, hb2⟩, hchild, hnodes, _⟩ := subs_mem_child h s src sn.elements hr c hc
    have hrc : RepAt h c (some src) c.addr := by rw [hb2]; exact hchild b hb1
    have hklt := rep_kids_lt h s src sn.elements hr
    have hcn : c.nodes = c.addr :: c.kids := by simp [Sh.nodes, hb1, hb2]
    have hsubk : ∀ x ∈ c.addr :: c.kids, x ∈ s.kids := fun x hx => hnodes x (hcn ▸ hx)
    refine ⟨hsub c hc, by rw [hb1, hb2], ⟨some src, repAt_frame h h2 c _ _ hrc ?_⟩, ?_, ?_⟩
    · intro x hx
      have hxk := hsubk x hx
      exact hfr2' x (hklt x hxk) (fun e => hdk (e ▸ hxk))
    · intro x hx
      exact hklt x (hsubk x (List.mem_cons_of_mem _ hx))
    · exact hklt _ (hsubk _ (List.mem_cons_self _ _))
  obtain ⟨h3, cs', hq, hf, hidx, hnd, hk, hlen3, hfr3⟩ := copyQueue_spec (copyBTree fuel) dest
    s.subs h2 h.length h.length hall (le_refl _) (by omega)
  obtain ⟨s', hrep', hss, hkids⟩ := assemble h h3 src dest s h.length sn.elements cs' hr hf hidx
  have hd3 : h3[dest]? = some ⟨parent, relink h.length sn.elements⟩ := by
    rw [hfr3 dest (by omega) (Or.inl hd), hd2]; rfl
  have hflen : cs'.length = s.subs.length := (List.Forall₂.length_eq hf).symm
  refine ⟨h3, s', ?_, ⟨_, hd3, rfl, hrep'⟩, hss, by omega, ?_, ?_, ?_⟩
  · simp only [copyBTree, hsn, hdn']
    have hloop' : copyLoop sn.elements.length (h.set dest ⟨parent, sn.elements⟩) src dest 0 [] =
        some (h2, queueOf h.length (List.map Sh.addr s.subs)) := by
      rw [← hlinks]; exact hloop
    rw [hloop']
    exact hq
  · intro x hx
    rw [hkids] at hx
    rcases mem_nodesAll_of_idx h.length cs' (fun j c' hj => (hidx j c' hj).1) x hx with h1 | h1
    · exact h1.1
    · have := hk x h1; omega
  · rw [hkids]
    refine nodesAll_nodup cs' h.length (fun j c' hj => (hidx j c' hj).1) hnd ?_
    intro x hx
    have := hk x hx
    omega
  · intro x hx hxd
    rw [hfr3 x (by omega) (Or.inl hx)]
    exact hfr2' x hx hxd

theorem subs_of_height_zero (s : Sh T) (hs : s.height = 0) : s.subs = [] := by
  cases s with
  | E => rfl
  | C a l k r rest => simp [Sh.height] at hs

/-- The recursive copy of a node of height at most `fuel` succeeds with `fuel + 1` levels of
recursion and produces a node of the same shape made of fresh nodes. -/
theorem copy_node : ∀ (fuel : Nat) (s : Sh T), s.height ≤ fuel →
    NodeSpec (copyBTree (fuel + 1)) s := by
  intro fuel
  induction fuel with
  | zero =>
    intro s hs
    refine copy_step 0 s ?_
    rw [subs_of_height_zero s (by omega)]
    intro c hc
    simp at hc
  | succ fuel ih =>
    intro s hs
    refine copy_step (fuel + 1) s ?_
    intro c hc
    refine ih c ?_
    have : ∀ (s : Sh T), ∀ c ∈ s.subs, c.height + 1 ≤ s.height := by
      intro s
      induction s with
      | E => intro c hc; simp [Sh.subs] at hc
      | C a l k r rest _ _ ihrest =>
        intro c hc
        obtain ⟨hh1, hh2, hh3⟩ := height_C a l k r rest
        simp only [Sh.subs, List.mem_append] at hc
        rcases hc with hc | hc | hc
        · cases l with
          | E => simp [Sh.asList] at hc
          | C b l1 k1 r1 rest1 =>
            simp only [Sh.asList, List.mem_singleton] at hc
            subst hc; exact hh1
        · cases r with
          | E => simp [Sh.asList] at hc
          | C b l1 k1 r1 rest1 =>
            simp only [Sh.asList, List.mem_singleton] at hc
            subst hc; exact hh2
        · have := ihrest c hc; omega
    have := this s c hc
    omega

/-! ## Whole trees -/

theorem height_pos_of_ptr (c : Sh T) (b : Nat) (hb : c.ptr = some b) : 1 ≤ c.height := by
  cases c with
  | E => simp [Sh.ptr] at hb
  | C a l k r rest => simp only [Sh.height]; omega

theorem linkNodes_rep (h : Heap T) (c : Sh T) (a : Nat) (fuel : Nat) (hc : Child h c a)
    (ih : ∀ b n, c.ptr = some b → h[b]? = some n → Rep h c b n.elements →
      nodesFrom fuel h b = c.kids) :
    linkNodes (nodesFrom fuel h) c.ptr = c.nodes := by
  cases c with
  | E => rfl
  | C b l1 k1 r1 rest1 =>
    obtain ⟨n, hn, _, hrepb⟩ := hc b rfl
    simp only [Sh.ptr, linkNodes, Sh.nodes, Option.toList, List.singleton_append]
    rw [ih b n rfl hn hrepb]

/-- The structural listing of the descendants is the listing of the shape. -/
theorem nodesOf_rep (h : Heap T) : ∀ (s : Sh T) (fuel : Nat) (a : Nat)
    (es : List (T × Element T)), Rep h s a es → s.height ≤ fuel + 1 →
    nodesOf (nodesFrom fuel h) es = s.kids := by
  intro s
  induction s with
  | E =>
    intro fuel a es hrep _
    simp [Rep] at hrep
    subst hrep
    rfl
  | C a0 l k r rest ihl ihr ihrest =>
    intro fuel a es hrep hfuel
    rw [rep_C] at hrep
    obtain ⟨_, e, es', hes, hv, hlp, hrp, hcl, hcr, hrest⟩ := hrep
    subst hes
    obtain ⟨hh1, hh2, hh3⟩ := height_C a0 l k r rest
    have hL : linkNodes (nodesFrom fuel h) e.leftChild = l.nodes := by
      rw [hlp]
      refine linkNodes_rep h l a fuel hcl ?_
      intro b n hb hn hrepb
      have hpos := height_pos_of_ptr _ b hb
      obtain ⟨f, rfl⟩ : ∃ f, fuel = f + 1 := ⟨fuel - 1, by omega⟩
      simp only [nodesFrom, hn]
      exact ihl f b n.elements hrepb (by omega)
    have hR : linkNodes (nodesFrom fuel h) e.rightChild = r.nodes := by
      rw [hrp]
      refine linkNodes_rep h r a fuel hcr ?_
      intro b n hb hn hrepb
      have hpos := height_pos_of_ptr _ b hb
      obtain ⟨f, rfl⟩ : ∃ f, fuel = f + 1 := ⟨fuel - 1, by omega⟩
      simp only [nodesFrom, hn]
      exact ihr f b n.elements hrepb (by omega)
    rw [kids_C]
    simp only [nodesOf, hL, hR, ihrest fuel a es' hrest (by omega)]

theorem nodesFrom_eq [LinearOrder T] (h : Heap T) (t : btree) (s : Sh T) (cap : Nat)
    (hinv : TreeInv cap h t.root s) : nodesFrom h.length h t.root = s.kids := by
  obtain ⟨n, hn, _, hrep⟩ := hinv.rep
  have hlt := hinv.root_lt
  obtain ⟨f, hf⟩ : ∃ f, h.length = f + 1 := ⟨h.length - 1, by omega⟩
  simp only [hf, nodesFrom, hn]
  exact nodesOf_rep h s f t.root n.elements hrep (hf ▸ hinv.height_le)

theorem treeNodes_eq [LinearOrder T] (h : Heap T) (t : btree) (s : Sh T) (cap : Nat)
    (hinv : TreeInv cap h t.root s) : treeNodes h t = t.root :: s.kids := by
  rw [treeNodes, nodesFrom_eq h t s cap hinv]

/-- A traversal that reaches the stop position made as many advances as it lists values. -/
theorem forward_from_length [LinearOrder T] (h : Heap T) (stop : btree_iterator) :
    ∀ (fuel : Nat) (c : btree_iterator) (out : List T),
      forward_from h stop fuel c = some out → out.length ≤ fuel := by
  intro fuel
  induction fuel with
  | zero =>
    intro c out hout
    by_cases hc : iter_eq c stop = true
    · rw [forward_from_stop h stop c 0 hc] at hout
      cases hout; simp
    · simp [forward_from, hc] at hout
  | succ fuel ih =>
    intro c out hout
    by_cases hc : iter_eq c stop = true
    · rw [forward_from_stop h stop c _ hc] at hout
      cases hout; simp
    · cases hv : deref h c with
      | none => simp [forward_from, hc, hv] at hout
      | some v =>
        cases hi : increment h c with
        | none => simp [forward_from, hc, hv, hi] at hout
        | some c' =>
          rw [forward_from_step h stop c c' fuel v (by simpa using hc) hv hi] at hout
          cases hr : forward_from h stop fuel c' with
          | none => simp [hr] at hout
          | some out' =>
            simp only [hr, Option.map_some', Option.some.injEq] at hout
            subst hout
            have := ih c' out' hr
            simp only [List.length_cons]
            omega

/-- More fuel does not change the result of a traversal that reached the stop position. -/
theorem forward_from_mono [LinearOrder T] (h : Heap T) (stop : btree_iterator) :
    ∀ (fuel : Nat) (c : btree_iterator) (out : List T),
      forward_from h stop fuel c = some out → forward_from h stop (fuel + 1) c = some out := by
  intro fuel
  induction fuel with
  | zero =>
    intro c out hout
    by_cases hc : iter_eq c stop = true
    · rw [forward_from_stop h stop c 0 hc] at hout
      rw [forward_from_stop h stop c _ hc]; exact hout
    · simp [forward_from, hc] at hout
  | succ fuel ih =>
    intro c out hout
    by_cases hc : iter_eq c stop = true
    · rw [forward_from_stop h stop c _ hc] at hout
      rw [forward_from_stop h stop c _ hc]; exact hout
    · cases hv : deref h c with
      | none => simp [forward_from, hc, hv] at hout
      | some v =>
        cases hi : increment h c with
        | none => simp [forward_from, hc, hv, hi] at hout
        | some c' =>
          rw [forward_from_step h stop c c' fuel v (by simpa using hc) hv hi] at hout
          rw [forward_from_step h stop c c' (fuel + 1) v (by simpa using hc) hv hi]
          cases hr : forward_from h stop fuel c' with
          | none => simp [hr] at hout
          | some out' =>
            rw [ih c' out' hr]
            rw [hr] at hout
            exact hout

theorem forward_traversal_length [LinearOrder T] (h : Heap T) (t : btree) (fuel : Nat)
    (out : List T) (hout : forward_traversal h t fuel = some out) : out.length ≤ fuel := by
  unfold forward_traversal at hout
  cases hb : btree_begin h t with
  | none => simp [hb] at hout
  | some b =>
    cases he : btree_end h t with
    | none => simp [hb, he] at hout
    | some e =>
      simp only [hb, he] at hout
      exact forward_from_length h e fuel b out hout

theorem forward_traversal_mono [LinearOrder T] (h : Heap T) (t : btree) (out : List T) :
    ∀ (k fuel : Nat), forward_traversal h t fuel = some out →
      forward_traversal h t (fuel + k) = some out := by
  intro k
  induction k with
  | zero => intro fuel hout; exact hout
  | succ k ih =>
    intro fuel hout
    have h1 := ih fuel hout
    unfold forward_traversal at h1 ⊢
    cases hb : btree_begin h t with
    | none => simp [hb] at h1
    | some b =>
      cases he : btree_end h t with
      | none => simp [hb, he] at h1
      | some e =>
        simp only [hb, he] at h1 ⊢
        exact forward_from_mono h e (fuel + k) b out h1

/-- With less fuel than values the traversal does not reach the end; with at least as much
fuel it lists the values of the shape. -/
theorem forward_traversal_exact [LinearOrder T] (cap : Nat) (h : Heap T) (t : btree) (s : Sh T)
    (hinv : TreeInv cap h t.root s) (fuel : Nat) :
    forward_traversal h t fuel = if s.toList.length ≤ fuel then some s.toList else none := by
  by_cases hf : s.toList.length ≤ fuel
  · rw [if_pos hf]
    exact forward_traversal_spec cap h t s hinv fuel hf
  · rw [if_neg hf]
    cases hr : forward_traversal h t fuel with
    | none => rfl
    | some out =>
      exfalso
      have h1 := forward_traversal_length h t fuel out hr
      have h2 := forward_traversal_mono h t out (s.toList.length - fuel) fuel hr
      rw [forward_traversal_spec cap h t s hinv _ (by omega)] at h2
      cases h2
      omega

/-- Two strictly ascending lists with the same members are equal. -/
theorem sorted_ext [LinearOrder T] (xs ys : List T) (hx : xs.Pairwise (· < ·))
    (hy : ys.Pairwise (· < ·)) (hmem : ∀ x, x ∈ xs ↔ x ∈ ys) : xs = ys := by
  have hnx : xs.Nodup := hx.imp (fun h => ne_of_lt h)
  have hny : ys.Nodup := hy.imp (fun h => ne_of_lt h)
  have hperm : xs.Perm ys := (List.perm_ext_iff_of_nodup hnx hny).mpr hmem
  exact List.eq_of_perm_of_sorted hperm hx hy

theorem sorted_length_le [LinearOrder T] (xs vs : List T) (hx : xs.Pairwise (· < ·))
    (hmem : ∀ x, x ∈ xs → x ∈ vs) : xs.length ≤ vs.length := by
  have hnx : xs.Nodup := hx.imp (fun h => ne_of_lt h)
  exact (List.subperm_of_subset hnx hmem).length_le

theorem TreeInv.of_sameShape [LinearOrder T] {cap : Nat} {h : Heap T} {root : Nat} {s : Sh T}
    (hinv : TreeInv cap h root s) (h' : Heap T) (root' : Nat) (s' : Sh T)
    (hrep : RepAt h' s' none root') (hss : SameShape s s') (hnd : (root' :: s'.kids).Nodup) :
    TreeInv cap h' root' s' :=
  ⟨hrep, (sameShape_rightOk s s' hss).mpr hinv.rightOk, (sameShape_capOk cap s s' hss).mpr hinv.capOk,
    (sameShape_nodeFull cap s s' hss).mpr hinv.nodeFull,
    by rw [sameShape_toList s s' hss]; exact hinv.sorted, hnd⟩

/-- The copy constructor makes a tree of the same shape out of nodes allocated by the call
and leaves the existing nodes as they are. -/
theorem copy_construct_spec [LinearOrder T] (cap : Nat) (h : Heap T) (original : btree) (s : Sh T)
    (hinv : TreeInv cap h original.root s) :
    ∃ h' s', copy_construct h original = some (h', ⟨original.maxNodeElems, h.length⟩) ∧
      TreeInv cap h' h.length s' ∧ SameShape s s' ∧ (∀ x ∈ s'.kids, h.length < x) ∧
      h.length < h'.length ∧ (∀ x, x < h.length → h'[x]? = h[x]?) := by
  obtain ⟨n, hn, hp, hrep⟩ := hinv.rep
  have hlt := hinv.root_lt
  have hnodes := hinv.nodes_lt
  have hn0 : (h ++ [Node.mk none []])[original.root]? = some n := by
    rw [List.getElem?_append_left hlt]; exact hn
  have hfr0 : ∀ x, x < h.length →
      ((h ++ [Node.mk none []]).set h.length n)[x]? = h[x]? := by
    intro x hx
    rw [List.getElem?_set_ne (by omega), List.getElem?_append_left hx]
  have hrep0 : RepAt ((h ++ [Node.mk none []]).set h.length n) s none original.root :=
    repAt_frame h _ s none original.root hinv.rep (fun x hx => hfr0 x (hnodes x hx))
  have hlen0 : ((h ++ [Node.mk none []]).set h.length n).length = h.length + 1 := by
    simp
  have hdn : h.length ∉ original.root :: s.kids := fun hx => by
    have := hnodes _ hx; omega
  obtain ⟨h', s', hcopy, hrep', hss, hlen, hk, hnd, hfr⟩ :=
    copy_node h.length s hinv.height_le _ original.root h.length none none hrep0 (by omega) hdn
  rw [hlen0] at hlen hk hfr
  refine ⟨h', s', ?_, hinv.of_sameShape h' h.length s' hrep' hss ?_, hss, ?_, by omega, ?_⟩
  · simp only [copy_construct, hn0, hcopy, Option.map_some']
  · refine List.nodup_cons.mpr ⟨fun hx => ?_, hnd⟩
    have := hk _ hx; omega
  · intro x hx; have := hk x hx; omega
  · intro x hx
    rw [hfr x (by omega) (by omega), hfr0 x hx]

/-- The copy assignment makes the assigned tree a tree of the same shape as the right-hand
side, its descendants being nodes allocated by the call; the other nodes stay as they are. -/
theorem copy_assign_spec [LinearOrder T] (cap : Nat) (h : Heap T) (self rhs : btree) (s : Sh T)
    (hinv : TreeInv cap h rhs.root s) (hself : self.root < h.length)
    (hdn : self.root ∉ rhs.root :: s.kids) :
    ∃ h' s', copy_assign h self rhs = some (h', ⟨rhs.maxNodeElems, self.root⟩) ∧
      TreeInv cap h' self.root s' ∧ SameShape s s' ∧ (∀ x ∈ s'.kids, h.length ≤ x) ∧
      h.length ≤ h'.length ∧ (∀ x, x < h.length → x ≠ self.root → h'[x]? = h[x]?) := by
  obtain ⟨n, hn, hp, hrep⟩ := hinv.rep
  have hlt := hinv.root_lt
  have hnodes := hinv.nodes_lt
  have hsn : h[self.root]? = some (h.get ⟨self.root, hself⟩) := List.getElem?_eq_getElem hself
  have hfr0 : ∀ x, x ≠ self.root → (h.set self.root n)[x]? = h[x]? := by
    intro x hx
    rw [List.getElem?_set_ne (Ne.symm hx)]
  have hrep0 : RepAt (h.set self.root n) s none rhs.root :=
    repAt_frame h _ s none rhs.root hinv.rep
      (fun x hx => hfr0 x (fun e => hdn (e ▸ hx)))
  have hlen0 : (h.set self.root n).length = h.length := by simp
  have hheight : s.height + 1 ≤ h.length := by
    have h1 := height_le_kids s
    have h2 := nodup_bounded_length (self.root :: rhs.root :: s.kids) h.length
      (List.nodup_cons.mpr ⟨hdn, hinv.nodup⟩) (by
        intro x hx
        rcases List.mem_cons.mp hx with hx | hx
        · exact hx ▸ hself
        · exact hnodes x hx)
    simp at h2
    omega
  obtain ⟨f, hf⟩ : ∃ f, h.length = f + 1 := ⟨h.length - 1, by omega⟩
  obtain ⟨h', s', hcopy, hrep', hss, hlen, hk, hnd, hfr⟩ :=
    copy_node f s (by omega) _ rhs.root self.root none none hrep0 (by omega) hdn
  rw [hlen0] at hlen hk hfr
  refine ⟨h', s', ?_, hinv.of_sameShape h' self.root s' hrep' hss ?_, hss, hk, hlen, ?_⟩
  · simp only [copy_assign, hn, hsn]
    rw [hf, hcopy]
    rfl
  · refine List.nodup_cons.mpr ⟨fun hx => ?_, hnd⟩
    have := hk _ hx; omega
  · intro x hx hxs
    rw [hfr x hx hxs, hfr0 x hxs]

/-- The move constructor: the new tree has the cells of the source, the source is empty. -/
theorem move_construct_spec [LinearOrder T] (cap : Nat) (h : Heap T) (src : btree) (s : Sh T)
    (hinv : TreeInv cap h src.root s) :
    ∃ h', move_construct h src = some (h', ⟨src.maxNodeElems, h.length⟩) ∧
      TreeInv cap h' h.length (s.rehead h.length) ∧ TreeInv cap h' src.root (.E : Sh T) ∧
      h'.length = h.length + 1 ∧ h'[src.root]? = some ⟨none, []⟩ ∧
      (∀ x, x < h.length → x ≠ src.root → x ∉ s.links → h'[x]? = h[x]?) := by
  have hnodes := hinv.nodes_lt
  have hinv0 : TreeInv cap (h ++ [Node.mk none []]) src.root s :=
    hinv.frame _ (fun x hx => List.getElem?_append_left (hnodes x hx))
  obtain ⟨h', hmove, h1, h2, h3, h4, h5⟩ := moveInto_spec cap (h ++ [Node.mk none []]) h.length
    src s hinv0 (by simp) (fun hx => by have := hnodes _ hx; omega)
  refine ⟨h', ?_, h1, h2, by simpa using h3, h4, ?_⟩
  · simp only [move_construct, hmove, Option.map_some']
  · intro x hx hxs hxl
    rw [h5 x (by omega) hxs hxl, List.getElem?_append_left hx]

/-- The move assignment: the assigned tree has the cells of the source, the source is
empty. -/
theorem move_assign_spec [LinearOrder T] (cap : Nat) (h : Heap T) (self src : btree) (s : Sh T)
    (hinv : TreeInv cap h src.root s) (hself : self.root < h.length)
    (hdn : self.root ∉ src.root :: s.kids) :
    ∃ h', move_assign h self src = some (h', ⟨src.maxNodeElems, self.root⟩) ∧
      TreeInv cap h' self.root (s.rehead self.root) ∧ TreeInv cap h' src.root (.E : Sh T) ∧
      h'.length = h.length ∧ h'[src.root]? = some ⟨none, []⟩ ∧
      (∀ x, x ≠ self.root → x ≠ src.root → x ∉ s.links → h'[x]? = h[x]?) := by
  obtain ⟨h', hmove, h1, h2, h3, h4, h5⟩ := moveInto_spec cap h self.root src s hinv hself hdn
  refine ⟨h', ?_, h1, h2, h3, h4, h5⟩
  simp only [move_assign, hmove, Option.map_some']

/-- An insertion into one tree leaves every node outside that tree as it is. -/
theorem insert_frame [LinearOrder T] (h : Heap T) (t : btree) (elem : T) (s : Sh T)
    (hinv : TreeInv t.maxNodeElems h t.root s) :
    ∃ h' it b s', insert h t elem = some (h', it, b) ∧ TreeInv t.maxNodeElems h' t.root s' ∧
      (∀ x, x ∈ s'.toList ↔ x = elem ∨ x ∈ s.toList) ∧ h.length ≤ h'.length ∧
      (∀ x ∈ s'.kids, x ∈ s.kids ∨ h.length ≤ x) ∧
      (∀ x, x < h.length → x ∉ t.root :: s.kids → h'[x]? = h[x]?) := by
  obtain ⟨h', it, b, hins, _, hcase⟩ := insert_spec h t elem s hinv
  rcases hcase with ⟨_, rfl, hmem⟩ | ⟨_, _, s', hinv', hperm, hlen, hk, hfr⟩
  · refine ⟨h', it, b, s, hins, hinv, ?_, le_refl _, fun x hx => Or.inl hx, fun _ _ _ => rfl⟩
    intro x
    constructor
    · exact fun hx => Or.inr hx
    · rintro (rfl | hx)
      · exact hmem
      · exact hx
  · refine ⟨h', it, b, s', hins, hinv', ?_, hlen, hk, ?_⟩
    · intro x
      rw [hperm.mem_iff, List.mem_cons]
    · intro x hx hxn
      exact hfr x hx (fun e => hxn (by simp [e])) (fun e => hxn (by simp [e]))

/-- The two trees made by `build2` satisfy the invariant and share no node. -/
theorem build2_spec [LinearOrder T] (capA : Nat) (vs : List T) (capB : Nat) (ws : List T) :
    ∃ (h : Heap T) (b : btree) (sA sB : Sh T), build2 capA vs capB ws = some (h, built capA, b) ∧
      b.maxNodeElems = capB ∧
      TreeInv capA h (built capA).root sA ∧ TreeInv capB h b.root sB ∧
      (∀ x, x ∈ sA.toList ↔ x ∈ vs) ∧ (∀ x, x ∈ sB.toList ↔ x ∈ ws) ∧
      (∀ x ∈ (built capA).root :: sA.kids, x < b.root) ∧ (∀ x ∈ sB.kids, b.root < x) := by
  obtain ⟨h0, flags, sA, hb, hinvA, hmemA, _, _⟩ := build_spec capA vs
  have hnodes := hinvA.nodes_lt
  have hc := construct_inv capB h0
  obtain ⟨h, flags', sB, hins, hinvB, hmemB, _, hlen, _, hk, hfr⟩ :=
    insertAll_spec (construct capB h0).2 ws (construct capB h0).1 .E hc
  have hroot : (construct capB h0).2.root = h0.length := rfl
  have hlen1 : (construct capB h0).1.length = h0.length + 1 := by simp [construct]
  refine ⟨h, (construct capB h0).2, sA, sB, ?_, rfl, ?_, hinvB, hmemA, ?_, ?_, ?_⟩
  · simp only [build2, hb, hins]
  · refine hinvA.frame h ?_
    intro x hx
    have hx' := hnodes x hx
    rw [hfr x (by omega) (by rw [hroot]; omega) (by simp [Sh.kids])]
    exact List.getElem?_append_left hx'
  · intro x
    rw [hmemB x]
    simp [Sh.toList]
  · intro x hx
    rw [hroot]
    exact hnodes x hx
  · intro x hx
    rw [hroot]
    rcases hk x hx with h1 | h1
    · simp [Sh.kids] at h1
    · omega

/-- Two trees holding the same values answer a sequence of inserts with the same flags. -/
theorem insertAll_sim [LinearOrder T] (t1 t2 : btree) : ∀ (vs : List T) (h1 h2 : Heap T)
    (s1 s2 : Sh T), TreeInv t1.maxNodeElems h1 t1.root s1 →
    TreeInv t2.maxNodeElems h2 t2.root s2 → (∀ x, x ∈ s1.toList ↔ x ∈ s2.toList) →
    ∃ h1' h2' flags, insertAll t1 vs h1 = some (h1', flags) ∧
      insertAll t2 vs h2 = some (h2', flags) := by
  intro vs
  induction vs with
  | nil => intro h1 h2 s1 s2 _ _ _; exact ⟨h1, h2, [], rfl, rfl⟩
  | cons v vs ih =>
    intro h1 h2 s1 s2 hinv1 hinv2 hmem
    obtain ⟨h1', it1, b1, hins1, _, hcase1⟩ := insert_spec h1 t1 v s1 hinv1
    obtain ⟨h2', it2, b2, hins2, _, hcase2⟩ := insert_spec h2 t2 v s2 hinv2
    have key : b1 = b2 ∧ ∃ s1' s2', TreeInv t1.maxNodeElems h1' t1.root s1' ∧
        TreeInv t2.maxNodeElems h2' t2.root s2' ∧ (∀ x, x ∈ s1'.toList ↔ x ∈ s2'.toList) := by
      rcases hcase1 with ⟨hb1, rfl, hm1⟩ | ⟨hb1, hm1, s1', hinv1', hperm1, _⟩
      · rcases hcase2 with ⟨hb2, rfl, hm2⟩ | ⟨hb2, hm2, _⟩
        · exact ⟨by rw [hb1, hb2], s1, s2, hinv1, hinv2, hmem⟩
        · exact absurd ((hmem v).mp hm1) hm2
      · rcases hcase2 with ⟨hb2, rfl, hm2⟩ | ⟨hb2, hm2, s2', hinv2', hperm2, _⟩
        · exact absurd ((hmem v).mpr hm2) hm1
        · refine ⟨by rw [hb1, hb2], s1', s2', hinv1', hinv2', ?_⟩
          intro x
          rw [hperm1.mem_iff, hperm2.mem_iff, List.mem_cons, List.mem_cons, hmem x]
    obtain ⟨hb, s1', s2', hinv1', hinv2', hmem'⟩ := key
    obtain ⟨g1, g2, flags, hr1, hr2⟩ := ih h1' h2' s1' s2' hinv1' hinv2' hmem'
    refine ⟨g1, g2, b1 :: flags, ?_, ?_⟩
    · simp only [insertAll, hins1, hr1, Option.map_some']
    · simp only [insertAll, hins2, hr2, Option.map_some', hb]

/-- A sequence of inserts into one tree leaves every node outside that tree as it is. -/
theorem insertAll_frame [LinearOrder T] (t : btree) (vs : List T) (h : Heap T) (s : Sh T)
    (hinv : TreeInv t.maxNodeElems h t.root s) :
    ∃ h' flags s', insertAll t vs h = some (h', flags) ∧ TreeInv t.maxNodeElems h' t.root s' ∧
      (∀ x, x ∈ s'.toList ↔ x ∈ s.toList ∨ x ∈ vs) ∧
      (∀ x, x < h.length → x ∉ t.root :: s.kids → h'[x]? = h[x]?) := by
  obtain ⟨h', flags, s', h1, h2, h3, _, _, _, _, h8⟩ := insertAll_spec t vs h s hinv
  refine ⟨h', flags, s', h1, h2, h3, ?_⟩
  intro x hx hxn
  exact h8 x hx (fun e => hxn (by simp [e])) (fun e => hxn (by simp [e]))

/-- The traversal of a tree satisfying the invariant, with fuel for the inserted values. -/
theorem traversal_of_inv [LinearOrder T] (cap : Nat) (h : Heap T) (t : btree) (s : Sh T)
    (vs : List T) (hinv : TreeInv cap h t.root s) (hmem : ∀ x, x ∈ s.toList → x ∈ vs) :
    forward_traversal h t vs.length = some s.toList :=
  forward_traversal_spec cap h t s hinv vs.length (sorted_length_le _ _ hinv.sorted hmem)

/-- The state of a moved-from tree. -/
theorem moved_from_state [LinearOrder T] (cap : Nat) (h : Heap T) (t : btree)
    (hinv : TreeInv cap h t.root (.E : Sh T)) (hroot : h[t.root]? = some ⟨none, []⟩) :
    btree_begin h t = some ⟨t.root, 0, false⟩ ∧ btree_end h t = some ⟨t.root, 0, false⟩ ∧
      treeNodes h t = [t.root] := by
  refine ⟨by simp [btree_begin, hroot], by simp [btree_end, hroot], ?_⟩
  rw [treeNodes_eq h t .E cap hinv]
  rfl

/-- Inserting into one of two trees that share no node leaves the other one as it is. -/
theorem two_trees_insert [LinearOrder T] (h : Heap T) (a b : btree) (sA sB : Sh T)
    (vs : List T) (v : T) (hA : TreeInv a.maxNodeElems h a.root sA)
    (hB : TreeInv b.maxNodeElems h b.root sB)
    (hdis : ∀ x ∈ a.root :: sA.kids, x ∉ b.root :: sB.kids)
    (hmem : ∀ x, x ∈ sA.toList → x ∈ vs) :
    ∃ h' it f, insert h b v = some (h', it, f) ∧ (∀ x ∈ treeNodes h a, h'[x]? = h[x]?) ∧
      treeNodes h' a = treeNodes h a ∧ forward_traversal h' a vs.length = some sA.toList := by
  obtain ⟨h', it, f, s', hins, _, _, _, _, hfr⟩ := insert_frame h b v sB hB
  have hfrA : ∀ x ∈ a.root :: sA.kids, h'[x]? = h[x]? :=
    fun x hx => hfr x (hA.nodes_lt x hx) (hdis x hx)
  have hA' := hA.frame h' hfrA
  refine ⟨h', it, f, hins, ?_, ?_, traversal_of_inv _ h' a sA vs hA' hmem⟩
  · rw [treeNodes_eq h a sA _ hA]; exact hfrA
  · rw [treeNodes_eq h a sA _ hA, treeNodes_eq h' a sA _ hA']

/-- What holds of a tree `b` and the tree `a` it was copied from. -/
theorem copy_post [LinearOrder T] (h1 : Heap T) (a b : btree) (sA sB : Sh T) (vs : List T)
    (v : T) (n : Nat) (hA : TreeInv a.maxNodeElems h1 a.root sA)
    (hB : TreeInv b.maxNodeElems h1 b.root sB) (hss : SameShape sA sB)
    (hk : ∀ x ∈ sB.kids, n ≤ x) (hlt : ∀ x ∈ a.root :: sA.kids, x < n)
    (hroot : b.root ∉ a.root :: sA.kids) (hmem : ∀ x, x ∈ sA.toList → x ∈ vs) :
    (∀ x ∈ treeNodes h1 b, x ∉ treeNodes h1 a) ∧
      (∀ x ∈ nodesFrom h1.length h1 b.root, n ≤ x) ∧
      (∃ h' it f, insert h1 b v = some (h', it, f) ∧
        (∀ x ∈ treeNodes h1 a, h'[x]? = h1[x]?) ∧ treeNodes h' a = treeNodes h1 a ∧
        forward_traversal h' a vs.length = some sA.toList) ∧
      (∃ h' it f, insert h1 a v = some (h', it, f) ∧
        (∀ x ∈ treeNodes h1 b, h'[x]? = h1[x]?) ∧ treeNodes h' b = treeNodes h1 b ∧
        forward_traversal h' b vs.length = some sA.toList) := by
  have hdis : ∀ x ∈ b.root :: sB.kids, x ∉ a.root :: sA.kids := by
    intro x hx hxa
    rcases List.mem_cons.mp hx with hx | hx
    · exact hroot (hx ▸ hxa)
    · have h1 := hk x hx
      have h2 := hlt x hxa
      omega
  have hdis' : ∀ x ∈ a.root :: sA.kids, x ∉ b.root :: sB.kids :=
    fun x hx hxb => hdis x hxb hx
  refine ⟨?_, ?_, two_trees_insert h1 a b sA sB vs v hA hB hdis' hmem, ?_⟩
  · rw [treeNodes_eq h1 a sA _ hA, treeNodes_eq h1 b sB _ hB]
    exact hdis
  · rw [nodesFrom_eq h1 b sB _ hB]
    exact hk
  · have hl := sameShape_toList sA sB hss
    rw [← hl]
    exact two_trees_insert h1 b a sB sA vs v hB hA hdis (by rw [hl]; exact hmem)

/-- What holds of a moved-from tree `s` and the tree `d` that received its nodes. -/
theorem move_post [LinearOrder T] (h1 : Heap T) (s d : btree) (sD : Sh T) (vs us : List T)
    (hS : TreeInv s.maxNodeElems h1 s.root (.E : Sh T)) (hroot : h1[s.root]? = some ⟨none, []⟩)
    (hD : TreeInv d.maxNodeElems h1 d.root sD) (hsd : s.root ∉ d.root :: sD.kids)
    (hmem : ∀ x, x ∈ sD.toList → x ∈ vs) :
    h1[s.root]? = some ⟨none, []⟩ ∧
      (∃ p q, btree_begin h1 s = some p ∧ btree_end h1 s = some q ∧ iter_eq p q = true) ∧
      treeNodes h1 s = [s.root] ∧ s.root ∉ treeNodes h1 d ∧
      ∃ h' flags hf out, insertAll s us h1 = some (h', flags) ∧
        build s.maxNodeElems us = some (hf, flags) ∧
        forward_traversal h' s us.length = some out ∧
        forward_traversal hf (built s.maxNodeElems) us.length = some out ∧
        (∀ x ∈ treeNodes h1 d, h'[x]? = h1[x]?) ∧
        forward_traversal h1 d vs.length = some sD.toList ∧
        forward_traversal h' d vs.length = some sD.toList := by
  obtain ⟨hb, he, hn⟩ := moved_from_state _ h1 s hS hroot
  refine ⟨hroot, ⟨_, _, hb, he, by simp [iter_eq]⟩, hn, ?_, ?_⟩
  · rw [treeNodes_eq h1 d sD _ hD]; exact hsd
  obtain ⟨h', flags, s', hins, hinv', hmem', hfr⟩ := insertAll_frame s us h1 .E hS
  obtain ⟨hf, flagsf, sf, hbf, hinvf, hmemf, _, _⟩ := build_spec s.maxNodeElems us
  obtain ⟨g1, g2, fl, hr1, hr2⟩ := insertAll_sim s (built s.maxNodeElems) us h1
    (construct s.maxNodeElems ([] : Heap T)).1 .E .E hS (construct_inv s.maxNodeElems [])
    (fun _ => Iff.rfl)
  have hbf' : insertAll (built s.maxNodeElems) us (construct s.maxNodeElems ([] : Heap T)).1 =
      some (hf, flagsf) := hbf
  rw [hins] at hr1
  rw [hbf'] at hr2
  simp only [Option.some.injEq, Prod.mk.injEq] at hr1 hr2
  have hflags : flagsf = flags := by rw [hr1.2, hr2.2]
  have hmem1 : ∀ x, x ∈ s'.toList ↔ x ∈ us := by
    intro x; rw [hmem' x]; simp [Sh.toList]
  have heq : sf.toList = s'.toList :=
    sorted_ext _ _ hinvf.sorted hinv'.sorted (fun x => by rw [hmemf x, hmem1 x])
  have hfrD : ∀ x ∈ d.root :: sD.kids, h'[x]? = h1[x]? := by
    intro x hx
    refine hfr x (hD.nodes_lt x hx) ?_
    intro hxs
    simp only [Sh.kids, List.mem_singleton] at hxs
    exact hsd (hxs ▸ hx)
  refine ⟨h', flags, hf, s'.toList, hins, by rw [hbf, hflags], ?_, ?_, ?_, ?_, ?_⟩
  · exact traversal_of_inv _ h' s s' us hinv' (fun x hx => (hmem1 x).mp hx)
  · rw [← heq]
    exact traversal_of_inv _ hf (built s.maxNodeElems) sf us hinvf (fun x hx => (hmemf x).mp hx)
  · rw [treeNodes_eq h1 d sD _ hD]; exact hfrD
  · exact traversal_of_inv _ h1 d sD vs hD hmem
  · exact traversal_of_inv _ h' d sD vs (hD.frame h' hfrD) hmem

/-! ## Invariants of the nodes -/

theorem insertScan_fellThrough [LinearOrder T] (elem : T) :
    ∀ (es : List (T × Element T)) (i : Nat), insertScan elem es i = .fellThrough → es = [] := by
  intro es
  induction es with
  | nil => intro _ _; rfl
  | cons p es ih =>
    intro i hs
    obtain ⟨k, e⟩ := p
    simp only [insertScan] at hs
    split at hs
    · cases hs
    · split at hs
      · cases hs
      · rename_i h1 h2
        have := ih (i + 1) hs
        subst this
        simp at h2

theorem mapInsert_length_le [LinearOrder T] (k : T) (e : Element T) :
    ∀ (es : List (T × Element T)), (mapInsert es k e).1.length ≤ es.length + 1 := by
  intro es
  induction es with
  | nil => simp [mapInsert]
  | cons p es ih =>
    obtain ⟨k', e'⟩ := p
    simp only [mapInsert]
    split
    · simp
    · split
      · simp only [List.length_cons]; omega
      · simp

theorem setLeft_length (es : List (T × Element T)) (i : Nat) (c : Option Nat) :
    (setLeft es i c).length = es.length := by
  simp [setLeft]

theorem setRight_length (es : List (T × Element T)) (i : Nat) (c : Option Nat) :
    (setRight es i c).length = es.length := by
  simp [setRight]

theorem sizes_set (cap : Nat) (h : Heap T) (a : Nat) (n' : Node T)
    (hs : ∀ n ∈ h, n.elements.length ≤ cap) (hn : n'.elements.length ≤ cap) :
    ∀ n ∈ h.set a n', n.elements.length ≤ cap := by
  intro n hmem
  rcases List.mem_or_eq_of_mem_set hmem with h1 | h1
  · exact hs n h1
  · rw [h1]; exact hn

/-- An insertion keeps every node of the heap within the capacity, when the capacity is
at least one. -/
theorem recursiveInsert_sizes [LinearOrder T] (cap : Nat) (hcap : 1 ≤ cap) (elem : T) :
    ∀ (fuel : Nat) (h : Heap T) (node : Nat) (r : Heap T × btree_iterator × Bool),
      (∀ n ∈ h, n.elements.length ≤ cap) → recursiveInsert cap elem fuel h node = some r →
      ∀ n ∈ r.1, n.elements.length ≤ cap := by
  intro fuel
  induction fuel with
  | zero => intro h node r _ hr; simp [recursiveInsert] at hr
  | succ fuel ih =>
    intro h node r hs hr
    simp only [recursiveInsert] at hr
    cases hn : h[node]? with
    | none => simp [hn] at hr
    | some n =>
      have hnmem : n ∈ h := List.getElem?_mem hn
      simp only [hn] at hr
      cases hscan : insertScan elem n.elements 0 with
      | fellThrough =>
        have hnil := insertScan_fellThrough elem n.elements 0 hscan
        simp only [hscan, Option.some.injEq] at hr
        subst hr
        refine sizes_set cap h node _ hs ?_
        simp only [hnil, mapInsert, List.length_singleton]
        exact hcap
      | matched i =>
        simp only [hscan, Option.some.injEq] at hr
        subst hr
        exact hs
      | here i e fin =>
        simp only [hscan] at hr
        by_cases hlt : n.elements.length < cap
        · rw [if_pos hlt] at hr
          simp only [Option.some.injEq] at hr
          subst hr
          refine sizes_set cap h node _ hs ?_
          have := mapInsert_length_le elem ⟨elem, none, none⟩ n.elements
          simp only
          omega
        · rw [if_neg hlt] at hr
          have hfresh : ∀ (es : List (T × Element T)), es.length = n.elements.length →
              ∀ m ∈ (h ++ [Node.mk (some node) []]).set node { n with elements := es },
                m.elements.length ≤ cap := by
            intro es hes
            refine sizes_set cap _ node _ ?_ ?_
            · intro m hm
              rcases List.mem_append.mp hm with h1 | h1
              · exact hs m h1
              · simp only [List.mem_singleton] at h1
                subst h1
                simp
            · simp only [hes]
              exact hs n hnmem
          split at hr
          · cases hc : e.2.rightChild with
            | some child =>
              simp only [hc] at hr
              exact ih h child r hs hr
            | none =>
              simp only [hc] at hr
              exact ih _ _ r (hfresh _ (setRight_length _ _ _)) hr
          · cases hc : e.2.leftChild with
            | some child =>
              simp only [hc] at hr
              exact ih h child r hs hr
            | none =>
              simp only [hc] at hr
              exact ih _ _ r (hfresh _ (setLeft_length _ _ _)) hr

theorem insertAll_sizes [LinearOrder T] (t : btree) (hcap : 1 ≤ t.maxNodeElems) :
    ∀ (vs : List T) (h : Heap T) (r : Heap T × List Bool),
      (∀ n ∈ h, n.elements.length ≤ t.maxNodeElems) → insertAll t vs h = some r →
      ∀ n ∈ r.1, n.elements.length ≤ t.maxNodeElems := by
  intro vs
  induction vs with
  | nil =>
    intro h r hs hr
    simp only [insertAll, Option.some.injEq] at hr
    subst hr
    exact hs
  | cons v vs ih =>
    intro h r hs hr
    simp only [insertAll] at hr
    cases hi : insert h t v with
    | none => simp [hi] at hr
    | some q =>
      simp only [hi] at hr
      cases hrest : insertAll t vs q.1 with
      | none => simp [hrest] at hr
      | some q' =>
        simp only [hrest, Option.map_some', Option.some.injEq] at hr
        subst hr
        exact ih q.1 q' (recursiveInsert_sizes _ hcap v _ h t.root q hs hi) hrest

theorem insertScan_here_length [LinearOrder T] (elem : T) :
    ∀ (es : List (T × Element T)) (i j : Nat) (e : T × Element T) (fin : Bool),
      insertScan elem es i = .here j e fin → 1 ≤ es.length := by
  intro es i j e fin hs
  cases es with
  | nil => simp [insertScan] at hs
  | cons p es => simp

/-- With capacity 0 an insertion does exactly what it does with capacity 1. -/
theorem recursiveInsert_zero_one [LinearOrder T] (elem : T) :
    ∀ (fuel : Nat) (h : Heap T) (node : Nat),
      recursiveInsert 0 elem fuel h node = recursiveInsert 1 elem fuel h node := by
  intro fuel
  induction fuel with
  | zero => intro h node; rfl
  | succ fuel ih =>
    intro h node
    simp only [recursiveInsert]
    cases hn : h[node]? with
    | none => rfl
    | some n =>
      simp only
      cases hscan : insertScan elem n.elements 0 with
      | fellThrough => rfl
      | matched i => rfl
      | here i e fin =>
        have hlen := insertScan_here_length elem n.elements 0 i e fin hscan
        have h0 : ¬ n.elements.length < 0 := Nat.not_lt_zero _
        have h1 : ¬ n.elements.length < 1 := by omega
        simp only [h0, h1, if_false, ih]

theorem insertAll_zero_one [LinearOrder T] (root : Nat) :
    ∀ (vs : List T) (h : Heap T), insertAll ⟨0, root⟩ vs h = insertAll ⟨1, root⟩ vs h := by
  intro vs
  induction vs with
  | nil => intro h; rfl
  | cons v vs ih =>
    intro h
    simp only [insertAll, insert, recursiveInsert_zero_one, ih]

theorem build_zero_one [LinearOrder T] (vs : List T) :
    (build 0 vs : Option (Heap T × List Bool)) = build 1 vs :=
  insertAll_zero_one 0 vs _

/-- The values found through a child link are the values of the shape of the child. -/
theorem link_values (h : Heap T) (c : Sh T) (a fuel : Nat) (hc : Child h c a)
    (hfuel : c.height ≤ fuel) : belowLink (valuesFrom fuel h) c.ptr = c.toList := by
  cases c with
  | E => rfl
  | C b l k r rest =>
    obtain ⟨n, hn, _, hrep⟩ := hc b rfl
    have hpos := height_pos_of_ptr (Sh.C b l k r rest) b rfl
    obtain ⟨f, rfl⟩ : ∃ f, fuel = f + 1 := ⟨fuel - 1, by omega⟩
    simp only [Sh.ptr, belowLink, valuesFrom, hn]
    exact valuesOf_rep h _ f b n.elements hrep hfuel

/-- Every node below the cells of a shape has a shape of its own, whose values are among
the values of the whole in the same order. -/
theorem kids_shape (h : Heap T) : ∀ (s : Sh T) (a : Nat) (es : List (T × Element T)),
    Rep h s a es → ∀ x ∈ s.kids, ∃ c n, h[x]? = some n ∧ Rep h c x n.elements ∧
      c.toList.Sublist s.toList ∧ c.height ≤ s.height := by
  intro s
  induction s with
  | E => intro a es _ x hx; simp [Sh.kids] at hx
  | C a0 l k r rest ihl ihr ihrest =>
    intro a es hrep x hx
    rw [rep_C] at hrep
    obtain ⟨_, e, es', _, _, _, _, hcl, hcr, hrest⟩ := hrep
    obtain ⟨hh1, hh2, hh3⟩ := height_C a0 l k r rest
    have sl : l.toList.Sublist (Sh.C a0 l k r rest).toList := by
      simp only [Sh.toList]; exact List.sublist_append_left _ _
    have sr : r.toList.Sublist (Sh.C a0 l k r rest).toList := by
      simp only [Sh.toList]
      exact ((List.sublist_append_left _ _).cons k).trans (List.sublist_append_right _ _)
    have srest : rest.toList.Sublist (Sh.C a0 l k r rest).toList := by
      simp only [Sh.toList]
      exact ((List.sublist_append_right _ _).cons k).trans (List.sublist_append_right _ _)
    rw [kids_C] at hx
    simp only [List.mem_append, Sh.nodes] at hx
    rcases hx with (hx | hx) | (hx | hx) | hx
    · cases l with
      | E => simp [Sh.ptr] at hx
      | C b l1 k1 r1 rest1 =>
        simp only [Sh.ptr, Option.toList, List.mem_singleton] at hx
        subst hx
        obtain ⟨n, hn, _, hrepb⟩ := hcl x rfl
        exact ⟨_, n, hn, hrepb, sl, by omega⟩
    · cases l with
      | E => simp [Sh.kids] at hx
      | C b l1 k1 r1 rest1 =>
        obtain ⟨n, hn, _, hrepb⟩ := hcl b rfl
        obtain ⟨c, m, h1, h2, h3, h4⟩ := ihl b n.elements hrepb x hx
        exact ⟨c, m, h1, h2, h3.trans sl, by omega⟩
    · cases r with
      | E => simp [Sh.ptr] at hx
      | C b l1 k1 r1 rest1 =>
        simp only [Sh.ptr, Option.toList, List.mem_singleton] at hx
        subst hx
        obtain ⟨n, hn, _, hrepb⟩ := hcr x rfl
        exact ⟨_, n, hn, hrepb, sr, by omega⟩
    · cases r with
      | E => simp [Sh.kids] at hx
      | C b l1 k1 r1 rest1 =>
        obtain ⟨n, hn, _, hrepb⟩ := hcr b rfl
        obtain ⟨c, m, h1, h2, h3, h4⟩ := ihr b n.elements hrepb x hx
        exact ⟨c, m, h1, h2, h3.trans sr, by omega⟩
    · obtain ⟨c, m, h1, h2, h3, h4⟩ := ihrest a es' hrest x hx
      exact ⟨c, m, h1, h2, h3.trans srest, by omega⟩

/-- In the cells of a node whose in-order listing is strictly ascending, the values under the
lower child of a cell lie between the previous key and the key of the cell, and the values
under its upper child lie between the key and the following keys. -/
theorem cell_order [LinearOrder T] (h : Heap T) (fuel : Nat) : ∀ (s : Sh T) (a : Nat)
    (es : List (T × Element T)), Rep h s a es → s.toList.Pairwise (· < ·) →
    s.height ≤ fuel + 1 →
    ∀ (i : Nat) (k : T) (e : Element T), es[i]? = some (k, e) →
      k ∈ s.toList ∧
      (∀ v ∈ belowLink (valuesFrom fuel h) e.leftChild, v ∈ s.toList ∧ v < k ∧
        ∀ (j : Nat) (k' : T) (e' : Element T), j < i → es[j]? = some (k', e') → k' < v) ∧
      (∀ v ∈ belowLink (valuesFrom fuel h) e.rightChild, v ∈ s.toList ∧ k < v ∧
        ∀ (j : Nat) (k' : T) (e' : Element T), i < j → es[j]? = some (k', e') → v < k') := by
  intro s
  induction s with
  | E =>
    intro a es hrep _ _ i k e hi
    simp [Rep] at hrep
    subst hrep
    simp at hi
  | C a0 l k0 r rest _ _ ihrest =>
    intro a es hrep hsorted hfuel i k e hi
    rw [rep_C] at hrep
    obtain ⟨_, e0, es', hes, hv, hlp, hrp, hcl, hcr, hrest⟩ := hrep
    subst hes
    obtain ⟨hh1, hh2, hh3⟩ := height_C a0 l k0 r rest
    simp only [Sh.toList, List.pairwise_append, List.pairwise_cons, List.mem_append,
      List.mem_cons] at hsorted
    obtain ⟨_, ⟨hk0, _, hrsorted, hr_rest⟩, hl_lt⟩ := hsorted
    have hL := link_values h l a fuel hcl (by omega)
    have hR := link_values h r a fuel hcr (by omega)
    cases i with
    | zero =>
      simp only [List.getElem?_cons_zero, Option.some.injEq, Prod.mk.injEq] at hi
      obtain ⟨rfl, rfl⟩ := hi
      refine ⟨by simp [Sh.toList], ?_, ?_⟩
      · intro v hv'
        rw [hlp, hL] at hv'
        refine ⟨by simp [Sh.toList, hv'], hl_lt v hv' k0 (Or.inl rfl), ?_⟩
        intro j k' e' hj _
        omega
      · intro v hv'
        rw [hrp, hR] at hv'
        refine ⟨by simp [Sh.toList, hv'], hk0 v (Or.inl hv'), ?_⟩
        intro j k' e' hj hget
        obtain ⟨j', rfl⟩ : ∃ j', j = j' + 1 := ⟨j - 1, by omega⟩
        simp only [List.getElem?_cons_succ] at hget
        obtain ⟨hmem, _⟩ := ihrest a es' hrest hrsorted (by omega) j' k' e' hget
        exact hr_rest v hv' k' hmem
    | succ i =>
      simp only [List.getElem?_cons_succ] at hi
      obtain ⟨hmem, hlo, hup⟩ := ihrest a es' hrest hrsorted (by omega) i k e hi
      refine ⟨by simp [Sh.toList, hmem], ?_, ?_⟩
      · intro v hv'
        obtain ⟨h1, h2, h3⟩ := hlo v hv'
        refine ⟨by simp [Sh.toList, h1], h2, ?_⟩
        intro j k' e' hj hget
        cases j with
        | zero =>
          simp only [List.getElem?_cons_zero, Option.some.injEq, Prod.mk.injEq] at hget
          rw [← hget.1]
          exact hk0 v (Or.inr h1)
        | succ j =>
          simp only [List.getElem?_cons_succ] at hget
          exact h3 j k' e' (by omega) hget
      · intro v hv'
        obtain ⟨h1, h2, h3⟩ := hup v hv'
        refine ⟨by simp [Sh.toList, h1], h2, ?_⟩
        intro j k' e' hj hget
        obtain ⟨j', rfl⟩ : ∃ j', j = j' + 1 := ⟨j - 1, by omega⟩
        simp only [List.getElem?_cons_succ] at hget
        exact h3 j' k' e' (by omega) hget

/-- Every node of a tree satisfying the invariant has a shape with strictly ascending
in-order listing. -/
theorem node_shape [LinearOrder T] (cap : Nat) (h : Heap T) (t : btree) (s : Sh T)
    (hinv : TreeInv cap h t.root s) :
    ∀ x ∈ treeNodes h t, ∃ c n, h[x]? = some n ∧ Rep h c x n.elements ∧
      c.toList.Pairwise (· < ·) ∧ c.height ≤ h.length := by
  intro x hx
  rw [treeNodes_eq h t s cap hinv] at hx
  obtain ⟨n0, hn0, _, hrep0⟩ := hinv.rep
  rcases List.mem_cons.mp hx with hx | hx
  · subst hx
    exact ⟨s, n0, hn0, hrep0, hinv.sorted, hinv.height_le⟩
  · obtain ⟨c, n, h1, h2, h3, h4⟩ := kids_shape h s t.root n0.elements hrep0 x hx
    exact ⟨c, n, h1, h2, hinv.sorted.sublist h3, le_trans h4 hinv.height_le⟩

/-! ## Copy of a tree onto itself -/

theorem subs_height : ∀ (s : Sh T), ∀ c ∈ s.subs, c.height + 1 ≤ s.height ∧ 1 ≤ c.height := by
  intro s
  induction s with
  | E => intro c hc; simp [Sh.subs] at hc
  | C a l k r rest _ _ ihrest =>
    intro c hc
    obtain ⟨hh1, hh2, hh3⟩ := height_C a l k r rest
    simp only [Sh.subs, List.mem_append] at hc
    rcases hc with hc | hc | hc
    · cases l with
      | E => simp [Sh.asList] at hc
      | C b l1 k1 r1 rest1 =>
        simp only [Sh.asList, List.mem_singleton] at hc
        subst hc
        exact ⟨hh1, height_pos_of_ptr _ b rfl⟩
    · cases r with
      | E => simp [Sh.asList] at hc
      | C b l1 k1 r1 rest1 =>
        simp only [Sh.asList, List.mem_singleton] at hc
        subst hc
        exact ⟨hh2, height_pos_of_ptr _ b rfl⟩
    · have := ihrest c hc
      omega

/-- The recursive copy of a node succeeds with as many levels of recursion as the node has
levels. -/
theorem copy_node_levels : ∀ (fuel : Nat) (s : Sh T), s.height ≤ fuel + 1 →
    NodeSpec (copyBTree (fuel + 1)) s := by
  intro fuel
  induction fuel with
  | zero =>
    intro s hs
    refine copy_step 0 s ?_
    intro c hc
    have := subs_height s c hc
    omega
  | succ fuel ih =>
    intro s hs
    refine copy_step (fuel + 1) s ?_
    intro c hc
    have := subs_height s c hc
    exact ih c (by omega)

/-- The state after the `for` loop of `copyBTree` when source and destination are the same
node. -/
theorem copyLoop_self : ∀ (suf : List (T × Element T)) (h : Heap T) (a : Nat)
    (p : Option Nat) (pre : List (T × Element T)) (q : List (Nat × Nat)),
    h[a]? = some ⟨p, pre ++ suf⟩ →
    ∃ h2, copyLoop suf.length h a a pre.length q =
        some (h2, q ++ queueOf h.length (elemLinks suf)) ∧
      h2.length = h.length + (elemLinks suf).length ∧
      h2[a]? = some ⟨p, pre ++ relink h.length suf⟩ ∧
      (∀ x, x < h.length → x ≠ a → h2[x]? = h[x]?) := by
  intro suf
  induction suf with
  | nil =>
    intro h a p pre q hs
    exact ⟨h, by simp [copyLoop, elemLinks, queueOf], by simp [elemLinks],
      by simpa [relink] using hs, fun _ _ _ => rfl⟩
  | cons c es ih =>
    intro h a p pre q hs
    obtain ⟨k, e⟩ := c
    obtain ⟨ev, el, er⟩ := e
    have hal : a < h.length := (List.getElem?_eq_some.mp hs).1
    have hge : (Node.mk p (pre ++ (k, ⟨ev, el, er⟩) :: es)).elements[pre.length]?
        = some (k, ⟨ev, el, er⟩) :=
      getElem?_append_cons pre _ es
    obtain ⟨h1, hc1, hl1, hd1, hf1, _⟩ := copyLink_spec setLeft h a pre.length q el _ hs
    have hd1' : h1[a]? = some ⟨p, pre ++ (k, ⟨ev, el.map fun _ => h.length, er⟩) :: es⟩ := by
      rw [hd1]
      cases el with
      | none => rfl
      | some c =>
        simp only [Option.map_some']
        rw [setLeft_append]
    have hge1 : (Node.mk p (pre ++ (k, ⟨ev, el.map fun _ => h.length, er⟩) :: es)).elements[
        pre.length]? = some (k, ⟨ev, el.map fun _ => h.length, er⟩) :=
      getElem?_append_cons pre _ es
    obtain ⟨h2, hc2, hl2, hd2, hf2, _⟩ := copyLink_spec setRight h1 a pre.length
      (q ++ queueOf h.length el.toList) er _ hd1'
    have hd2' : h2[a]? = some ⟨p, (pre ++ [(k, ⟨ev, el.map fun _ => h.length,
        er.map fun _ => h.length + el.toList.length⟩)]) ++ es⟩ := by
      rw [hd2]
      cases er with
      | none => simp
      | some c =>
        simp only [Option.map_some']
        rw [setRight_append, hl1]
        simp
    obtain ⟨h3, hc3, hl3, hd3, hf3⟩ := ih h2 a p
      (pre ++ [(k, ⟨ev, el.map fun _ => h.length, er.map fun _ => h.length + el.toList.length⟩)])
      ((q ++ queueOf h.length el.toList) ++ queueOf h1.length er.toList) hd2'
    have hlen2 : h2.length = h.length + el.toList.length + er.toList.length := by
      rw [hl2, hl1]
    refine ⟨h3, ?_, ?_, ?_, ?_⟩
    · simp only [List.length_cons, copyLoop, hs, hge, hc1, hd1', hge1, hc2]
      simp only [List.length_append, List.length_singleton] at hc3
      rw [hc3]
      simp only [elemLinks, queueOf_append, hl1, hlen2, List.append_assoc]
    · rw [hl3, hlen2]
      simp only [elemLinks, List.length_append]
      omega
    · rw [hd3, hlen2]
      simp [relink]
    · intro x hx hxd
      rw [hf3 x (by omega) hxd, hf2 x (by omega) hxd, hf1 x hx hxd]

/-- The copy of a node onto itself: the node keeps its cells, its children are replaced by
copies made of fresh nodes. -/
theorem copy_self_step (fuel : Nat) (s : Sh T)
    (hsub : ∀ c ∈ s.subs, NodeSpec (copyBTree fuel) c) (h : Heap T) (a : Nat)
    (psrc parent : Option Nat) (hrep : RepAt h s psrc a) (hak : a ∉ s.kids) :
    ∃ h' s', copyBTree (fuel + 1) h a parent a = some h' ∧ RepAt h' s' parent a ∧
      SameShape s s' ∧ h.length ≤ h'.length ∧ (∀ x ∈ s'.kids, h.length ≤ x) ∧ s'.kids.Nodup ∧
      (∀ x, x < h.length → x ≠ a → h'[x]? = h[x]?) := by
  obtain ⟨sn, hsn, hsp, hr⟩ := hrep
  have hal : a < h.length := (List.getElem?_eq_some.mp hsn).1
  have hlen1 : (h.set a ⟨parent, sn.elements⟩).length = h.length := List.length_set _ _ _
  have h1a : (h.set a ⟨parent, sn.elements⟩)[a]? = some ⟨parent, [] ++ sn.elements⟩ := by
    rw [List.getElem?_set_self hal]; rfl
  obtain ⟨h2, hloop, hlen2, hd2, hfr2⟩ := copyLoop_self sn.elements
    (h.set a ⟨parent, sn.elements⟩) a parent [] [] h1a
  rw [hlen1] at hloop hlen2 hd2 hfr2
  have hfr2' : ∀ x, x < h.length → x ≠ a → h2[x]? = h[x]? := by
    intro x hx hxd
    rw [hfr2 x hx hxd, List.getElem?_set_ne (Ne.symm hxd)]
  have hlinks : elemLinks sn.elements = s.subs.map Sh.addr := by
    rw [rep_links h s a _ hr, subs_addr]
  have hsl' := subs_length h s a sn.elements hr
  have hall : ∀ c ∈ s.subs, NodeSpec (copyBTree fuel) c ∧ c.ptr = some c.addr ∧
      (∃ p, RepAt h2 c p c.addr) ∧ (∀ x ∈ c.kids, x < h.length) ∧ c.addr < h.length := by
    intro c hc
    obtain ⟨⟨b, hb1, hb2⟩, hchild, hnodes, _⟩ := subs_mem_child h s a sn.elements hr c hc
    have hrc : RepAt h c (some a) c.addr := by rw [hb2]; exact hchild b hb1
    have hklt := rep_kids_lt h s a sn.elements hr
    have hcn : c.nodes = c.addr :: c.kids := by simp [Sh.nodes, hb1, hb2]
    have hsubk : ∀ x ∈ c.addr :: c.kids, x ∈ s.kids := fun x hx => hnodes x (hcn ▸ hx)
    refine ⟨hsub c hc, by rw [hb1, hb2], ⟨some a, repAt_frame h h2 c _ _ hrc ?_⟩, ?_, ?_⟩
    · intro x hx
      have hxk := hsubk x hx
      exact hfr2' x (hklt x hxk) (fun e => hak (e ▸ hxk))
    · intro x hx
      exact hklt x (hsubk x (List.mem_cons_of_mem _ hx))
    · exact hklt _ (hsubk _ (List.mem_cons_self _ _))
  obtain ⟨h3, cs', hq, hf, hidx, hnd, hk, hlen3, hfr3⟩ := copyQueue_spec (copyBTree fuel) a
    s.subs h2 h.length h.length hall (le_refl _) (by omega)
  obtain ⟨s', hrep', hss, hkids⟩ := assemble h h3 a a s h.length sn.elements cs' hr hf hidx
  have hd3 : h3[a]? = some ⟨parent, relink h.length sn.elements⟩ := by
    rw [hfr3 a (by omega) (Or.inl hal), hd2]; rfl
  have hflen : cs'.length = s.subs.length := (List.Forall₂.length_eq hf).symm
  refine ⟨h3, s', ?_, ⟨_, hd3, rfl, hrep'⟩, hss, by omega, ?_, ?_, ?_⟩
  · simp only [copyBTree, hsn]
    have hloop' : copyLoop sn.elements.length (h.set a ⟨parent, sn.elements⟩) a a 0 [] =
        some (h2, queueOf h.length (List.map Sh.addr s.subs)) := by
      rw [← hlinks]; exact hloop
    rw [hloop']
    exact hq
  · intro x hx
    rw [hkids] at hx
    rcases mem_nodesAll_of_idx h.length cs' (fun j c' hj => (hidx j c' hj).1) x hx with h1 | h1
    · exact h1.1
    · have := hk x h1; omega
  · rw [hkids]
    refine nodesAll_nodup cs' h.length (fun j c' hj => (hidx j c' hj).1) hnd ?_
    intro x hx
    have := hk x hx
    omega
  · intro x hx hxd
    rw [hfr3 x (by omega) (Or.inl hx)]
    exact hfr2' x hx hxd

/-- The copy assignment of a tree to itself: the tree keeps its root and its capacity and has
a shape with the same cells, the descendants being fresh copies. -/
theorem copy_assign_self_spec [LinearOrder T] (cap : Nat) (h : Heap T) (t : btree) (s : Sh T)
    (hinv : TreeInv cap h t.root s) :
    ∃ h' s', copy_assign h t t = some (h', ⟨t.maxNodeElems, t.root⟩) ∧
      TreeInv cap h' t.root s' ∧ SameShape s s' ∧ (∀ x ∈ s'.kids, h.length ≤ x) ∧
      h.length ≤ h'.length := by
  obtain ⟨n, hn, hp, hrep⟩ := hinv.rep
  have hlt := hinv.root_lt
  have hak : t.root ∉ s.kids := (List.nodup_cons.mp hinv.nodup).1
  have hset : h.set t.root n = h := by
    apply List.ext_getElem?
    intro i
    by_cases hi : t.root = i
    · subst hi
      rw [List.getElem?_set_self hlt, hn]
    · rw [List.getElem?_set_ne hi]
  obtain ⟨f, hf⟩ : ∃ f, h.length = f + 1 := ⟨h.length - 1, by omega⟩
  have hsub : ∀ c ∈ s.subs, NodeSpec (copyBTree f) c := by
    intro c hc
    have hh := subs_height s c hc
    have hle := hinv.height_le
    obtain ⟨g, hg⟩ : ∃ g, f = g + 1 := ⟨f - 1, by omega⟩
    rw [hg]
    exact copy_node_levels g c (by omega)
  obtain ⟨h', s', hcopy, hrep', hss, hlen, hk, hnd, _⟩ :=
    copy_self_step f s hsub h t.root none none hinv.rep hak
  refine ⟨h', s', ?_, hinv.of_sameShape h' t.root s' hrep' hss ?_, hss, hk, hlen⟩
  · simp only [copy_assign, hn, hset]
    rw [hf, hcopy]
    rfl
  · refine List.nodup_cons.mpr ⟨fun hx => ?_, hnd⟩
    have := hk _ hx; omega

theorem outlineLink_rep (h : Heap T) (c : Sh T) (a : Nat) (fuel : Nat) (hc : Child h c a)
    (ih : ∀ b n, c.ptr = some b → h[b]? = some n → Rep h c b n.elements →
      outlineFrom fuel h b = c.marks) :
    outlineLink (outlineFrom fuel h) c.ptr = outlineLink (fun _ => c.marks) c.ptr := by
  cases c with
  | E => rfl
  | C b l1 k1 r1 rest1 =>
    obtain ⟨n, hn, _, hrepb⟩ := hc b rfl
    simp only [Sh.ptr, outlineLink]
    rw [ih b n rfl hn hrepb]

/-- The outline read from the heap is the outline of the shape. -/
theorem outlineOf_rep (h : Heap T) : ∀ (s : Sh T) (fuel : Nat) (a : Nat)
    (es : List (T × Element T)), Rep h s a es → s.height ≤ fuel + 1 →
    outlineOf (outlineFrom fuel h) es = s.marks := by
  intro s
  induction s with
  | E =>
    intro fuel a es hrep _
    simp [Rep] at hrep
    subst hrep
    rfl
  | C a0 l k r rest ihl ihr ihrest =>
    intro fuel a es hrep hfuel
    rw [rep_C] at hrep
    obtain ⟨_, e, es', hes, hv, hlp, hrp, hcl, hcr, hrest⟩ := hrep
    subst hes
    obtain ⟨hh1, hh2, hh3⟩ := height_C a0 l k r rest
    have hL : outlineLink (outlineFrom fuel h) e.leftChild =
        outlineLink (fun _ => l.marks) l.ptr := by
      rw [hlp]
      refine outlineLink_rep h l a fuel hcl ?_
      intro b n hb hn hrepb
      have hpos := height_pos_of_ptr _ b hb
      obtain ⟨f, rfl⟩ : ∃ f, fuel = f + 1 := ⟨fuel - 1, by omega⟩
      simp only [outlineFrom, hn]
      exact ihl f b n.elements hrepb (by omega)
    have hR : outlineLink (outlineFrom fuel h) e.rightChild =
        outlineLink (fun _ => r.marks) r.ptr := by
      rw [hrp]
      refine outlineLink_rep h r a fuel hcr ?_
      intro b n hb hn hrepb
      have hpos := height_pos_of_ptr _ b hb
      obtain ⟨f, rfl⟩ : ∃ f, fuel = f + 1 := ⟨fuel - 1, by omega⟩
      simp only [outlineFrom, hn]
      exact ihr f b n.elements hrepb (by omega)
    simp only [outlineOf, hL, hR, hv, Sh.marks, ihrest fuel a es' hrest (by omega)]

theorem outline_eq [LinearOrder T] (h : Heap T) (t : btree) (s : Sh T) (cap : Nat)
    (hinv : TreeInv cap h t.root s) : outline h t = s.marks := by
  obtain ⟨n, hn, _, hrep⟩ := hinv.rep
  have hlt := hinv.root_lt
  obtain ⟨f, hf⟩ : ∃ f, h.length = f + 1 := ⟨h.length - 1, by omega⟩
  simp only [outline, hf, outlineFrom, hn]
  exact outlineOf_rep h s f t.root n.elements hrep (hf ▸ hinv.height_le)

theorem sameShape_marks : ∀ (s s' : Sh T), SameShape s s' → s'.marks = s.marks := by
  intro s
  induction s with
  | E => intro s' hs; cases s' <;> simp_all [SameShape, Sh.marks]
  | C a l k r rest ihl ihr ihrest =>
    intro s' hs
    cases s' with
    | E => simp [SameShape] at hs
    | C a' l' k' r' rest' =>
      obtain ⟨hk, h1, h2, h3⟩ := hs
      have hl : outlineLink (fun _ => l'.marks) l'.ptr = outlineLink (fun _ => l.marks) l.ptr := by
        rw [ihl l' h1]
        cases l <;> cases l' <;> simp_all [SameShape, Sh.ptr, outlineLink]
      have hr : outlineLink (fun _ => r'.marks) r'.ptr = outlineLink (fun _ => r.marks) r.ptr := by
        rw [ihr r' h2]
        cases r <;> cases r' <;> simp_all [SameShape, Sh.ptr, outlineLink]
      simp only [Sh.marks, hl, hr, hk, ihrest rest' h3]

/-! ## Display -/

theorem tokenValues_append : ∀ (xs ys : List (Token T)),
    tokenValues (xs ++ ys) = tokenValues xs ++ tokenValues ys := by
  intro xs
  induction xs with
  | nil => intro ys; rfl
  | cons x xs ih =>
    intro ys
    cases x with
    | value v => simp [tokenValues, ih]
    | space => simp [tokenValues, ih]

theorem tokenValues_keyToks [LinearOrder T] (lastValue : T) : ∀ (ks : List T),
    tokenValues (keyToks lastValue ks) = ks := by
  intro ks
  induction ks with
  | nil => rfl
  | cons k ks ih =>
    by_cases hk : k = lastValue
    · subst hk
      simp [keyToks, tokenValues, ih, tokenValues_append]
    · simp [keyToks, tokenValues, hk, ih, tokenValues_append]

theorem tokenValues_bfsToks [LinearOrder T] (lastValue : T) : ∀ (m : Nat) (cs : List (Sh T)),
    tokenValues (bfsToks lastValue m cs) = bfsKeys m cs := by
  intro m
  induction m with
  | zero => intro cs; rfl
  | succ m ih =>
    intro cs
    cases cs with
    | nil => rfl
    | cons c cs =>
      simp only [bfsToks, bfsKeys, tokenValues_append, tokenValues_keyToks, ih]

theorem bfsKeys_nil : ∀ (m : Nat), bfsKeys m ([] : List (Sh T)) = [] := by
  intro m; cases m <;> rfl

theorem bfsToks_nil [LinearOrder T] (lastValue : T) : ∀ (m : Nat),
    bfsToks lastValue m ([] : List (Sh T)) = [] := by
  intro m; cases m <;> rfl

theorem kids_eq_nodesAll_subs : ∀ (s : Sh T), s.kids = nodesAll s.subs := by
  intro s
  induction s with
  | E => rfl
  | C a l k r rest _ _ ih =>
    rw [kids_C, ih]
    simp only [Sh.subs, nodesAll_append, nodesAll_asList]

theorem subsAll_append : ∀ (xs ys : List (Sh T)), subsAll (xs ++ ys) = subsAll xs ++ subsAll ys := by
  intro xs
  induction xs with
  | nil => intro ys; rfl
  | cons x xs ih => intro ys; simp [subsAll, ih]

theorem toListAll_append : ∀ (xs ys : List (Sh T)),
    toListAll (xs ++ ys) = toListAll xs ++ toListAll ys := by
  intro xs
  induction xs with
  | nil => intro ys; rfl
  | cons x xs ih => intro ys; simp [toListAll, ih]

theorem toListAll_asList (c : Sh T) : toListAll c.asList = c.toList := by
  cases c <;> simp [Sh.asList, toListAll, Sh.toList]

/-- The number of nodes of a list of node shapes: the nodes of the list and the nodes of
their children. -/
theorem count_nodesAll (cs : List (Sh T)) (hok : ∀ c ∈ cs, c.ptr = some c.addr) :
    (nodesAll cs).length = cs.length + (nodesAll (subsAll cs)).length := by
  induction cs with
  | nil => rfl
  | cons c cs ih =>
    have hc := hok c (List.mem_cons_self _ _)
    have ih' := ih (fun c' hc' => hok c' (List.mem_cons_of_mem _ hc'))
    have h1 : c.nodes.length = 1 + (nodesAll c.subs).length := by
      rw [Sh.nodes, hc, ← kids_eq_nodesAll_subs]
      simp [Nat.add_comm]
    show (c.nodes ++ nodesAll cs).length =
      (cs.length + 1) + (nodesAll (c.subs ++ subsAll cs)).length
    rw [nodesAll_append, List.length_append, List.length_append, ih', h1]
    omega

theorem subs_ptr : ∀ (s : Sh T), ∀ c ∈ s.subs, c.ptr = some c.addr := by
  intro s
  induction s with
  | E => intro c hc; simp [Sh.subs] at hc
  | C a l k r rest _ _ ihrest =>
    intro c hc
    simp only [Sh.subs, List.mem_append] at hc
    rcases hc with hc | hc | hc
    · cases l with
      | E => simp [Sh.asList] at hc
      | C b l1 k1 r1 rest1 =>
        simp only [Sh.asList, List.mem_singleton] at hc
        subst hc; rfl
    · cases r with
      | E => simp [Sh.asList] at hc
      | C b l1 k1 r1 rest1 =>
        simp only [Sh.asList, List.mem_singleton] at hc
        subst hc; rfl
    · exact ihrest c hc

theorem mem_subsAll : ∀ (cs : List (Sh T)) (c : Sh T),
    c ∈ subsAll cs ↔ ∃ p ∈ cs, c ∈ p.subs := by
  intro cs
  induction cs with
  | nil => intro c; simp [subsAll]
  | cons x cs ih => intro c; simp [subsAll, ih]

theorem nodesOk_subs (h : Heap T) (c : Sh T)
    (hrep : ∃ p, RepAt h c p c.addr) : NodesOk h c.subs := by
  obtain ⟨p, n, hn, _, hr⟩ := hrep
  intro c' hc'
  obtain ⟨⟨b, hb1, hb2⟩, hchild, _, _⟩ := subs_mem_child h c c.addr n.elements hr c' hc'
  exact ⟨by rw [hb1, hb2], some c.addr, by rw [hb2]; exact hchild b hb1⟩

theorem nodesOk_append (h : Heap T) (xs ys : List (Sh T)) (hx : NodesOk h xs)
    (hy : NodesOk h ys) : NodesOk h (xs ++ ys) := by
  intro c hc
  rcases List.mem_append.mp hc with h1 | h1
  · exact hx c h1
  · exact hy c h1

theorem nodesOk_subsAll (h : Heap T) (cs : List (Sh T)) (hok : NodesOk h cs) :
    NodesOk h (subsAll cs) := by
  intro c hc
  obtain ⟨p, hp, hcp⟩ := (mem_subsAll cs c).mp hc
  exact nodesOk_subs h p (hok p hp).2 c hcp

theorem nodesOk_levelSh (h : Heap T) : ∀ (d : Nat) (cs : List (Sh T)), NodesOk h cs →
    NodesOk h (levelSh d cs) := by
  intro d
  induction d with
  | zero => intro cs hok; exact hok
  | succ d ih => intro cs hok; exact ih _ (nodesOk_subsAll h cs hok)

theorem levelSh_succ : ∀ (d : Nat) (cs : List (Sh T)),
    levelSh (d + 1) cs = subsAll (levelSh d cs) := by
  intro d
  induction d with
  | zero => intro cs; rfl
  | succ d ih =>
    intro cs
    rw [levelSh, ih (subsAll cs)]
    rfl

/-- A queue whose front part `xs` is visited first: the keys of `xs`, then the rest of the
queue followed by the children of `xs`. -/
theorem bfsKeys_front : ∀ (xs ys : List (Sh T)) (m : Nat), xs.length ≤ m →
    bfsKeys m (xs ++ ys) = keysAll xs ++ bfsKeys (m - xs.length) (ys ++ subsAll xs) := by
  intro xs
  induction xs with
  | nil => intro ys m _; simp [keysAll, subsAll]
  | cons c xs ih =>
    intro ys m hm
    simp only [List.length_cons] at hm
    obtain ⟨m', rfl⟩ : ∃ m', m = m' + 1 := ⟨m - 1, by omega⟩
    show bfsKeys (m' + 1) (c :: (xs ++ ys)) = _
    simp only [bfsKeys, keysAll, subsAll, List.length_cons]
    rw [List.append_assoc xs ys c.subs, ih (ys ++ c.subs) m' (by omega)]
    simp only [List.append_assoc, Nat.add_sub_add_right]

/-- The level order lists the keys level after level. -/
theorem bfsKeys_byDepth : ∀ (n : Nat) (cs : List (Sh T)) (m : Nat),
    (∀ c ∈ cs, c.ptr = some c.addr ∧ c.height ≤ n) → (nodesAll cs).length ≤ m →
    bfsKeys m cs = byDepthSh cs n := by
  intro n
  induction n with
  | zero =>
    intro cs m hok _
    cases cs with
    | nil => simp [bfsKeys_nil, byDepthSh]
    | cons c cs =>
      obtain ⟨h1, h2⟩ := hok c (List.mem_cons_self _ _)
      have := height_pos_of_ptr c _ h1
      omega
  | succ n ih =>
    intro cs m hok hm
    have hcount := count_nodesAll cs (fun c hc => (hok c hc).1)
    have h1 := bfsKeys_front cs [] m (by omega)
    simp only [List.append_nil, List.nil_append] at h1
    rw [h1, byDepthSh]
    congr 1
    refine ih (subsAll cs) (m - cs.length) ?_ (by omega)
    intro c hc
    obtain ⟨p, hp, hcp⟩ := (mem_subsAll cs c).mp hc
    have := subs_height p c hcp
    have := (hok p hp).2
    exact ⟨subs_ptr p c hcp, by omega⟩

theorem toList_perm_keys_subs : ∀ (s : Sh T), s.toList.Perm (s.keys ++ toListAll s.subs) := by
  intro s
  induction s with
  | E => simp [Sh.toList, Sh.keys, Sh.subs, toListAll]
  | C a l k r rest _ _ ih =>
    simp only [Sh.toList, Sh.keys, Sh.subs, toListAll_append, toListAll_asList,
      List.cons_append]
    have h1 : (l.toList ++ k :: (r.toList ++ rest.toList)).Perm
        (k :: (l.toList ++ (r.toList ++ rest.toList))) := List.perm_middle
    refine h1.trans (List.Perm.cons k ?_)
    have h2 : (l.toList ++ (r.toList ++ rest.toList)).Perm
        (l.toList ++ (r.toList ++ (rest.keys ++ toListAll rest.subs))) :=
      List.Perm.append_left _ (List.Perm.append_left _ ih)
    refine h2.trans ?_
    have h3 : (l.toList ++ (r.toList ++ (rest.keys ++ toListAll rest.subs))) =
        (l.toList ++ r.toList) ++ (rest.keys ++ toListAll rest.subs) := by simp
    have h4 : (rest.keys ++ (l.toList ++ (r.toList ++ toListAll rest.subs))) =
        rest.keys ++ ((l.toList ++ r.toList) ++ toListAll rest.subs) := by simp
    rw [h3, h4]
    exact (List.perm_append_comm_assoc _ _ _)

/-- The level order lists every value of the queued subtrees once. -/
theorem bfsKeys_perm : ∀ (m : Nat) (cs : List (Sh T)), (∀ c ∈ cs, c.ptr = some c.addr) →
    (nodesAll cs).length ≤ m → (bfsKeys m cs).Perm (toListAll cs) := by
  intro m
  induction m with
  | zero =>
    intro cs hok hm
    cases cs with
    | nil => simp [bfsKeys, toListAll]
    | cons c cs =>
      have hc := hok c (List.mem_cons_self _ _)
      simp [nodesAll, Sh.nodes, hc] at hm
  | succ m ih =>
    intro cs hok hm
    cases cs with
    | nil => simp [bfsKeys, toListAll]
    | cons c cs =>
      have hc := hok c (List.mem_cons_self _ _)
      have hok' : ∀ c' ∈ cs ++ c.subs, c'.ptr = some c'.addr := by
        intro c' hc'
        rcases List.mem_append.mp hc' with h1 | h1
        · exact hok c' (List.mem_cons_of_mem _ h1)
        · exact subs_ptr c c' h1
      have hcount : (nodesAll (cs ++ c.subs)).length ≤ m := by
        simp only [nodesAll, Sh.nodes, hc, Option.toList, List.length_append,
          List.length_singleton, kids_eq_nodesAll_subs c] at hm
        simp only [nodesAll_append, List.length_append]
        omega
      have h1 := ih (cs ++ c.subs) hok' hcount
      simp only [bfsKeys, toListAll]
      rw [toListAll_append] at h1
      have h2 : (c.keys ++ (toListAll cs ++ toListAll c.subs)).Perm
          ((c.keys ++ toListAll c.subs) ++ toListAll cs) := by
        rw [List.append_assoc]
        exact List.Perm.append_left _ List.perm_append_comm
      exact ((List.Perm.append_left _ h1).trans h2).trans
        (List.Perm.append_right _ (toList_perm_keys_subs c).symm)

theorem printElems_eq [LinearOrder T] (lastValue : T) : ∀ (es : List (T × Element T)),
    printElems lastValue es = (keyToks lastValue (es.map Prod.fst), elemLinks es) := by
  intro es
  induction es with
  | nil => rfl
  | cons p es ih =>
    obtain ⟨k, e⟩ := p
    simp only [printElems, ih, List.map_cons, keyToks, elemLinks]

theorem printQueue_nil
    (print : List (Token T) × List Nat → Nat → Option (List (Token T) × List Nat)) (k : Nat)
    (os : List (Token T)) : printQueue print k (os, []) = some (os, []) := by
  cases k <;> rfl

theorem nodesOk_node (h : Heap T) (c : Sh T) (hrep : ∃ p, RepAt h c p c.addr) :
    ∃ n, h[c.addr]? = some n ∧ n.elements.map Prod.fst = c.keys ∧
      elemLinks n.elements = c.subs.map Sh.addr := by
  obtain ⟨p, n, hn, _, hr⟩ := hrep
  exact ⟨n, hn, rep_keys h c c.addr n.elements hr,
    by rw [rep_links h c c.addr _ hr, subs_addr]⟩

/-- The recursive display visits the queued nodes in level order and leaves the queue
empty. -/
theorem printBTree_spec [LinearOrder T] (lastValue : T) (h : Heap T) :
    ∀ (m fuel : Nat) (os : List (Token T)) (c : Sh T) (cs : List (Sh T)),
      NodesOk h (c :: cs) → (nodesAll (c :: cs)).length ≤ m → m ≤ fuel →
      printBTree lastValue fuel h (os, cs.map Sh.addr) c.addr =
        some (os ++ bfsToks lastValue m (c :: cs), []) := by
  intro m
  induction m with
  | zero =>
    intro fuel os c cs hok hm _
    have hc := (hok c (List.mem_cons_self _ _)).1
    simp [nodesAll, Sh.nodes, hc] at hm
  | succ m ih =>
    intro fuel os c cs hok hm hfuel
    obtain ⟨fuel', rfl⟩ : ∃ f, fuel = f + 1 := ⟨fuel - 1, by omega⟩
    obtain ⟨hc, hrep⟩ := hok c (List.mem_cons_self _ _)
    obtain ⟨n, hn, hkeys, hlinks⟩ := nodesOk_node h c hrep
    have hok' : NodesOk h (cs ++ c.subs) :=
      nodesOk_append h cs c.subs (fun c' hc' => hok c' (List.mem_cons_of_mem _ hc'))
        (nodesOk_subs h c hrep)
    have hcount : (nodesAll (cs ++ c.subs)).length ≤ m := by
      simp only [nodesAll, Sh.nodes, hc, Option.toList, List.length_append,
        List.length_singleton, kids_eq_nodesAll_subs c] at hm
      simp only [nodesAll_append, List.length_append]
      omega
    simp only [printBTree, hn, printElems_eq, hkeys, hlinks, bfsToks]
    rw [← List.map_append]
    cases hq : cs ++ c.subs with
    | nil =>
      simp only [List.map_nil, printQueue_nil, bfsToks_nil, List.append_nil]
    | cons c' rest =>
      rw [hq] at hok' hcount
      have hc' := (hok' c' (List.mem_cons_self _ _)).1
      have hpos : 1 ≤ m := by
        simp only [nodesAll, Sh.nodes, hc', Option.toList, List.length_append,
          List.length_singleton] at hcount
        omega
      obtain ⟨k, rfl⟩ : ∃ k, fuel' = k + 1 := ⟨fuel' - 1, by omega⟩
      simp only [List.map_cons, printQueue]
      rw [ih (k + 1) _ c' rest hok' hcount (by omega)]
      simp only [printQueue_nil, List.append_assoc]

/-- The search for the value printed last ends. -/
theorem lastValue_loop_spec (h : Heap T) : ∀ (fuel : Nat) (s : Sh T) (a : Nat)
    (es : List (T × Element T)), Rep h s a es → s ≠ .E → s.height ≤ fuel →
    ∃ e v, es[es.length - 1]? = some e ∧ es.length ≠ 0 ∧ lastValue_loop fuel h e = some v := by
  intro fuel
  induction fuel with
  | zero =>
    intro s a es _ hne hh
    cases s with
    | E => exact absurd rfl hne
    | C b l k r rest =>
      have := height_pos_of_ptr (Sh.C b l k r rest) b rfl
      omega
  | succ fuel ih =>
    intro s a es hrep hne hh
    obtain ⟨pre2, k, e, r, hes, hr, hchild, hrh, _⟩ := last_cell h s a es 0 hrep hne
    subst hes
    have hget : (pre2 ++ [(k, e)])[(pre2 ++ [(k, e)]).length - 1]? = some (k, e) := by simp
    refine ⟨(k, e), ?_⟩
    cases r with
    | E =>
      refine ⟨k, hget, by simp, ?_⟩
      simp only [Sh.ptr] at hr
      simp only [lastValue_loop, hr]
    | C b l1 k1 r1 rest1 =>
      obtain ⟨n, hn, _, hrepb⟩ := hchild b rfl
      obtain ⟨e', v, he', hlen', hv⟩ := ih _ b n.elements hrepb (by simp) (by omega)
      refine ⟨v, hget, by simp, ?_⟩
      simp only [Sh.ptr] at hr
      simp only [lastValue_loop, hr, hn, hlen', if_false, he', hv]

theorem levelOrder_eq (h : Heap T) : ∀ (m : Nat) (cs : List (Sh T)), NodesOk h cs →
    levelOrder m h (cs.map Sh.addr) = bfsKeys m cs := by
  intro m
  induction m with
  | zero => intro cs _; rfl
  | succ m ih =>
    intro cs hok
    cases cs with
    | nil => rfl
    | cons c cs =>
      obtain ⟨hc, hrep⟩ := hok c (List.mem_cons_self _ _)
      obtain ⟨n, hn, hkeys, hlinks⟩ := nodesOk_node h c hrep
      have hok' : NodesOk h (cs ++ c.subs) :=
        nodesOk_append h cs c.subs (fun c' hc' => hok c' (List.mem_cons_of_mem _ hc'))
          (nodesOk_subs h c hrep)
      simp only [List.map_cons, levelOrder, hn, hkeys, hlinks, bfsKeys]
      rw [← List.map_append, ih _ hok']

theorem childrenOf_eq (h : Heap T) : ∀ (cs : List (Sh T)), NodesOk h cs →
    childrenOf h (cs.map Sh.addr) = (subsAll cs).map Sh.addr := by
  intro cs
  induction cs with
  | nil => intro _; rfl
  | cons c cs ih =>
    intro hok
    obtain ⟨hc, hrep⟩ := hok c (List.mem_cons_self _ _)
    obtain ⟨n, hn, _, hlinks⟩ := nodesOk_node h c hrep
    simp only [List.map_cons, childrenOf, hn, hlinks, subsAll, List.map_append,
      ih (fun c' hc' => hok c' (List.mem_cons_of_mem _ hc'))]

theorem valuesIn_eq (h : Heap T) : ∀ (cs : List (Sh T)), NodesOk h cs →
    valuesIn h (cs.map Sh.addr) = keysAll cs := by
  intro cs
  induction cs with
  | nil => intro _; rfl
  | cons c cs ih =>
    intro hok
    obtain ⟨hc, hrep⟩ := hok c (List.mem_cons_self _ _)
    obtain ⟨n, hn, hkeys, _⟩ := nodesOk_node h c hrep
    simp only [List.map_cons, valuesIn, hn, hkeys, keysAll,
      ih (fun c' hc' => hok c' (List.mem_cons_of_mem _ hc'))]

theorem nodesAtDepth_eq (h : Heap T) : ∀ (d : Nat) (cs : List (Sh T)), NodesOk h cs →
    nodesAtDepth h d (cs.map Sh.addr) = (levelSh d cs).map Sh.addr := by
  intro d
  induction d with
  | zero => intro cs _; rfl
  | succ d ih =>
    intro cs hok
    simp only [nodesAtDepth, levelSh, childrenOf_eq h cs hok]
    exact ih _ (nodesOk_subsAll h cs hok)

theorem valuesByDepth_eq (h : Heap T) (t : btree) (s : Sh T) (hok : NodesOk h [s])
    (hroot : s.addr = t.root) : ∀ (n d : Nat),
    valuesByDepth h t d n = byDepthSh (levelSh d [s]) n := by
  intro n
  induction n with
  | zero => intro d; rfl
  | succ n ih =>
    intro d
    have h1 : nodesAtDepth h d [t.root] = (levelSh d [s]).map Sh.addr := by
      rw [← hroot]
      exact nodesAtDepth_eq h d [s] hok
    simp only [valuesByDepth, byDepthSh, h1, valuesIn_eq h _ (nodesOk_levelSh h d [s] hok),
      ih (d + 1), levelSh_succ]

/-- What `operator<<` writes for a non-empty tree satisfying the invariant. -/
theorem operator_output_spec [LinearOrder T] (cap : Nat) (h : Heap T) (t : btree) (s : Sh T)
    (hinv : TreeInv cap h t.root s) (hne : s ≠ .E) :
    ∃ lastValue toks, operator_output h t = some toks ∧
      toks = bfsToks lastValue h.length [s] ∧
      tokenValues toks = levelOrder h.length h [t.root] ∧
      (tokenValues toks).Perm s.toList ∧
      tokenValues toks = valuesByDepth h t 0 h.length := by
  obtain ⟨n, hn, hp, hrep⟩ := hinv.rep
  have hptr : s.ptr = some t.root := by
    cases s with
    | E => exact absurd rfl hne
    | C a l k r rest =>
      rw [rep_C] at hrep
      rw [← hrep.1]; rfl
  have haddr : s.addr = t.root := by
    cases s with
    | E => exact absurd rfl hne
    | C a l k r rest => simpa [Sh.ptr, Sh.addr] using hptr
  have hok : NodesOk h [s] := by
    intro c hc
    simp only [List.mem_singleton] at hc
    subst hc
    exact ⟨by rw [hptr, haddr], none, by rw [haddr]; exact hinv.rep⟩
  have hcount : (nodesAll [s]).length ≤ h.length := by
    have := nodup_bounded_length (t.root :: s.kids) h.length hinv.nodup hinv.nodes_lt
    simpa [nodesAll, Sh.nodes, hptr, Nat.add_comm] using this
  obtain ⟨e, v, he, hlen, hv⟩ := lastValue_loop_spec h h.length s t.root n.elements hrep hne
    hinv.height_le
  have hprint := printBTree_spec v h h.length (h.length + 1) [] s [] hok hcount (by omega)
  rw [haddr] at hprint
  have hvals : tokenValues (bfsToks v h.length [s]) = bfsKeys h.length [s] :=
    tokenValues_bfsToks v h.length [s]
  refine ⟨v, bfsToks v h.length [s], ?_, rfl, ?_, ?_, ?_⟩
  · simp only [operator_output, hn, hlen, if_false, he, hv]
    simp only [List.map_nil] at hprint
    rw [hprint]
    rfl
  · rw [hvals, ← haddr]
    exact (levelOrder_eq h h.length [s] hok).symm
  · rw [hvals]
    have := bfsKeys_perm h.length [s] (fun c hc => (hok c hc).1) hcount
    simpa [toListAll] using this
  · rw [hvals, valuesByDepth_eq h t s hok haddr h.length 0]
    refine bfsKeys_byDepth h.length [s] h.length ?_ hcount
    intro c hc
    simp only [List.mem_singleton] at hc
    subst hc
    exact ⟨by rw [hptr, haddr], hinv.height_le⟩

/-! ## Cursors at the boundaries -/

/-- A tree built from one value is the root holding that value. -/
theorem build_single [LinearOrder T] (cap : Nat) (x : T) :
    build cap [x] = some ([Node.mk none [(x, ⟨x, none, none⟩)]], [true]) := by
  simp [build, insertAll, insert, construct, recursiveInsert, insertScan, insertHere, mapInsert]

/-- On a single-element root, `end()` retreats to the element and a further retreat stays
there. -/
theorem single_retreat [LinearOrder T] (cap : Nat) (x : T) :
    btree_end [Node.mk none [(x, (⟨x, none, none⟩ : Element T))]] (built cap) =
        some ⟨0, 1, false⟩ ∧
      decrement [Node.mk none [(x, (⟨x, none, none⟩ : Element T))]] ⟨0, 1, false⟩ =
        some ⟨0, 0, false⟩ ∧
      decrement [Node.mk none [(x, (⟨x, none, none⟩ : Element T))]] ⟨0, 0, false⟩ =
        some ⟨0, 0, false⟩ ∧
      deref [Node.mk none [(x, (⟨x, none, none⟩ : Element T))]] ⟨0, 0, false⟩ = some x := by
  refine ⟨?_, ?_, ?_, ?_⟩
  · simp [btree_end, built, construct]
  · simp [decrement]
  · simp [decrement, decrement_from]
  · simp [deref]

/-- On an empty root `find` applies `--it` to the end iterator of an empty map. -/
theorem find_on_empty [LinearOrder T] (cap : Nat) (v : T) :
    find (construct cap ([] : Heap T)).1 (construct cap ([] : Heap T)).2 v = none := by
  simp [find, construct, recursiveFind, lower_bound]

/-- The const overload of `recursiveFind` returns the node and slot that the non-const one
returns. -/
theorem const_recursiveFind_eq [LinearOrder T] (t : btree) (elem : T) (h : Heap T) :
    ∀ (fuel : Nat) (node : Nat),
      (const_recursiveFind t elem fuel h node).map (fun c => (c.node, c.it)) =
        (recursiveFind t elem fuel h node).map (fun c => (c.node, c.it)) := by
  have hend : (const_end h t).map (fun c => (c.node, c.it)) =
      (btree_end h t).map (fun c => (c.node, c.it)) := by
    simp only [const_end, btree_end]
    cases h[t.root]? <;> rfl
  intro fuel
  induction fuel with
  | zero => intro node; rfl
  | succ fuel ih =>
    intro node
    simp only [const_recursiveFind, recursiveFind]
    cases h[node]? with
    | none => rfl
    | some n =>
      simp only
      split
      · split
        · rfl
        · cases n.elements[n.elements.length - 1]? with
          | none => rfl
          | some e =>
            simp only
            cases e.2.rightChild with
            | none => exact hend
            | some c => exact ih c
      · cases n.elements[lower_bound n.elements elem]? with
        | none => rfl
        | some e =>
          simp only
          split
          · rfl
          · cases e.2.leftChild with
            | none => exact hend
            | some c => exact ih c

/-- The begin and end cursors of a tree satisfying the invariant, and when they are equal. -/
theorem begin_end_spec [LinearOrder T] (cap : Nat) (h : Heap T) (t : btree) (s : Sh T)
    (hinv : TreeInv cap h t.root s) :
    ∃ b e n, btree_begin h t = some b ∧ btree_end h t = some e ∧ h[t.root]? = some n ∧
      (iter_eq b e = true ↔ s.toList = []) ∧ (n.elements = [] ↔ s.toList = []) := by
  obtain ⟨n, hn, hp, hrep⟩ := hinv.rep
  obtain ⟨b, hb⟩ : ∃ b, btree_begin h t = some b := ⟨_, begin_spec cap h t s hinv n hn⟩
  have he : btree_end h t = some ⟨t.root, n.elements.length, false⟩ := by
    simp [btree_end, hn]
  have hex := forward_traversal_exact cap h t s hinv 0
  refine ⟨b, _, n, hb, he, hn, ?_, ?_⟩
  · simp only [forward_traversal, hb, he] at hex
    constructor
    · intro heq
      rw [forward_from_stop h _ _ 0 heq] at hex
      by_cases hl : s.toList.length ≤ 0
      · exact List.length_eq_zero.mp (Nat.le_zero.mp hl)
      · rw [if_neg hl] at hex
        cases hex
    · intro hnil
      rw [hnil] at hex
      simp only [List.length_nil, le_refl, if_true] at hex
      by_cases hq : iter_eq b ⟨t.root, n.elements.length, false⟩ = true
      · exact hq
      · simp [forward_from, hq] at hex
  · have hlen := rep_length h s t.root n.elements hrep
    constructor
    · intro hnil
      cases s with
      | E => rfl
      | C a l k r rest =>
        rw [hnil] at hlen
        simp [Sh.keys] at hlen
    · intro hnil
      cases s with
      | E =>
        simp [Sh.keys] at hlen
        exact hlen
      | C a l k r rest => simp [Sh.toList] at hnil

/-! ## The effect of an insertion -/

theorem insertScan_here_get [LinearOrder T] (elem : T) :
    ∀ (es : List (T × Element T)) (j i : Nat) (e : T × Element T) (fin : Bool),
      insertScan elem es j = .here i e fin → j ≤ i ∧ es[i - j]? = some e := by
  intro es
  induction es with
  | nil => intro j i e fin hs; simp [insertScan] at hs
  | cons p es ih =>
    intro j i e fin hs
    obtain ⟨k, e0⟩ := p
    simp only [insertScan] at hs
    split at hs
    · cases hs
    · split at hs
      · simp only [Scan.here.injEq] at hs
        obtain ⟨rfl, rfl, _⟩ := hs
        simp
      · obtain ⟨h1, h2⟩ := ih (j + 1) i e fin hs
        refine ⟨by omega, ?_⟩
        obtain ⟨d, hd⟩ : ∃ d, i - j = d + 1 := ⟨i - j - 1, by omega⟩
        rw [hd, List.getElem?_cons_succ]
        have : i - (j + 1) = d := by omega
        rw [← this]
        exact h2

theorem reach_trans (h : Heap T) (a b c : Nat) (h1 : Reach h a b) (h2 : Reach h b c) :
    Reach h a c := by
  induction h1 with
  | refl a => exact h2
  | step a c' x hl _ ih => exact Reach.step a c' _ hl (ih h2)

/-- What a call of `recursiveInsert` does to the heap: nothing when it returns `false`, and
one addition at a node reached from the node of the call when it returns `true`. -/
theorem recursiveInsert_effect [LinearOrder T] (cap : Nat) (v : T) :
    ∀ (fuel : Nat) (h : Heap T) (node : Nat) (r : Heap T × btree_iterator × Bool),
      recursiveInsert cap v fuel h node = some r →
      (r.2.2 = false ∧ r.1 = h) ∨
      (r.2.2 = true ∧ ∃ x n, Reach h node x ∧ Stored cap v h x n r.1 r.2.1) := by
  intro fuel
  induction fuel with
  | zero => intro h node r hr; simp [recursiveInsert] at hr
  | succ fuel ih =>
    intro h node r hr
    simp only [recursiveInsert] at hr
    cases hn : h[node]? with
    | none => simp [hn] at hr
    | some n =>
      have hlt : node < h.length := (List.getElem?_eq_some.mp hn).1
      simp only [hn] at hr
      have hdirect : (n.elements.length < cap ∨ n.elements = []) →
          Stored cap v h node n (insertHere h node n v).1 (insertHere h node n v).2.1 := by
        intro hroom
        refine ⟨hn, ?_, Or.inl ⟨by simp [insertHere], hroom, ?_, rfl⟩⟩
        · intro y hy _
          simp only [insertHere]
          rw [List.getElem?_set_ne (Ne.symm hy)]
        · simp only [insertHere]
          rw [List.getElem?_set_self hlt]
      cases hscan : insertScan v n.elements 0 with
      | fellThrough =>
        have hnil := insertScan_fellThrough v n.elements 0 hscan
        simp only [hscan, Option.some.injEq] at hr
        subst hr
        exact Or.inr ⟨rfl, node, n, Reach.refl node, hdirect (Or.inr hnil)⟩
      | matched i =>
        simp only [hscan, Option.some.injEq] at hr
        subst hr
        exact Or.inl ⟨rfl, rfl⟩
      | here i e fin =>
        obtain ⟨_, hget⟩ := insertScan_here_get v n.elements 0 i e fin hscan
        simp only [Nat.sub_zero] at hget
        have hmem : e ∈ n.elements := List.getElem?_mem hget
        simp only [hscan] at hr
        by_cases hroom : n.elements.length < cap
        · rw [if_pos hroom] at hr
          simp only [Option.some.injEq] at hr
          subst hr
          exact Or.inr ⟨rfl, node, n, Reach.refl node, hdirect (Or.inl hroom)⟩
        · rw [if_neg hroom] at hr
          have hchild : ∀ c, (e.2.leftChild = some c ∨ e.2.rightChild = some c) →
              recursiveInsert cap v fuel h c = some r →
              (r.2.2 = false ∧ r.1 = h) ∨
                (r.2.2 = true ∧ ∃ x n, Reach h node x ∧ Stored cap v h x n r.1 r.2.1) := by
            intro c hc hrc
            rcases ih h c r hrc with h1 | ⟨h1, x, m, hreach, hst⟩
            · exact Or.inl h1
            · exact Or.inr ⟨h1, x, m, Reach.step node c x ⟨n, e.1, e.2, hn, hmem, hc⟩ hreach, hst⟩
          have hfresh : ∀ (es : List (T × Element T)),
              recursiveInsert cap v fuel
                ((h ++ [Node.mk (some node) []]).set node { n with elements := es })
                h.length = some r →
              r.2.2 = true ∧ r.1.length = h.length + 1 ∧
                r.1[h.length]? = some ⟨some node, [(v, ⟨v, none, none⟩)]⟩ ∧
                r.2.1 = ⟨h.length, 0, false⟩ ∧ r.1[node]? = some ⟨n.parent, es⟩ ∧
                (∀ y, y ≠ node → y < h.length → r.1[y]? = h[y]?) := by
            intro es hres
            cases fuel with
            | zero => simp [recursiveInsert] at hres
            | succ f =>
              have hnew : ((h ++ [Node.mk (some node) []]).set node
                  { n with elements := es })[h.length]? = some ⟨some node, []⟩ := by
                rw [List.getElem?_set_ne (Nat.ne_of_lt hlt)]
                simp
              rw [recursiveInsert_fresh cap v f _ h.length (some node) hnew] at hres
              simp only [Option.some.injEq] at hres
              subst hres
              refine ⟨rfl, by simp, ?_, rfl, ?_, ?_⟩
              · simp only
                rw [List.getElem?_set_self (by simp)]
              · simp only
                rw [List.getElem?_set_ne (Ne.symm (Nat.ne_of_lt hlt)),
                  List.getElem?_set_self (by simp; omega)]
              · intro y hy hyl
                simp only
                rw [List.getElem?_set_ne (by omega), List.getElem?_set_ne (Ne.symm hy),
                  List.getElem?_append_left hyl]
          split at hr
          · cases hc : e.2.rightChild with
            | some child =>
              simp only [hc] at hr
              exact hchild child (Or.inr hc) hr
            | none =>
              simp only [hc] at hr
              obtain ⟨a1, a2, a3, a4, a5, a6⟩ := hfresh _ hr
              exact Or.inr ⟨a1, node, n, Reach.refl node, hn, a6,
                Or.inr ⟨a2, by omega, a3, a4, i, e.1, e.2, hget, Or.inr ⟨hc, a5⟩⟩⟩
          · cases hc : e.2.leftChild with
            | some child =>
              simp only [hc] at hr
              exact hchild child (Or.inl hc) hr
            | none =>
              simp only [hc] at hr
              obtain ⟨a1, a2, a3, a4, a5, a6⟩ := hfresh _ hr
              exact Or.inr ⟨a1, node, n, Reach.refl node, hn, a6,
                Or.inr ⟨a2, by omega, a3, a4, i, e.1, e.2, hget, Or.inl ⟨hc, a5⟩⟩⟩

/-- The ordered insertion of an absent key puts the new pair at its index and keeps the
other pairs in their order. -/
theorem mapInsert_absent [LinearOrder T] (k : T) (e : Element T) :
    ∀ (es : List (T × Element T)), k ∉ es.map Prod.fst →
      (mapInsert es k e).2.1 ≤ es.length ∧
      (mapInsert es k e).1 =
        es.take (mapInsert es k e).2.1 ++ (k, e) :: es.drop (mapInsert es k e).2.1 := by
  intro es
  induction es with
  | nil => intro _; simp [mapInsert]
  | cons p es ih =>
    intro hmem
    obtain ⟨k', e'⟩ := p
    simp only [List.map_cons, List.mem_cons, not_or] at hmem
    simp only [mapInsert]
    by_cases h1 : k < k'
    · simp [h1]
    · have h2 : k' < k := lt_of_le_of_ne (not_lt.mp h1) (Ne.symm hmem.1)
      obtain ⟨a1, a2⟩ := ih hmem.2
      simp only [h1, h2, if_false, if_true, List.length_cons, List.take_succ_cons,
        List.drop_succ_cons, List.cons_append]
      exact ⟨by omega, by rw [← a2]⟩

theorem mapInsert_keys_subset [LinearOrder T] (k : T) (e : Element T) :
    ∀ (es : List (T × Element T)) (x : T), x ∈ es.map Prod.fst →
      x ∈ (mapInsert es k e).1.map Prod.fst := by
  intro es
  induction es with
  | nil => intro x hx; simp at hx
  | cons p es ih =>
    intro x hx
    obtain ⟨k', e'⟩ := p
    simp only [mapInsert]
    split
    · simp only [List.map_cons, List.mem_cons] at hx ⊢
      exact Or.inr hx
    · split
      · simp only [List.map_cons, List.mem_cons] at hx ⊢
        rcases hx with h1 | h1
        · exact Or.inl h1
        · exact Or.inr (ih x h1)
      · exact hx

theorem setLeft_keys (es : List (T × Element T)) (i : Nat) (c : Option Nat) :
    (setLeft es i c).map Prod.fst = es.map Prod.fst := by
  induction es generalizing i with
  | nil => simp [setLeft]
  | cons p es ih =>
    cases i with
    | zero => simp [setLeft]
    | succ i =>
      have := ih i
      simp only [setLeft] at this ⊢
      simp [this]

theorem setRight_keys (es : List (T × Element T)) (i : Nat) (c : Option Nat) :
    (setRight es i c).map Prod.fst = es.map Prod.fst := by
  induction es generalizing i with
  | nil => simp [setRight]
  | cons p es ih =>
    cases i with
    | zero => simp [setRight]
    | succ i =>
      have := ih i
      simp only [setRight] at this ⊢
      simp [this]

/-- A call of `recursiveInsert` on a node that has spare capacity and does not hold the
value inserts into that node. -/
theorem recursiveInsert_direct [LinearOrder T] (cap : Nat) (v : T) (f : Nat) (h : Heap T)
    (a : Nat) (n : Node T) (hn : h[a]? = some n) (hmem : v ∉ n.elements.map Prod.fst)
    (hroom : n.elements.length < cap) :
    recursiveInsert cap v (f + 1) h a = some (insertHere h a n v) := by
  simp only [recursiveInsert, hn]
  cases hsc : insertScan v n.elements 0 with
  | fellThrough => rfl
  | matched j => exact absurd hsc (insertScan_not_mem v n.elements 0 hmem j)
  | here i e fin => simp only [hroom, if_true]

/-- Every stored node keeps its keys through a call of `recursiveInsert`. -/
theorem recursiveInsert_keys [LinearOrder T] (cap : Nat) (v : T) (fuel : Nat) (h : Heap T)
    (node : Nat) (r : Heap T × btree_iterator × Bool)
    (hr : recursiveInsert cap v fuel h node = some r) (y : Nat) (m : Node T)
    (hy : h[y]? = some m) :
    ∃ m', r.1[y]? = some m' ∧ ∀ k ∈ m.elements.map Prod.fst, k ∈ m'.elements.map Prod.fst := by
  have hyl : y < h.length := (List.getElem?_eq_some.mp hy).1
  rcases recursiveInsert_effect cap v fuel h node r hr with ⟨_, h1⟩ | ⟨_, x, n, _, hx, hfr, hcase⟩
  · rw [h1]; exact ⟨m, hy, fun _ hk => hk⟩
  · by_cases hxy : y = x
    · subst hxy
      rw [hy] at hx
      cases hx
      rcases hcase with ⟨_, _, h2, _⟩ | ⟨_, _, _, _, i, k, e, _, ⟨_, h2⟩ | ⟨_, h2⟩⟩
      · exact ⟨_, h2, fun k hk => mapInsert_keys_subset v _ _ k hk⟩
      · exact ⟨_, h2, fun k hk => by simpa [setLeft_keys] using hk⟩
      · exact ⟨_, h2, fun k hk => by simpa [setRight_keys] using hk⟩
    · exact ⟨m, by rw [hfr y hxy hyl]; exact hy, fun _ hk => hk⟩

theorem insertAll_keys [LinearOrder T] (t : btree) : ∀ (vs : List T) (h : Heap T)
    (r : Heap T × List Bool), insertAll t vs h = some r → ∀ (y : Nat) (m : Node T),
    h[y]? = some m →
    ∃ m', r.1[y]? = some m' ∧ ∀ k ∈ m.elements.map Prod.fst, k ∈ m'.elements.map Prod.fst := by
  intro vs
  induction vs with
  | nil =>
    intro h r hr y m hy
    simp only [insertAll, Option.some.injEq] at hr
    subst hr
    exact ⟨m, hy, fun _ hk => hk⟩
  | cons v vs ih =>
    intro h r hr y m hy
    simp only [insertAll] at hr
    cases hi : insert h t v with
    | none => simp [hi] at hr
    | some q =>
      simp only [hi] at hr
      cases hrest : insertAll t vs q.1 with
      | none => simp [hrest] at hr
      | some q' =>
        simp only [hrest, Option.map_some', Option.some.injEq] at hr
        subst hr
        obtain ⟨m1, h1, h2⟩ := recursiveInsert_keys _ v _ h t.root q hi y m hy
        obtain ⟨m2, h3, h4⟩ := ih q.1 q' hrest y m1 h1
        exact ⟨m2, h3, fun k hk => h4 k (h2 k hk)⟩

theorem insertAll_append [LinearOrder T] (t : btree) : ∀ (xs ys : List T) (h : Heap T),
    insertAll t (xs ++ ys) h =
      (insertAll t xs h).bind fun r =>
        (insertAll t ys r.1).map fun q => (q.1, r.2 ++ q.2) := by
  intro xs
  induction xs with
  | nil =>
    intro ys h
    simp only [List.nil_append, insertAll, Option.some_bind, List.nil_append]
    cases insertAll t ys h <;> rfl
  | cons x xs ih =>
    intro ys h
    show insertAll t (x :: (xs ++ ys)) h = _
    simp only [insertAll]
    cases insert h t x with
    | none => rfl
    | some r =>
      simp only [Option.some_bind]
      rw [ih ys r.1]
      cases insertAll t xs r.1 with
      | none => rfl
      | some q =>
        simp only [Option.some_bind, Option.map_some']
        cases insertAll t ys q.1 with
        | none => rfl
        | some q2 => simp

/-- Distinct values that are not in the root and fit into its spare capacity are all
inserted into the root, and no node is created. -/
theorem insertAll_root [LinearOrder T] (t : btree) : ∀ (vs : List T) (h : Heap T) (n : Node T),
    h[t.root]? = some n → vs.Nodup → (∀ v ∈ vs, v ∉ n.elements.map Prod.fst) →
    n.elements.length + vs.length ≤ t.maxNodeElems →
    ∃ h' n', insertAll t vs h = some (h', List.replicate vs.length true) ∧
      h'[t.root]? = some n' ∧ h'.length = h.length ∧
      (∀ y, y ≠ t.root → h'[y]? = h[y]?) ∧
      (n'.elements.map Prod.fst).Perm (vs ++ n.elements.map Prod.fst) := by
  intro vs
  induction vs with
  | nil =>
    intro h n hn _ _ _
    exact ⟨h, n, rfl, hn, rfl, fun _ _ => rfl, by simp⟩
  | cons v vs ih =>
    intro h n hn hnd hmem hlen
    have hlt : t.root < h.length := (List.getElem?_eq_some.mp hn).1
    simp only [List.length_cons] at hlen
    have hv : v ∉ n.elements.map Prod.fst := hmem v (List.mem_cons_self _ _)
    have hins : insert h t v = some (insertHere h t.root n v) :=
      recursiveInsert_direct t.maxNodeElems v h.length h t.root n hn hv (by omega)
    have hperm := mapInsert_keys_perm v ⟨v, none, none⟩ n.elements hv
    have hn1 : (insertHere h t.root n v).1[t.root]? =
        some ⟨n.parent, (mapInsert n.elements v ⟨v, none, none⟩).1⟩ := by
      simp only [insertHere]
      rw [List.getElem?_set_self hlt]
    have hnd' := List.nodup_cons.mp hnd
    obtain ⟨h', n', h1, h2, h3, h4, h5⟩ := ih (insertHere h t.root n v).1 _ hn1 hnd'.2
      (by
        intro w hw hw'
        rcases List.mem_cons.mp (hperm.mem_iff.mp hw') with h6 | h6
        · exact hnd'.1 (h6 ▸ hw)
        · exact hmem w (List.mem_cons_of_mem _ hw) h6)
      (by
        have := hperm.length_eq
        simp only [List.length_map, List.length_cons] at this
        simp only
        omega)
    refine ⟨h', n', ?_, h2, ?_, ?_, ?_⟩
    · simp only [insertAll, hins, h1, Option.map_some', List.length_cons, List.replicate_succ]
      rfl
    · rw [h3]; simp [insertHere]
    · intro y hy
      rw [h4 y hy]
      simp only [insertHere]
      rw [List.getElem?_set_ne (Ne.symm hy)]
    · refine h5.trans ?_
      simp only
      refine (List.Perm.append_left vs hperm).trans ?_
      simp only [List.cons_append]
      exact List.perm_middle

/-- A link stored in the cells of a represented node designates a node below the cells. -/
theorem link_shape (h : Heap T) : ∀ (s : Sh T) (a : Nat) (es : List (T × Element T)),
    Rep h s a es → ∀ (k : T) (e : Element T) (c : Nat), (k, e) ∈ es →
      (e.leftChild = some c ∨ e.rightChild = some c) →
      ∃ cs n, h[c]? = some n ∧ Rep h cs c n.elements ∧ c ∈ s.kids ∧
        ∀ y ∈ cs.kids, y ∈ s.kids := by
  intro s
  induction s with
  | E =>
    intro a es hrep k e c hmem _
    simp [Rep] at hrep
    subst hrep
    simp at hmem
  | C a0 l k0 r rest _ _ ihrest =>
    intro a es hrep k e c hmem hlink
    rw [rep_C] at hrep
    obtain ⟨_, e0, es', hes, _, hl, hr, hcl, hcr, hrest⟩ := hrep
    subst hes
    rw [kids_C]
    rcases List.mem_cons.mp hmem with heq | hmem'
    · cases heq
      rcases hlink with hlink | hlink
      · rw [hl] at hlink
        obtain ⟨n, hn, _, hrepc⟩ := hcl c hlink
        refine ⟨l, n, hn, hrepc, ?_, ?_⟩
        · simp [Sh.nodes, hlink]
        · intro y hy; simp [Sh.nodes, hy]
      · rw [hr] at hlink
        obtain ⟨n, hn, _, hrepc⟩ := hcr c hlink
        refine ⟨r, n, hn, hrepc, ?_, ?_⟩
        · simp [Sh.nodes, hlink]
        · intro y hy; simp [Sh.nodes, hy]
    · obtain ⟨cs, n, h1, h2, h3, h4⟩ := ihrest a es' hrest k e c hmem' hlink
      exact ⟨cs, n, h1, h2, by simp [h3], fun y hy => by simp [h4 y hy]⟩

/-- Following links from a represented node leads to that node or to a node below it. -/
theorem reach_kids (h : Heap T) (a x : Nat) (hreach : Reach h a x) :
    ∀ (s : Sh T) (n : Node T), h[a]? = some n → Rep h s a n.elements → x = a ∨ x ∈ s.kids := by
  induction hreach with
  | refl a => intro s n _ _; exact Or.inl rfl
  | step a c x hlink _ ih =>
    intro s n hn hrep
    obtain ⟨n', k, e, hn', hmem, hl⟩ := hlink
    rw [hn] at hn'
    cases hn'
    obtain ⟨cs, m, h1, h2, h3, h4⟩ := link_shape h s a n.elements hrep k e c hmem hl
    rcases ih cs m h1 h2 with h5 | h5
    · exact Or.inr (h5 ▸ h3)
    · exact Or.inr (h4 x h5)

theorem reach_treeNodes [LinearOrder T] (cap : Nat) (h : Heap T) (t : btree) (s : Sh T)
    (hinv : TreeInv cap h t.root s) (x : Nat) (hreach : Reach h t.root x) :
    x ∈ treeNodes h t := by
  rw [treeNodes_eq h t s cap hinv]
  obtain ⟨n, hn, _, hrep⟩ := hinv.rep
  rcases reach_kids h t.root x hreach s n hn hrep with h1 | h1
  · simp [h1]
  · simp [h1]

theorem nodes_nodup_parts (l r : List Nat) (rest : List Nat) (hnd : (l ++ (r ++ rest)).Nodup) :
    l.Nodup ∧ r.Nodup ∧ rest.Nodup := by
  have h1 := List.nodup_append.mp hnd
  have h2 := List.nodup_append.mp h1.2.1
  exact ⟨h1.1, h2.1, h2.2.1⟩

/-- The node a link of a cell designates satisfies the invariants, given those of the node
holding the cell. -/
theorem child_inv [LinearOrder T] (cap : Nat) (h : Heap T) (c : Sh T) (a x : Nat)
    (hc : Child h c a) (hptr : c.ptr = some x) (h1 : c.rightOk) (h2 : c.capOk cap)
    (h3 : c.nodeFull cap) (h4 : c.toList.Pairwise (· < ·)) (h5 : c.nodes.Nodup) :
    ∃ n, SubInv cap h x c n ∧ n.parent = some a := by
  obtain ⟨n, hn, hp, hrep⟩ := hc x hptr
  refine ⟨n, ⟨hn, hrep, h1, h2, h3, h4, ?_⟩, hp⟩
  simpa [Sh.nodes, hptr] using h5

/-- The cell at index `i` of a node satisfying the invariants: the nodes its links designate
satisfy the invariants, and their values and nodes are among those of the node. -/
theorem cell_at [LinearOrder T] (cap : Nat) (h : Heap T) : ∀ (s : Sh T) (a : Nat)
    (es : List (T × Element T)), Rep h s a es → s.rightOk → s.capOk cap →
    s.toList.Pairwise (· < ·) → s.kids.Nodup →
    ∀ (i : Nat) (k : T) (e : Element T), es[i]? = some (k, e) →
      ∃ l r, e.leftChild = l.ptr ∧ e.rightChild = r.ptr ∧ Child h l a ∧ Child h r a ∧
        (l.rightOk ∧ l.capOk cap ∧ l.nodeFull cap ∧ l.toList.Pairwise (· < ·) ∧ l.nodes.Nodup) ∧
        (r.rightOk ∧ r.capOk cap ∧ r.nodeFull cap ∧ r.toList.Pairwise (· < ·) ∧ r.nodes.Nodup) ∧
        l.toList.Sublist s.toList ∧ r.toList.Sublist s.toList ∧
        (∀ y ∈ l.nodes, y ∈ s.kids) ∧ (∀ y ∈ r.nodes, y ∈ s.kids) := by
  intro s
  induction s with
  | E =>
    intro a es hrep _ _ _ _ i k e hi
    simp [Rep] at hrep
    subst hrep
    simp at hi
  | C a0 l k0 r rest _ _ ihrest =>
    intro a es hrep hro hco hso hnd i k e hi
    rw [rep_C] at hrep
    obtain ⟨_, e0, es', hes, _, hl, hr, hcl, hcr, hrest⟩ := hrep
    subst hes
    obtain ⟨_, hrol, hror, hrorest⟩ := hro
    obtain ⟨hfl, hcol, hfr, hcor, hcorest⟩ := hco
    have sl : l.toList.Sublist (Sh.C a0 l k0 r rest).toList := by
      simp only [Sh.toList]; exact List.sublist_append_left _ _
    have sr : r.toList.Sublist (Sh.C a0 l k0 r rest).toList := by
      simp only [Sh.toList]
      exact ((List.sublist_append_left _ _).cons k0).trans (List.sublist_append_right _ _)
    have srest : rest.toList.Sublist (Sh.C a0 l k0 r rest).toList := by
      simp only [Sh.toList]
      exact ((List.sublist_append_right _ _).cons k0).trans (List.sublist_append_right _ _)
    rw [kids_C] at hnd ⊢
    obtain ⟨hndl, hndr, hndrest⟩ := nodes_nodup_parts _ _ _ hnd
    cases i with
    | zero =>
      simp only [List.getElem?_cons_zero, Option.some.injEq, Prod.mk.injEq] at hi
      obtain ⟨rfl, rfl⟩ := hi
      exact ⟨l, r, hl, hr, hcl, hcr, ⟨hrol, hcol, hfl, hso.sublist sl, hndl⟩,
        ⟨hror, hcor, hfr, hso.sublist sr, hndr⟩, sl, sr,
        fun y hy => by simp [hy], fun y hy => by simp [hy]⟩
    | succ i =>
      simp only [List.getElem?_cons_succ] at hi
      obtain ⟨l', r', g1, g2, g3, g4, g5, g6, g7, g8, g9, g10⟩ :=
        ihrest a es' hrest hrorest hcorest (hso.sublist srest) hndrest i k e hi
      exact ⟨l', r', g1, g2, g3, g4, g5, g6, g7.trans srest, g8.trans srest,
        fun y hy => by simp [g9 y hy], fun y hy => by simp [g10 y hy]⟩

/-- Every node below a node satisfying the invariants satisfies them too. -/
theorem kids_inv [LinearOrder T] (cap : Nat) (h : Heap T) : ∀ (s : Sh T) (a : Nat)
    (es : List (T × Element T)), Rep h s a es → s.rightOk → s.capOk cap →
    s.toList.Pairwise (· < ·) → s.kids.Nodup →
    ∀ x ∈ s.kids, ∃ c n, SubInv cap h x c n ∧ c.toList.Sublist s.toList := by
  intro s
  induction s with
  | E => intro a es _ _ _ _ _ x hx; simp [Sh.kids] at hx
  | C a0 l k0 r rest ihl ihr ihrest =>
    intro a es hrep hro hco hso hnd x hx
    rw [rep_C] at hrep
    obtain ⟨_, e0, es', hes, _, hl, hr, hcl, hcr, hrest⟩ := hrep
    obtain ⟨_, hrol, hror, hrorest⟩ := hro
    obtain ⟨hfl, hcol, hfr, hcor, hcorest⟩ := hco
    have sl : l.toList.Sublist (Sh.C a0 l k0 r rest).toList := by
      simp only [Sh.toList]; exact List.sublist_append_left _ _
    have sr : r.toList.Sublist (Sh.C a0 l k0 r rest).toList := by
      simp only [Sh.toList]
      exact ((List.sublist_append_left _ _).cons k0).trans (List.sublist_append_right _ _)
    have srest : rest.toList.Sublist (Sh.C a0 l k0 r rest).toList := by
      simp only [Sh.toList]
      exact ((List.sublist_append_right _ _).cons k0).trans (List.sublist_append_right _ _)
    rw [kids_C] at hnd hx
    obtain ⟨hndl, hndr, hndrest⟩ := nodes_nodup_parts _ _ _ hnd
    have sub : ∀ (c : Sh T), Child h c a → c.rightOk → c.capOk cap → c.nodeFull cap →
        c.toList.Sublist (Sh.C a0 l k0 r rest).toList → c.nodes.Nodup →
        (∀ (b : Nat) (es1 : List (T × Element T)), Rep h c b es1 → c.rightOk → c.capOk cap →
          c.toList.Pairwise (· < ·) → c.kids.Nodup →
          ∀ x ∈ c.kids, ∃ c1 n, SubInv cap h x c1 n ∧ c1.toList.Sublist c.toList) →
        x ∈ c.nodes → ∃ c1 n, SubInv cap h x c1 n ∧
          c1.toList.Sublist (Sh.C a0 l k0 r rest).toList := by
      intro c hc g1 g2 g3 g4 g5 ih hxc
      cases hptr : c.ptr with
      | none =>
        cases c with
        | E => simp [Sh.nodes, Sh.ptr, Sh.kids] at hxc
        | C b l1 k1 r1 rest1 => simp [Sh.ptr] at hptr
      | some b =>
        obtain ⟨n, hsub, _⟩ := child_inv cap h c a b hc hptr g1 g2 g3 (hso.sublist g4) g5
        simp only [Sh.nodes, hptr, Option.toList, List.singleton_append,
          List.mem_cons] at hxc
        rcases hxc with hxc | hxc
        · subst hxc
          exact ⟨c, n, hsub, g4⟩
        · obtain ⟨c1, n1, q1, q2⟩ := ih b n.elements hsub.rep g1 g2 (hso.sublist g4)
            (List.nodup_cons.mp hsub.nodup).2 x hxc
          exact ⟨c1, n1, q1, q2.trans g4⟩
    simp only [List.mem_append] at hx
    rcases hx with hx | hx | hx
    · exact sub l hcl hrol hcol hfl sl hndl ihl hx
    · exact sub r hcr hror hcor hfr sr hndr ihr hx
    · obtain ⟨c1, n1, q1, q2⟩ := ihrest a es' hrest hrorest hcorest (hso.sublist srest) hndrest x hx
      exact ⟨c1, n1, q1, q2.trans srest⟩

/-- Every node of a tree satisfies the invariants, and its values are values of the tree. -/
theorem node_inv [LinearOrder T] (cap : Nat) (h : Heap T) (t : btree) (s : Sh T)
    (hinv : TreeInv cap h t.root s) :
    ∀ x ∈ treeNodes h t, ∃ c n, SubInv cap h x c n ∧ c.toList.Sublist s.toList := by
  intro x hx
  rw [treeNodes_eq h t s cap hinv] at hx
  obtain ⟨n0, hn0, _, hrep0⟩ := hinv.rep
  rcases List.mem_cons.mp hx with hx | hx
  · subst hx
    exact ⟨s, n0, ⟨hn0, hrep0, hinv.rightOk, hinv.capOk, hinv.nodeFull, hinv.sorted, hinv.nodup⟩,
      List.Sublist.refl _⟩
  · exact kids_inv cap h s t.root n0.elements hrep0 hinv.rightOk hinv.capOk hinv.sorted
      (List.nodup_cons.mp hinv.nodup).2 x hx

theorem mem_elemLinks (c : Nat) : ∀ (es : List (T × Element T)),
    c ∈ elemLinks es ↔
      ∃ k e, (k, e) ∈ es ∧ (e.leftChild = some c ∨ e.rightChild = some c) := by
  intro es
  induction es with
  | nil => simp [elemLinks]
  | cons p es ih =>
    obtain ⟨k0, e0⟩ := p
    simp only [elemLinks, List.mem_append, Option.mem_toList, Option.mem_def, ih,
      List.mem_cons, Prod.mk.injEq]
    constructor
    · rintro (h1 | h1 | ⟨k, e, h1, h2⟩)
      · exact ⟨k0, e0, Or.inl ⟨rfl, rfl⟩, Or.inl h1⟩
      · exact ⟨k0, e0, Or.inl ⟨rfl, rfl⟩, Or.inr h1⟩
      · exact ⟨k, e, Or.inr h1, h2⟩
    · rintro ⟨k, e, ⟨rfl, rfl⟩ | h1, h2⟩
      · rcases h2 with h2 | h2
        · exact Or.inl h2
        · exact Or.inr (Or.inl h2)
      · exact Or.inr (Or.inr ⟨k, e, h1, h2⟩)

theorem mem_childrenOf (h : Heap T) (c : Nat) : ∀ (q : List Nat),
    c ∈ childrenOf h q ↔ ∃ a ∈ q, Link h a c := by
  intro q
  induction q with
  | nil => simp [childrenOf]
  | cons a q ih =>
    simp only [childrenOf, List.mem_append, ih, List.mem_cons, exists_eq_or_imp]
    refine or_congr ?_ Iff.rfl
    cases hn : h[a]? with
    | none => simp [Link, hn]
    | some n =>
      rw [(mem_elemLinks c n.elements)]
      constructor
      · rintro ⟨k, e, h1, h2⟩
        exact ⟨n, k, e, hn, h1, h2⟩
      · rintro ⟨n1, k, e, h0, h1, h2⟩
        rw [hn] at h0
        cases h0
        exact ⟨k, e, h1, h2⟩

theorem mapInsert_mem [LinearOrder T] (k : T) (e : Element T) :
    ∀ (es : List (T × Element T)) (p : T × Element T), p ∈ es → p ∈ (mapInsert es k e).1 := by
  intro es
  induction es with
  | nil => intro p hp; simp at hp
  | cons q es ih =>
    intro p hp
    obtain ⟨k', e'⟩ := q
    simp only [mapInsert]
    split
    · exact List.mem_cons_of_mem _ hp
    · split
      · rcases List.mem_cons.mp hp with h1 | h1
        · exact h1 ▸ List.mem_cons_self _ _
        · exact List.mem_cons_of_mem _ (ih p h1)
      · exact hp

/-- Overwriting a null link of one cell keeps every link the cells held. -/
theorem modify_link (es : List (T × Element T)) (i : Nat) (k0 : T) (e0 : Element T)
    (f : T × Element T → T × Element T) (hi : es[i]? = some (k0, e0)) (c : Nat)
    (hf : (e0.leftChild = some c ∨ e0.rightChild = some c) →
      ((f (k0, e0)).2.leftChild = some c ∨ (f (k0, e0)).2.rightChild = some c))
    (k : T) (e : Element T) (hmem : (k, e) ∈ es)
    (hl : e.leftChild = some c ∨ e.rightChild = some c) :
    ∃ k' e', (k', e') ∈ es.modify f i ∧ (e'.leftChild = some c ∨ e'.rightChild = some c) := by
  obtain ⟨j, hj⟩ := List.mem_iff_getElem?.mp hmem
  have hget : (es.modify f i)[j]? = (fun a => if i = j then f a else a) <$> es[j]? :=
    List.getElem?_modify f i es j
  rw [hj] at hget
  by_cases hij : i = j
  · subst hij
    rw [hi] at hj
    cases hj
    simp only [if_true, Option.map_eq_map, Option.map_some'] at hget
    exact ⟨_, _, List.getElem?_mem hget, hf hl⟩
  · simp only [hij, if_false, Option.map_eq_map, Option.map_some'] at hget
    exact ⟨k, e, List.getElem?_mem hget, hl⟩

/-- Every link of the heap is kept by an insertion. -/
theorem stored_link [LinearOrder T] (cap : Nat) (v : T) (h : Heap T) (x : Nat) (n : Node T)
    (h' : Heap T) (it : btree_iterator) (hst : Stored cap v h x n h' it) (a c : Nat)
    (hl : Link h a c) : Link h' a c := by
  obtain ⟨m, k, e, hm, hmem, hlink⟩ := hl
  obtain ⟨hx, hfr, hcase⟩ := hst
  have hlt : a < h.length := (List.getElem?_eq_some.mp hm).1
  by_cases hax : a = x
  · subst hax
    rw [hx] at hm
    cases hm
    rcases hcase with ⟨_, _, h2, _⟩ | ⟨_, _, _, _, i, k0, e0, hi, ⟨hnone, h2⟩ | ⟨hnone, h2⟩⟩
    · exact ⟨_, k, e, h2, mapInsert_mem v _ _ _ hmem, hlink⟩
    · obtain ⟨k', e', q1, q2⟩ := modify_link _ i k0 e0
        (fun p => (p.1, { p.2 with leftChild := some h.length })) hi c
        (by
          intro hq
          rcases hq with hq | hq
          · rw [hnone] at hq; cases hq
          · exact Or.inr hq) k e hmem hlink
      exact ⟨_, k', e', h2, q1, q2⟩
    · obtain ⟨k', e', q1, q2⟩ := modify_link _ i k0 e0
        (fun p => (p.1, { p.2 with rightChild := some h.length })) hi c
        (by
          intro hq
          rcases hq with hq | hq
          · exact Or.inl hq
          · rw [hnone] at hq; cases hq) k e hmem hlink
      exact ⟨_, k', e', h2, q1, q2⟩
  · exact ⟨m, k, e, by rw [hfr a hax hlt]; exact hm, hmem, hlink⟩

/-- A node that is `d` levels below some nodes stays `d` levels below them when links are
only added. -/
theorem nodesAtDepth_mono (h h' : Heap T) (hl : ∀ a c, Link h a c → Link h' a c) :
    ∀ (d : Nat) (q q' : List Nat), (∀ y ∈ q, y ∈ q') →
      ∀ y ∈ nodesAtDepth h d q, y ∈ nodesAtDepth h' d q' := by
  intro d
  induction d with
  | zero => intro q q' hq y hy; exact hq y hy
  | succ d ih =>
    intro q q' hq y hy
    simp only [nodesAtDepth] at hy ⊢
    refine ih (childrenOf h q) (childrenOf h' q') ?_ y hy
    intro c hc
    obtain ⟨a, ha, hlink⟩ := (mem_childrenOf h c q).mp hc
    exact (mem_childrenOf h' c q').mpr ⟨a, hq a ha, hl a c hlink⟩

/-- The keys of a node of a tree are values of the tree. -/
theorem subInv_keys [LinearOrder T] (cap : Nat) (h : Heap T) (x : Nat) (c : Sh T) (n : Node T)
    (hsub : SubInv cap h x c n) : ∀ k ∈ n.elements.map Prod.fst, k ∈ c.toList := by
  intro k hk
  rw [rep_keys h c x n.elements hsub.rep] at hk
  exact keys_subset c k hk

/-- The effect of the insertion of an absent value on a tree satisfying the invariant. -/
theorem insert_effect [LinearOrder T] (h : Heap T) (t : btree) (v : T) (s : Sh T)
    (hinv : TreeInv t.maxNodeElems h t.root s) (hv : v ∉ s.toList) :
    ∃ h' it x n, insert h t v = some (h', it, true) ∧ x ∈ treeNodes h t ∧
      v ∉ n.elements.map Prod.fst ∧ Stored t.maxNodeElems v h x n h' it := by
  obtain ⟨h', it, b, hins, _, hcase⟩ := insert_spec h t v s hinv
  rcases hcase with ⟨_, _, hmem⟩ | ⟨hb, _⟩
  · exact absurd hmem hv
  · subst hb
    rcases recursiveInsert_effect t.maxNodeElems v (h.length + 1) h t.root _ hins with
      ⟨hf, _⟩ | ⟨_, x, n, hreach, hst⟩
    · cases hf
    · have hx := reach_treeNodes t.maxNodeElems h t s hinv x hreach
      obtain ⟨c, n', hsub, hsl⟩ := node_inv t.maxNodeElems h t s hinv x hx
      have hnn : n' = n := by
        have := hsub.node
        rw [hst.1] at this
        cases this
        rfl
      subst hnn
      exact ⟨h', it, x, n', hins, hx,
        fun hk => hv (hsl.subset (subInv_keys _ h x c n' hsub v hk)), hst⟩

/-- The first `cap` of the distinct values inserted into an empty tree are keys of the root;
when there are at most `cap` values the root is the only node and holds exactly them. -/
theorem build_root_take [LinearOrder T] (cap : Nat) (vs : List T) (hnd : vs.Nodup)
    (h : Heap T) (flags : List Bool) (hb : build cap vs = some (h, flags)) :
    ∃ n, h[0]? = some n ∧ (∀ x ∈ vs.take cap, x ∈ n.elements.map Prod.fst) ∧
      (vs.length ≤ cap → h.length = 1 ∧ (n.elements.map Prod.fst).Perm vs) := by
  have hb' : insertAll (construct cap ([] : Heap T)).2 (vs.take cap ++ vs.drop cap)
      (construct cap ([] : Heap T)).1 = some (h, flags) := by
    rw [List.take_append_drop]; exact hb
  have hroot : (construct cap ([] : Heap T)).1[(construct cap ([] : Heap T)).2.root]? =
      some ⟨none, []⟩ := by simp [construct]
  obtain ⟨h1, n1, q1, q2, q3, _, q5⟩ := insertAll_root (construct cap ([] : Heap T)).2
    (vs.take cap) (construct cap ([] : Heap T)).1 ⟨none, []⟩ hroot
    (hnd.sublist (List.take_sublist _ _)) (by simp)
    (by
      simp only [List.length_nil, Nat.zero_add, List.length_take]
      exact Nat.min_le_left _ _)
  rw [insertAll_append, q1] at hb'
  simp only [Option.some_bind] at hb'
  cases hq : insertAll (construct cap ([] : Heap T)).2 (vs.drop cap) h1 with
  | none => rw [hq] at hb'; cases hb'
  | some q =>
    rw [hq] at hb'
    simp only [Option.map_some', Option.some.injEq, Prod.mk.injEq] at hb'
    obtain ⟨hqh, _⟩ := hb'
    obtain ⟨m, hm, hkeys⟩ := insertAll_keys _ (vs.drop cap) h1 q hq 0 n1 q2
    rw [hqh] at hm
    refine ⟨m, hm, ?_, ?_⟩
    · intro x hx
      exact hkeys x (q5.symm.subset (by simpa using hx))
    · intro hlen
      have hdrop : vs.drop cap = [] := List.drop_eq_nil_iff.mpr hlen
      have htake : vs.take cap = vs := List.take_of_length_le hlen
      rw [hdrop] at hq
      simp only [insertAll, Option.some.injEq] at hq
      subst hq
      simp only at hqh
      subst hqh
      rw [show (construct cap ([] : Heap T)).2.root = 0 from rfl, hm] at q2
      cases q2
      refine ⟨by rw [q3]; simp [construct], ?_⟩
      simpa [htake] using q5

/-- The insertion of an absent value into a tree whose root has spare capacity. -/
theorem insert_root_room [LinearOrder T] (h : Heap T) (t : btree) (v : T) (s : Sh T)
    (hinv : TreeInv t.maxNodeElems h t.root s) (hv : v ∉ s.toList) (n : Node T)
    (hn : h[t.root]? = some n) (hroom : n.elements.length < t.maxNodeElems) :
    ∃ i, i ≤ n.elements.length ∧
      insert h t v = some (h.set t.root
        ⟨n.parent, n.elements.take i ++ (v, ⟨v, none, none⟩) :: n.elements.drop i⟩,
        ⟨t.root, i, false⟩, true) := by
  obtain ⟨n', hn', _, hrep⟩ := hinv.rep
  rw [hn] at hn'
  cases hn'
  have hmem : v ∉ n.elements.map Prod.fst := by
    intro hk
    rw [rep_keys h s t.root n.elements hrep] at hk
    exact hv (keys_subset s v hk)
  obtain ⟨a1, a2⟩ := mapInsert_absent v ⟨v, none, none⟩ n.elements hmem
  refine ⟨(mapInsert n.elements v ⟨v, none, none⟩).2.1, a1, ?_⟩
  rw [← a2]
  exact recursiveInsert_direct t.maxNodeElems v h.length h t.root n hn hmem hroom

/-! ## Routing at a full node -/

/-- A call of `recursiveInsert` that returns keeps its result when it is given more fuel. -/
theorem recursiveInsert_mono [LinearOrder T] (cap : Nat) (v : T) :
    ∀ (fuel : Nat) (h : Heap T) (node : Nat) (r : Heap T × btree_iterator × Bool),
      recursiveInsert cap v fuel h node = some r →
      recursiveInsert cap v (fuel + 1) h node = some r := by
  intro fuel
  induction fuel with
  | zero => intro h node r hr; simp [recursiveInsert] at hr
  | succ fuel ih =>
    intro h node r hr
    cases hn : h[node]? with
    | none => simp [recursiveInsert, hn] at hr
    | some n =>
      rw [recursiveInsert] at hr ⊢
      simp only [hn] at hr ⊢
      cases hscan : insertScan v n.elements 0 with
      | fellThrough => simpa [hscan] using hr
      | matched i => simpa [hscan] using hr
      | here i e fin =>
        simp only [hscan] at hr ⊢
        by_cases c1 : n.elements.length < cap
        · rw [if_pos c1] at hr ⊢
          exact hr
        · rw [if_neg c1] at hr ⊢
          by_cases c2 : fin = true ∧ e.1 < v
          · rw [if_pos c2] at hr ⊢
            cases hc : e.2.rightChild with
            | none => simp only [hc] at hr ⊢; exact ih _ _ _ hr
            | some c => simp only [hc] at hr ⊢; exact ih _ _ _ hr
          · rw [if_neg c2] at hr ⊢
            cases hc : e.2.leftChild with
            | none => simp only [hc] at hr ⊢; exact ih _ _ _ hr
            | some c => simp only [hc] at hr ⊢; exact ih _ _ _ hr

theorem recursiveInsert_mono_le [LinearOrder T] (cap : Nat) (v : T) (h : Heap T) (node : Nat)
    (r : Heap T × btree_iterator × Bool) (f F : Nat) (hle : f ≤ F)
    (hr : recursiveInsert cap v f h node = some r) :
    recursiveInsert cap v F h node = some r := by
  induction F, hle using Nat.le_induction with
  | base => exact hr
  | succ F _ ih => exact recursiveInsert_mono cap v F h node r ih

/-- The height of the shape of a child is less than the number of allocated nodes. -/
theorem child_height_lt (h : Heap T) (sub : Sh T) (x c : Nat) (n : Node T)
    (hn : h[c]? = some n) (hrep : Rep h sub c n.elements) (hnd : (c :: sub.kids).Nodup)
    (hx : x ≠ c ∧ x ∉ sub.kids) (hxl : x < h.length) : sub.height < h.length := by
  have h1 := height_le_kids sub
  have h2 := nodup_bounded_length (x :: c :: sub.kids) h.length
    (List.nodup_cons.mpr ⟨by simpa using hx, hnd⟩) (by
      intro y hy
      rcases List.mem_cons.mp hy with hy | hy
      · exact hy ▸ hxl
      · rcases List.mem_cons.mp hy with hy | hy
        · exact hy ▸ (List.getElem?_eq_some.mp hn).1
        · exact rep_kids_lt h sub c n.elements hrep y hy)
  simp only [List.length_cons] at h2
  omega

/-- An insertion of an absent value that is handed to a child stores the value in the subtree
of that child. -/
theorem route_child [LinearOrder T] (cap : Nat) (v : T) (h : Heap T) (x c : Nat) (sub : Sh T)
    (hc : Child h sub x) (hptr : sub.ptr = some c)
    (g : sub.rightOk ∧ sub.capOk cap ∧ sub.nodeFull cap ∧ sub.toList.Pairwise (· < ·) ∧
      sub.nodes.Nodup)
    (hx : x ∉ sub.nodes) (hxl : x < h.length) (hv : v ∉ sub.toList) :
    (∃ r, recursiveInsert cap v h.length h c = some r) ∧
    ∀ f r, recursiveInsert cap v f h c = some r →
      r.2.2 = true ∧ v ∈ valuesFrom r.1.length r.1 c ∧
      ∃ n n', h[c]? = some n ∧ r.1[c]? = some n' ∧ n.parent = some x ∧ n'.parent = some x := by
  obtain ⟨g1, g2, g3, g4, g5⟩ := g
  obtain ⟨n, hsub, hp⟩ := child_inv cap h sub x c hc hptr g1 g2 g3 g4 g5
  have hxc : x ≠ c ∧ x ∉ sub.kids := by
    simpa [Sh.nodes, hptr, not_or] using hx
  have hht := child_height_lt h sub x c n hsub.node hsub.rep hsub.nodup hxc hxl
  have key : ∀ F, sub.height < F → ∃ h' it, recursiveInsert cap v F h c = some (h', it, true) ∧
      v ∈ valuesFrom h'.length h' c ∧ ∃ n', h'[c]? = some n' ∧ n'.parent = some x := by
    intro F hF
    have hn' : h[c]? = some ⟨some x, [] ++ n.elements⟩ := by
      rw [← node_eta n (some x) hp]; exact hsub.node
    have hfull : cap ≤ ([] ++ n.elements).length ∨ (([] : List (T × Element T)) = [] ∧
        sub.leafy) := by
      rcases g3 with q | q
      · exact Or.inr ⟨rfl, q⟩
      · left
        rw [List.nil_append, rep_length h sub c n.elements hsub.rep]
        exact q
    obtain ⟨h', it, b, hres, _, hcase⟩ := ins_suffix cap v sub F h c (some x) [] n.elements hn'
      hsub.rep (by simp) (Or.inr rfl) g1 g2 g4 hfull hsub.nodup hF
    rcases hcase with ⟨_, _, hmem⟩ | ⟨hb, _, s', suf', q1, q2, _, _, _, q6, _, q8, _⟩
    · exact absurd hmem hv
    · subst hb
      refine ⟨h', it, hres, ?_, ⟨_, q1, rfl⟩⟩
      have hcl : c < h'.length := (List.getElem?_eq_some.mp q1).1
      have hh := height_le_heap h' s' c suf' q2 hcl q8
      obtain ⟨m, hm⟩ : ∃ m, h'.length = m + 1 := ⟨h'.length - 1, by omega⟩
      rw [hm]
      simp only [valuesFrom, q1, List.nil_append]
      rw [valuesOf_rep h' s' m c suf' q2 (by omega)]
      exact q6.symm.subset (List.mem_cons_self _ _)
  constructor
  · obtain ⟨h', it, q, _⟩ := key h.length hht
    exact ⟨_, q⟩
  · intro f r hr
    have hbig := recursiveInsert_mono_le cap v h c r f (max f h.length) (le_max_left _ _) hr
    obtain ⟨h', it, q1, q2, n', q3, q4⟩ := key (max f h.length)
      (lt_of_lt_of_le hht (le_max_right _ _))
    rw [q1] at hbig
    cases hbig
    exact ⟨rfl, q2, n, n', hsub.node, q3, hp, q4⟩

/-- The keys of a node satisfying the invariants are strictly ascending. -/
theorem subInv_sorted [LinearOrder T] (cap : Nat) (h : Heap T) (x : Nat) (c : Sh T) (n : Node T)
    (hsub : SubInv cap h x c n) : (n.elements.map Prod.fst).Pairwise (· < ·) := by
  rw [rep_keys h c x n.elements hsub.rep]
  exact hsub.sorted.sublist (keys_sublist c)

theorem split_at (es : List (T × Element T)) (i : Nat) (p : T × Element T)
    (hi : es[i]? = some p) :
    es = es.take i ++ p :: es.drop (i + 1) ∧ (es.take i).length = i := by
  have hlt : i < es.length := (List.getElem?_eq_some.mp hi).1
  have hget : es[i] = p := (List.getElem?_eq_some.mp hi).2
  constructor
  · rw [← hget, ← List.drop_eq_getElem_cons hlt, List.take_append_drop]
  · rw [List.length_take]; omega

theorem fresh_call [LinearOrder T] (cap : Nat) (v : T) (f : Nat) (h : Heap T) (x : Nat)
    (linked : Node T) (hxl : x < h.length) :
    recursiveInsert cap v (f + 1) ((h ++ [Node.mk (some x) []]).set x linked) h.length =
      some (((h ++ [Node.mk (some x) []]).set x linked).set h.length
        ⟨some x, [(v, ⟨v, none, none⟩)]⟩, ⟨h.length, 0, false⟩, true) := by
  have hnew : ((h ++ [Node.mk (some x) []]).set x linked)[h.length]? = some ⟨some x, []⟩ := by
    rw [List.getElem?_set_ne (Nat.ne_of_lt hxl)]
    simp
  exact recursiveInsert_fresh cap v f _ h.length (some x) hnew

/-- Routing of the insertion of an absent value at a full node of a tree. -/
theorem route_node [LinearOrder T] (cap : Nat) (v : T) (h : Heap T) (x : Nat) (cs : Sh T)
    (n : Node T) (hsub : SubInv cap h x cs n) (hv : v ∉ cs.toList)
    (hfull : cap ≤ n.elements.length) (i : Nat) (k : T) (e : Element T)
    (hi : n.elements[i]? = some (k, e)) :
    ((i + 1 = n.elements.length ∧ k < v) →
      Routed cap v h x e.rightChild ⟨n.parent, setRight n.elements i (some h.length)⟩) ∧
    ((v < k ∧ ∀ (j : Nat) (k' : T) (e' : Element T), j < i →
        n.elements[j]? = some (k', e') → k' < v) →
      Routed cap v h x e.leftChild ⟨n.parent, setLeft n.elements i (some h.length)⟩) := by
  obtain ⟨hsplit, hlen⟩ := split_at n.elements i (k, e) hi
  have hxl : x < h.length := (List.getElem?_eq_some.mp hsub.node).1
  have hn : h[x]? = some ⟨n.parent, n.elements.take i ++ (k, e) :: n.elements.drop (i + 1)⟩ := by
    rw [← hsplit]; exact hsub.node
  have hfull' : cap ≤ (n.elements.take i ++ (k, e) :: n.elements.drop (i + 1)).length := by
    rw [← hsplit]; exact hfull
  have hkv : ¬ v = k := by
    intro hk
    have h1 : k ∈ n.elements.map Prod.fst := List.mem_map.mpr ⟨(k, e), List.getElem?_mem hi, rfl⟩
    exact hv (subInv_keys cap h x cs n hsub v (hk ▸ h1))
  obtain ⟨l, r, hl, hr, hcl, hcr, gl, gr, sl, sr, nl, nr⟩ :=
    cell_at cap h cs x n.elements hsub.rep hsub.rightOk hsub.capOk hsub.sorted
      (List.nodup_cons.mp hsub.nodup).2 i k e hi
  have hxk : x ∉ cs.kids := (List.nodup_cons.mp hsub.nodup).1
  have hsetR : setRight n.elements i (some h.length) =
      n.elements.take i ++ (k, { e with rightChild := some h.length }) ::
        n.elements.drop (i + 1) := by
    have := setRight_append (n.elements.take i) k e (n.elements.drop (i + 1)) (some h.length)
    rw [hlen, ← hsplit] at this
    exact this
  have hsetL : setLeft n.elements i (some h.length) =
      n.elements.take i ++ (k, { e with leftChild := some h.length }) ::
        n.elements.drop (i + 1) := by
    have := setLeft_append (n.elements.take i) k e (n.elements.drop (i + 1)) (some h.length)
    rw [hlen, ← hsplit] at this
    exact this
  constructor
  · rintro ⟨hlast, hk⟩
    have hdrop : n.elements.drop (i + 1) = [] := by
      rw [List.drop_eq_nil_iff]; omega
    have hpre : ∀ p ∈ n.elements.take i, p.1 < v := by
      intro p hp
      have hs := subInv_sorted cap h x cs n hsub
      rw [hsplit, List.map_append, List.pairwise_append] at hs
      exact lt_trans (hs.2.2 p.1 (List.mem_map.mpr ⟨p, hp, rfl⟩) k (by simp)) hk
    have hstep := fun f => (recursiveInsert_here cap v f h x n.parent (n.elements.take i) k e
      (n.elements.drop (i + 1)) hn hpre hkv (Or.inr hdrop) hfull').trans
        (if_pos ⟨hdrop, hk⟩)
    constructor
    · intro c hc
      have hptr : r.ptr = some c := by rw [← hr]; exact hc
      obtain ⟨q1, q2⟩ := route_child cap v h x c r hcr hptr gr
        (fun hx => hxk (nr x hx)) hxl (fun hm => hv (sr.subset hm))
      refine ⟨?_, q1, fun f r0 hr0 => ⟨(q2 f r0 hr0).1, (q2 f r0 hr0).2.1⟩⟩
      intro f
      rw [hstep f]
      simp only [hc]
    · intro hc f
      rw [hstep (f + 1)]
      simp only [hc]
      rw [hsetR]
      exact fresh_call cap v f h x _ hxl
  · rintro ⟨hk, hbefore⟩
    have hpre : ∀ p ∈ n.elements.take i, p.1 < v := by
      intro p hp
      obtain ⟨j, hj⟩ := List.mem_iff_getElem?.mp hp
      have hjl : j < i := by
        have := (List.getElem?_eq_some.mp hj).1
        rw [hlen] at this
        exact this
      rw [List.getElem?_take_of_lt hjl] at hj
      exact hbefore j p.1 p.2 hjl hj
    have hstep := fun f => (recursiveInsert_here cap v f h x n.parent (n.elements.take i) k e
      (n.elements.drop (i + 1)) hn hpre hkv (Or.inl hk) hfull').trans
        (if_neg (fun hh => lt_asymm hk hh.2))
    constructor
    · intro c hc
      have hptr : l.ptr = some c := by rw [← hl]; exact hc
      obtain ⟨q1, q2⟩ := route_child cap v h x c l hcl hptr gl
        (fun hx => hxk (nl x hx)) hxl (fun hm => hv (sl.subset hm))
      refine ⟨?_, q1, fun f r0 hr0 => ⟨(q2 f r0 hr0).1, (q2 f r0 hr0).2.1⟩⟩
      intro f
      rw [hstep f]
      simp only [hc]
    · intro hc f
      rw [hstep (f + 1)]
      simp only [hc]
      rw [hsetL]
      exact fresh_call cap v f h x _ hxl

/-! ## Ascending insertions -/

theorem chain_get (c n m j : Nat) :
    ((List.range m).map (chainNode c n))[j]? = if j < m then some (chainNode c n j) else none := by
  by_cases hj : j < m
  · rw [if_pos hj, List.getElem?_map, List.getElem?_range hj]
    rfl
  · rw [if_neg hj, List.getElem?_eq_none]
    simp only [List.length_map, List.length_range]
    omega

theorem chainElems_congr (f g : Nat → Nat × Element Nat) (s len : Nat)
    (hfg : ∀ v, s ≤ v → v < s + len → f v = g v) :
    (List.range' s len).map f = (List.range' s len).map g := by
  apply List.map_congr_left
  intro v hv
  rw [List.mem_range'_1] at hv
  exact hfg v hv.1 hv.2

/-- The ordered insertion of a key greater than all keys appends. -/
theorem mapInsert_max [LinearOrder T] (k : T) (e : Element T) :
    ∀ (es : List (T × Element T)), (∀ p ∈ es, p.1 < k) →
      mapInsert es k e = (es ++ [(k, e)], es.length, true) := by
  intro es
  induction es with
  | nil => intro _; rfl
  | cons p es ih =>
    intro hlt
    obtain ⟨k', e'⟩ := p
    have h1 : k' < k := hlt (k', e') (List.mem_cons_self _ _)
    have h2 : ¬ k < k' := lt_asymm h1
    simp only [mapInsert, h1, h2, if_true, if_false,
      ih (fun p hp => hlt p (List.mem_cons_of_mem _ hp)), List.cons_append, List.length_cons]

/-- A node before the last one is full and its last element has the next node as upper
child. -/
theorem chain_full (c q r j : Nat) (hc : 1 ≤ c) (hr : 1 ≤ r) (hj : j < q) :
    chainNode c (q * c + r) j =
      ⟨if j = 0 then none else some (j - 1),
        (List.range' (j * c + 1) (c - 1)).map (fun v => (v, ⟨v, none, none⟩)) ++
          [((j + 1) * c, ⟨(j + 1) * c, none, some (j + 1)⟩)]⟩ := by
  have h1 : (j + 1) * c = j * c + c := Nat.succ_mul j c
  have h2 : (j + 1) * c ≤ q * c := Nat.mul_le_mul_right c hj
  have hmin : min c (q * c + r - j * c) = (c - 1) + 1 := by
    rw [Nat.min_def]; split <;> omega
  have hpre : (List.range' (j * c + 1) (c - 1)).map (chainElem c (q * c + r) j) =
      (List.range' (j * c + 1) (c - 1)).map (fun v => (v, ⟨v, none, none⟩)) := by
    apply chainElems_congr
    intro v hv1 hv2
    simp only [chainElem, Prod.mk.injEq, Element.mk.injEq, true_and]
    rw [if_neg (by omega)]
  simp only [chainNode, hmin, List.range'_concat, List.map_append, List.map_cons, List.map_nil,
    Node.mk.injEq, true_and, hpre, List.append_cancel_left_eq, List.cons.injEq, and_true,
    chainElem, Nat.one_mul, Prod.mk.injEq, Element.mk.injEq]
  have h3 : j * c + 1 + (c - 1) = (j + 1) * c := by omega
  rw [h3]
  refine ⟨rfl, rfl, ?_⟩
  rw [if_pos ⟨rfl, by omega⟩]

/-- The last node holds the remaining values, without children. -/
theorem chain_last (c q r : Nat) (hr : r ≤ c) :
    chainNode c (q * c + r) q =
      ⟨if q = 0 then none else some (q - 1),
        (List.range' (q * c + 1) r).map fun v => (v, ⟨v, none, none⟩)⟩ := by
  have h1 : (q + 1) * c = q * c + c := Nat.succ_mul q c
  have hmin : min c (q * c + r - q * c) = r := by
    rw [Nat.min_def]; split <;> omega
  simp only [chainNode, hmin, Node.mk.injEq, true_and]
  apply chainElems_congr
  intro v hv1 hv2
  simp only [chainElem, Prod.mk.injEq, Element.mk.injEq, true_and]
  rw [if_neg (by omega)]

theorem range_keys_lt (s len k : Nat) (f : Nat → Nat × Element Nat) (hf : ∀ v, (f v).1 = v)
    (hk : s + len ≤ k) : ∀ p ∈ (List.range' s len).map f, p.1 < k := by
  intro p hp
  obtain ⟨v, hv, rfl⟩ := List.mem_map.mp hp
  rw [List.mem_range'_1] at hv
  rw [hf v]
  omega

/-- The insertion of `n + 1` passes through the full nodes of the chain down to the last
node. -/
theorem chain_descent (c q r : Nat) (hc : 1 ≤ c) (hr : 1 ≤ r) (H : Heap Nat)
    (hH : ∀ j, j < q → H[j]? = some (chainNode c (q * c + r) j)) :
    ∀ (d j f : Nat), j + d = q →
      recursiveInsert c (q * c + r + 1) (f + d) H j =
        recursiveInsert c (q * c + r + 1) f H q := by
  intro d
  induction d with
  | zero => intro j f hj; simp only [Nat.add_zero] at hj ⊢; rw [hj]
  | succ d ih =>
    intro j f hj
    have hjq : j < q := by omega
    have h1 : (j + 1) * c = j * c + c := Nat.succ_mul j c
    have h2 : (j + 1) * c ≤ q * c := Nat.mul_le_mul_right c hjq
    have hn := hH j hjq
    rw [chain_full c q r j hc hr hjq] at hn
    have hstep := recursiveInsert_here c (q * c + r + 1) (f + d) H j _ _ ((j + 1) * c) _ [] hn
      (range_keys_lt _ _ _ _ (fun _ => rfl) (by omega)) (by omega) (Or.inr rfl)
      (by simp only [List.length_append, List.length_map, List.length_range',
        List.length_singleton]; omega)
    rw [if_pos ⟨rfl, by omega⟩] at hstep
    rw [show f + (d + 1) = f + d + 1 from rfl, hstep]
    exact ih (j + 1) f (by omega)

theorem chain_same (c q r r' j : Nat) (hc : 1 ≤ c) (hr : 1 ≤ r) (hr' : 1 ≤ r') (hj : j < q) :
    chainNode c (q * c + r) j = chainNode c (q * c + r') j := by
  rw [chain_full c q r j hc hr hj, chain_full c q r' j hc hr' hj]

/-- The insertion of the next value into a chain whose last node has spare capacity. -/
theorem chain_step_room (c q r : Nat) (hc : 1 ≤ c) (hr : 1 ≤ r) (hrc : r < c) :
    insert ((List.range (q + 1)).map (chainNode c (q * c + r))) ⟨c, 0⟩ (q * c + r + 1) =
      some ((List.range (q + 1)).map (chainNode c (q * c + (r + 1))), ⟨q, r, false⟩, true) := by
  have hd := chain_descent c q r hc hr ((List.range (q + 1)).map (chainNode c (q * c + r)))
    (fun j hj => by rw [chain_get, if_pos (by omega)]) q 0 2 (by omega)
  have hlen : ((List.range (q + 1)).map (chainNode c (q * c + r))).length + 1 = 2 + q := by
    simp only [List.length_map, List.length_range]; omega
  have hn : ((List.range (q + 1)).map (chainNode c (q * c + r)))[q]? =
      some ⟨if q = 0 then none else some (q - 1),
        (List.range' (q * c + 1) r).map fun v => (v, ⟨v, none, none⟩)⟩ := by
    rw [chain_get, if_pos (by omega), chain_last c q r (by omega)]
  have hlt := range_keys_lt (q * c + 1) r (q * c + r + 1) (fun v => (v, ⟨v, none, none⟩))
    (fun _ => rfl) (by omega)
  have hmem : q * c + r + 1 ∉
      ((List.range' (q * c + 1) r).map fun v => ((v, ⟨v, none, none⟩) : Nat × Element Nat)).map
        Prod.fst := by
    intro hm
    obtain ⟨p, hp, hpk⟩ := List.mem_map.mp hm
    have := hlt p hp
    omega
  simp only [insert]
  rw [hlen, hd, recursiveInsert_direct c (q * c + r + 1) 1 _ q _ hn hmem
    (by simp only [List.length_map, List.length_range']; exact hrc)]
  simp only [insertHere, mapInsert_max _ _ _ hlt, List.length_map, List.length_range',
    Option.some.injEq, Prod.mk.injEq, and_true]
  apply List.ext_getElem?
  intro i
  rw [List.getElem?_set, chain_get, chain_get]
  simp only [List.length_map, List.length_range]
  have e1 : q < q + 1 := Nat.lt_succ_self q
  by_cases hi : q = i
  · subst hi
    rw [if_pos rfl, if_pos e1, if_pos e1, chain_last c q (r + 1) (by omega),
      List.range'_concat, List.map_append]
    simp only [Nat.one_mul, List.map_cons, List.map_nil, Option.some.injEq, Node.mk.injEq,
      true_and, List.append_cancel_left_eq, List.cons.injEq, and_true, Prod.mk.injEq,
      Element.mk.injEq]
    omega
  · rw [if_neg hi]
    by_cases hi2 : i < q + 1
    · rw [if_pos hi2, if_pos hi2, chain_same c q r (r + 1) i hc hr (by omega) (by omega)]
    · rw [if_neg hi2, if_neg hi2]

/-- The insertion of the next value into a chain whose last node is full. -/
theorem chain_step_full (c q : Nat) (hc : 1 ≤ c) :
    insert ((List.range (q + 1)).map (chainNode c (q * c + c))) ⟨c, 0⟩ (q * c + c + 1) =
      some ((List.range (q + 2)).map (chainNode c ((q + 1) * c + 1)), ⟨q + 1, 0, false⟩,
        true) := by
  have h1 : (q + 1) * c = q * c + c := Nat.succ_mul q c
  have hd := chain_descent c q c hc hc ((List.range (q + 1)).map (chainNode c (q * c + c)))
    (fun j hj => by rw [chain_get, if_pos (by omega)]) q 0 2 (by omega)
  have hlen : ((List.range (q + 1)).map (chainNode c (q * c + c))).length = q + 1 := by
    simp only [List.length_map, List.length_range]
  have hn : ((List.range (q + 1)).map (chainNode c (q * c + c)))[q]? =
      some ⟨if q = 0 then none else some (q - 1),
        (List.range' (q * c + 1) (c - 1)).map (fun v => (v, ⟨v, none, none⟩)) ++
          (q * c + c, ⟨q * c + c, none, none⟩) :: []⟩ := by
    rw [chain_get, if_pos (by omega), chain_last c q c (Nat.le_refl _)]
    have hcat : List.range' (q * c + 1) c = List.range' (q * c + 1) (c - 1) ++ [q * c + c] := by
      have h4 : List.range' (q * c + 1) (c - 1 + 1) 1 = _ := List.range'_concat (q * c + 1) (c - 1)
      have h3 : q * c + 1 + 1 * (c - 1) = q * c + c := by omega
      rw [Nat.sub_add_cancel hc, h3] at h4
      exact h4
    rw [hcat, List.map_append]
    rfl
  have hstep := recursiveInsert_here c (q * c + c + 1) 1
    ((List.range (q + 1)).map (chainNode c (q * c + c))) q _ _ (q * c + c) _ [] hn
    (range_keys_lt _ _ _ _ (fun _ => rfl) (by omega)) (by omega) (Or.inr rfl)
    (by simp only [List.length_append, List.length_map, List.length_range',
      List.length_singleton]; omega)
  rw [if_pos ⟨rfl, by omega⟩] at hstep
  simp only [insert]
  rw [show ((List.range (q + 1)).map (chainNode c (q * c + c))).length + 1 = 2 + q by
    rw [hlen]; omega, hd, hstep]
  simp only []
  rw [fresh_call c (q * c + c + 1) 0 _ q _ (by rw [hlen]; omega)]
  simp only [hlen, Option.some.injEq, Prod.mk.injEq, and_true]
  apply List.ext_getElem?
  intro i
  rw [List.getElem?_set, List.getElem?_set, chain_get]
  simp only [List.length_set, List.length_append, List.length_map, List.length_range,
    List.length_singleton]
  have e1 : q < q + 1 := Nat.lt_succ_self q
  have e2 : q + 1 < q + 2 := Nat.lt_succ_self _
  have e3 : q < q + 2 := by omega
  have e4 : q + 1 < q + 1 + 1 := Nat.lt_succ_self _
  have e5 : q < q + 1 + 1 := by omega
  by_cases hi1 : q + 1 = i
  · subst hi1
    rw [if_pos rfl, if_pos e4, if_pos e2, chain_last c (q + 1) 1 hc]
    simp [h1]
  · rw [if_neg hi1]
    by_cases hi : q = i
    · subst hi
      rw [if_pos rfl, if_pos e5, if_pos e3,
        chain_full c (q + 1) 1 q hc (Nat.le_refl _) e1]
      simp [h1]
    · rw [if_neg hi]
      by_cases hi2 : i < q
      · have e6 : i < q + 2 := by omega
        have e7 : i < q + 1 := by omega
        rw [if_pos e6, List.getElem?_append_left (by rw [hlen]; exact e7), chain_get,
          if_pos e7, chain_full c q c i hc hc hi2,
          chain_full c (q + 1) 1 i hc (Nat.le_refl _) e7]
      · have e6 : ¬ i < q + 2 := by omega
        rw [if_neg e6, List.getElem?_eq_none]
        simp only [List.length_append, List.length_map, List.length_range,
          List.length_singleton]
        omega

theorem chain_div (c q r : Nat) (hr : 1 ≤ r) (hrc : r ≤ c) :
    (q * c + r + c - 1) / c = q + 1 := by
  have h1 : (q + 1) * c = q * c + c := Nat.succ_mul q c
  have h2 : (q + 1 + 1) * c = (q + 1) * c + c := Nat.succ_mul (q + 1) c
  exact Nat.div_eq_of_lt_le (by omega) (by omega)

/-- The ascending insertions of `1, ..., n + 1` build the chain, whose last node is node `q`
and holds `r` values. -/
theorem chain_build (c : Nat) (hc : 1 ≤ c) : ∀ (n : Nat), ∃ q r, n + 1 = q * c + r ∧ 1 ≤ r ∧
    r ≤ c ∧ build c (List.range' 1 (n + 1)) =
      some ((List.range (q + 1)).map (chainNode c (n + 1)), List.replicate (n + 1) true) := by
  intro n
  induction n with
  | zero =>
    refine ⟨0, 1, by omega, Nat.le_refl _, hc, ?_⟩
    have h1 := chain_last c 0 1 hc
    simp only [Nat.zero_mul, Nat.zero_add, if_true] at h1
    rw [show List.range' 1 (0 + 1) = [1] from rfl, build_single c 1,
      show List.range (0 + 1) = [0] from rfl]
    simp only [List.map_cons, List.map_nil, h1]
    rfl
  | succ n ih =>
    obtain ⟨q, r, hn, hr, hrc, hb⟩ := ih
    have hcat : List.range' 1 (n + 1 + 1) = List.range' 1 (n + 1) ++ [n + 1 + 1] := by
      have h4 : List.range' 1 (n + 1 + 1) 1 = _ := List.range'_concat 1 (n + 1)
      rw [h4]
      simp only [Nat.one_mul, List.append_cancel_left_eq, List.cons.injEq, and_true]
      omega
    simp only [build] at hb ⊢
    rw [hcat, insertAll_append, hb]
    simp only [Option.some_bind, insertAll, construct, List.length_nil]
    rw [hn]
    by_cases hlt : r < c
    · refine ⟨q, r + 1, by omega, by omega, by omega, ?_⟩
      rw [chain_step_room c q r hc hr hlt]
      simp only [Option.map_some', List.append_nil]
      rw [show q * c + (r + 1) = q * c + r + 1 from rfl, List.replicate_succ' (q * c + r)]
    · have hrc' : r = c := by omega
      subst hrc'
      have h1 : (q + 1) * r = q * r + r := Nat.succ_mul q r
      refine ⟨q + 1, 1, by omega, Nat.le_refl _, hc, ?_⟩
      rw [chain_step_full r q hc]
      simp only [Option.map_some', List.append_nil]
      rw [h1, List.replicate_succ' (q * r + r)]

/-- The ascending insertions of `1, ..., n` build the chain of the specification. -/
theorem build_chain (c n : Nat) (hc : 1 ≤ c) (hn : 1 ≤ n) :
    build c (List.range' 1 n) = some (chainHeap c n, List.replicate n true) := by
  obtain ⟨m, rfl⟩ : ∃ m, n = m + 1 := ⟨n - 1, by omega⟩
  obtain ⟨q, r, h1, h2, h3, h4⟩ := chain_build c hc m
  rw [h4, chainHeap, h1, chain_div c q r h2 h3]

theorem elemLinks_append (xs ys : List (T × Element T)) :
    elemLinks (xs ++ ys) = elemLinks xs ++ elemLinks ys := by
  induction xs with
  | nil => rfl
  | cons p xs ih =>
    obtain ⟨k, e⟩ := p
    show elemLinks ((k, e) :: (xs ++ ys)) = _
    simp only [elemLinks, ih, List.append_assoc]

theorem elemLinks_leaves (xs : List Nat) :
    elemLinks (xs.map fun v => ((v, ⟨v, none, none⟩) : Nat × Element Nat)) = [] := by
  induction xs with
  | nil => rfl
  | cons p xs ih => simp only [List.map_cons, elemLinks, ih, Option.toList, List.append_nil]

/-- In the chain, the only child of a node is the next node. -/
theorem chain_children (c q r j : Nat) (hc : 1 ≤ c) (hr : 1 ≤ r) (hrc : r ≤ c) :
    childrenOf ((List.range (q + 1)).map (chainNode c (q * c + r))) [j] =
      if j < q then [j + 1] else [] := by
  simp only [childrenOf, List.append_nil]
  rw [chain_get]
  by_cases hj : j < q
  · have e1 : j < q + 1 := by omega
    rw [if_pos e1, if_pos hj]
    simp only [chain_full c q r j hc hr hj, elemLinks_append, elemLinks_leaves, elemLinks,
      Option.toList, List.nil_append, List.append_nil]
  · rw [if_neg hj]
    by_cases hj2 : j < q + 1
    · have hjq : j = q := by omega
      subst hjq
      rw [if_pos hj2]
      simp only [chain_last c j r hrc, elemLinks_leaves]
    · rw [if_neg hj2]

theorem nodesAtDepth_nil (h : Heap T) : ∀ (d : Nat), nodesAtDepth h d [] = [] := by
  intro d
  induction d with
  | zero => rfl
  | succ d ih => simp only [nodesAtDepth, childrenOf, ih]

/-- Node `j + d` is the only node `d` levels below node `j` of the chain. -/
theorem chain_depth (c q r : Nat) (hc : 1 ≤ c) (hr : 1 ≤ r) (hrc : r ≤ c) :
    ∀ (d j : Nat), j ≤ q →
      nodesAtDepth ((List.range (q + 1)).map (chainNode c (q * c + r))) d [j] =
        if j + d ≤ q then [j + d] else [] := by
  intro d
  induction d with
  | zero =>
    intro j hj
    simp only [nodesAtDepth, Nat.add_zero]
    rw [if_pos hj]
  | succ d ih =>
    intro j hj
    simp only [nodesAtDepth, chain_children c q r j hc hr hrc]
    by_cases hjq : j < q
    · rw [if_pos hjq, ih (j + 1) hjq]
      by_cases h1 : j + 1 + d ≤ q
      · rw [if_pos h1, if_pos (by omega)]
        simp only [List.cons.injEq, and_true]
        omega
      · rw [if_neg h1, if_neg (by omega)]
    · rw [if_neg hjq, nodesAtDepth_nil, if_neg (by omega)]

/-- The levels of the chain of the specification: level `d` is node `d` alone, and there are
as many levels as nodes. -/
theorem chainHeap_depth (c n : Nat) (hc : 1 ≤ c) (hn : 1 ≤ n) (d : Nat) :
    nodesAtDepth (chainHeap c n) d [0] = if d < (chainHeap c n).length then [d] else [] := by
  obtain ⟨m, rfl⟩ : ∃ m, n = m + 1 := ⟨n - 1, by omega⟩
  obtain ⟨q, r, h1, h2, h3, _⟩ := chain_build c hc m
  have hd := chain_depth c q r hc h2 h3 d 0 (Nat.zero_le _)
  simp only [chainHeap, List.length_map, List.length_range, h1, chain_div c q r h2 h3]
  rw [hd]
  simp only [Nat.zero_add]
  by_cases h4 : d ≤ q
  · rw [if_pos h4, if_pos (by omega)]
  · rw [if_neg h4, if_neg (by omega)]

/-- With capacity 1 every node of the chain holds one value. -/
theorem chain_one (n j : Nat) (hj : j < n) :
    chainNode 1 n j =
      ⟨if j = 0 then none else some (j - 1),
        [(j + 1, ⟨j + 1, none, if j + 1 < n then some (j + 1) else none⟩)]⟩ := by
  have hmin : min 1 (n - j) = 1 := by
    rw [Nat.min_def]; split <;> omega
  simp only [chainNode, Nat.mul_one, hmin, chainElem, List.range'_one, List.map_cons,
    List.map_nil, true_and]

theorem chainHeap_length (c n : Nat) : (chainHeap c n).length = (n + c - 1) / c := by
  simp only [chainHeap, List.length_map, List.length_range]

theorem chainHeap_get (c n j : Nat) (hj : j < (n + c - 1) / c) :
    (chainHeap c n)[j]? = some (chainNode c n j) := by
  rw [chainHeap, chain_get, if_pos hj]

/-! ## Parents, links and sizes of the nodes -/

theorem rep_ptr_nonempty (h : Heap T) (s : Sh T) (a b : Nat) (es : List (T × Element T))
    (hptr : s.ptr = some b) (hrep : Rep h s a es) : es ≠ [] := by
  cases s with
  | E => simp [Sh.ptr] at hptr
  | C a0 l k r rest =>
    rw [rep_C] at hrep
    obtain ⟨_, e, es', hes, _⟩ := hrep
    rw [hes]
    simp

/-- Every node below the cells of a shape is designated by a link of a cell or of a node
below the cells, its parent is the node holding that link, and it holds an element. -/
theorem kids_parent (h : Heap T) : ∀ (s : Sh T) (a : Nat) (es : List (T × Element T)),
    Rep h s a es → ∀ c ∈ s.kids,
      (∃ k e m, (k, e) ∈ es ∧ (e.leftChild = some c ∨ e.rightChild = some c) ∧
        h[c]? = some m ∧ m.parent = some a ∧ m.elements ≠ []) ∨
      (∃ x m, x ∈ s.kids ∧ Link h x c ∧ h[c]? = some m ∧ m.parent = some x ∧
        m.elements ≠ []) := by
  intro s
  induction s with
  | E => intro a es _ c hc; simp [Sh.kids] at hc
  | C a0 l k0 r rest ihl ihr ihrest =>
    intro a es hrep c hc
    rw [rep_C] at hrep
    obtain ⟨_, e0, es', hes, _, hl, hr, hcl, hcr, hrest⟩ := hrep
    subst hes
    rw [kids_C] at hc ⊢
    have sub : ∀ (d : Sh T), Child h d a → (e0.leftChild = d.ptr ∨ e0.rightChild = d.ptr) →
        (∀ x ∈ d.nodes, x ∈ l.nodes ++ (r.nodes ++ rest.kids)) →
        (∀ (b : Nat) (es1 : List (T × Element T)), Rep h d b es1 → ∀ c ∈ d.kids,
          (∃ k e m, (k, e) ∈ es1 ∧ (e.leftChild = some c ∨ e.rightChild = some c) ∧
            h[c]? = some m ∧ m.parent = some b ∧ m.elements ≠ []) ∨
          (∃ x m, x ∈ d.kids ∧ Link h x c ∧ h[c]? = some m ∧ m.parent = some x ∧
            m.elements ≠ [])) →
        c ∈ d.nodes →
        (∃ k e m, (k, e) ∈ (k0, e0) :: es' ∧ (e.leftChild = some c ∨ e.rightChild = some c) ∧
          h[c]? = some m ∧ m.parent = some a ∧ m.elements ≠ []) ∨
        (∃ x m, x ∈ l.nodes ++ (r.nodes ++ rest.kids) ∧ Link h x c ∧ h[c]? = some m ∧
          m.parent = some x ∧ m.elements ≠ []) := by
      intro d hd hlink hsubset ih hcd
      cases hptr : d.ptr with
      | none =>
        cases d with
        | E => simp [Sh.nodes, Sh.ptr, Sh.kids] at hcd
        | C b l1 k1 r1 rest1 => simp [Sh.ptr] at hptr
      | some b =>
        obtain ⟨n, hn, hp, hrepb⟩ := hd b hptr
        have hb : b ∈ d.nodes := by simp [Sh.nodes, hptr]
        simp only [Sh.nodes, hptr, Option.toList, List.singleton_append,
          List.mem_cons] at hcd
        rcases hcd with hcd | hcd
        · subst hcd
          left
          refine ⟨k0, e0, n, List.mem_cons_self _ _, ?_, hn, hp,
            rep_ptr_nonempty h d c c n.elements hptr hrepb⟩
          rw [hptr] at hlink
          exact hlink
        · right
          rcases ih b n.elements hrepb c hcd with ⟨k, e, m, q1, q2, q3, q4, q5⟩ |
              ⟨x, m, q1, q2, q3, q4, q5⟩
          · exact ⟨b, m, hsubset b hb, ⟨n, k, e, hn, q1, q2⟩, q3, q4, q5⟩
          · exact ⟨x, m, hsubset x (by simp [Sh.nodes, q1]), q2, q3, q4, q5⟩
    simp only [List.mem_append] at hc
    rcases hc with hc | hc | hc
    · exact sub l hcl (Or.inl hl) (fun x hx => by simp [hx]) ihl hc
    · exact sub r hcr (Or.inr hr) (fun x hx => by simp [hx]) ihr hc
    · rcases ihrest a es' hrest c hc with ⟨k, e, m, q1, q2, q3, q4, q5⟩ |
          ⟨x, m, q1, q2, q3, q4, q5⟩
      · exact Or.inl ⟨k, e, m, List.mem_cons_of_mem _ q1, q2, q3, q4, q5⟩
      · exact Or.inr ⟨x, m, by simp [q1], q2, q3, q4, q5⟩

theorem parents_of_inv [LinearOrder T] (cap : Nat) (h : Heap T) (t : btree) (s : Sh T)
    (hinv : TreeInv cap h t.root s) : ParentsOk h t := by
  obtain ⟨n, hn, hp, hrep⟩ := hinv.rep
  refine ⟨⟨n, hn, hp⟩, ?_⟩
  intro c hc hne
  rw [treeNodes_eq h t s cap hinv] at hc ⊢
  rcases List.mem_cons.mp hc with hc | hc
  · exact absurd hc hne
  · rcases kids_parent h s t.root n.elements hrep c hc with ⟨k, e, m, q1, q2, q3, q4, q5⟩ |
        ⟨x, m, q1, q2, q3, q4, q5⟩
    · exact ⟨t.root, m, List.mem_cons_self _ _, ⟨n, k, e, hn, q1, q2⟩, q3, q4, q5⟩
    · exact ⟨x, m, List.mem_cons_of_mem _ q1, q2, q3, q4, q5⟩

/-- Only the last cell of a node satisfying `rightOk` has an upper child. -/
theorem rep_right_none (h : Heap T) : ∀ (s : Sh T) (a : Nat) (es : List (T × Element T)),
    Rep h s a es → s.rightOk → ∀ (i : Nat) (k : T) (e : Element T),
      es[i]? = some (k, e) → i + 1 < es.length → e.rightChild = none := by
  intro s
  induction s with
  | E =>
    intro a es hrep _ i k e hi
    simp [Rep] at hrep
    subst hrep
    simp at hi
  | C a0 l k0 r rest _ _ ihrest =>
    intro a es hrep hro i k e hi hlt
    rw [rep_C] at hrep
    obtain ⟨_, e0, es', hes, _, _, hr, _, _, hrest⟩ := hrep
    subst hes
    obtain ⟨hor, _, _, hrorest⟩ := hro
    cases i with
    | zero =>
      simp only [List.getElem?_cons_zero, Option.some.injEq, Prod.mk.injEq] at hi
      obtain ⟨_, rfl⟩ := hi
      rcases hor with hor | hor
      · rw [hr, hor]; rfl
      · subst hor
        have : es' = [] := by simpa [Rep] using hrest
        subst this
        simp at hlt
    | succ i =>
      simp only [List.getElem?_cons_succ] at hi
      exact ihrest a es' hrest hrorest i k e hi (by simpa using hlt)

/-- Elements of which only the last has an upper child hold at most one link more than there
are elements. -/
theorem elemLinks_length_le : ∀ (es : List (T × Element T)),
    (∀ (i : Nat) (k : T) (e : Element T), es[i]? = some (k, e) → i + 1 < es.length →
      e.rightChild = none) → (elemLinks es).length ≤ es.length + 1 := by
  intro es
  induction es with
  | nil => intro _; simp [elemLinks]
  | cons p es ih =>
    intro hr
    obtain ⟨k, e⟩ := p
    have hrest := ih (fun i k' e' hi hlt => hr (i + 1) k' e' (by simpa using hi)
      (by simpa using hlt))
    have hleft : e.leftChild.toList.length ≤ 1 := by cases e.leftChild <;> simp
    simp only [elemLinks, List.length_append, List.length_cons]
    cases es with
    | nil =>
      have hright : e.rightChild.toList.length ≤ 1 := by cases e.rightChild <;> simp
      simp only [elemLinks, List.length_nil] at hrest ⊢
      omega
    | cons q es =>
      have hnone := hr 0 k e (by simp) (by simp)
      have h0 : e.rightChild.toList.length = 0 := by rw [hnone]; rfl
      simp only [List.length_cons] at hrest ⊢
      omega

/-- A node satisfying the invariants that has spare capacity has no child. -/
theorem subInv_leaf [LinearOrder T] (cap : Nat) (h : Heap T) (x : Nat) (c : Sh T) (n : Node T)
    (hsub : SubInv cap h x c n) (hroom : n.elements.length < cap) :
    ∀ (k : T) (e : Element T), (k, e) ∈ n.elements →
      e.leftChild = none ∧ e.rightChild = none := by
  intro k e hmem
  rcases hsub.nodeFull with hleaf | hfull
  · have := (rep_leafy h c x n.elements hsub.rep hleaf).1 (k, e) hmem
    simp only at this
    rw [this]
    exact ⟨rfl, rfl⟩
  · rw [← rep_length h c x n.elements hsub.rep] at hfull
    omega

/-! ## The search after an insertion -/

theorem scan_matched_lb [LinearOrder T] (v : T) :
    ∀ (es : List (T × Element T)) (j i : Nat), insertScan v es j = .matched i →
      j ≤ i ∧ lower_bound es v = i - j ∧ ∃ e, es[i - j]? = some (v, e) := by
  intro es
  induction es with
  | nil => intro j i hs; simp [insertScan] at hs
  | cons p es ih =>
    intro j i hs
    obtain ⟨k, e0⟩ := p
    simp only [insertScan] at hs
    split at hs
    · rename_i hk
      simp only [Scan.matched.injEq] at hs
      subst hs
      subst hk
      exact ⟨Nat.le_refl _, by simp [lower_bound], e0, by simp⟩
    · rename_i hk
      split at hs
      · cases hs
      · rename_i hor
        have hlt : k < v := by
          rcases lt_trichotomy k v with h1 | h1 | h1
          · exact h1
          · exact absurd h1.symm hk
          · exact absurd (Or.inl h1) hor
        obtain ⟨h1, h2, e, h3⟩ := ih (j + 1) i hs
        obtain ⟨d, hd⟩ : ∃ d, i - j = d + 1 := ⟨i - j - 1, by omega⟩
        have hd' : i - (j + 1) = d := by omega
        refine ⟨by omega, ?_, e, ?_⟩
        · simp only [lower_bound, hlt, if_true, h2]; omega
        · rw [hd, List.getElem?_cons_succ, ← hd']; exact h3

theorem scan_here_lb [LinearOrder T] (v : T) :
    ∀ (es : List (T × Element T)) (j i : Nat) (e : T × Element T) (fin : Bool),
      insertScan v es j = .here i e fin →
      j ≤ i ∧ es[i - j]? = some e ∧ e.1 ≠ v ∧
        ((fin = true ∧ e.1 < v) → lower_bound es v = es.length ∧ i - j + 1 = es.length) ∧
        (¬ (fin = true ∧ e.1 < v) → lower_bound es v = i - j) := by
  intro es
  induction es with
  | nil => intro j i e fin hs; simp [insertScan] at hs
  | cons p es ih =>
    intro j i e fin hs
    obtain ⟨k, e0⟩ := p
    simp only [insertScan] at hs
    split at hs
    · cases hs
    · rename_i hk
      split at hs
      · rename_i hor
        simp only [Scan.here.injEq] at hs
        obtain ⟨rfl, rfl, rfl⟩ := hs
        refine ⟨Nat.le_refl _, by simp, fun hh => hk hh.symm, ?_, ?_⟩
        · rintro ⟨hfin, hlt⟩
          have hnil : es = [] := by simpa using hfin
          subst hnil
          simp [lower_bound, hlt]
        · intro hnot
          have hnlt : ¬ k < v := by
            intro hlt
            rcases hor with h1 | h1
            · exact lt_asymm hlt h1
            · exact hnot ⟨h1, hlt⟩
          simp [lower_bound, hnlt]
      · rename_i hor
        have hlt : k < v := by
          rcases lt_trichotomy k v with h1 | h1 | h1
          · exact h1
          · exact absurd h1.symm hk
          · exact absurd (Or.inl h1) hor
        obtain ⟨h1, h2, h3, h4, h5⟩ := ih (j + 1) i e fin hs
        obtain ⟨d, hd⟩ : ∃ d, i - j = d + 1 := ⟨i - j - 1, by omega⟩
        have hd' : i - (j + 1) = d := by omega
        refine ⟨by omega, ?_, h3, ?_, ?_⟩
        · rw [hd, List.getElem?_cons_succ, ← hd']; exact h2
        · intro hh
          obtain ⟨q1, q2⟩ := h4 hh
          simp only [lower_bound, hlt, if_true, q1, List.length_cons]
          exact ⟨trivial, by omega⟩
        · intro hh
          simp only [lower_bound, hlt, if_true, h5 hh]
          omega

theorem lower_bound_keys [LinearOrder T] (v : T) : ∀ (es es' : List (T × Element T)),
    es.map Prod.fst = es'.map Prod.fst → lower_bound es v = lower_bound es' v := by
  intro es
  induction es with
  | nil =>
    intro es' hk
    cases es' with
    | nil => rfl
    | cons p es' => simp at hk
  | cons p es ih =>
    intro es' hk
    cases es' with
    | nil => simp at hk
    | cons q es' =>
      obtain ⟨k, e⟩ := p
      obtain ⟨k', e'⟩ := q
      simp only [List.map_cons, List.cons.injEq] at hk
      obtain ⟨rfl, hk⟩ := hk
      simp only [lower_bound, ih es' hk]

theorem mapInsert_lower_bound [LinearOrder T] (v : T) (e : Element T) :
    ∀ (es : List (T × Element T)), (mapInsert es v e).2.2 = true →
      lower_bound (mapInsert es v e).1 v = (mapInsert es v e).2.1 := by
  intro es
  induction es with
  | nil => intro _; simp [mapInsert, lower_bound]
  | cons p es ih =>
    intro hflag
    obtain ⟨k', e'⟩ := p
    simp only [mapInsert] at hflag ⊢
    by_cases h1 : v < k'
    · simp [h1, lower_bound]
    · by_cases h2 : k' < v
      · simp only [h1, h2, if_false, if_true] at hflag ⊢
        simp only [lower_bound, h2, if_true, ih hflag]
      · simp [h1, h2] at hflag

/-- The search finds the value at the slot `lower_bound` designates. -/
theorem find_here [LinearOrder T] (t : btree) (v : T) (f : Nat) (h : Heap T) (a : Nat)
    (n : Node T) (i : Nat) (e : Element T) (hn : h[a]? = some n)
    (hlb : lower_bound n.elements v = i) (hi : n.elements[i]? = some (v, e)) :
    recursiveFind t v (f + 1) h a = some ⟨a, i, false⟩ := by
  have hlt : i < n.elements.length := (List.getElem?_eq_some.mp hi).1
  have hne : ¬ i = n.elements.length := by omega
  simp only [recursiveFind, hn, hlb, hne, if_false, hi, if_true]

/-- The search goes on in the lower child of the first element greater than the value. -/
theorem find_left [LinearOrder T] (t : btree) (v : T) (f : Nat) (h : Heap T) (a : Nat)
    (n : Node T) (i : Nat) (p : T × Element T) (c : Nat) (hn : h[a]? = some n)
    (hlb : lower_bound n.elements v = i) (hi : n.elements[i]? = some p) (hk : p.1 ≠ v)
    (hc : p.2.leftChild = some c) :
    recursiveFind t v (f + 1) h a = recursiveFind t v f h c := by
  have hlt : i < n.elements.length := (List.getElem?_eq_some.mp hi).1
  have hne : ¬ i = n.elements.length := by omega
  simp only [recursiveFind, hn, hlb, hne, if_false, hi, hk, hc]

/-- The search goes on in the upper child of the last element when all elements are less
than the value. -/
theorem find_right [LinearOrder T] (t : btree) (v : T) (f : Nat) (h : Heap T) (a : Nat)
    (n : Node T) (i : Nat) (p : T × Element T) (c : Nat) (hn : h[a]? = some n)
    (hlb : lower_bound n.elements v = n.elements.length) (hlast : i + 1 = n.elements.length)
    (hi : n.elements[i]? = some p) (hc : p.2.rightChild = some c) :
    recursiveFind t v (f + 1) h a = recursiveFind t v f h c := by
  have hne : ¬ n.elements.length = 0 := by omega
  have hidx : n.elements.length - 1 = i := by omega
  simp only [recursiveFind, hn, hlb, if_true, hne, if_false, hidx, hi, hc]

theorem descends_child [LinearOrder T] (h : Heap T) (node c : Nat) (hd : Descends h node)
    (hl : Link h node c) : Descends h c :=
  fun a ha => hd a (Reach.step node c a hl ha)

theorem modify_get (es : List (T × Element T)) (i : Nat) (p : T × Element T)
    (f : T × Element T → T × Element T) (hi : es[i]? = some p) :
    (es.modify f i)[i]? = some (f p) := by
  rw [List.getElem?_modify, hi]
  simp

/-- The search for `v` in the heap left by an insertion of `v` returns the cursor that the
insertion returned, with the fuel the insertion had. -/
theorem find_after_insert [LinearOrder T] (t : btree) (cap : Nat) (v : T) :
    ∀ (fuel : Nat) (h : Heap T) (node : Nat) (r : Heap T × btree_iterator × Bool),
      Descends h node → recursiveInsert cap v fuel h node = some r →
      recursiveFind t v fuel r.1 node = some r.2.1 := by
  intro fuel
  induction fuel with
  | zero => intro h node r _ hr; simp [recursiveInsert] at hr
  | succ fuel ih =>
    intro h node r hd hr
    simp only [recursiveInsert] at hr
    cases hn : h[node]? with
    | none => simp [hn] at hr
    | some n =>
      have hlt : node < h.length := (List.getElem?_eq_some.mp hn).1
      have hsorted := (hd node (Reach.refl node)).2 n hn
      simp only [hn] at hr
      have hdirect : v ∉ n.elements.map Prod.fst →
          recursiveFind t v (fuel + 1) (insertHere h node n v).1 node =
            some (insertHere h node n v).2.1 := by
        intro hmem
        have hflag := mapInsert_flag v ⟨v, none, none⟩ n.elements hmem
        have hnode : (insertHere h node n v).1[node]? =
            some ⟨n.parent, (mapInsert n.elements v ⟨v, none, none⟩).1⟩ := by
          simp only [insertHere]
          rw [List.getElem?_set_self hlt]
        exact find_here t v fuel _ node _ _ ⟨v, none, none⟩ hnode
          (mapInsert_lower_bound v _ n.elements hflag) (mapInsert_get v _ n.elements hflag)
      cases hscan : insertScan v n.elements 0 with
      | fellThrough =>
        have hnil := insertScan_fellThrough v n.elements 0 hscan
        simp only [hscan, Option.some.injEq] at hr
        subst hr
        exact hdirect (by rw [hnil]; simp)
      | matched i =>
        simp only [hscan, Option.some.injEq] at hr
        subst hr
        obtain ⟨_, h2, e, h3⟩ := scan_matched_lb v n.elements 0 i hscan
        simp only [Nat.sub_zero] at h2 h3
        exact find_here t v fuel h node n i e hn h2 h3
      | here i e fin =>
        obtain ⟨_, hget, hne, hright, hleft⟩ := scan_here_lb v n.elements 0 i e fin hscan
        simp only [Nat.sub_zero] at hget hright hleft
        have hmem : e ∈ n.elements := List.getElem?_mem hget
        have habsent : v ∉ n.elements.map Prod.fst := by
          intro hm
          obtain ⟨j, e', hj, _⟩ := insertScan_mem v n.elements 0 hsorted hm
          rw [hscan] at hj
          cases hj
        simp only [hscan] at hr
        by_cases hroom : n.elements.length < cap
        · rw [if_pos hroom] at hr
          simp only [Option.some.injEq] at hr
          subst hr
          exact hdirect habsent
        · rw [if_neg hroom] at hr
          have hchild : ∀ c, (e.2.leftChild = some c ∨ e.2.rightChild = some c) →
              recursiveInsert cap v fuel h c = some r →
              r.1[node]? = some n ∧ recursiveFind t v fuel r.1 c = some r.2.1 := by
            intro c hc hrc
            have hlink : Link h node c := ⟨n, e.1, e.2, hn, hmem, hc⟩
            refine ⟨?_, ih h c r (descends_child h node c hd hlink) hrc⟩
            rcases recursiveInsert_effect cap v fuel h c r hrc with ⟨_, h1⟩ |
                ⟨_, x, m, hreach, hst⟩
            · rw [h1]; exact hn
            · have hxn : node ≠ x := by
                intro hx
                exact (hd node (Reach.refl node)).1 c hlink (hx ▸ hreach)
              rw [hst.2.1 node hxn hlt]
              exact hn
          have hfresh : ∀ (es : List (T × Element T)),
              recursiveInsert cap v fuel
                ((h ++ [Node.mk (some node) []]).set node { n with elements := es })
                h.length = some r →
              ∃ f, fuel = f + 1 ∧ r.1[node]? = some ⟨n.parent, es⟩ ∧
                recursiveFind t v (f + 1) r.1 h.length = some r.2.1 := by
            intro es hres
            cases fuel with
            | zero => simp [recursiveInsert] at hres
            | succ f =>
              rw [fresh_call cap v f h node _ hlt] at hres
              simp only [Option.some.injEq] at hres
              subst hres
              refine ⟨f, rfl, ?_, ?_⟩
              · simp only
                rw [List.getElem?_set_ne (Ne.symm (Nat.ne_of_lt hlt)),
                  List.getElem?_set_self (by simp; omega)]
              · simp only
                refine find_here t v f _ h.length ⟨some node, [(v, ⟨v, none, none⟩)]⟩ 0
                  ⟨v, none, none⟩ ?_ (by simp [lower_bound]) (by simp)
                rw [List.getElem?_set_self (by simp)]
          by_cases hcond : fin = true ∧ e.1 < v
          · rw [if_pos hcond] at hr
            obtain ⟨hlb, hlast⟩ := hright hcond
            cases hc : e.2.rightChild with
            | some c =>
              simp only [hc] at hr
              obtain ⟨q1, q2⟩ := hchild c (Or.inr hc) hr
              rw [find_right t v fuel r.1 node n i e c q1 hlb hlast hget hc]
              exact q2
            | none =>
              simp only [hc] at hr
              obtain ⟨f, rfl, q1, q2⟩ := hfresh _ hr
              have hget' : (setRight n.elements i (some h.length))[i]? =
                  some (e.1, { e.2 with rightChild := some h.length }) :=
                modify_get n.elements i e _ hget
              rw [find_right t v (f + 1) r.1 node _ i _ h.length q1
                (by
                  simp only [setRight_length]
                  rw [lower_bound_keys v _ n.elements (setRight_keys _ _ _)]
                  exact hlb)
                (by simp only [setRight_length]; exact hlast) hget' rfl]
              exact q2
          · rw [if_neg hcond] at hr
            have hlb := hleft hcond
            cases hc : e.2.leftChild with
            | some c =>
              simp only [hc] at hr
              obtain ⟨q1, q2⟩ := hchild c (Or.inl hc) hr
              rw [find_left t v fuel r.1 node n i e c q1 hlb hget hne hc]
              exact q2
            | none =>
              simp only [hc] at hr
              obtain ⟨f, rfl, q1, q2⟩ := hfresh _ hr
              have hget' : (setLeft n.elements i (some h.length))[i]? =
                  some (e.1, { e.2 with leftChild := some h.length }) :=
                modify_get n.elements i e _ hget
              rw [find_left t v (f + 1) r.1 node _ i _ h.length q1
                (by
                  rw [lower_bound_keys v _ n.elements (setLeft_keys _ _ _)]
                  exact hlb)
                hget' hne rfl]
              exact q2

/-- A search that returns keeps its result when it is given more fuel. -/
theorem recursiveFind_mono [LinearOrder T] (t : btree) (v : T) (h : Heap T) :
    ∀ (fuel : Nat) (node : Nat) (c : btree_iterator),
      recursiveFind t v fuel h node = some c → recursiveFind t v (fuel + 1) h node = some c := by
  intro fuel
  induction fuel with
  | zero => intro node c hr; simp [recursiveFind] at hr
  | succ fuel ih =>
    intro node c hr
    rw [recursiveFind] at hr ⊢
    cases hn : h[node]? with
    | none => simp [hn] at hr
    | some n =>
      simp only [hn] at hr ⊢
      by_cases c1 : lower_bound n.elements v = n.elements.length
      · rw [if_pos c1] at hr ⊢
        by_cases c2 : n.elements.length = 0
        · rw [if_pos c2] at hr; cases hr
        · rw [if_neg c2] at hr ⊢
          cases he : n.elements[n.elements.length - 1]? with
          | none => simp [he] at hr
          | some e =>
            simp only [he] at hr ⊢
            cases hc : e.2.rightChild with
            | none => simp only [hc] at hr ⊢; exact hr
            | some c => simp only [hc] at hr ⊢; exact ih _ _ hr
      · rw [if_neg c1] at hr ⊢
        cases he : n.elements[lower_bound n.elements v]? with
        | none => simp [he] at hr
        | some e =>
          simp only [he] at hr ⊢
          by_cases c3 : e.1 = v
          · rw [if_pos c3] at hr ⊢; exact hr
          · rw [if_neg c3] at hr ⊢
            cases hc : e.2.leftChild with
            | none => simp only [hc] at hr ⊢; exact hr
            | some c => simp only [hc] at hr ⊢; exact ih _ _ hr

theorem recursiveFind_mono_le [LinearOrder T] (t : btree) (v : T) (h : Heap T) (node : Nat)
    (c : btree_iterator) (f F : Nat) (hle : f ≤ F)
    (hr : recursiveFind t v f h node = some c) : recursiveFind t v F h node = some c := by
  induction F, hle using Nat.le_induction with
  | base => exact hr
  | succ F _ ih => exact recursiveFind_mono t v h F node c ih

/-- In a tree satisfying the invariant the descent from the root never comes back to a node
and meets ascending keys only. -/
theorem descends_of_inv [LinearOrder T] (cap : Nat) (h : Heap T) (t : btree) (s : Sh T)
    (hinv : TreeInv cap h t.root s) : Descends h t.root := by
  intro a ha
  have hx := reach_treeNodes cap h t s hinv a ha
  obtain ⟨c, n, hsub, _⟩ := node_inv cap h t s hinv a hx
  constructor
  · intro d hl hreach
    obtain ⟨n', k, e, hn', hmem, hlink⟩ := hl
    rw [hsub.node] at hn'
    cases hn'
    obtain ⟨cs, m, h1, h2, h3, h4⟩ := link_shape h c a n.elements hsub.rep k e d hmem hlink
    have hak : a ∉ c.kids := (List.nodup_cons.mp hsub.nodup).1
    rcases reach_kids h d a hreach cs m h1 h2 with h5 | h5
    · exact hak (h5 ▸ h3)
    · exact hak (h4 a h5)
  · intro n' hn'
    rw [hsub.node] at hn'
    cases hn'
    exact subInv_sorted cap h a c n hsub

/-- After an insertion into a tree satisfying the invariant, `find` returns the cursor that
the insertion returned. -/
theorem find_insert_spec [LinearOrder T] (h : Heap T) (t : btree) (v : T) (s : Sh T)
    (hinv : TreeInv t.maxNodeElems h t.root s) :
    ∃ h' it b, insert h t v = some (h', it, b) ∧ find h' t v = some it ∧
      deref h' it = some v := by
  obtain ⟨h', it, b, s', hins, hinv', hmem, _⟩ := insert_frame h t v s hinv
  obtain ⟨_, _, _, hins', hderef, _⟩ := insert_spec h t v s hinv
  rw [hins] at hins'
  cases hins'
  have hsim := find_after_insert t t.maxNodeElems v (h.length + 1) h t.root (h', it, b)
    (descends_of_inv _ h t s hinv) hins
  have hne : s' ≠ .E := by
    rintro rfl
    have := (hmem v).mpr (Or.inl rfl)
    simp [Sh.toList] at this
  obtain ⟨c, _, hc, _, _, _⟩ := (find_spec h' t v s' _ hinv' hne).1 ((hmem v).mpr (Or.inl rfl))
  have h1 := recursiveFind_mono_le t v h' t.root c h'.length (max h'.length (h.length + 1))
    (le_max_left _ _) hc
  have h2 := recursiveFind_mono_le t v h' t.root it (h.length + 1)
    (max h'.length (h.length + 1)) (le_max_right _ _) hsim
  have hci : c = it := Option.some.inj (h1.symm.trans h2)
  rw [hci] at hc
  exact ⟨h', it, b, hins, hc, hderef⟩

/-! ## The trees made by the operations -/

/-- A property that follows from the invariant holds of two trees built by inserts, of the
tree that the copy constructor, the copy assignment, the move constructor or the move
assignment makes from the first, and of that tree after further inserts; the root of the
source is not a node of the tree made, and a copy shares no node with the source. -/
theorem all_trees [LinearOrder T] (P : Heap T → btree → Prop)
    (hP : ∀ (h : Heap T) (t : btree) (s : Sh T), TreeInv t.maxNodeElems h t.root s → P h t)
    (capA : Nat) (vs : List T) (capB : Nat) (ws us : List T) :
    ∃ h a b, build2 capA vs capB ws = some (h, a, b) ∧ P h a ∧ P h b ∧
      (∃ r, copy_construct h a = some r) ∧ (∃ r, copy_assign h b a = some r) ∧
      (∃ r, move_construct h a = some r) ∧ (∃ r, move_assign h b a = some r) ∧
      ∀ r, copy_construct h a = some r ∨ copy_assign h b a = some r ∨
          move_construct h a = some r ∨ move_assign h b a = some r →
        P r.1 r.2 ∧ a.root ∉ treeNodes r.1 r.2 ∧
        ((copy_construct h a = some r ∨ copy_assign h b a = some r) →
          ∀ x ∈ treeNodes r.1 r.2, x ∉ treeNodes r.1 a) ∧
        ∃ h' flags, insertAll r.2 us r.1 = some (h', flags) ∧ P h' r.2 := by
  obtain ⟨h, b, sA, sB, hb, hcapB, hinvA, hinvB, _, _, hltA, _⟩ := build2_spec capA vs capB ws
  have hnodes := hinvA.nodes_lt
  have hnk : (built capA).root ∉ sA.kids := (List.nodup_cons.mp hinvA.nodup).1
  have hdn : b.root ∉ (built capA).root :: sA.kids := fun hx => Nat.lt_irrefl _ (hltA _ hx)
  obtain ⟨h1, s1, hc1, hinv1, _, hk1, _, hfr1⟩ :=
    copy_construct_spec capA h (built capA) sA hinvA
  obtain ⟨h2, s2, hc2, hinv2, _, hk2, _, hfr2⟩ :=
    copy_assign_spec capA h b (built capA) sA hinvA hinvB.root_lt hdn
  obtain ⟨h3, hc3, hinv3, _, _, _, _⟩ := move_construct_spec capA h (built capA) sA hinvA
  obtain ⟨h4, hc4, hinv4, _, _, _, _⟩ :=
    move_assign_spec capA h b (built capA) sA hinvA hinvB.root_lt hdn
  have hinvB' : TreeInv b.maxNodeElems h b.root sB := by rw [hcapB]; exact hinvB
  have after : ∀ (g : Heap T) (root : Nat) (s : Sh T), TreeInv capA g root s →
      P g ⟨capA, root⟩ ∧
        ∃ h' flags, insertAll ⟨capA, root⟩ us g = some (h', flags) ∧ P h' ⟨capA, root⟩ := by
    intro g root s hinv
    obtain ⟨h', flags, s', q1, q2, _⟩ := insertAll_spec ⟨capA, root⟩ us g s hinv
    exact ⟨hP g ⟨capA, root⟩ s hinv, h', flags, q1, hP h' ⟨capA, root⟩ s' q2⟩
  have hroot := hnodes (built capA).root (List.mem_cons_self _ _)
  have third : ∀ r, (copy_construct h (built capA) = some r ∨
      copy_assign h b (built capA) = some r) →
      ∀ x ∈ treeNodes r.1 r.2, x ∉ treeNodes r.1 (built capA) := by
    rintro ⟨g, c⟩ (hr | hr)
    · rw [hc1] at hr
      simp only [Option.some.injEq, Prod.mk.injEq] at hr
      obtain ⟨rfl, rfl⟩ := hr
      intro x hx hxa
      rw [treeNodes_eq h1 ⟨(built capA).maxNodeElems, h.length⟩ s1 capA hinv1] at hx
      rw [treeNodes_eq h1 (built capA) sA capA
        (hinvA.frame h1 (fun y hy => hfr1 y (hnodes y hy)))] at hxa
      have h5 := hnodes x hxa
      rcases List.mem_cons.mp hx with h6 | h6
      · simp only at h6; omega
      · have := hk1 x h6; omega
    · rw [hc2] at hr
      simp only [Option.some.injEq, Prod.mk.injEq] at hr
      obtain ⟨rfl, rfl⟩ := hr
      intro x hx hxa
      rw [treeNodes_eq h2 ⟨(built capA).maxNodeElems, b.root⟩ s2 capA hinv2] at hx
      rw [treeNodes_eq h2 (built capA) sA capA
        (hinvA.frame h2 (fun y hy => hfr2 y (hnodes y hy)
          (fun e => hdn (e ▸ hy))))] at hxa
      have h5 := hnodes x hxa
      rcases List.mem_cons.mp hx with h6 | h6
      · simp only at h6; exact hdn (h6 ▸ hxa)
      · have := hk2 x h6; omega
  refine ⟨h, built capA, b, hb, hP h (built capA) sA hinvA, hP h b sB hinvB', ⟨_, hc1⟩,
    ⟨_, hc2⟩, ⟨_, hc3⟩, ⟨_, hc4⟩, ?_⟩
  intro r hr
  refine ⟨?_, ?_, third r, ?_⟩
  · rcases hr with hr | hr | hr | hr
    · rw [hc1] at hr; cases hr; exact (after h1 h.length s1 hinv1).1
    · rw [hc2] at hr; cases hr; exact (after h2 b.root s2 hinv2).1
    · rw [hc3] at hr; cases hr; exact (after h3 h.length _ hinv3).1
    · rw [hc4] at hr; cases hr; exact (after h4 b.root _ hinv4).1
  · rcases hr with hr | hr | hr | hr
    · rw [hc1] at hr; cases hr
      intro hx
      rw [treeNodes_eq h1 ⟨(built capA).maxNodeElems, h.length⟩ s1 capA hinv1] at hx
      rcases List.mem_cons.mp hx with h6 | h6
      · simp only at h6; omega
      · have := hk1 _ h6; omega
    · rw [hc2] at hr; cases hr
      intro hx
      rw [treeNodes_eq h2 ⟨(built capA).maxNodeElems, b.root⟩ s2 capA hinv2] at hx
      rcases List.mem_cons.mp hx with h6 | h6
      · simp only at h6; exact hdn (by rw [← h6]; exact List.mem_cons_self _ _)
      · have := hk2 _ h6; omega
    · rw [hc3] at hr; cases hr
      intro hx
      rw [treeNodes_eq h3 ⟨(built capA).maxNodeElems, h.length⟩ _ capA hinv3,
        rehead_kids] at hx
      rcases List.mem_cons.mp hx with h6 | h6
      · simp only at h6; omega
      · exact hnk h6
    · rw [hc4] at hr; cases hr
      intro hx
      rw [treeNodes_eq h4 ⟨(built capA).maxNodeElems, b.root⟩ _ capA hinv4,
        rehead_kids] at hx
      rcases List.mem_cons.mp hx with h6 | h6
      · simp only at h6; exact hdn (by rw [← h6]; exact List.mem_cons_self _ _)
      · exact hnk h6
  · rcases hr with hr | hr | hr | hr
    · rw [hc1] at hr; cases hr; exact (after h1 h.length s1 hinv1).2
    · rw [hc2] at hr; cases hr; exact (after h2 b.root s2 hinv2).2
    · rw [hc3] at hr; cases hr; exact (after h3 h.length _ hinv3).2
    · rw [hc4] at hr; cases hr; exact (after h4 b.root _ hinv4).2

/-! ## The properties of the specification -/

/-- C1: for every capacity and every list `vs` of distinct values inserted in that order
into an empty tree, the loop from `begin()` that advances until the cursor equals `end()`
reaches `end()` after exactly `vs.length` advances (with less fuel it has not reached it),
and the values it dereferences are the inserted values in strictly ascending order, each
once. -/
theorem forward_traversal_ascending [LinearOrder T] (cap : Nat) (vs : List T)
    (hvs : vs.Nodup) :
    ∃ h flags out, build cap vs = some (h, flags) ∧
      (∀ fuel, forward_traversal h (built cap) fuel =
        if vs.length ≤ fuel then some out else none) ∧
      out.length = vs.length ∧ out.Pairwise (· < ·) ∧ out.Perm vs := by
  obtain ⟨h, flags, s, hb, hinv, _, _, hnd⟩ := build_spec cap vs
  obtain ⟨hperm, _⟩ := hnd hvs
  refine ⟨h, flags, s.toList, hb, ?_, hperm.length_eq, hinv.sorted, hperm⟩
  intro fuel
  rw [forward_traversal_exact cap h (built cap) s hinv fuel, hperm.length_eq]

/-- Capacity 2 with the inserts 5, 1, 9, 3, 7: the forward traversal yields 1 3 5 7 9. -/
theorem forward_traversal_ascending_witness :
    ([5, 1, 9, 3, 7] : List Nat).Nodup ∧
      ∃ h flags, build 2 ([5, 1, 9, 3, 7] : List Nat) = some (h, flags) ∧
        forward_traversal h (built 2) 5 = some [1, 3, 5, 7, 9] := by
  refine ⟨by decide, ?_⟩
  obtain ⟨h, flags, out, hb, htr, _, hsorted, hperm⟩ :=
    forward_traversal_ascending 2 ([5, 1, 9, 3, 7] : List Nat) (by decide)
  refine ⟨h, flags, hb, ?_⟩
  have hout : out = [1, 3, 5, 7, 9] :=
    List.eq_of_perm_of_sorted (hperm.trans (by decide)) hsorted (by decide)
  rw [← hout]
  simpa using htr 5

/-- C2: for every capacity and every list `vs` of distinct values inserted into an empty
tree, the loop from `end()` that retreats until the cursor equals `begin()` dereferences
every stored value once, in strictly descending order: the reverse of the forward
traversal sequence. -/
theorem reverse_traversal_descending [LinearOrder T] (cap : Nat) (vs : List T)
    (hvs : vs.Nodup) :
    ∃ h flags out, build cap vs = some (h, flags) ∧
      forward_traversal h (built cap) vs.length = some out ∧
      reverse_traversal h (built cap) vs.length = some out.reverse ∧
      out.reverse.Pairwise (· > ·) ∧ out.reverse.Perm vs := by
  obtain ⟨h, flags, s, hb, hinv, _, _, hnd⟩ := build_spec cap vs
  obtain ⟨hperm, _⟩ := hnd hvs
  refine ⟨h, flags, s.toList, hb, ?_, ?_, ?_, (List.reverse_perm _).trans hperm⟩
  · exact forward_traversal_spec cap h (built cap) s hinv _ (le_of_eq hperm.length_eq)
  · exact reverse_traversal_spec cap h (built cap) s hinv _ (le_of_eq hperm.length_eq)
  · exact List.pairwise_reverse.mpr hinv.sorted

/-- Capacity 2 with the inserts 5, 1, 9, 3, 7: the reverse traversal yields 9 7 5 3 1. -/
theorem reverse_traversal_descending_witness :
    ([5, 1, 9, 3, 7] : List Nat).Nodup ∧
      ∃ h flags, build 2 ([5, 1, 9, 3, 7] : List Nat) = some (h, flags) ∧
        reverse_traversal h (built 2) 5 = some [9, 7, 5, 3, 1] := by
  refine ⟨by decide, ?_⟩
  obtain ⟨h, flags, out, hb, _, hrev, hsorted, hperm⟩ :=
    reverse_traversal_descending 2 ([5, 1, 9, 3, 7] : List Nat) (by decide)
  refine ⟨h, flags, hb, ?_⟩
  have hout : out.reverse = [9, 7, 5, 3, 1] :=
    List.eq_of_perm_of_sorted (hperm.trans (by decide)) hsorted (by decide)
  rw [← hout]
  exact hrev

/-- C3: on every tree built by inserts, `insert v` returns the flag `true` exactly when `v`
is not among the values stored in the root or in any descendant node before the call;
these stored values are the values inserted so far. -/
theorem insert_flag_iff_absent [LinearOrder T] (cap : Nat) (vs : List T) (v : T) :
    ∃ h flags h' it b, build cap vs = some (h, flags) ∧
      insert h (built cap) v = some (h', it, b) ∧
      (b = true ↔ v ∉ stored h (built cap)) ∧ (∀ x, x ∈ stored h (built cap) ↔ x ∈ vs) := by
  obtain ⟨h, flags, s, hb, hinv, hmem, _, _⟩ := build_spec cap vs
  obtain ⟨h', it, b, hins, _, hcase⟩ := insert_spec h (built cap) v s hinv
  have hst := stored_eq h (built cap) s cap hinv
  refine ⟨h, flags, h', it, b, hb, hins, ?_, ?_⟩
  · rw [hst]
    rcases hcase with ⟨hf, _, hm⟩ | ⟨ht, hm, _⟩
    · simp [hf, hm]
    · simp [ht, hm]
  · intro x
    rw [hst]
    exact hmem x

/-- C4: on every tree built by inserts, `insert v` of a value already stored (at any depth)
returns `false` with a position whose element holds `v`, and the heap after the call is the
heap before it: no node is created, every node keeps its elements and child links, and the
forward traversal sequence is the same. -/
theorem reinsert_changes_nothing [LinearOrder T] (cap : Nat) (vs : List T) (v : T)
    (hv : v ∈ vs) :
    ∃ h flags h' it, build cap vs = some (h, flags) ∧
      insert h (built cap) v = some (h', it, false) ∧ deref h' it = some v ∧
      h'.length = h.length ∧ (∀ x : Nat, h'[x]? = h[x]?) ∧
      (∀ fuel, forward_traversal h' (built cap) fuel = forward_traversal h (built cap) fuel) := by
  obtain ⟨h, flags, s, hb, hinv, hmem, _, _⟩ := build_spec cap vs
  obtain ⟨h', it, b, hins, hd, hcase⟩ := insert_spec h (built cap) v s hinv
  rcases hcase with ⟨hf, rfl, _⟩ | ⟨_, hm, _⟩
  · subst hf
    exact ⟨h', flags, h', it, hb, hins, hd, rfl, fun _ => rfl, fun _ => rfl⟩
  · exact absurd ((hmem v).mpr hv) hm

/-- Capacity 1 with the inserts 2, 1, 3 (the values 1 and 3 are in child nodes): inserting
1 again changes nothing. -/
theorem reinsert_changes_nothing_witness :
    (1 : Nat) ∈ [2, 1, 3] ∧
      ∃ h flags h' it, build 1 ([2, 1, 3] : List Nat) = some (h, flags) ∧
        insert h (built 1) 1 = some (h', it, false) ∧ deref h' it = some 1 ∧
        h'.length = h.length ∧ (∀ x : Nat, h'[x]? = h[x]?) ∧
        (∀ fuel, forward_traversal h' (built 1) fuel = forward_traversal h (built 1) fuel) :=
  ⟨by decide, reinsert_changes_nothing 1 [2, 1, 3] 1 (by decide)⟩

/-- C5: on every tree built by inserts and every value `v` that has been inserted, in the
root or in a descendant node, `find v` returns a position that is not equal to `end()` and
whose dereferenced value is `v`. -/
theorem find_inserted [LinearOrder T] (cap : Nat) (vs : List T) (v : T) (hv : v ∈ vs) :
    ∃ h flags it e, build cap vs = some (h, flags) ∧ find h (built cap) v = some it ∧
      btree_end h (built cap) = some e ∧ iter_eq it e = false ∧ deref h it = some v := by
  obtain ⟨h, flags, s, hb, hinv, hmem, _, _⟩ := build_spec cap vs
  have hvs : v ∈ s.toList := (hmem v).mpr hv
  have hne : s ≠ .E := by
    rintro rfl
    simp [Sh.toList] at hvs
  obtain ⟨it, e, h1, h2, h3, h4⟩ := (find_spec h (built cap) v s cap hinv hne).1 hvs
  exact ⟨h, flags, it, e, hb, h1, h3, h4, h2⟩

/-- Capacity 40 with the inserts 10, 20, 30: `find 20` dereferences to 20. -/
theorem find_inserted_witness :
    (20 : Nat) ∈ [10, 20, 30] ∧
      ∃ h flags it e, build 40 ([10, 20, 30] : List Nat) = some (h, flags) ∧
        find h (built 40) 20 = some it ∧ btree_end h (built 40) = some e ∧
        iter_eq it e = false ∧ deref h it = some 20 :=
  ⟨by decide, find_inserted 40 [10, 20, 30] 20 (by decide)⟩

/-- C6: on every non-empty tree built by inserts and every value `v` that was never
inserted, `find v` returns the position `end()` returns: the root node with the map
position one past its last element. -/
theorem find_never_inserted [LinearOrder T] (cap : Nat) (vs : List T) (v : T)
    (hne : vs ≠ []) (hv : v ∉ vs) :
    ∃ h flags it e n, build cap vs = some (h, flags) ∧ find h (built cap) v = some it ∧
      btree_end h (built cap) = some e ∧ iter_eq it e = true ∧
      h[(built cap).root]? = some n ∧ it = ⟨(built cap).root, n.elements.length, false⟩ := by
  obtain ⟨h, flags, s, hb, hinv, hmem, _, _⟩ := build_spec cap vs
  have hvs : v ∉ s.toList := fun hx => hv ((hmem v).mp hx)
  have hsne : s ≠ .E := by
    rintro rfl
    cases vs with
    | nil => exact hne rfl
    | cons w ws =>
      have := (hmem w).mpr (List.mem_cons_self _ _)
      simp [Sh.toList] at this
  obtain ⟨e, h1, h2⟩ := (find_spec h (built cap) v s cap hinv hsne).2 hvs
  obtain ⟨n, hn, _, _⟩ := hinv.rep
  refine ⟨h, flags, e, e, n, hb, h1, h2, by simp [iter_eq], hn, ?_⟩
  have hn' : h[(built cap).root]? = some n := hn
  simp only [btree_end, hn', Option.some.injEq] at h2
  exact h2.symm

/-- Capacity 40 with the inserts 10, 20, 30: `find 99` is `end()`. -/
theorem find_never_inserted_witness :
    ([10, 20, 30] : List Nat) ≠ [] ∧ (99 : Nat) ∉ [10, 20, 30] ∧
      ∃ h flags it e n, build 40 ([10, 20, 30] : List Nat) = some (h, flags) ∧
        find h (built 40) 99 = some it ∧ btree_end h (built 40) = some e ∧
        iter_eq it e = true ∧ h[(built 40).root]? = some n ∧
        it = ⟨(built 40).root, n.elements.length, false⟩ :=
  ⟨by decide, by decide, find_never_inserted 40 [10, 20, 30] 99 (by decide) (by decide)⟩

/-- C7: for every tree `a` built by inserts (of any depth), the tree made from `a` by the
copy constructor and a tree `b` assigned from `a` by the copy assignment have the forward
traversal sequence of `a`, which `a` keeps. -/
theorem copy_same_traversal [LinearOrder T] (capA : Nat) (vs : List T) (capB : Nat)
    (ws : List T) :
    ∃ h a b out, build2 capA vs capB ws = some (h, a, b) ∧
      forward_traversal h a vs.length = some out ∧
      (∃ r, copy_construct h a = some r ∧ forward_traversal r.1 r.2 vs.length = some out ∧
        forward_traversal r.1 a vs.length = some out) ∧
      (∃ r, copy_assign h b a = some r ∧ forward_traversal r.1 r.2 vs.length = some out ∧
        forward_traversal r.1 a vs.length = some out) := by
  obtain ⟨h, b, sA, sB, hb, _, hinvA, hinvB, hmemA, _, hltA, _⟩ := build2_spec capA vs capB ws
  have hmem : ∀ x, x ∈ sA.toList → x ∈ vs := fun x hx => (hmemA x).mp hx
  have hnodes := hinvA.nodes_lt
  obtain ⟨h1, s1, hc1, hinv1, hss1, _, _, hfr1⟩ := copy_construct_spec capA h (built capA) sA hinvA
  obtain ⟨h2, s2, hc2, hinv2, hss2, _, _, hfr2⟩ := copy_assign_spec capA h b (built capA) sA hinvA
    hinvB.root_lt (fun hx => by have := hltA _ hx; omega)
  refine ⟨h, built capA, b, sA.toList, hb, traversal_of_inv capA h _ sA vs hinvA hmem,
    ⟨_, hc1, ?_, ?_⟩, ⟨_, hc2, ?_, ?_⟩⟩
  · rw [← sameShape_toList sA s1 hss1]
    exact traversal_of_inv capA h1 ⟨_, _⟩ s1 vs hinv1
      (by rw [sameShape_toList sA s1 hss1]; exact hmem)
  · exact traversal_of_inv capA h1 _ sA vs
      (hinvA.frame h1 (fun x hx => hfr1 x (hnodes x hx))) hmem
  · rw [← sameShape_toList sA s2 hss2]
    exact traversal_of_inv capA h2 ⟨_, _⟩ s2 vs hinv2
      (by rw [sameShape_toList sA s2 hss2]; exact hmem)
  · exact traversal_of_inv capA h2 _ sA vs
      (hinvA.frame h2 (fun x hx => hfr2 x (hnodes x hx)
        (fun e => by have := hltA x hx; omega))) hmem

/-- C8: after the copy constructor or the copy assignment made `b` from `a`, the two trees
have no node in common and every descendant of `b` was allocated by the copy; inserting
any value into `b` leaves the nodes and the forward traversal of `a` as they were, and
inserting any value into `a` leaves those of `b` as they were. -/
theorem copy_shares_no_node [LinearOrder T] (capA : Nat) (vs : List T) (capB : Nat)
    (ws : List T) (v : T) :
    ∃ h a b out, build2 capA vs capB ws = some (h, a, b) ∧
      forward_traversal h a vs.length = some out ∧
      (∃ r, copy_construct h a = some r) ∧ (∃ r, copy_assign h b a = some r) ∧
      ∀ r, copy_construct h a = some r ∨ copy_assign h b a = some r →
        (∀ x ∈ treeNodes r.1 r.2, x ∉ treeNodes r.1 a) ∧
        (∀ x ∈ nodesFrom r.1.length r.1 r.2.root, h.length ≤ x) ∧
        (∃ h' it f, insert r.1 r.2 v = some (h', it, f) ∧
          (∀ x ∈ treeNodes r.1 a, h'[x]? = r.1[x]?) ∧ treeNodes h' a = treeNodes r.1 a ∧
          forward_traversal h' a vs.length = some out) ∧
        (∃ h' it f, insert r.1 a v = some (h', it, f) ∧
          (∀ x ∈ treeNodes r.1 r.2, h'[x]? = r.1[x]?) ∧
          treeNodes h' r.2 = treeNodes r.1 r.2 ∧
          forward_traversal h' r.2 vs.length = some out) := by
  obtain ⟨h, b, sA, sB, hb, _, hinvA, hinvB, hmemA, _, hltA, _⟩ := build2_spec capA vs capB ws
  have hmem : ∀ x, x ∈ sA.toList → x ∈ vs := fun x hx => (hmemA x).mp hx
  have hnodes := hinvA.nodes_lt
  have hbl := hinvB.root_lt
  obtain ⟨h1, s1, hc1, hinv1, hss1, hk1, _, hfr1⟩ :=
    copy_construct_spec capA h (built capA) sA hinvA
  obtain ⟨h2, s2, hc2, hinv2, hss2, hk2, _, hfr2⟩ := copy_assign_spec capA h b (built capA) sA
    hinvA hbl (fun hx => by have := hltA _ hx; omega)
  refine ⟨h, built capA, b, sA.toList, hb, traversal_of_inv capA h _ sA vs hinvA hmem,
    ⟨_, hc1⟩, ⟨_, hc2⟩, ?_⟩
  rintro ⟨g, c⟩ (hr | hr)
  · rw [hc1] at hr
    simp only [Option.some.injEq, Prod.mk.injEq] at hr
    obtain ⟨rfl, rfl⟩ := hr
    exact copy_post h1 (built capA) _ sA s1 vs v h.length
      (hinvA.frame h1 (fun x hx => hfr1 x (hnodes x hx))) hinv1 hss1
      (fun x hx => le_of_lt (hk1 x hx)) hnodes
      (fun hx => by have := hnodes _ hx; simp at this) hmem
  · rw [hc2] at hr
    simp only [Option.some.injEq, Prod.mk.injEq] at hr
    obtain ⟨rfl, rfl⟩ := hr
    exact copy_post h2 (built capA) _ sA s2 vs v h.length
      (hinvA.frame h2 (fun x hx => hfr2 x (hnodes x hx)
        (fun e => by have := hltA x hx; omega))) hinv2 hss2 hk2 hnodes
      (fun hx => by have := hltA _ hx; simp at this) hmem

/-- C9: for every tree `s` built by inserts, the tree made from `s` by the move constructor
and a tree `d` assigned from `s` by the move assignment have the forward traversal
sequence that `s` had before the move. -/
theorem move_same_traversal [LinearOrder T] (capS : Nat) (vs : List T) (capD : Nat)
    (ws : List T) :
    ∃ h s d out, build2 capS vs capD ws = some (h, s, d) ∧
      forward_traversal h s vs.length = some out ∧
      (∃ r, move_construct h s = some r ∧ forward_traversal r.1 r.2 vs.length = some out) ∧
      (∃ r, move_assign h d s = some r ∧ forward_traversal r.1 r.2 vs.length = some out) := by
  obtain ⟨h, b, sA, sB, hb, _, hinvA, hinvB, hmemA, _, hltA, _⟩ := build2_spec capS vs capD ws
  have hmem : ∀ x, x ∈ sA.toList → x ∈ vs := fun x hx => (hmemA x).mp hx
  obtain ⟨h1, hc1, hinv1, _⟩ := move_construct_spec capS h (built capS) sA hinvA
  obtain ⟨h2, hc2, hinv2, _⟩ := move_assign_spec capS h b (built capS) sA hinvA
    hinvB.root_lt (fun hx => by have := hltA _ hx; omega)
  refine ⟨h, built capS, b, sA.toList, hb, traversal_of_inv capS h _ sA vs hinvA hmem,
    ⟨_, hc1, ?_⟩, ⟨_, hc2, ?_⟩⟩
  · rw [← rehead_toList h.length sA]
    exact traversal_of_inv capS h1 ⟨_, _⟩ _ vs hinv1 (by rw [rehead_toList]; exact hmem)
  · rw [← rehead_toList b.root sA]
    exact traversal_of_inv capS h2 ⟨_, _⟩ _ vs hinv2 (by rw [rehead_toList]; exact hmem)

/-- C10: after the move constructor or the move assignment moved `s` into `d`, the root of
`s` holds no element (hence no child link) and `s.begin() == s.end()`; the only node `s`
reaches is its own root, which is not a node of `d`; and any further sequence of inserts
into `s` returns the flags and yields the forward traversal that the same inserts give on
a freshly constructed tree of the same capacity, while the nodes and the forward traversal
of `d` stay as they were. -/
theorem moved_from_is_fresh [LinearOrder T] (capS : Nat) (vs : List T) (capD : Nat)
    (ws us : List T) :
    ∃ h s d, build2 capS vs capD ws = some (h, s, d) ∧
      (∃ r, move_construct h s = some r) ∧ (∃ r, move_assign h d s = some r) ∧
      ∀ r, move_construct h s = some r ∨ move_assign h d s = some r →
        r.1[s.root]? = some ⟨none, []⟩ ∧
        (∃ p q, btree_begin r.1 s = some p ∧ btree_end r.1 s = some q ∧ iter_eq p q = true) ∧
        treeNodes r.1 s = [s.root] ∧ s.root ∉ treeNodes r.1 r.2 ∧
        ∃ h' flags hf out outD, insertAll s us r.1 = some (h', flags) ∧
          build capS us = some (hf, flags) ∧
          forward_traversal h' s us.length = some out ∧
          forward_traversal hf (built capS) us.length = some out ∧
          (∀ x ∈ treeNodes r.1 r.2, h'[x]? = r.1[x]?) ∧
          forward_traversal r.1 r.2 vs.length = some outD ∧
          forward_traversal h' r.2 vs.length = some outD := by
  obtain ⟨h, b, sA, sB, hb, _, hinvA, hinvB, hmemA, _, hltA, _⟩ := build2_spec capS vs capD ws
  have hmem : ∀ x, x ∈ sA.toList → x ∈ vs := fun x hx => (hmemA x).mp hx
  have hnodes := hinvA.nodes_lt
  have hnk : (built capS).root ∉ sA.kids := (List.nodup_cons.mp hinvA.nodup).1
  obtain ⟨h1, hc1, hinv1, hE1, _, hroot1, _⟩ := move_construct_spec capS h (built capS) sA hinvA
  obtain ⟨h2, hc2, hinv2, hE2, _, hroot2, _⟩ := move_assign_spec capS h b (built capS) sA hinvA
    hinvB.root_lt (fun hx => by have := hltA _ hx; omega)
  refine ⟨h, built capS, b, hb, ⟨_, hc1⟩, ⟨_, hc2⟩, ?_⟩
  rintro ⟨g, c⟩ (hr | hr)
  · rw [hc1] at hr
    simp only [Option.some.injEq, Prod.mk.injEq] at hr
    obtain ⟨rfl, rfl⟩ := hr
    obtain ⟨a1, a2, a3, a4, h', flags, hf, out, a5⟩ := move_post h1 (built capS)
      ⟨(built capS).maxNodeElems, h.length⟩ (sA.rehead h.length) vs us hE1 hroot1 hinv1
      (by
        rw [rehead_kids]
        intro hx
        rcases List.mem_cons.mp hx with hx | hx
        · have := hnodes _ (List.mem_cons_self _ _)
          simp only at hx
          omega
        · exact hnk hx)
      (by rw [rehead_toList]; exact hmem)
    exact ⟨a1, a2, a3, a4, h', flags, hf, out, _, a5⟩
  · rw [hc2] at hr
    simp only [Option.some.injEq, Prod.mk.injEq] at hr
    obtain ⟨rfl, rfl⟩ := hr
    obtain ⟨a1, a2, a3, a4, h', flags, hf, out, a5⟩ := move_post h2 (built capS)
      ⟨(built capS).maxNodeElems, b.root⟩ (sA.rehead b.root) vs us hE2 hroot2 hinv2
      (by
        rw [rehead_kids]
        intro hx
        rcases List.mem_cons.mp hx with hx | hx
        · have := hltA _ (List.mem_cons_self _ _)
          simp only at hx
          omega
        · exact hnk hx)
      (by rw [rehead_toList]; exact hmem)
    exact ⟨a1, a2, a3, a4, h', flags, hf, out, _, a5⟩

/-- C11: on every tree built by inserts, the copy assignment of the tree to itself leaves
the tree with the same capacity and root, the same node structure (the same elements in
every node and the same shape of links) and the same forward traversal sequence.  The
outline compares elements and shape, not addresses: the descendants of the root are
re-created by the assignment. -/
theorem copy_assign_self_keeps [LinearOrder T] (cap : Nat) (vs : List T) :
    ∃ h flags h' t', build cap vs = some (h, flags) ∧
      copy_assign h (built cap) (built cap) = some (h', t') ∧ t' = built cap ∧
      outline h' t' = outline h (built cap) ∧
      (∀ fuel, forward_traversal h' t' fuel = forward_traversal h (built cap) fuel) := by
  obtain ⟨h, flags, s, hb, hinv, _, _, _⟩ := build_spec cap vs
  obtain ⟨h', s', hc, hinv', hss, _, _⟩ := copy_assign_self_spec cap h (built cap) s hinv
  refine ⟨h, flags, h', built cap, hb, hc, rfl, ?_, ?_⟩
  · rw [outline_eq h' (built cap) s' cap hinv', outline_eq h (built cap) s cap hinv]
    exact sameShape_marks s s' hss
  · intro fuel
    rw [forward_traversal_exact cap h' (built cap) s' hinv' fuel,
      forward_traversal_exact cap h (built cap) s hinv fuel, sameShape_toList s s' hss]

/-- C12: in every tree reached from the empty tree by a sequence of inserts, repeated
values included, the values of the elements of all nodes are pairwise different; they are
the values inserted. -/
theorem stored_values_unique [LinearOrder T] (cap : Nat) (vs : List T) :
    ∃ h flags, build cap vs = some (h, flags) ∧ (stored h (built cap)).Nodup ∧
      (∀ x, x ∈ stored h (built cap) ↔ x ∈ vs) := by
  obtain ⟨h, flags, s, hb, hinv, hmem, _, _⟩ := build_spec cap vs
  have hst := stored_eq h (built cap) s cap hinv
  refine ⟨h, flags, hb, ?_, ?_⟩
  · rw [hst]
    exact hinv.sorted.imp (fun hlt => ne_of_lt hlt)
  · intro x
    rw [hst]
    exact hmem x

/-- C13: for every capacity of at least one and every sequence of inserts into an empty
tree, every node of the tree, the root and every descendant, holds at most `cap` elements
afterwards. -/
theorem node_sizes_within_capacity [LinearOrder T] (cap : Nat) (vs : List T)
    (hcap : 1 ≤ cap) :
    ∃ h flags, build cap vs = some (h, flags) ∧
      ∀ x ∈ treeNodes h (built cap), ∃ n, h[x]? = some n ∧ n.elements.length ≤ cap := by
  obtain ⟨h, flags, s, hb, hinv, _, _, _⟩ := build_spec cap vs
  have hsizes := insertAll_sizes (built cap) hcap vs (construct cap ([] : Heap T)).1 (h, flags)
    (by
      intro n hn
      simp only [construct, List.nil_append, List.mem_singleton] at hn
      subst hn
      simp)
    hb
  refine ⟨h, flags, hb, ?_⟩
  intro x hx
  rw [treeNodes_eq h (built cap) s cap hinv] at hx
  have hlt := hinv.nodes_lt x hx
  exact ⟨h.get ⟨x, hlt⟩, List.getElem?_eq_getElem hlt, hsizes _ (List.get_mem h x hlt)⟩

/-- Capacity 2 with the inserts 5, 1, 9, 3, 7, 4, 8: no node holds more than two
elements. -/
theorem node_sizes_within_capacity_witness :
    1 ≤ 2 ∧ ∃ h flags, build 2 ([5, 1, 9, 3, 7, 4, 8] : List Nat) = some (h, flags) ∧
      ∀ x ∈ treeNodes h (built 2), ∃ n, h[x]? = some n ∧ n.elements.length ≤ 2 :=
  ⟨by decide, node_sizes_within_capacity 2 [5, 1, 9, 3, 7, 4, 8] (by decide)⟩

/-- The constructor accepts the capacity 0, and the tree it makes takes the inserts 5, 1, 9
and is traversed in ascending order. -/
theorem capacity_zero_not_rejected :
    construct 0 ([] : Heap Nat) = ([Node.mk none []], ⟨0, 0⟩) ∧
      ((build 0 ([5, 1, 9] : List Nat)).bind fun r => forward_traversal r.1 (built 0) 3) =
        some [1, 5, 9] :=
  ⟨rfl, by decide!⟩

/-- C14, amended: the constructor has no failure path: for every capacity, 0 included, it
allocates an empty root and returns the tree; and a tree of capacity 0 is usable: every
sequence of inserts into it succeeds with the heap and the flags that the same inserts give
on a tree of capacity 1. -/
theorem capacity_zero_as_one [LinearOrder T] (vs : List T) :
    (∀ (cap : Nat) (h : Heap T),
        construct cap h = (h ++ [Node.mk none []], ⟨cap, h.length⟩)) ∧
      ∃ h flags, build 0 vs = some (h, flags) ∧ build 1 vs = some (h, flags) := by
  refine ⟨fun _ _ => rfl, ?_⟩
  obtain ⟨h, flags, s, hb, _⟩ := build_spec 1 vs
  exact ⟨h, flags, by rw [build_zero_one]; exact hb, hb⟩

/-- C15: in every tree built by inserts, in every node the keys are strictly ascending, the
values stored under the lower child of an element are less than the element and greater
than the elements before it in the node, and the values stored under the upper child of an
element (only the last element has one) are greater than the element and less than the
elements after it. -/
theorem search_tree_ordering [LinearOrder T] (cap : Nat) (vs : List T) :
    ∃ h flags, build cap vs = some (h, flags) ∧
      ∀ x ∈ treeNodes h (built cap), ∃ n, h[x]? = some n ∧
        (n.elements.map Prod.fst).Pairwise (· < ·) ∧
        ∀ (i : Nat) (k : T) (e : Element T), n.elements[i]? = some (k, e) →
          (∀ v ∈ belowLink (valuesFrom h.length h) e.leftChild, v < k ∧
            ∀ (j : Nat) (k' : T) (e' : Element T), j < i →
              n.elements[j]? = some (k', e') → k' < v) ∧
          (∀ v ∈ belowLink (valuesFrom h.length h) e.rightChild, k < v ∧
            ∀ (j : Nat) (k' : T) (e' : Element T), i < j →
              n.elements[j]? = some (k', e') → v < k') := by
  obtain ⟨h, flags, s, hb, hinv, _, _, _⟩ := build_spec cap vs
  refine ⟨h, flags, hb, ?_⟩
  intro x hx
  obtain ⟨c, n, hn, hrep, hsorted, hheight⟩ := node_shape cap h (built cap) s hinv x hx
  refine ⟨n, hn, ?_, ?_⟩
  · rw [rep_keys h c x n.elements hrep]
    exact hsorted.sublist (keys_sublist c)
  · intro i k e hi
    obtain ⟨_, hlo, hup⟩ := cell_order h h.length c x n.elements hrep hsorted (by omega) i k e hi
    exact ⟨fun v hv => ⟨(hlo v hv).2.1, (hlo v hv).2.2⟩,
      fun v hv => ⟨(hup v hv).2.1, (hup v hv).2.2⟩⟩

/-- C16: for every tree built by at least one insert, the values written by `operator<<`
are the level-order listing from the root (FIFO visits, each node listing its values in
ascending order and enqueuing lower then upper children); they are a permutation of the
forward traversal sequence, and they are the values of the nodes at depth 0, then those at
depth 1, and so on. -/
theorem display_level_order [LinearOrder T] (cap : Nat) (v : T) (vs : List T) :
    ∃ h flags toks out, build cap (v :: vs) = some (h, flags) ∧
      operator_output h (built cap) = some toks ∧
      forward_traversal h (built cap) (v :: vs).length = some out ∧
      tokenValues toks = levelOrder h.length h [(built cap).root] ∧
      (tokenValues toks).Perm out ∧
      tokenValues toks = valuesByDepth h (built cap) 0 h.length := by
  obtain ⟨h, flags, s, hb, hinv, hmem, _, _⟩ := build_spec cap (v :: vs)
  have hne : s ≠ .E := by
    rintro rfl
    have := (hmem v).mpr (List.mem_cons_self _ _)
    simp [Sh.toList] at this
  obtain ⟨last, toks, h1, _, h3, h4, h5⟩ := operator_output_spec cap h (built cap) s hinv hne
  exact ⟨h, flags, toks, s.toList, hb, h1,
    traversal_of_inv cap h (built cap) s (v :: vs) hinv (fun x hx => (hmem x).mp hx), h3, h4, h5⟩

/-- C17: capacity 1 with the inserts 5, 9, 3, 1: the deepest node holds 1 and is displayed
after the node holding the greatest value 9; `operator<<` writes no space after 9 and a
space after 1, where the values joined by single spaces have a space after 9 and none
after 1. -/
theorem display_spacing_diverges :
    ((build 1 ([5, 9, 3, 1] : List Nat)).bind fun r => operator_output r.1 (built 1)) =
        some [Token.value 5, Token.space, Token.value 3, Token.space, Token.value 9,
          Token.value 1, Token.space] ∧
      spaced ([5, 3, 9, 1] : List Nat) =
        [Token.value 5, Token.space, Token.value 3, Token.space, Token.value 9,
          Token.space, Token.value 1] :=
  ⟨by decide!, by decide!⟩

/-- C18: capacity 1 with the inserts 5, 3, 7, 8 (forward traversal 3 5 7 8): the cursor
reached from `begin()` by one advance is at the value 5; advancing it once and retreating
once yields a cursor at the value 8, which does not compare equal to the original. -/
theorem advance_then_retreat_diverges :
    ((build 1 ([5, 3, 7, 8] : List Nat)).bind fun r =>
        forward_traversal r.1 (built 1) 4) = some [3, 5, 7, 8] ∧
      ((build 1 ([5, 3, 7, 8] : List Nat)).bind fun r =>
        (cursor_at r.1 (built 1) 1).bind fun p =>
          (increment r.1 p).bind fun q =>
            (decrement r.1 q).map fun z => (deref r.1 p, deref r.1 q, deref r.1 z, iter_eq z p)) =
        some (some 5, some 7, some 8, false) :=
  ⟨by decide!, by decide!⟩

/-- C19: capacity 1 with the inserts 5, 3, 7, 8 (forward traversal 3 5 7 8): the cursor
reached from `begin()` by two advances is at the value 7; retreating it once yields a
cursor at the value 8 and advancing that once yields a cursor equal to `end()`, which does
not compare equal to the original. -/
theorem retreat_then_advance_diverges :
    ((build 1 ([5, 3, 7, 8] : List Nat)).bind fun r =>
        (cursor_at r.1 (built 1) 2).bind fun p =>
          (decrement r.1 p).bind fun q =>
            (increment r.1 q).bind fun z =>
              (btree_end r.1 (built 1)).map fun e =>
                (deref r.1 p, deref r.1 q, iter_eq z e, iter_eq z p)) =
      some (some 7, some 8, true, false) := by
  decide!

/-- C20: capacity 1 with the inserts 5, 7: the cursor reached from `begin()` by two
advances compares equal to `end()`; one retreat of it yields a cursor at the value 5, not
at the greatest value 7, which one retreat of the cursor returned by `end()` reaches. -/
theorem retreat_from_reached_end_diverges :
    ((build 1 ([5, 7] : List Nat)).bind fun r =>
        (cursor_at r.1 (built 1) 2).bind fun c =>
          (btree_end r.1 (built 1)).bind fun e =>
            (decrement r.1 c).bind fun z =>
              (decrement r.1 e).map fun w =>
                (iter_eq c e, deref r.1 z, deref r.1 w)) =
      some (true, some 5, some 7) := by
  decide!

/-- C21: a tree holding the single value `x` (any capacity): every cursor that compares
equal to `end()` retreats to a cursor at slot 0 of the root, which is positioned at `x`, and
a further retreat is defined and yields a cursor at the same slot, still positioned at
`x`. -/
theorem single_element_retreat [LinearOrder T] (cap : Nat) (x : T) :
    ∃ h e, build cap [x] = some (h, [true]) ∧ btree_end h (built cap) = some e ∧
      ∀ c, iter_eq c e = true →
        ∃ p q, decrement h c = some p ∧ deref h p = some x ∧ p.node = 0 ∧ p.it = 0 ∧
          decrement h p = some q ∧ deref h q = some x ∧ q.node = 0 ∧ q.it = 0 := by
  refine ⟨_, ⟨0, 1, false⟩, build_single cap x, (single_retreat cap x).1, ?_⟩
  rintro ⟨cn, ci, cd⟩ hc
  simp only [iter_eq, Bool.and_eq_true, beq_iff_eq] at hc
  obtain ⟨rfl, rfl⟩ := hc
  cases cd
  · exact ⟨⟨0, 0, false⟩, ⟨0, 0, false⟩, by simp [decrement], by simp [deref], rfl, rfl,
      by simp [decrement, decrement_from], by simp [deref], rfl, rfl⟩
  · exact ⟨⟨0, 0, true⟩, ⟨0, 0, false⟩, by simp [decrement], by simp [deref], rfl, rfl,
      by simp [decrement, decrement_from], by simp [deref], rfl, rfl⟩

/-- C22 (the code diverges): on a freshly constructed tree, of any capacity, the search for
any value finds `lower_bound` equal to `end()` of the empty root and steps back from it,
which is undefined; no cursor is returned, by `find` and by its const overload, whatever
the fuel. -/
theorem find_on_fresh_tree_undefined [LinearOrder T] (cap : Nat) (v : T) (fuel : Nat) :
    find (construct cap ([] : Heap T)).1 (construct cap ([] : Heap T)).2 v = none ∧
      const_find (construct cap ([] : Heap T)).1 (construct cap ([] : Heap T)).2 v = none ∧
      recursiveFind (construct cap ([] : Heap T)).2 v fuel (construct cap ([] : Heap T)).1
        (construct cap ([] : Heap T)).2.root = none ∧
      btree_end (construct cap ([] : Heap T)).1 (construct cap ([] : Heap T)).2 =
        some ⟨0, 0, false⟩ := by
  refine ⟨find_on_empty cap v, ?_, ?_, ?_⟩
  · simp [const_find, construct, const_recursiveFind, lower_bound]
  · cases fuel with
    | zero => rfl
    | succ f => simp [construct, recursiveFind, lower_bound]
  · simp [btree_end, construct]

/-- Two trees of capacities 2 and 3: after the copy assignment of the first to the second,
and after the move assignment, the second has the capacity 2. -/
theorem assignment_changes_capacity :
    ((build2 2 ([5, 1, 9] : List Nat) 3 [4, 6]).bind fun r =>
        (copy_assign r.1 r.2.2 r.2.1).map fun q => (r.2.2.maxNodeElems, q.2.maxNodeElems)) =
        some (3, 2) ∧
      ((build2 2 ([5, 1, 9] : List Nat) 3 [4, 6]).bind fun r =>
        (move_assign r.1 r.2.2 r.2.1).map fun q => (r.2.2.maxNodeElems, q.2.maxNodeElems)) =
        some (3, 2) :=
  ⟨by decide!, by decide!⟩

/-- C23, amended: `insert` and `find` take the tree and return no tree, so they leave the
capacity as it is; the copy assignment and the move assignment from another tree succeed
and give the assigned tree the capacity of the right-hand side (and leave its root where it
was), for every two trees built by inserts. -/
theorem assignment_takes_capacity [LinearOrder T] (capA : Nat) (vs : List T) (capB : Nat)
    (ws : List T) :
    ∃ h b hc hm, build2 capA vs capB ws = some (h, built capA, b) ∧ b.maxNodeElems = capB ∧
      copy_assign h b (built capA) = some (hc, ⟨capA, b.root⟩) ∧
      move_assign h b (built capA) = some (hm, ⟨capA, b.root⟩) := by
  obtain ⟨h, b, sA, sB, hb, hcap, hA, hB, _, _, hlt, _⟩ := build2_spec capA vs capB ws
  have hdn : b.root ∉ (built capA).root :: sA.kids := fun hx => Nat.lt_irrefl _ (hlt _ hx)
  obtain ⟨hc, _, h1, _⟩ := copy_assign_spec capA h b (built capA) sA hA hB.root_lt hdn
  obtain ⟨hm, h2, _⟩ := move_assign_spec capA h b (built capA) sA hA hB.root_lt hdn
  exact ⟨h, b, hc, hm, hb, hcap, h1, h2⟩

/-- C24: for every tree built by inserts, `begin()` compares equal to `end()` exactly when
no value was inserted, the root holds no element exactly when no value was inserted, and
the root holds no element exactly when the tree stores no value at all. -/
theorem empty_iff_root_empty [LinearOrder T] (cap : Nat) (vs : List T) :
    ∃ h flags b e n, build cap vs = some (h, flags) ∧ btree_begin h (built cap) = some b ∧
      btree_end h (built cap) = some e ∧ h[(built cap).root]? = some n ∧
      (iter_eq b e = true ↔ vs = []) ∧ (n.elements = [] ↔ vs = []) ∧
      (n.elements = [] ↔ stored h (built cap) = []) := by
  obtain ⟨h, flags, s, hb, hinv, hmem, _, _⟩ := build_spec cap vs
  obtain ⟨b, e, n, h1, h2, h3, h4, h5⟩ := begin_end_spec cap h (built cap) s hinv
  have hnil : s.toList = [] ↔ vs = [] := by
    rw [List.eq_nil_iff_forall_not_mem, List.eq_nil_iff_forall_not_mem]
    exact forall_congr' fun x => not_congr (hmem x)
  refine ⟨h, flags, b, e, n, hb, h1, h2, h3, h4.trans hnil, h5.trans hnil, ?_⟩
  rw [stored_eq h (built cap) s cap hinv]
  exact h5

/-- C25: on every heap and tree, the const overload of `find` and the non-const `find`
return a cursor in the same cases, at the same node and slot, and `end() const` and `end()`
are the same position; on every tree built from at least one insert both return a cursor,
and the two cursors compare equal to the respective `end()` in the same cases. -/
theorem const_find_same_position [LinearOrder T] (h0 : Heap T) (t : btree) (cap : Nat) (x : T)
    (vs : List T) (v : T) :
    (const_find h0 t v).map (fun c => (c.node, c.it)) =
        (find h0 t v).map (fun c => (c.node, c.it)) ∧
      (const_end h0 t).map (fun c => (c.node, c.it)) =
        (btree_end h0 t).map (fun c => (c.node, c.it)) ∧
      ∃ h flags c c' e e', build cap (x :: vs) = some (h, flags) ∧
        find h (built cap) v = some c ∧ const_find h (built cap) v = some c' ∧
        btree_end h (built cap) = some e ∧ const_end h (built cap) = some e' ∧
        c'.node = c.node ∧ c'.it = c.it ∧ const_iter_eq c' e' = iter_eq c e := by
  have hend : ∀ (h : Heap T) (t : btree), (const_end h t).map (fun c => (c.node, c.it)) =
      (btree_end h t).map (fun c => (c.node, c.it)) := by
    intro h t
    simp only [const_end, btree_end]
    cases h[t.root]? <;> rfl
  refine ⟨const_recursiveFind_eq t v h0 h0.length t.root, hend h0 t, ?_⟩
  obtain ⟨h, flags, s, hb, hinv, hmem, _, _⟩ := build_spec cap (x :: vs)
  have hne : s ≠ .E := by
    rintro rfl
    have := (hmem x).mpr (List.mem_cons_self _ _)
    simp [Sh.toList] at this
  obtain ⟨hin, hout⟩ := find_spec h (built cap) v s cap hinv hne
  have hfind : ∃ c e, find h (built cap) v = some c ∧ btree_end h (built cap) = some e := by
    by_cases hv : v ∈ s.toList
    · obtain ⟨it, e, q1, _, q3, _⟩ := hin hv
      exact ⟨it, e, q1, q3⟩
    · obtain ⟨e, q1, q2⟩ := hout hv
      exact ⟨e, e, q1, q2⟩
  obtain ⟨c, e, hc, he⟩ := hfind
  have h1 := const_recursiveFind_eq (built cap) v h h.length (built cap).root
  have h2 := hend h (built cap)
  rw [show recursiveFind (built cap) v h.length h (built cap).root = find h (built cap) v
    from rfl, hc] at h1
  rw [he] at h2
  cases hc' : const_find h (built cap) v with
  | none =>
    rw [show const_recursiveFind (built cap) v h.length h (built cap).root =
      const_find h (built cap) v from rfl, hc'] at h1
    cases h1
  | some c' =>
    rw [show const_recursiveFind (built cap) v h.length h (built cap).root =
      const_find h (built cap) v from rfl, hc'] at h1
    cases he' : const_end h (built cap) with
    | none => rw [he'] at h2; cases h2
    | some e' =>
      rw [he'] at h2
      simp only [Option.map_some', Option.some.injEq, Prod.mk.injEq] at h1 h2
      refine ⟨h, flags, c, c', e, e', hb, hc, hc', he, he', h1.1, h1.2, ?_⟩
      simp only [const_iter_eq, iter_eq, h1.1, h1.2, h2.1, h2.2]

/-- C26 (the code diverges): capacity 1 with the inserts 5, 3, 7 (forward traversal
3 5 7): the cursor returned by `find 5` is at the value 5, whose element has a lower child;
advancing it once yields a cursor at the value 3, where the least stored value greater than
5 is 7. -/
theorem find_then_advance_diverges :
    ((build 1 ([5, 3, 7] : List Nat)).bind fun r =>
        forward_traversal r.1 (built 1) 3) = some [3, 5, 7] ∧
      ((build 1 ([5, 3, 7] : List Nat)).bind fun r =>
        (find r.1 (built 1) 5).bind fun c =>
          (increment r.1 c).map fun d => (deref r.1 c, c.didTraverse, deref r.1 d)) =
        some (some 5, false, some 3) :=
  ⟨by decide!, by decide!⟩

/-- C27: in every tree built by inserts, for every absent value `v` and every full node `x`
of the tree: when the last element of `x` is less than `v`, the call of `recursiveInsert`
for `v` on `x` goes through the upper child link of that last element, and when `v` is less
than the element in slot `i` and greater than the elements before it, the call goes through
the lower child link of that element.  Going through a link that designates the node `c`
means that the call is the call on `c`, which returns, reports an insertion, and leaves `v`
among the values stored in the subtree of `c`; going through a null link means that the call
puts a new node into the link, with `x` as its parent and `v` as its sole element. -/
theorem full_node_routing [LinearOrder T] (cap : Nat) (vs : List T) (v : T) (hv : v ∉ vs) :
    ∃ h flags, build cap vs = some (h, flags) ∧
      ∀ x ∈ treeNodes h (built cap), ∃ n, h[x]? = some n ∧
        ∀ (i : Nat) (k : T) (e : Element T), n.elements[i]? = some (k, e) →
          cap ≤ n.elements.length →
          ((i + 1 = n.elements.length ∧ k < v) →
            Routed cap v h x e.rightChild
              ⟨n.parent, setRight n.elements i (some h.length)⟩) ∧
          ((v < k ∧ ∀ (j : Nat) (k' : T) (e' : Element T), j < i →
              n.elements[j]? = some (k', e') → k' < v) →
            Routed cap v h x e.leftChild
              ⟨n.parent, setLeft n.elements i (some h.length)⟩) := by
  obtain ⟨h, flags, s, hb, hinv, hmem, _, _⟩ := build_spec cap vs
  refine ⟨h, flags, hb, ?_⟩
  intro x hx
  obtain ⟨c, n, hsub, hsl⟩ := node_inv cap h (built cap) s hinv x hx
  refine ⟨n, hsub.node, ?_⟩
  intro i k e hi hfull
  exact route_node cap v h x c n hsub (fun hm => hv ((hmem v).mp (hsl.subset hm))) hfull i k e hi

/-- Capacity 1 with the inserts 5, 3, 7 and the absent value 8. -/
theorem full_node_routing_witness :
    8 ∉ ([5, 3, 7] : List Nat) ∧
      ∃ h flags, build 1 ([5, 3, 7] : List Nat) = some (h, flags) ∧
        ∀ x ∈ treeNodes h (built 1), ∃ n, h[x]? = some n ∧
          ∀ (i : Nat) (k : Nat) (e : Element Nat), n.elements[i]? = some (k, e) →
            1 ≤ n.elements.length →
            ((i + 1 = n.elements.length ∧ k < 8) →
              Routed 1 8 h x e.rightChild
                ⟨n.parent, setRight n.elements i (some h.length)⟩) ∧
            ((8 < k ∧ ∀ (j : Nat) (k' : Nat) (e' : Element Nat), j < i →
                n.elements[j]? = some (k', e') → k' < 8) →
              Routed 1 8 h x e.leftChild
                ⟨n.parent, setLeft n.elements i (some h.length)⟩) :=
  ⟨by decide, full_node_routing 1 [5, 3, 7] 8 (by decide)⟩

/-- C28: in every tree built by inserts of distinct values, the first `min n cap` of the
`n` values are keys of the root, and when `n ≤ cap` the root is the only node and holds
exactly the values; and when the root holds fewer than `cap` elements, the insertion of an
absent value `v` returns `true` with a cursor at the slot `i` of the root, and changes the
heap only in that the root gets `v`, without children, at slot `i` between its elements:
no node is created. -/
theorem spare_capacity_insert_direct [LinearOrder T] (cap : Nat) (vs : List T) (v : T)
    (hnd : vs.Nodup) (hv : v ∉ vs) :
    ∃ h flags n, build cap vs = some (h, flags) ∧ h[0]? = some n ∧
      (∀ x ∈ vs.take cap, x ∈ n.elements.map Prod.fst) ∧
      (vs.length ≤ cap → h.length = 1 ∧ (n.elements.map Prod.fst).Perm vs) ∧
      (n.elements.length < cap → ∃ i, i ≤ n.elements.length ∧
        insert h (built cap) v = some (h.set 0
          ⟨n.parent, n.elements.take i ++ (v, ⟨v, none, none⟩) :: n.elements.drop i⟩,
          ⟨0, i, false⟩, true)) := by
  obtain ⟨h, flags, s, hb, hinv, hmem, _, _⟩ := build_spec cap vs
  obtain ⟨n, hn, h1, h2⟩ := build_root_take cap vs hnd h flags hb
  refine ⟨h, flags, n, hb, hn, h1, h2, ?_⟩
  intro hroom
  exact insert_root_room h (built cap) v s hinv (fun hm => hv ((hmem v).mp hm)) n hn hroom

/-- Capacity 40 with the inserts 10, 20 and then 30: a single node holding 10, 20, 30. -/
theorem spare_capacity_insert_direct_witness :
    ([10, 20] : List Nat).Nodup ∧ 30 ∉ ([10, 20] : List Nat) ∧
      (∃ h flags n, build 40 ([10, 20] : List Nat) = some (h, flags) ∧ h[0]? = some n ∧
        (∀ x ∈ ([10, 20] : List Nat).take 40, x ∈ n.elements.map Prod.fst) ∧
        (([10, 20] : List Nat).length ≤ 40 →
          h.length = 1 ∧ (n.elements.map Prod.fst).Perm [10, 20]) ∧
        (n.elements.length < 40 → ∃ i, i ≤ n.elements.length ∧
          insert h (built 40) 30 = some (h.set 0
            ⟨n.parent, n.elements.take i ++ (30, ⟨30, none, none⟩) :: n.elements.drop i⟩,
            ⟨0, i, false⟩, true))) ∧
      build 40 ([10, 20, 30] : List Nat) =
        some ([⟨none, [(10, ⟨10, none, none⟩), (20, ⟨20, none, none⟩),
          (30, ⟨30, none, none⟩)]⟩], [true, true, true]) :=
  ⟨by decide, by decide, spare_capacity_insert_direct 40 [10, 20] 30 (by decide) (by decide),
    by decide!⟩

/-- Capacity 0 and no insert yet: the root holds no element and has no spare capacity, the
number of its elements, 0, not being less than the capacity; the insertion of 7 returns
`true`, creates no node (the heap has one node before and after) and puts 7 into the
root. -/
theorem insert_into_empty_root_of_capacity_zero :
    ((build 0 ([] : List Nat)).bind fun r =>
        (insert r.1 (built 0) 7).map fun q =>
          (r.1, decide (0 < (built 0).maxNodeElems), q.2.2, q.1.length, q.1)) =
      some ([⟨none, []⟩], false, true, 1, [⟨none, [(7, ⟨7, none, none⟩)]⟩]) := by
  decide!

/-- C29, amended: in every tree built by inserts, of any capacity, the insertion of an absent
value `v` returns `true` and changes one node `x` of the tree only: every other node keeps
its address, its parent, its elements and their child links, and every node stays at the
depth it was at.  Either no node is created and `x` gets `v`, without children, between its
elements, which keep their order and their child links, where `x` had fewer than `cap`
elements or was the empty root of a tree into which nothing had been inserted; or exactly one
node is created, at the fresh address `h.length`, with parent `x` and `v` as its sole
element, without children, and `x`, which was full, keeps its elements and gets the new node
in one child link that was null. -/
theorem insert_never_redistributes [LinearOrder T] (cap : Nat) (vs : List T) (v : T)
    (hv : v ∉ vs) :
    ∃ h flags h' it x n, build cap vs = some (h, flags) ∧
      insert h (built cap) v = some (h', it, true) ∧ x ∈ treeNodes h (built cap) ∧
      h[x]? = some n ∧ (∀ y, y ≠ x → y < h.length → h'[y]? = h[y]?) ∧
      (∀ d y, y ∈ nodesAtDepth h d [(built cap).root] →
        y ∈ nodesAtDepth h' d [(built cap).root]) ∧
      ((h'.length = h.length ∧
          (n.elements.length < cap ∨
            (n.elements = [] ∧ x = (built cap).root ∧ vs = [])) ∧
          ∃ i, i ≤ n.elements.length ∧ it = ⟨x, i, false⟩ ∧
            h'[x]? = some ⟨n.parent,
              n.elements.take i ++ (v, ⟨v, none, none⟩) :: n.elements.drop i⟩) ∨
       (h'.length = h.length + 1 ∧ cap ≤ n.elements.length ∧
          h'[h.length]? = some ⟨some x, [(v, ⟨v, none, none⟩)]⟩ ∧ it = ⟨h.length, 0, false⟩ ∧
          ∃ i k e, n.elements[i]? = some (k, e) ∧
            ((e.leftChild = none ∧
                h'[x]? = some ⟨n.parent, setLeft n.elements i (some h.length)⟩) ∨
             (e.rightChild = none ∧
                h'[x]? = some ⟨n.parent, setRight n.elements i (some h.length)⟩)))) := by
  obtain ⟨h, flags, s, hb, hinv, hmem, _, _⟩ := build_spec cap vs
  obtain ⟨h', it, x, n, hins, hx, hk, hst⟩ :=
    insert_effect h (built cap) v s hinv (fun hm => hv ((hmem v).mp hm))
  have hlink := stored_link cap v h x n h' it hst
  obtain ⟨hn, hfr, hcase⟩ := hst
  refine ⟨h, flags, h', it, x, n, hb, hins, hx, hn, hfr,
    fun d y hy => nodesAtDepth_mono h h' hlink d _ _ (fun _ hz => hz) y hy, ?_⟩
  rcases hcase with ⟨q1, q2, q3, q4⟩ | ⟨q1, q2, q3, q4, q5⟩
  · left
    obtain ⟨a1, a2⟩ := mapInsert_absent v ⟨v, none, none⟩ n.elements hk
    refine ⟨q1, ?_, _, a1, q4, ?_⟩
    · rcases q2 with q2 | q2
      · exact Or.inl q2
      · right
        have hroot : x = (built cap).root := by
          by_contra hne
          obtain ⟨_, m, _, _, g1, _, g2⟩ := (parents_of_inv cap h (built cap) s hinv).2 x hx hne
          rw [hn] at g1
          cases g1
          exact g2 q2
        refine ⟨q2, hroot, ?_⟩
        obtain ⟨_, _, n0, _, _, hn0, _, hempty⟩ := begin_end_spec cap h (built cap) s hinv
        rw [← hroot, hn] at hn0
        cases hn0
        have hnil := hempty.mp q2
        rw [List.eq_nil_iff_forall_not_mem]
        intro y hy
        have := (hmem y).mpr hy
        rw [hnil] at this
        simp at this
    · rw [q3, ← a2]
  · right
    exact ⟨q1, q2, q3, q4, q5⟩

/-- Capacity 0 with the inserts 5, 3, 7 and the absent value 8. -/
theorem insert_never_redistributes_witness :
    8 ∉ ([5, 3, 7] : List Nat) ∧
      ∃ h flags h' it x n, build 0 ([5, 3, 7] : List Nat) = some (h, flags) ∧
        insert h (built 0) 8 = some (h', it, true) ∧ x ∈ treeNodes h (built 0) ∧
        h[x]? = some n ∧ (∀ y, y ≠ x → y < h.length → h'[y]? = h[y]?) ∧
        (∀ d y, y ∈ nodesAtDepth h d [(built 0).root] →
          y ∈ nodesAtDepth h' d [(built 0).root]) ∧
        ((h'.length = h.length ∧
            (n.elements.length < 0 ∨
              (n.elements = [] ∧ x = (built 0).root ∧ ([5, 3, 7] : List Nat) = [])) ∧
            ∃ i, i ≤ n.elements.length ∧ it = ⟨x, i, false⟩ ∧
              h'[x]? = some ⟨n.parent,
                n.elements.take i ++ (8, ⟨8, none, none⟩) :: n.elements.drop i⟩) ∨
         (h'.length = h.length + 1 ∧ 0 ≤ n.elements.length ∧
            h'[h.length]? = some ⟨some x, [(8, ⟨8, none, none⟩)]⟩ ∧
            it = ⟨h.length, 0, false⟩ ∧
            ∃ i k e, n.elements[i]? = some (k, e) ∧
              ((e.leftChild = none ∧
                  h'[x]? = some ⟨n.parent, setLeft n.elements i (some h.length)⟩) ∨
               (e.rightChild = none ∧
                  h'[x]? = some ⟨n.parent, setRight n.elements i (some h.length)⟩)))) :=
  ⟨by decide, insert_never_redistributes 0 [5, 3, 7] 8 (by decide)⟩

/-- C30: for every capacity `c ≥ 1` and every `n ≥ 1`, the inserts of `1, 2, ..., n` in
ascending order into an empty tree all succeed and leave exactly the chain of
`ceil (n / c)` nodes of the specification: node `j` has node `j - 1` as parent, holds the
values `j * c + 1, ..., min (j * c + c) n`, and its only child is node `j + 1`, the upper
child of its last element; level `d` of the tree is node `d` alone, so the depth is the
number of nodes; and with capacity 1 there are `n` nodes of one value each. -/
theorem ascending_inserts_chain (c n : Nat) (hc : 1 ≤ c) (hn : 1 ≤ n) :
    build c (List.range' 1 n) = some (chainHeap c n, List.replicate n true) ∧
      (chainHeap c n).length = (n + c - 1) / c ∧
      (∀ j, j < (n + c - 1) / c → (chainHeap c n)[j]? = some (chainNode c n j)) ∧
      (∀ d, nodesAtDepth (chainHeap c n) d [(built c).root] =
        if d < (n + c - 1) / c then [d] else []) ∧
      (c = 1 → (chainHeap c n).length = n ∧ ∀ j, j < n →
        (chainHeap c n)[j]? = some ⟨if j = 0 then none else some (j - 1),
          [(j + 1, ⟨j + 1, none, if j + 1 < n then some (j + 1) else none⟩)]⟩) := by
  refine ⟨build_chain c n hc hn, chainHeap_length c n, fun j hj => chainHeap_get c n j hj, ?_, ?_⟩
  · intro d
    have := chainHeap_depth c n hc hn d
    rw [chainHeap_length] at this
    exact this
  · rintro rfl
    have hlen : (n + 1 - 1) / 1 = n := by simp
    refine ⟨by rw [chainHeap_length, hlen], ?_⟩
    intro j hj
    rw [chainHeap_get 1 n j (by rw [hlen]; exact hj), chain_one n j hj]

/-- Capacity 3 with the inserts 1, ..., 7: a chain of three nodes. -/
theorem ascending_inserts_chain_witness :
    1 ≤ 3 ∧ 1 ≤ 7 ∧
      build 3 (List.range' 1 7) = some (chainHeap 3 7, List.replicate 7 true) ∧
      (chainHeap 3 7).length = (7 + 3 - 1) / 3 ∧
      (∀ j, j < (7 + 3 - 1) / 3 → (chainHeap 3 7)[j]? = some (chainNode 3 7 j)) ∧
      (∀ d, nodesAtDepth (chainHeap 3 7) d [(built 3).root] =
        if d < (7 + 3 - 1) / 3 then [d] else []) ∧
      (3 = 1 → (chainHeap 3 7).length = 7 ∧ ∀ j, j < 7 →
        (chainHeap 3 7)[j]? = some ⟨if j = 0 then none else some (j - 1),
          [(j + 1, ⟨j + 1, none, if j + 1 < 7 then some (j + 1) else none⟩)]⟩) :=
  ⟨by decide, by decide, ascending_inserts_chain 3 7 (by decide) (by decide)⟩

/-- C31: for two trees built by inserts, and for the tree that the copy constructor, the copy
assignment, the move constructor or the move assignment makes from the first, also after
further inserts: the parent of the root is null, and every other node of the tree is
designated by a child link of an element of a node of the same tree, and that node is its
parent.  The root of the source is not a node of the tree made, and a copy has no node in
common with its source, so no parent reference designates a node of the source. -/
theorem parent_links_consistent [LinearOrder T] (capA : Nat) (vs : List T) (capB : Nat)
    (ws us : List T) :
    ∃ h a b, build2 capA vs capB ws = some (h, a, b) ∧ ParentsOk h a ∧ ParentsOk h b ∧
      (∃ r, copy_construct h a = some r) ∧ (∃ r, copy_assign h b a = some r) ∧
      (∃ r, move_construct h a = some r) ∧ (∃ r, move_assign h b a = some r) ∧
      ∀ r, copy_construct h a = some r ∨ copy_assign h b a = some r ∨
          move_construct h a = some r ∨ move_assign h b a = some r →
        ParentsOk r.1 r.2 ∧ a.root ∉ treeNodes r.1 r.2 ∧
        ((copy_construct h a = some r ∨ copy_assign h b a = some r) →
          ∀ x ∈ treeNodes r.1 r.2, x ∉ treeNodes r.1 a) ∧
        ∃ h' flags, insertAll r.2 us r.1 = some (h', flags) ∧ ParentsOk h' r.2 :=
  all_trees ParentsOk (fun h t s hinv => parents_of_inv _ h t s hinv) capA vs capB ws us

/-- C32: on every tree built by inserts, for every value `v`, `insert` returns a cursor,
with the flag `true` exactly when `v` was not inserted before, and `find` called on the
resulting tree returns that same cursor (same node, same slot), which compares equal to it
and dereferences to `v`. -/
theorem find_follows_insert [LinearOrder T] (cap : Nat) (vs : List T) (v : T) :
    ∃ h flags h' it b c, build cap vs = some (h, flags) ∧
      insert h (built cap) v = some (h', it, b) ∧ (b = true ↔ v ∉ vs) ∧
      find h' (built cap) v = some c ∧ c = it ∧ iter_eq it c = true ∧
      deref h' it = some v ∧ deref h' c = some v := by
  obtain ⟨h, flags, s, hb, hinv, hmem, _, _⟩ := build_spec cap vs
  obtain ⟨h', it, b, hins, hfind, hderef⟩ := find_insert_spec h (built cap) v s hinv
  obtain ⟨_, _, _, hins', _, hcase⟩ := insert_spec h (built cap) v s hinv
  rw [hins] at hins'
  cases hins'
  refine ⟨h, flags, h', it, b, it, hb, hins, ?_, hfind, rfl, by simp [iter_eq], hderef,
    hderef⟩
  rcases hcase with ⟨q1, _, q3⟩ | ⟨q1, q2, _⟩
  · rw [q1]
    simp only [Bool.false_eq_true, false_iff, not_not]
    exact (hmem v).mp q3
  · rw [q1]
    simp only [true_iff]
    exact fun hv => q2 ((hmem v).mpr hv)

/-- Capacity 2 with the inserts 5, 1, 9, 3, 7: the root holds the values 1 and 5, which are
the values of the root level. -/
theorem root_level_not_five_alone :
    ((build 2 ([5, 1, 9, 3, 7] : List Nat)).bind fun r =>
        r.1[(built 2).root]?.map fun n => n.elements.map Prod.fst) = some [1, 5] ∧
      ((build 2 ([5, 1, 9, 3, 7] : List Nat)).map fun r =>
        valuesIn r.1 (nodesAtDepth r.1 0 [(built 2).root])) = some [1, 5] :=
  ⟨by decide!, by decide!⟩

/-- C33, amended: capacity 2 with the inserts 5, 1, 9, 3, 7: the forward traversal yields
1 3 5 7 9; `operator<<` writes 1 5 3 7 9, the values of the root level first; the root level
consists of the values 1 and 5, the level below of 3, 7 and 9, and there is no further
level. -/
theorem display_scenario_levels :
    ((build 2 ([5, 1, 9, 3, 7] : List Nat)).bind fun r =>
        forward_traversal r.1 (built 2) 5) = some [1, 3, 5, 7, 9] ∧
      ((build 2 ([5, 1, 9, 3, 7] : List Nat)).bind fun r =>
        (operator_output r.1 (built 2)).map tokenValues) = some [1, 5, 3, 7, 9] ∧
      ((build 2 ([5, 1, 9, 3, 7] : List Nat)).map fun r =>
        (valuesIn r.1 (nodesAtDepth r.1 0 [(built 2).root]),
          valuesIn r.1 (nodesAtDepth r.1 1 [(built 2).root]),
          valuesIn r.1 (nodesAtDepth r.1 2 [(built 2).root]))) =
        some ([1, 5], [3, 7, 9], []) :=
  ⟨by decide!, by decide!, by decide!⟩

/-- C34: in every tree built by inserts with a capacity of at least 1, a node in which some
element has a lower or an upper child holds exactly `cap` elements, and a node that holds
fewer than `cap` elements has no child at all. -/
theorem full_before_children [LinearOrder T] (cap : Nat) (vs : List T) (hcap : 1 ≤ cap) :
    ∃ h flags, build cap vs = some (h, flags) ∧
      ∀ x ∈ treeNodes h (built cap), ∃ n, h[x]? = some n ∧
        ((∃ k e, (k, e) ∈ n.elements ∧ (e.leftChild ≠ none ∨ e.rightChild ≠ none)) →
          n.elements.length = cap) ∧
        (n.elements.length < cap →
          ∀ k e, (k, e) ∈ n.elements → e.leftChild = none ∧ e.rightChild = none) := by
  obtain ⟨h, flags, s, hb, hinv, _, _, _⟩ := build_spec cap vs
  have hsizes := insertAll_sizes (built cap) hcap vs (construct cap ([] : Heap T)).1 (h, flags)
    (by
      intro n hn
      simp only [construct, List.nil_append, List.mem_singleton] at hn
      subst hn
      simp)
    hb
  refine ⟨h, flags, hb, ?_⟩
  intro x hx
  obtain ⟨c, n, hsub, _⟩ := node_inv cap h (built cap) s hinv x hx
  have hle : n.elements.length ≤ cap := hsizes n (List.getElem?_mem hsub.node)
  refine ⟨n, hsub.node, ?_, subInv_leaf cap h x c n hsub⟩
  rintro ⟨k, e, hmem, hlink⟩
  by_contra hne
  have hroom : n.elements.length < cap := lt_of_le_of_ne hle hne
  obtain ⟨q1, q2⟩ := subInv_leaf cap h x c n hsub hroom k e hmem
  rcases hlink with hl | hl
  · exact hl q1
  · exact hl q2

/-- Capacity 2 with the inserts 5, 1, 9, 3, 7. -/
theorem full_before_children_witness :
    1 ≤ 2 ∧ ∃ h flags, build 2 ([5, 1, 9, 3, 7] : List Nat) = some (h, flags) ∧
      ∀ x ∈ treeNodes h (built 2), ∃ n, h[x]? = some n ∧
        ((∃ k e, (k, e) ∈ n.elements ∧ (e.leftChild ≠ none ∨ e.rightChild ≠ none)) →
          n.elements.length = 2) ∧
        (n.elements.length < 2 →
          ∀ k e, (k, e) ∈ n.elements → e.leftChild = none ∧ e.rightChild = none) :=
  ⟨by decide, full_before_children 2 [5, 1, 9, 3, 7] (by decide)⟩

/-- C35: in every tree built by inserts, in every node every element but the last has no
upper child, and a node holds at most one child link more than it has elements. -/
theorem upper_child_only_last [LinearOrder T] (cap : Nat) (vs : List T) :
    ∃ h flags, build cap vs = some (h, flags) ∧
      ∀ x ∈ treeNodes h (built cap), ∃ n, h[x]? = some n ∧
        (∀ (i : Nat) (k : T) (e : Element T), n.elements[i]? = some (k, e) →
          i + 1 < n.elements.length → e.rightChild = none) ∧
        (elemLinks n.elements).length ≤ n.elements.length + 1 := by
  obtain ⟨h, flags, s, hb, hinv, _, _, _⟩ := build_spec cap vs
  refine ⟨h, flags, hb, ?_⟩
  intro x hx
  obtain ⟨c, n, hsub, _⟩ := node_inv cap h (built cap) s hinv x hx
  have hr := rep_right_none h c x n.elements hsub.rep hsub.rightOk
  exact ⟨n, hsub.node, hr, elemLinks_length_le n.elements hr⟩

/-- C36: for two trees built by inserts, and for the tree that a copy or a move makes from
the first, also after further inserts, every node other than the root holds at least one
element; and on every tree built from at least one insert, `find`, the forward and the
reverse traversal and `operator<<`, which take the last element of the nodes they descend
through, all return. -/
theorem descendants_not_empty [LinearOrder T] (capA : Nat) (vs : List T) (capB : Nat)
    (ws us : List T) (x v : T) :
    (∃ h a b, build2 capA vs capB ws = some (h, a, b) ∧
      (∀ c ∈ treeNodes h a, c ≠ a.root → ∃ m, h[c]? = some m ∧ m.elements ≠ []) ∧
      (∀ c ∈ treeNodes h b, c ≠ b.root → ∃ m, h[c]? = some m ∧ m.elements ≠ []) ∧
      (∃ r, copy_construct h a = some r) ∧ (∃ r, copy_assign h b a = some r) ∧
      (∃ r, move_construct h a = some r) ∧ (∃ r, move_assign h b a = some r) ∧
      ∀ r, copy_construct h a = some r ∨ copy_assign h b a = some r ∨
          move_construct h a = some r ∨ move_assign h b a = some r →
        (∀ c ∈ treeNodes r.1 r.2, c ≠ r.2.root → ∃ m, r.1[c]? = some m ∧ m.elements ≠ []) ∧
        ∃ h' flags, insertAll r.2 us r.1 = some (h', flags) ∧
          ∀ c ∈ treeNodes h' r.2, c ≠ r.2.root → ∃ m, h'[c]? = some m ∧ m.elements ≠ []) ∧
    (∃ h flags c fwd bwd toks, build capA (x :: vs) = some (h, flags) ∧
      find h (built capA) v = some c ∧
      forward_traversal h (built capA) (x :: vs).length = some fwd ∧
      reverse_traversal h (built capA) (x :: vs).length = some bwd ∧
      operator_output h (built capA) = some toks) := by
  constructor
  · obtain ⟨h, a, b, q1, q2, q3, q4, q5, q6, q7, q8⟩ :=
      all_trees (fun (h : Heap T) (t : btree) =>
        ∀ c ∈ treeNodes h t, c ≠ t.root → ∃ m, h[c]? = some m ∧ m.elements ≠ [])
        (fun h t s hinv c hc hne => by
          obtain ⟨_, m, _, _, g1, _, g2⟩ := (parents_of_inv _ h t s hinv).2 c hc hne
          exact ⟨m, g1, g2⟩) capA vs capB ws us
    refine ⟨h, a, b, q1, q2, q3, q4, q5, q6, q7, ?_⟩
    intro r hr
    obtain ⟨g1, _, _, g2⟩ := q8 r hr
    exact ⟨g1, g2⟩
  · obtain ⟨h, flags, s, hb, hinv, hmem, _, _⟩ := build_spec capA (x :: vs)
    have hne : s ≠ .E := by
      rintro rfl
      have := (hmem x).mpr (List.mem_cons_self _ _)
      simp [Sh.toList] at this
    obtain ⟨hin, hout⟩ := find_spec h (built capA) v s capA hinv hne
    have hfind : ∃ c, find h (built capA) v = some c := by
      by_cases hv : v ∈ s.toList
      · obtain ⟨it, _, g1, _⟩ := hin hv
        exact ⟨it, g1⟩
      · obtain ⟨e, g1, _⟩ := hout hv
        exact ⟨e, g1⟩
    obtain ⟨c, hc⟩ := hfind
    have hlen := sorted_length_le s.toList (x :: vs) hinv.sorted (fun y hy => (hmem y).mp hy)
    obtain ⟨_, toks, htoks, _⟩ := operator_output_spec capA h (built capA) s hinv hne
    exact ⟨h, flags, c, _, _, toks, hb, hc,
      forward_traversal_spec capA h (built capA) s hinv _ hlen,
      reverse_traversal_spec capA h (built capA) s hinv _ hlen, htoks⟩

/-- C37 (the code diverges): capacity 1 with the inserts 5, 3, 7 (forward traversal
3 5 7): the cursor reached from `begin()` by one advance is at the value 5 of the root with
`didTraverse` set; advancing it yields the cursor at slot 0 of node 2, at the value 7; the
const cursor converted from it has `didTraverse` clear, and advancing that yields the
cursor at slot 0 of node 1, at the value 3. -/
theorem const_conversion_diverges :
    ((build 1 ([5, 3, 7] : List Nat)).bind fun r =>
        (cursor_at r.1 (built 1) 1).bind fun c =>
          (increment r.1 c).map fun d => (c, deref r.1 c, d.node, d.it, deref r.1 d)) =
        some (⟨0, 0, true⟩, some 5, 2, 0, some 7) ∧
      ((build 1 ([5, 3, 7] : List Nat)).bind fun r =>
        (cursor_at r.1 (built 1) 1).bind fun c =>
          (const_increment r.1 (const_of c)).map fun d =>
            (const_of c, d.node, d.it, const_deref r.1 d)) =
        some (⟨0, 0, false⟩, 1, 0, some 3) :=
  ⟨by decide!, by decide!⟩

/-- C38 (the code diverges): capacity 1 with the inserts 5, 3: the minimum 3 is in a node
below the root, `begin()` is at it, and retreating that cursor steps before the first slot
of the root, which is undefined (no cursor is returned).  Capacity 1 with the inserts 3, 5:
the minimum 3 is in the root, and retreating `begin()` yields a cursor at the value 5. -/
theorem retreat_at_minimum_diverges :
    ((build 1 ([5, 3] : List Nat)).bind fun r =>
        (btree_begin r.1 (built 1)).map fun b => (b, deref r.1 b, decrement r.1 b)) =
        some (⟨1, 0, false⟩, some 3, none) ∧
      ((build 1 ([3, 5] : List Nat)).bind fun r =>
        (btree_begin r.1 (built 1)).bind fun b =>
          (decrement r.1 b).map fun z => (b, deref r.1 b, z, deref r.1 z)) =
        some (⟨0, 0, false⟩, some 3, ⟨1, 0, false⟩, some 5) :=
  ⟨by decide!, by decide!⟩

/-- C39 (the code diverges): on a freshly constructed tree, of any capacity, `operator<<`
steps back from `end()` of the empty root, which is undefined: no output is returned. -/
theorem display_empty_undefined [LinearOrder T] (cap : Nat) :
    operator_output (construct cap ([] : Heap T)).1 (construct cap ([] : Heap T)).2 =
      (none : Option (List (Token T))) := by
  simp [operator_output, construct]

/-- C40: every sequence of inserts into a tree of capacity 0, starting with the value `x`,
succeeds; the root holds `x` and nothing else, every node of the tree holds exactly one
element and at most two child links, and the forward traversal from `begin()` to `end()`
yields exactly the inserted values, in strictly ascending order. -/
theorem capacity_zero_binary_tree [LinearOrder T] (x : T) (vs : List T) :
    ∃ h flags out, build 0 (x :: vs) = some (h, flags) ∧
      (∃ n, h[(built 0).root]? = some n ∧ n.elements.map Prod.fst = [x]) ∧
      (∀ y ∈ treeNodes h (built 0), ∃ n, h[y]? = some n ∧ n.elements.length = 1 ∧
        (elemLinks n.elements).length ≤ 2) ∧
      forward_traversal h (built 0) (x :: vs).length = some out ∧
      out.Pairwise (· < ·) ∧ ∀ v, v ∈ out ↔ v ∈ x :: vs := by
  obtain ⟨h, flags, s, hb, hinv, hmem, _, _⟩ := build_spec 1 (x :: vs)
  have hsizes := insertAll_sizes (built 1) (Nat.le_refl 1) (x :: vs)
    (construct 1 ([] : Heap T)).1 (h, flags)
    (by
      intro n hn
      simp only [construct, List.nil_append, List.mem_singleton] at hn
      subst hn
      simp)
    hb
  have hne : s.toList ≠ [] := by
    intro hnil
    have := (hmem x).mpr (List.mem_cons_self _ _)
    rw [hnil] at this
    simp at this
  obtain ⟨_, _, n0, _, _, hn0, _, hempty⟩ := begin_end_spec 1 h (built 1) s hinv
  have hpar := parents_of_inv 1 h (built 1) s hinv
  have hone : ∀ y ∈ treeNodes h (built 1), ∃ n, h[y]? = some n ∧ n.elements.length = 1 := by
    intro y hy
    by_cases hy0 : y = (built 1).root
    · subst hy0
      have h1 : n0.elements.length ≤ 1 := hsizes n0 (List.getElem?_mem hn0)
      have h2 : n0.elements ≠ [] := fun hh => hne (hempty.mp hh)
      have h3 : n0.elements.length ≠ 0 := fun hh => h2 (List.length_eq_zero.mp hh)
      exact ⟨n0, hn0, by omega⟩
    · obtain ⟨_, m, _, _, g1, _, g2⟩ := hpar.2 y hy hy0
      have h1 : m.elements.length ≤ 1 := hsizes m (List.getElem?_mem g1)
      have h3 : m.elements.length ≠ 0 := fun hh => g2 (List.length_eq_zero.mp hh)
      exact ⟨m, g1, by omega⟩
  have hsplit : build 1 (x :: vs) = (build 1 [x]).bind fun r =>
      (insertAll (construct 1 ([] : Heap T)).2 vs r.1).map fun q => (q.1, r.2 ++ q.2) :=
    insertAll_append (construct 1 ([] : Heap T)).2 [x] vs (construct 1 ([] : Heap T)).1
  rw [hb, build_single 1 x] at hsplit
  simp only [Option.some_bind] at hsplit
  have hx : ∀ m, h[(built 1).root]? = some m → x ∈ m.elements.map Prod.fst := by
    intro m hm
    cases hq : insertAll (construct 1 ([] : Heap T)).2 vs
        [Node.mk none [(x, (⟨x, none, none⟩ : Element T))]] with
    | none => rw [hq] at hsplit; cases hsplit
    | some q =>
      rw [hq] at hsplit
      simp only [Option.map_some', Option.some.injEq, Prod.mk.injEq] at hsplit
      obtain ⟨m', g1, g2⟩ := insertAll_keys _ vs _ q hq 0 ⟨none, [(x, ⟨x, none, none⟩)]⟩ rfl
      rw [← hsplit.1] at g1
      rw [show (built 1).root = 0 from rfl, g1] at hm
      cases hm
      exact g2 x (by simp)
  refine ⟨h, flags, s.toList, by rw [build_zero_one]; exact hb, ?_, ?_,
    traversal_of_inv 1 h (built 0) s (x :: vs) hinv (fun y hy => (hmem y).mp hy),
    hinv.sorted, hmem⟩
  · obtain ⟨n, hn, hlen⟩ := hone (built 1).root (by
      rw [treeNodes_eq h (built 1) s 1 hinv]; exact List.mem_cons_self _ _)
    refine ⟨n, hn, ?_⟩
    have hxm := hx n hn
    cases hes : n.elements.map Prod.fst with
    | nil => rw [hes] at hxm; simp at hxm
    | cons k ks =>
      have hl : (n.elements.map Prod.fst).length = 1 := by rw [List.length_map]; exact hlen
      rw [hes] at hxm hl
      simp only [List.length_cons, Nat.add_eq_right, List.length_eq_zero] at hl
      subst hl
      simp only [List.mem_singleton] at hxm
      rw [hxm]
  · intro y hy
    obtain ⟨n, hn, hlen⟩ := hone y hy
    obtain ⟨c, n', hsub, _⟩ := node_inv 1 h (built 1) s hinv y hy
    have hnode := hsub.node
    rw [hn] at hnode
    have hnn : n = n' := Option.some.inj hnode
    subst hnn
    have hr := rep_right_none h c y n.elements hsub.rep hsub.rightOk
    have := elemLinks_length_le n.elements hr
    exact ⟨n, hn, hlen, by omega⟩

end BTree
